import Mathlib

/-!
# Allele-frequency inference engine of `bcftools/prob1.c`

A shallow embedding of the numeric core of `src/bcftools/prob1.c.pysam.c`
in exact arithmetic.

Conventions of the embedding.

* A C `double` is a rational number; every operation is exact.
* A C array of doubles is a function `Nat → ℚ` from index to cell; a loop that
  writes the cells `lo..hi` is the pointwise update of that function on `lo..hi`.
* The log-likelihood accumulators `t`, `t1`, `t2` of the C code are kept in the
  exponential domain: the fields `et`, `et1`, `et2` hold `exp t`, `exp t1`,
  `exp t2`, so that `t = 0` is `et = 1`, `t += log x` is `et := et * x`, and
  `exp (t - (t1 + t2))` is `et / (et1 * et2)`.
* Functions of the C library and of `kfunc.c` that are not rational (`log`,
  `kf_gammaq`, the table `pow(10, -i/10)`) are parameters.
-/

namespace Prob1

/-! ## Data model -/

/-- A C array of doubles: index to cell. -/
abbrev Arr := Nat → ℚ

/-- The assignment `a[i] = v`. -/
def Arr.set (a : Arr) (i : Nat) (v : ℚ) : Arr := fun k => if k = i then v else a k

/-- The assignment `a[k] = f k` for every `k` in `lo..hi` (both included). -/
def Arr.fill (a : Arr) (lo hi : Nat) (f : Nat → ℚ) : Arr :=
  fun k => if lo ≤ k ∧ k ≤ hi then f k else a k

/-- The call `memset(a, 0, sizeof(double) * len)`. -/
def Arr.zero (a : Arr) (len : Nat) : Arr := fun k => if k < len then 0 else a k

/-- The call `memcpy(dst, src, sizeof(double) * len)`. -/
def Arr.copy (dst src : Arr) (len : Nat) : Arr := fun k => if k < len then src k else dst k

/-- The accumulation `for (k = 0, s = 0; k < n; ++k) s += f k`. -/
def sumTo (f : Nat → ℚ) : Nat → ℚ
  | 0 => 0
  | n + 1 => sumTo f n + f n

/-- The integer accumulation `for (k = 0, s = 0; k < n; ++k) s += f k`. -/
def sumNatTo (f : Nat → Nat) : Nat → Nat
  | 0 => 0
  | n + 1 => sumNatTo f n + f n

/-- The accumulation `for (k = lo, s = 0; k <= hi; ++k) s += f k`. -/
def sumRange (f : Nat → ℚ) (lo hi : Nat) : ℚ :=
  sumTo (fun i => f (lo + i)) (hi + 1 - lo)

/-- The three prior shapes `MC_PTYPE_FULL`, `MC_PTYPE_COND2`, `MC_PTYPE_FLAT`;
`init_prior` takes its last branch for every type that is neither `COND2`
nor `FLAT`. -/
inductive PType
  | full
  | cond2
  | flat
  deriving DecidableEq, Repr

/-- The constant `MC_DEF_INDEL`. -/
def MC_DEF_INDEL : ℚ := 15 / 100

/-- The constant `TINY`. -/
def TINY : ℚ := 1 / 10 ^ 20

/-- The constant `CONTRAST_TINY`. -/
def CONTRAST_TINY : ℚ := 1 / 10 ^ 30

/-- The context `bcf_p1aux_t`. The field `lf` (log-factorials) is written by
`bcf_p1_init` and never read, and is left out. -/
structure bcf_p1aux_t where
  n : Nat
  M : Nat
  n1 : Int
  is_indel : Bool
  ploidy : Option (Nat → Nat)
  q2p : Nat → ℚ
  pdg : Arr
  phi : Arr
  phi_indel : Arr
  phi1 : Arr
  phi2 : Arr
  z : Arr
  zswap : Arr
  z1 : Arr
  z2 : Arr
  et : ℚ
  et1 : ℚ
  et2 : ℚ
  afs : Arr
  afs1 : Arr
  hg : Option (List (List ℚ))
  PL : Nat → Nat
  PL_len : Nat

/-- The per-variant result `bcf_p1rst_t`. -/
structure bcf_p1rst_t where
  rank0 : Int
  perm_rank : Int
  ac : Int
  f_exp : ℚ
  f_flat : ℚ
  p_ref_folded : ℚ
  p_ref : ℚ
  p_var_folded : ℚ
  p_var : ℚ
  cil : ℚ
  cih : ℚ
  cmp : Fin 3 → ℚ
  p_chi2 : ℚ
  lrt : ℚ

/-- What `bcf_p1_cal` reads of the record `bcf1_t` and of the caller `call_t`:
the allele and sample counts, the result of `bcf_is_snp`, and the PL array. -/
structure Site where
  n_allele : Nat
  n_sample : Nat
  is_snp : Bool
  PLs : Nat → Nat
  nPLs : Nat

/-- The external functions: `log` of the C library, `kf_gammaq` of `kfunc.c`. -/
structure Ext where
  log : ℚ → ℚ
  kf_gammaq : ℚ → ℚ → ℚ

/-! ## Priors -/

/-- The function `init_prior`: writes `phi[0..M]`. The argument `M` is a C
`int`; for a negative `M` no loop body runs, and the last branch would store
at the negative index `M`, outside every array, which is not represented. -/
def init_prior (type : PType) (theta : ℚ) (M : Int) (phi : Arr) : Arr :=
  if M < 0 then phi
  else
    let m : Nat := M.toNat
    match type with
    | PType.cond2 => phi.fill 0 m (fun i => 2 * ((i : ℚ) + 1) / ((m : ℚ) + 1) / ((m : ℚ) + 2))
    | PType.flat => phi.fill 0 m (fun _ => 1 / ((m : ℚ) + 1))
    | PType.full =>
      let phi' : Arr := fun i => if i < m then theta / ((m : ℚ) - i) else phi i
      phi'.set m (1 - sumTo phi' m)

/-- The function `bcf_p1_indel_prior`. -/
def bcf_p1_indel_prior (ma : bcf_p1aux_t) (x : ℚ) : bcf_p1aux_t :=
  let a : Arr := fun i => if i < ma.M then ma.phi i * x else ma.phi_indel i
  { ma with phi_indel := a.set ma.M (1 - ma.phi ma.M * x) }

/-- The function `bcf_p1_init_prior`. -/
def bcf_p1_init_prior (ma : bcf_p1aux_t) (type : PType) (theta : ℚ) : bcf_p1aux_t :=
  bcf_p1_indel_prior { ma with phi := init_prior type theta (ma.M : Int) ma.phi } MC_DEF_INDEL

/-- The function `bcf_p1_init_subprior`. -/
def bcf_p1_init_subprior (ma : bcf_p1aux_t) (type : PType) (theta : ℚ) : bcf_p1aux_t :=
  if ma.n1 ≤ 0 ∨ ma.n1 ≥ (ma.M : Int) then ma
  else
    { ma with
      phi1 := init_prior type theta (2 * ma.n1) ma.phi1
      phi2 := init_prior type theta (2 * ((ma.n : Int) - ma.n1)) ma.phi2 }

/-- The function `bcf_p1_init`; `q2p` is the table `i ↦ pow(10, -i/10)`. Every
array is allocated by `calloc`, hence zero, and so are `t`, `t1`, `t2`. -/
def bcf_p1_init (q2p : Nat → ℚ) (n_smpl : Nat) (ploidy : Option (Nat → Nat)) : bcf_p1aux_t :=
  let M : Nat :=
    match ploidy with
    | none => 2 * n_smpl
    | some p => sumNatTo p n_smpl
  let pl : Option (Nat → Nat) := if M = 2 * n_smpl then none else ploidy
  let z : Arr := fun _ => 0
  bcf_p1_init_prior
    { n := n_smpl, M := M, n1 := -1, is_indel := false, ploidy := pl, q2p := q2p,
      pdg := z, phi := z, phi_indel := z, phi1 := z, phi2 := z,
      z := z, zswap := z, z1 := z, z2 := z, et := 1, et1 := 1, et2 := 1,
      afs := z, afs1 := z, hg := none, PL := fun _ => 0, PL_len := 0 }
    PType.full (1 / 1000)

/-- The function `bcf_p1_set_n1`: the return code and the context after the call. -/
def bcf_p1_set_n1 (b : bcf_p1aux_t) (n1 : Int) : Int × bcf_p1aux_t :=
  if n1 = 0 ∨ n1 ≥ (b.n : Int) then (-1, b)
  else if b.M ≠ b.n * 2 then (-1, b)
  else (0, { b with n1 := n1 })

/-! ## Genotype caller -/

/-- The C conversion `(int) x` of a double: truncation toward zero. -/
def truncInt (x : ℚ) : Int := if 0 ≤ x then ⌊x⌋ else ⌈x⌉

/-- The ploidy read `ma->ploidy ? ma->ploidy[k] : 2`. -/
def ploidyAt (ma : bcf_p1aux_t) (k : Nat) : Nat :=
  match ma.ploidy with
  | some p => p k
  | none => 2

/-- One turn of `if (g[i] > max) max = g[i], max_i = i;` on the pair `(max, max_i)`. -/
def gtMaxStep (g : ℚ) (i : Nat) (s : ℚ × Nat) : ℚ × Nat :=
  if g > s.1 then (g, i) else s

/-- The Hardy-Weinberg weights `f3[0..2]` of `bcf_p1_call_gt`. -/
def callF3 (ploidy : Nat) (f0 : ℚ) : Fin 3 → ℚ :=
  if ploidy = 2 then ![(1 - f0) * (1 - f0), 2 * f0 * (1 - f0), f0 * f0]
  else ![1 - f0, 0, f0]

/-- The sum of `bcf_p1_call_gt` after its first loop,
`for (i = 0, sum = 0.; i < 3; ++i) sum += (g[i] = pdg[i] * f3[i]);`. -/
def callSum (ma : bcf_p1aux_t) (f0 : ℚ) (k : Nat) : ℚ :=
  let f3 := callF3 (ploidyAt ma k) f0
  0 + ma.pdg (k * 3 + 0) * f3 0 + ma.pdg (k * 3 + 1) * f3 1 + ma.pdg (k * 3 + 2) * f3 2

/-- The normalised posterior `g[0..2]` of `bcf_p1_call_gt` after its second loop. -/
def callG (ma : bcf_p1aux_t) (f0 : ℚ) (k : Nat) : Fin 3 → ℚ :=
  let f3 := callF3 (ploidyAt ma k) f0
  fun i => ma.pdg (k * 3 + i.val) * f3 i / callSum ma f0 k

/-- The pair `(max, max_i)` of `bcf_p1_call_gt` after the line that forces the
genotype of a non-variant site. -/
def callMax (ma : bcf_p1aux_t) (f0 : ℚ) (k : Nat) (is_var : Bool) : ℚ × Nat :=
  let g := callG ma f0 k
  let s := gtMaxStep (g 2) 2 (gtMaxStep (g 1) 1 (gtMaxStep (g 0) 0 (-1, 0)))
  if !is_var then (g 2, 2) else s

/-- The quality `q` of `bcf_p1_call_gt` from `max`: lines
`max = 1. - max; if (max < 1e-308) max = 1e-308; q = (int)(-4.343 * log(max) + .499);
if (q > 99) q = 99;`. -/
def callQual (ext : Ext) (max : ℚ) : Int :=
  let m1 : ℚ := 1 - max
  let m2 : ℚ := if m1 < 1 / 10 ^ 308 then 1 / 10 ^ 308 else m1
  let q : Int := truncInt (-(4343 / 1000) * ext.log m2 + 499 / 1000)
  if q > 99 then 99 else q

/-- The function `bcf_p1_call_gt`; `is_var` is the truth value of the C `int`.
The result is `q<<2|max_i`; the quality `q` is not negative as soon as `log` is
not positive on `(0, 1]`, and the shift is taken on its natural-number value. -/
def bcf_p1_call_gt (ext : Ext) (ma : bcf_p1aux_t) (f0 : ℚ) (k : Nat) (is_var : Bool) : Nat :=
  let s := callMax ma f0 k is_var
  ((callQual ext s.1).toNat <<< 2) ||| s.2

/-! ## The allele-count recursion -/

/-- The loop `for (; _min < _max && z[0][_min] < TINY; ++_min) z[0][_min] = z[1][_min] = 0.;`
run for at most `fuel` turns; `_max - _min` turns exhaust it. The result is
`(z[0], z[1], _min)`. -/
def pruneMin : Nat → Arr → Arr → Nat → Nat → Arr × Arr × Nat
  | 0, z0, z1, mn, _ => (z0, z1, mn)
  | fuel + 1, z0, z1, mn, mx =>
    if mn < mx ∧ z0 mn < TINY then pruneMin fuel (z0.set mn 0) (z1.set mn 0) (mn + 1) mx
    else (z0, z1, mn)

/-- The loop `for (; _max > _min && z[0][_max] < TINY; --_max) z[0][_max] = z[1][_max] = 0.;`
run for at most `fuel` turns; `_max - _min` turns exhaust it. The result is
`(z[0], z[1], _max)`. -/
def pruneMax : Nat → Arr → Arr → Nat → Nat → Arr × Arr × Nat
  | 0, z0, z1, _, mx => (z0, z1, mx)
  | fuel + 1, z0, z1, mn, mx =>
    if mx > mn ∧ z0 mx < TINY then pruneMax fuel (z0.set mx 0) (z1.set mx 0) mn (mx - 1)
    else (z0, z1, mx)

/-- The state of `mc_cal_y_core` between two samples: the buffers `z[0]` and
`z[1]` point to, whether the two pointers are exchanged with respect to
`ma->z` and `ma->zswap`, the window, the running `M`, and the fields `t`,
`t1`, `z1` of the context. -/
structure CoreState where
  z0 : Arr
  z1 : Arr
  swapped : Bool
  last_min : Nat
  last_max : Nat
  M : Nat
  et : ℚ
  et1 : ℚ
  cz1 : Arr

/-- The value stored in `z[1][k]` for a diploid sample (lines 246-249). -/
def dipVal (M0 : Nat) (p : Fin 3 → ℚ) (z0 : Arr) (k : Nat) : ℚ :=
  if k = 0 then ((M0 : ℚ) - k + 1) * ((M0 : ℚ) - k + 2) * p 0 * z0 k
  else if k = 1 then
    ((M0 : ℚ) - k + 1) * ((M0 : ℚ) - k + 2) * p 0 * z0 k
      + (k : ℚ) * ((M0 : ℚ) - k + 2) * p 1 * z0 (k - 1)
  else
    ((M0 : ℚ) - k + 1) * ((M0 : ℚ) - k + 2) * p 0 * z0 k
      + (k : ℚ) * ((M0 : ℚ) - k + 2) * p 1 * z0 (k - 1)
      + (k : ℚ) * ((k : ℚ) - 1) * p 2 * z0 (k - 2)

/-- The value stored in `z[1][k]` for a haploid sample (lines 280-282). -/
def hapVal (M0 : Nat) (p : Fin 2 → ℚ) (z0 : Arr) (k : Nat) : ℚ :=
  if k = 0 then ((M0 : ℚ) + 1 - k) * p 0 * z0 k
  else ((M0 : ℚ) + 1 - k) * p 0 * z0 k + (k : ℚ) * p 1 * z0 (k - 1)

/-- The update of `z[1]` for a diploid sample once the window is pruned (lines
245-256): `mn` is `_min`, `mx` is `_max` before `_max += 2`. The result is
`(z[1], sum, _max)`. -/
def dipUpdate (M0 : Nat) (pdg : Fin 3 → ℚ) (z0 z1 : Arr) (mn mx : Nat) (notLast : Bool) :
    Arr × ℚ × Nat :=
  let p : Fin 3 → ℚ := ![pdg 0, 2 * pdg 1, pdg 2]
  let mx2 := mx + 2
  let a := z1.fill mn mx2 (dipVal M0 p z0)
  let sum := sumRange a mn mx2
  let b := a.fill mn mx2 (fun k => a k / sum)
  let c := if mn ≥ 1 then b.set (mn - 1) 0 else b
  let d := if mn ≥ 2 then c.set (mn - 2) 0 else c
  let e := if notLast then (d.set (mx2 + 2) 0).set (mx2 + 1) 0 else d
  (e, sum, mx2)

/-- The update of `z[1]` for a haploid sample once the window is pruned (lines
278-288). The result is `(z[1], sum, _max)`. -/
def hapUpdate (M0 : Nat) (pdg : Fin 3 → ℚ) (z0 z1 : Arr) (mn mx : Nat) (notLast : Bool) :
    Arr × ℚ × Nat :=
  let p : Fin 2 → ℚ := ![pdg 0, pdg 2]
  let mx1 := mx + 1
  let a := z1.fill mn mx1 (hapVal M0 p z0)
  let sum := sumRange a mn mx1
  let b := a.fill mn mx1 (fun k => a k / sum)
  let c := if mn ≥ 1 then b.set (mn - 1) 0 else b
  let d := if notLast then c.set (mx1 + 1) 0 else c
  (d, sum, mx1)

/-- The triple `pdg[0..2]` of sample `j`, at `ma->pdg + j * 3`. -/
def pdgOf (ma : bcf_p1aux_t) (j : Nat) : Fin 3 → ℚ := fun i => ma.pdg (j * 3 + i.val)

/-- One turn of the loop of the uniformly diploid branch of `mc_cal_y_core`
(lines 237-262) for the sample `_j`. -/
def dipStep (ma : bcf_p1aux_t) (beg _j : Nat) (s : CoreState) : CoreState :=
  let j := _j - beg
  let M0 := s.M
  let M := s.M + 2
  let r1 := pruneMin (s.last_max - s.last_min) s.z0 s.z1 s.last_min s.last_max
  let _min := r1.2.2
  let r2 := pruneMax (s.last_max - _min) r1.1 r1.2.1 _min s.last_max
  let u := dipUpdate M0 (pdgOf ma _j) r2.1 r2.2.1 _min r2.2.2 (decide (j + 1 < ma.n))
  let et := s.et * (u.2.1 / ((M : ℚ) * ((M : ℚ) - 1)))
  let cp : Bool := decide ((_j : Int) = ma.n1 - 1)
  { z0 := u.1
    z1 := r2.1
    swapped := !s.swapped
    last_min := _min
    last_max := u.2.2
    M := M
    et := et
    et1 := if cp then et else s.et1
    cz1 := if cp then s.cz1.copy u.1 (ma.n1 * 2 + 1).toNat else s.cz1 }

/-- One turn of the loop of the mixed-ploidy branch of `mc_cal_y_core` (lines
269-305) for the sample `j` of ploidy `pl`. -/
def mixStep (ma : bcf_p1aux_t) (pl : Nat) (j : Nat) (s : CoreState) : CoreState :=
  let r1 := pruneMin (s.last_max - s.last_min) s.z0 s.z1 s.last_min s.last_max
  let _min := r1.2.2
  let r2 := pruneMax (s.last_max - _min) r1.1 r1.2.1 _min s.last_max
  let M0 := s.M
  let M := s.M + pl
  if pl = 1 then
    let u := hapUpdate M0 (pdgOf ma j) r2.1 r2.2.1 _min r2.2.2 (decide (j + 1 < ma.n))
    { s with
      z0 := u.1, z1 := r2.1, swapped := !s.swapped, last_min := _min, last_max := u.2.2,
      M := M, et := s.et * (u.2.1 / (M : ℚ)) }
  else if pl = 2 then
    let u := dipUpdate M0 (pdgOf ma j) r2.1 r2.2.1 _min r2.2.2 (decide (j + 1 < ma.n))
    { s with
      z0 := u.1, z1 := r2.1, swapped := !s.swapped, last_min := _min, last_max := u.2.2,
      M := M, et := s.et * (u.2.1 / ((M : ℚ) * ((M : ℚ) - 1))) }
  else
    { s with
      z0 := r2.2.1, z1 := r2.1, swapped := !s.swapped, last_min := _min, last_max := r2.2.2,
      M := M }

/-- The state of `mc_cal_y_core` before its loop (lines 226-233). -/
def coreInit (ma : bcf_p1aux_t) : CoreState :=
  { z0 := (ma.z.zero (ma.M + 1)).set 0 1
    z1 := ma.zswap.zero (ma.M + 1)
    swapped := false
    last_min := 0
    last_max := 0
    M := 0
    et := 1
    et1 := ma.et1
    cz1 := ma.z1 }

/-- The state of the uniformly diploid loop `for (_j = beg; _j < ma->n; ++_j)`
after `i` turns. -/
def dipLoop (ma : bcf_p1aux_t) (beg : Nat) : Nat → CoreState
  | 0 => coreInit ma
  | i + 1 => dipStep ma beg (beg + i) (dipLoop ma beg i)

/-- The state of the mixed-ploidy loop `for (j = 0; j < ma->n; ++j)` after `i`
turns. -/
def mixLoop (ma : bcf_p1aux_t) (ploidy : Nat → Nat) : Nat → CoreState
  | 0 => coreInit ma
  | i + 1 => mixStep ma (ploidy i) i (mixLoop ma ploidy i)

/-- The end of `mc_cal_y_core` (line 308 and the fields written on the way):
`z[0]` is copied to `ma->z` when the pointers are exchanged. -/
def coreFinish (ma : bcf_p1aux_t) (s : CoreState) : bcf_p1aux_t :=
  { ma with
    z := if s.swapped then s.z1.copy s.z0 (ma.M + 1) else s.z0
    zswap := if s.swapped then s.z0 else s.z1
    et := s.et
    et1 := s.et1
    z1 := s.cz1 }

/-- The function `mc_cal_y_core`. The mixed-ploidy branch reads `ma->ploidy`,
which `bcf_p1_init` keeps exactly when `M != 2 * n`; without it the C code
dereferences a null pointer, and the embedding stops after the initialisation.
The diagnostic write to `bcf_p1_fp_lk` is not represented. -/
def mc_cal_y_core (ma : bcf_p1aux_t) (beg : Nat) : bcf_p1aux_t :=
  if ma.M = ma.n * 2 then coreFinish ma (dipLoop ma beg (ma.n - beg))
  else
    match ma.ploidy with
    | some pl => coreFinish ma (mixLoop ma pl ma.n)
    | none => coreFinish ma (coreInit ma)

/-- The function `mc_cal_y`. -/
def mc_cal_y (ma : bcf_p1aux_t) : bcf_p1aux_t :=
  if ma.n1 > 0 ∧ ma.n1 < (ma.n : Int) ∧ ma.M = ma.n * 2 then
    let n1 : Nat := ma.n1.toNat
    let a := { ma with
      z1 := ma.z1.zero (2 * n1 + 1)
      z2 := ma.z2.zero (2 * (ma.n - n1) + 1)
      et1 := 1
      et2 := 1 }
    let b := mc_cal_y_core a n1
    let c := { b with et2 := b.et, z2 := b.z2.copy b.z (2 * (ma.n - n1) + 1) }
    let d := mc_cal_y_core c 0
    let x : ℚ := d.et / (d.et1 * d.et2)
    { d with z := d.z.fill 0 d.M (fun k => d.z k * x) }
  else mc_cal_y_core ma 0

/-! ## Likelihood preprocessing -/

/-- The exchange `tmp = p[j], p[j] = p[j-1], p[j-1] = tmp` of two cells. -/
def swapCells (p : Nat → Nat) (a b : Nat) : Nat → Nat :=
  fun k => if k = a then p b else if k = b then p a else p k

/-- The inner loop `for (j = i; j > 0 && p[j] < p[j-1]; --j)` of the insertion
sort of `cal_pdg`, started at `j`. -/
def insInner (p : Nat → Nat) : Nat → (Nat → Nat)
  | 0 => p
  | j + 1 => if p (j + 1) < p j then insInner (swapCells p (j + 1) j) j else p

/-- The outer loop `for (i = 1; i < n_allele; ++i)` of the insertion sort of
`cal_pdg` after `c` turns. -/
def insSort (p : Nat → Nat) : Nat → (Nat → Nat)
  | 0 => p
  | c + 1 => insInner (insSort p c) (c + 1)

/-- The loop `for (i = n_allele - 1; i >= 0; --i) if ((p[i]&0xf) == 0) break;`
started at `i = c - 1`; the result is the final `i`. -/
def scanRank (p : Nat → Nat) : Nat → Int
  | 0 => -1
  | i + 1 => if p i &&& 0xf = 0 then (i : Int) else scanRank p i

/-- The array `p` of `cal_pdg` before the insertion sort: for every allele the
sum over the samples of the PL of its homozygous genotype, then `p[i]<<4 | i`. -/
def pdgKeys (ma : bcf_p1aux_t) : Nat → Nat :=
  fun i => (sumNatTo (fun j => ma.PL (j * ma.PL_len + ((i + 1) * (i + 2) / 2 - 1))) ma.n <<< 4) ||| i

/-- The function `cal_pdg`: the returned index and the context with `pdg`
refreshed. -/
def cal_pdg (n_allele : Nat) (ma : bcf_p1aux_t) : Int × bcf_p1aux_t :=
  let pdg : Arr := fun i =>
    if i < 3 * ma.n then ma.q2p (ma.PL ((i / 3) * ma.PL_len + (2 - i % 3))) else ma.pdg i
  let p := insSort (pdgKeys ma) (n_allele - 1)
  (scanRank p n_allele, { ma with pdg := pdg })

/-! ## Contrast test -/

/-- A loop `for (k = c - 1; k >= 0; --k)` whose body may `break`: the body
returns the new state and whether it breaks. -/
def loopDown {σ : Type} (body : Nat → σ → σ × Bool) : Nat → σ → σ
  | 0, s => s
  | k + 1, s =>
    let r := body k s
    if r.2 then r.1 else loopDown body k r.1

/-- A loop `for (k = lo; k < lo + c; ++k)` whose body may `break`. -/
def loopUp {σ : Type} (body : Nat → σ → σ × Bool) : Nat → Nat → σ → σ
  | _, 0, s => s
  | lo, c + 1, s =>
    let r := body lo s
    if r.2 then r.1 else loopUp body (lo + 1) c r.1

/-- The function `chi2_test`. -/
def chi2_test (ext : Ext) (a b c d : Int) : ℚ :=
  let x : ℚ := ((a + b : Int) : ℚ) * ((c + d : Int) : ℚ) * ((b + d : Int) : ℚ) * ((a + c : Int) : ℚ)
  if x = 0 then 1
  else
    let z : ℚ := ((a * d - b * c : Int) : ℚ)
    ext.kf_gammaq (1 / 2) (1 / 2 * z * z * ((a + b + c + d : Int) : ℚ) / x)

/-- The read `p1->hg[k1][k2]` of the cached matrix. -/
def hgAt (hg : Option (List (List ℚ))) (k1 k2 : Nat) : ℚ :=
  match hg with
  | some rows => (rows.getD k1 []).getD k2 0
  | none => 0

/-- The function `contrast2_aux`: the returned value and the array `x[0..2]`. -/
def contrast2_aux (ext : Ext) (p1 : bcf_p1aux_t) (sum : ℚ) (k1 k2 : Nat) (x : Fin 3 → ℚ) :
    ℚ × (Fin 3 → ℚ) :=
  let p : ℚ := p1.phi (k1 + k2) * p1.z1 k1 * p1.z2 k2 / sum * hgAt p1.hg k1 k2
  let n1 : Int := p1.n1
  let n2 : Int := (p1.n : Int) - p1.n1
  if p < CONTRAST_TINY then (-1, x)
  else
    let a : ℚ := 1 / 2 * (k1 : ℚ) / (n1 : ℚ)
    let b : ℚ := 1 / 2 * (k2 : ℚ) / (n2 : ℚ)
    let x' : Fin 3 → ℚ :=
      if a < b then Function.update x 1 (x 1 + p)
      else if a > b then Function.update x 2 (x 2 + p)
      else Function.update x 0 (x 0 + p)
    (p * chi2_test ext k1 k2 (n1 * 2 - k1) (n2 * 2 - k2), x')

/-- The entry `hg[k1][k2]` that `contrast2` stores: the exponential of a sum of
`lgamma` values, `exp (lgamma (m + 1))` being `m!`. -/
def hgVal (M n1 n2 k1 k2 : Nat) : ℚ :=
  ((k1 + k2).factorial : ℚ) * ((M - k1 - k2).factorial : ℚ)
    / ((k1.factorial : ℚ) * (k2.factorial : ℚ) * ((2 * n1 - k1).factorial : ℚ)
        * ((2 * n2 - k2).factorial : ℚ)
        * (((2 * (n1 + n2)).factorial : ℚ) / (((2 * n1).factorial : ℚ) * ((2 * n2).factorial : ℚ))))

/-- The matrix built by `contrast2` when `p1->hg == 0` (lines 368-374). -/
def hgBuild (M n1 n2 : Nat) : List (List ℚ) :=
  (List.range (2 * n1 + 1)).map (fun k1 => (List.range (2 * n2 + 1)).map (fun k2 => hgVal M n1 n2 k1 k2))

/-- The loop `for (k = 0, max = 0, max_k = -1; k < c; ++k)` with body
`if (x > max) max = x, max_k = k` for `x = f k`; the result is `(max, max_k)`. -/
def argMaxPos (f : Nat → ℚ) : Nat → ℚ × Int
  | 0 => (0, -1)
  | k + 1 =>
    let r := argMaxPos f k
    if f k > r.1 then (f k, (k : Int)) else r

/-- The state of the scans of `contrast2`: the array `x[0..2]` and the sum `z`. -/
abbrev ScanAcc := (Fin 3 → ℚ) × ℚ

/-- The body `if ((y = contrast2_aux(p1, sum, k1, k2, x)) < 0) break; else z += y;`. -/
def scanCell (ext : Ext) (p1 : bcf_p1aux_t) (sum : ℚ) (k1 k2 : Nat) (s : ScanAcc) :
    ScanAcc × Bool :=
  let r := contrast2_aux ext p1 sum k1 k2 s.1
  if r.1 < 0 then ((r.2, s.2), true) else ((r.2, s.2 + r.1), false)

/-- The two inner loops of the truncated scan for one `k1`: `k2` from `k20`
down to `0`, then from `k20 + 1` up to `2*n2`; `c20` is `k20 + 1`. -/
def scanRow (ext : Ext) (p1 : bcf_p1aux_t) (sum : ℚ) (n2 c20 : Nat) (k1 : Nat) (s : ScanAcc) :
    ScanAcc × Bool :=
  (loopUp (scanCell ext p1 sum k1) c20 (2 * n2 + 1 - c20) (loopDown (scanCell ext p1 sum k1) c20 s),
    false)

/-- The body `if ((y = contrast2_aux(p1, sum, k1, k2, ret)) >= 0) z += y;` of the
exhaustive scan. -/
def fullCell (ext : Ext) (p1 : bcf_p1aux_t) (sum : ℚ) (k1 k2 : Nat) (s : ScanAcc) :
    ScanAcc × Bool :=
  let r := contrast2_aux ext p1 sum k1 k2 s.1
  if r.1 ≥ 0 then ((r.2, s.2 + r.1), false) else ((r.2, s.2), false)

/-- The exhaustive scan of `contrast2` (lines 423-426). -/
def fullScan (ext : Ext) (p1 : bcf_p1aux_t) (sum : ℚ) (n1 n2 : Nat) : ScanAcc :=
  loopUp (fun k1 s => (loopUp (fullCell ext p1 sum k1) 0 (2 * n2 + 1) s, false)) 0 (2 * n1 + 1)
    ((fun _ => 0), 0)

/-- The function `contrast2`: the returned value, the array `ret[0..2]` and the
context, whose `hg` is built on the first call. -/
def contrast2 (ext : Ext) (p1 : bcf_p1aux_t) (ret : Fin 3 → ℚ) :
    ℚ × (Fin 3 → ℚ) × bcf_p1aux_t :=
  if p1.n1 ≤ 0 ∨ (p1.n : Int) - p1.n1 ≤ 0 then (0, ret, p1)
  else
    let n1 : Nat := p1.n1.toNat
    let n2 : Nat := ((p1.n : Int) - p1.n1).toNat
    let q1 : bcf_p1aux_t :=
      match p1.hg with
      | none => { p1 with hg := some (hgBuild p1.M n1 n2) }
      | some _ => p1
    let sum : ℚ := sumTo (fun k => q1.phi k * q1.z k) (q1.M + 1)
    let c10 : Nat := ((argMaxPos (fun k => q1.phi1 k * q1.z1 k) (2 * n1 + 1)).2 + 1).toNat
    let c20 : Nat := ((argMaxPos (fun k => q1.phi2 k * q1.z2 k) (2 * n2 + 1)).2 + 1).toNat
    let zero3 : Fin 3 → ℚ := fun _ => 0
    let s1 : ScanAcc := loopDown (scanRow ext q1 sum n2 c20) c10 (zero3, 0)
    let s2 : ScanAcc := loopUp (scanRow ext q1 sum n2 c20) c10 (2 * n1 + 1 - c10) (zero3, s1.2)
    let ret1 : Fin 3 → ℚ := fun i => s1.1 i + s2.1 i
    if ret1 0 + ret1 1 + ret1 2 < 95 / 100 then
      let s3 := fullScan ext q1 sum n1 n2
      if s3.1 0 + s3.1 1 + s3.1 2 < 95 / 100 then (1, (fun _ => 1 / 3), q1)
      else (s3.2, s3.1, q1)
    else (s2.2, ret1, q1)

/-! ## Posterior summary -/

/-- The prior `phi` selected by `mc_cal_afs`:
`double *phi = ma->is_indel? ma->phi_indel : ma->phi;`. -/
def afsPhi (ma : bcf_p1aux_t) : Arr := if ma.is_indel then ma.phi_indel else ma.phi

/-- The context of `mc_cal_afs` after `memset(ma->afs1, ...)` and `mc_cal_y(ma)`. -/
def afsPass (ma : bcf_p1aux_t) : bcf_p1aux_t :=
  mc_cal_y { ma with afs1 := ma.afs1.zero (ma.M + 1) }

/-- The normaliser of `mc_cal_afs`,
`for (k = 0, sum = 0.; k <= ma->M; ++k) sum += (long double)phi[k] * ma->z[k];`. -/
def afsSum (ma : bcf_p1aux_t) : ℚ :=
  sumTo (fun k => afsPhi ma k * (afsPass ma).z k) (ma.M + 1)

/-- The function `mc_cal_afs`: the returned value, the context, and the two
output arguments `*p_ref_folded`, `*p_var_folded` (given as they are before the
call). In exact arithmetic a quotient `phi[k] * z[k] / sum` of rationals is
NaN or infinite exactly when `sum` is zero, and then already for `k = 0`: the
function returns `-1.` there, the NaN or infinity it has stored in `afs1[0]`
being left out of the embedding. After the loop of line 452 `k` is `M` for
`M >= 1` and `1` for `M = 0`, where the read `phi[M - k]` is out of bounds. -/
def mc_cal_afs (ma : bcf_p1aux_t) (p_ref_folded p_var_folded : ℚ) :
    ℚ × bcf_p1aux_t × ℚ × ℚ :=
  let ma1 := afsPass ma
  let phi : Arr := afsPhi ma
  let M := ma.M
  let sum : ℚ := afsSum ma
  if sum = 0 then (-1, ma1, p_ref_folded, p_var_folded)
  else
    let afs1 : Arr := ma1.afs1.fill 0 M (fun k => phi k * ma1.z k / sum)
    let sumf : ℚ := sumTo (fun k => (phi k + phi (M - k)) / 2 * ma1.z k) (M + 1)
    let sum2 : ℚ := sumRange (fun k => (phi k + phi (M - k)) / 2 * ma1.z k) 1 (M - 1)
    let pvf : ℚ := sum2 / sumf
    let k : Nat := if M < 1 then 1 else M
    let prf : ℚ := (phi k + phi (M - k)) / 2 * (ma1.z M + ma1.z 0) / sumf
    let afs : Arr := ma1.afs.fill 0 M (fun k => ma1.afs k + afs1 k)
    let s : ℚ := sumTo (fun k => (k : ℚ) * afs1 k) (M + 1)
    (s / (M : ℚ), { ma1 with afs1 := afs1, afs := afs }, prf, pvf)

/-- The loop `for (k = 0, max = -1, arg = -1; k < c; ++k) if (max < f k) max = f k, arg = k;`;
the result is `(max, arg)`. -/
def argMaxFrom (f : Nat → ℚ) : Nat → ℚ × Int
  | 0 => (-1, -1)
  | k + 1 =>
    let r := argMaxFrom f k
    if r.1 < f k then (f k, (k : Int)) else r

/-- The loop `for (i = lo, p = 0.; i < lo + c; ++i) if (p + afs1[i] > 0.025) break; else p += afs1[i];`
of the credible interval; the result is the final `i`. -/
def cilScanUp (afs1 : Arr) : Nat → Nat → ℚ → Nat
  | lo, 0, _ => lo
  | lo, c + 1, p => if p + afs1 lo > 25 / 1000 then lo else cilScanUp afs1 (lo + 1) c (p + afs1 lo)

/-- The loop `for (i = c - 1, p = 0.; i >= 0; --i) if (p + afs1[i] > 0.025) break; else p += afs1[i];`
of the credible interval; the result is the final `i`. -/
def cilScanDown (afs1 : Arr) : Nat → ℚ → Int
  | 0, _ => -1
  | i + 1, p => if p + afs1 i > 25 / 1000 then (i : Int) else cilScanDown afs1 i (p + afs1 i)

/-- The context of `bcf_p1_cal` after its first lines (468-472): `is_indel`,
`PL` and `PL_len` are set from the record. -/
def calEnter (site : Site) (ma : bcf_p1aux_t) : bcf_p1aux_t :=
  { ma with
    is_indel := if site.is_snp then false else true
    PL := site.PLs
    PL_len := site.nPLs / site.n_sample }

/-- The context that `bcf_p1_cal` hands to `mc_cal_afs`, after `cal_pdg`. -/
def calCtx (site : Site) (ma : bcf_p1aux_t) : bcf_p1aux_t :=
  (cal_pdg site.n_allele (calEnter site ma)).2

/-- The function `bcf_p1_cal`: the return code, the context and the result
record. `ext` gives `log` and `kf_gammaq`. -/
def bcf_p1_cal (ext : Ext) (site : Site) (do_contrast : Bool) (ma : bcf_p1aux_t)
    (rst : bcf_p1rst_t) : Int × bcf_p1aux_t × bcf_p1rst_t :=
  let ma0 := calEnter site ma
  let rst0 := { rst with perm_rank := -1 }
  if site.n_allele < 2 then (-1, ma0, rst0)
  else
    let r := cal_pdg site.n_allele ma0
    let a := mc_cal_afs (calCtx site ma) rst0.p_ref_folded rst0.p_var_folded
    let mb := a.2.1
    let M := mb.M
    let p_var : ℚ := sumTo mb.afs1 M
    let ac : Int := (M : Int) - (argMaxFrom mb.z (M + 1)).2
    let sumz : ℚ := sumTo mb.z (M + 1)
    let f_flat : ℚ := sumTo (fun k => (k : ℚ) * (mb.z k / sumz)) (M + 1) / (M : ℚ)
    let l : Nat := cilScanUp mb.afs1 0 (M + 1) 0
    let h : Int := cilScanDown mb.afs1 (M + 1) 0
    let lrt : ℚ :=
      if mb.n1 > 0 then
        let max0 := (argMaxFrom mb.z (M + 1)).1
        let max1 := (argMaxFrom mb.z1 (mb.n1 * 2 + 1).toNat).1
        let max2 := (argMaxFrom mb.z2 ((M : Int) - mb.n1 * 2 + 1).toNat).1
        let v := ext.log (max1 * max2 / max0)
        if v < 0 then 1 else ext.kf_gammaq (1 / 2) v
      else -1
    let rst1 : bcf_p1rst_t :=
      { rank0 := r.1
        perm_rank := -1
        ac := ac
        f_exp := a.1
        f_flat := f_flat
        p_ref_folded := a.2.2.1
        p_ref := mb.afs1 M
        p_var_folded := a.2.2.2
        p_var := p_var
        cil := (((M : Int) - h : Int) : ℚ) / (M : ℚ)
        cih := (((M : Int) - (l : Int) : Int) : ℚ) / (M : ℚ)
        cmp := fun _ => -1
        p_chi2 := -1
        lrt := lrt }
    if do_contrast ∧ p_var > 1 / 2 then
      let c := contrast2 ext mb rst1.cmp
      (0, c.2.2, { rst1 with p_chi2 := c.1, cmp := c.2.1 })
    else (0, mb, rst1)

/-- The function `bcf_p1_dump_afs`, without the line it prints. -/
def bcf_p1_dump_afs (ma : bcf_p1aux_t) : bcf_p1aux_t :=
  { ma with afs := ma.afs.zero (ma.M + 1) }

/-! ## Concrete inputs -/

/-- A table for `q2p` that agrees with `pow(10, -i/10)` at the multiples of ten. -/
def q2pTen : Nat → ℚ := fun i => 1 / 10 ^ (i / 10)

/-- Two diploid samples split one and one, every genotype likelihood equal to
one (every PL equal to zero), in a context built by `bcf_p1_init`. -/
def ctxSplit : bcf_p1aux_t :=
  { bcf_p1_init q2pTen 2 none with n1 := 1, pdg := fun _ => 1 }

/-- A diploid sample followed by a haploid one, every genotype likelihood equal
to one, in a context built by `bcf_p1_init`. -/
def ctxMixed : bcf_p1aux_t :=
  { bcf_p1_init q2pTen 2 (some (fun j => if j = 0 then 2 else 1)) with pdg := fun _ => 1 }

/-- The context `ctxSplit` with a prior that is zero everywhere. -/
def ctxZeroPrior : bcf_p1aux_t := { ctxSplit with phi := fun _ => 0 }

/-- A biallelic SNP record of two samples whose PL values are all zero. -/
def siteTwo : Site :=
  { n_allele := 2, n_sample := 2, is_snp := true, PLs := fun _ => 0, nPLs := 6 }

/-- A record with a single allele. -/
def siteOne : Site :=
  { n_allele := 1, n_sample := 2, is_snp := true, PLs := fun _ => 0, nPLs := 2 }

/-- A rational stand-in for `log` and `kf_gammaq`: `x ↦ 1 - 1/x` is a lower
bound of the logarithm, not positive on `(0, 1]`. -/
def extLower : Ext := { log := fun x => 1 - 1 / x, kf_gammaq := fun _ _ => 1 }

/-- A result record whose fields are all zero. -/
def rstZero : bcf_p1rst_t :=
  { rank0 := 0, perm_rank := 0, ac := 0, f_exp := 0, f_flat := 0, p_ref_folded := 0, p_ref := 0,
    p_var_folded := 0, p_var := 0, cil := 0, cih := 0, cmp := fun _ => 0, p_chi2 := 0, lrt := 0 }

/-- A posterior whose whole mass is on the allele count 1. -/
def afsPoint : Arr := fun k => if k = 1 then 1 else 0

/-- The context built by `bcf_p1_init` for one diploid sample. -/
def ctxOne : bcf_p1aux_t := bcf_p1_init q2pTen 1 none

/-- The likelihoods of sample `j` are those of PL `(0, 250, 250)`: the sample
is homozygous for the reference allele. -/
def homRef (ma : bcf_p1aux_t) (j : Nat) : Prop :=
  pdgOf ma j 0 = 1 / 10 ^ 25 ∧ pdgOf ma j 1 = 1 / 10 ^ 25 ∧ pdgOf ma j 2 = 1

/-- The likelihoods of sample `j` are those of PL `(250, 250, 0)`: the sample
is homozygous for the other allele. -/
def homAlt (ma : bcf_p1aux_t) (j : Nat) : Prop :=
  pdgOf ma j 0 = 1 ∧ pdgOf ma j 1 = 1 / 10 ^ 25 ∧ pdgOf ma j 2 = 1 / 10 ^ 25

/-- A biallelic SNP record of four samples, each with PL `(0, 250, 250)`:
every sample strongly favours the genotype homozygous for the reference. -/
def siteRef4 : Site :=
  { n_allele := 2, n_sample := 4, is_snp := true,
    PLs := fun i => if i % 3 = 0 then 0 else 250, nPLs := 12 }

/-- The context built by `bcf_p1_init` for four diploid samples: FULL prior
with `theta = 1e-3`, no split. -/
def ctxFour : bcf_p1aux_t := bcf_p1_init q2pTen 4 none

/-- A biallelic SNP record of two samples, each with PL `(250, 250, 0)`: every
sample strongly favours the genotype homozygous for the other allele. -/
def siteAlt2 : Site :=
  { n_allele := 2, n_sample := 2, is_snp := true,
    PLs := fun i => if i % 3 = 2 then 0 else 250, nPLs := 6 }

/-- The context built by `bcf_p1_init` for two diploid samples: FULL prior with
`theta = 1e-3`, indel rate `0.15`, no split. -/
def ctxTwo : bcf_p1aux_t := bcf_p1_init q2pTen 2 none

/-- The context in which `contrast2` scans: the matrix `hg` is built when it
is absent (lines 363-375). -/
def contrastCtx (p1 : bcf_p1aux_t) : bcf_p1aux_t :=
  match p1.hg with
  | none =>
    { p1 with hg := some (hgBuild p1.M p1.n1.toNat ((p1.n : Int) - p1.n1).toNat) }
  | some _ => p1

/-- The value `p` of `contrast2_aux` for the cell `(k1, k2)`. -/
def cellP (p1 : bcf_p1aux_t) (sum : ℚ) (k1 k2 : Nat) : ℚ :=
  p1.phi (k1 + k2) * p1.z1 k1 * p1.z2 k2 / sum * hgAt p1.hg k1 k2

/-- The slot of `x[0..2]` that `contrast2_aux` increments for the cell
`(k1, k2)`: `1` when `.5*k1/n1 < .5*k2/n2`, `2` when it is above, `0` otherwise. -/
def cellSlot (p1 : bcf_p1aux_t) (k1 k2 : Nat) : Fin 3 :=
  if 1 / 2 * (k1 : ℚ) / ((p1.n1 : Int) : ℚ) < 1 / 2 * (k2 : ℚ) / ((((p1.n : Int) - p1.n1 : Int)) : ℚ)
  then 1
  else if 1 / 2 * (k1 : ℚ) / ((p1.n1 : Int) : ℚ)
      > 1 / 2 * (k2 : ℚ) / ((((p1.n : Int) - p1.n1 : Int)) : ℚ)
  then 2
  else 0

/-- The mass that the exhaustive scan of `contrast2` counts for the cell
`(k1, k2)`: `p` when it is at least `CONTRAST_TINY`, nothing otherwise. -/
def cellMass (p1 : bcf_p1aux_t) (sum : ℚ) (k1 k2 : Nat) : ℚ :=
  if cellP p1 sum k1 k2 < CONTRAST_TINY then 0 else cellP p1 sum k1 k2

/-- The normaliser `sum` of `contrast2` (lines 376-380). -/
def contrastSum (p1 : bcf_p1aux_t) : ℚ :=
  sumTo (fun k => (contrastCtx p1).phi k * (contrastCtx p1).z k) ((contrastCtx p1).M + 1)

/-- The truncated scan of `contrast2` (lines 381-421): the masses `ret[0..2]`
and the statistic `z` it leaves. -/
def truncScan (ext : Ext) (p1 : bcf_p1aux_t) : ScanAcc :=
  let n1 : Nat := p1.n1.toNat
  let n2 : Nat := ((p1.n : Int) - p1.n1).toNat
  let q1 := contrastCtx p1
  let sum := contrastSum p1
  let c10 : Nat := ((argMaxPos (fun k => q1.phi1 k * q1.z1 k) (2 * n1 + 1)).2 + 1).toNat
  let c20 : Nat := ((argMaxPos (fun k => q1.phi2 k * q1.z2 k) (2 * n2 + 1)).2 + 1).toNat
  let zero3 : Fin 3 → ℚ := fun _ => 0
  let s1 : ScanAcc := loopDown (scanRow ext q1 sum n2 c20) c10 (zero3, 0)
  let s2 : ScanAcc := loopUp (scanRow ext q1 sum n2 c20) c10 (2 * n1 + 1 - c10) (zero3, s1.2)
  (fun i => s1.1 i + s2.1 i, s2.2)

/-- A biallelic SNP record of three samples: the first with PL `(250, 250, 0)`,
the other two with PL `(0, 250, 250)`. -/
def siteAltRef : Site :=
  { n_allele := 2, n_sample := 3, is_snp := true,
    PLs := fun i => if i < 3 then (if i % 3 = 2 then 0 else 250) else (if i % 3 = 0 then 0 else 250),
    nPLs := 9 }

/-- The context built by `bcf_p1_init` for three diploid samples, with the first
sample set apart by `bcf_p1_set_n1`; `bcf_p1_init_subprior` is not called, so
`phi1` and `phi2` are zero. -/
def ctxThree : bcf_p1aux_t := (bcf_p1_set_n1 (bcf_p1_init q2pTen 3 none) 1).2

/-- A biallelic SNP record of four samples: the first two with PL
`(0, 250, 250)`, the last two with PL `(250, 250, 0)`. -/
def siteSplit4 : Site :=
  { n_allele := 2, n_sample := 4, is_snp := true,
    PLs := fun i => if i < 6 then (if i % 3 = 0 then 0 else 250) else (if i % 3 = 2 then 0 else 250),
    nPLs := 12 }

/-- The context built by `bcf_p1_init` for four diploid samples, split two and
two by `bcf_p1_set_n1`, with the priors of the two subpopulations written by
`bcf_p1_init_subprior` (FULL, `theta = 1e-3`). -/
def ctxSplit4 : bcf_p1aux_t :=
  bcf_p1_init_subprior (bcf_p1_set_n1 (bcf_p1_init q2pTen 4 none) 2).2 PType.full (1 / 1000)

/-- A rational stand-in for `log` and `kf_gammaq` whose `kf_gammaq` lies in
`[0, 1]` and is `1/257` at `x = 4`, above `erfc 2 = kf_gammaq(1/2, 4)`. -/
def extChi : Ext := { log := fun x => 1 - 1 / x, kf_gammaq := fun _ x => 1 / (1 + x ^ 4) }

/-- The normaliser of the folded probabilities of `mc_cal_afs` (lines 450-451),
`sum += (phi[k] + phi[M - k]) / 2. * z[k]` for `k` in `0..M`. -/
def afsFoldSum (ma : bcf_p1aux_t) : ℚ :=
  sumTo (fun k => (afsPhi ma k + afsPhi ma (ma.M - k)) / 2 * (afsPass ma).z k) (ma.M + 1)

/-- A call on a context that may touch the cached matrix `hg`:
`bcf_p1_set_n1(b, n1)` or `contrast2(p1, ret)`. -/
inductive CtxCall
  | set_n1 (n1 : Int)
  | contrast (ret : Fin 3 → ℚ)

/-- The context after one call of `bcf_p1_set_n1` or of `contrast2`. -/
def applyCall (ext : Ext) (ma : bcf_p1aux_t) : CtxCall → bcf_p1aux_t
  | CtxCall.set_n1 n1 => (bcf_p1_set_n1 ma n1).2
  | CtxCall.contrast ret => (contrast2 ext ma ret).2.2

/-- The context after a sequence of calls of `bcf_p1_set_n1` and `contrast2`. -/
def applyCalls (ext : Ext) (ma : bcf_p1aux_t) (cs : List CtxCall) : bcf_p1aux_t :=
  cs.foldl (applyCall ext) ma

/-- The context built by `bcf_p1_init` for three diploid samples. -/
def ctxThreeInit : bcf_p1aux_t := bcf_p1_init q2pTen 3 none

/-- Four calls on one context: a split one and two, a contrast test, a split
two and one, a contrast test. -/
def callsResplit : List CtxCall :=
  [CtxCall.set_n1 1, CtxCall.contrast (fun _ => 0), CtxCall.set_n1 2,
    CtxCall.contrast (fun _ => 0)]

/-- The context `ctxMixed` (`n = 2`, ploidy `(2, 1)`, `M = 3`) with a marker in
the cell of index `4` of `zswap`. The C array `zswap` has `M + 1 = 4` cells, of
indices `0..3`; an array of the embedding has a cell for every index, and the
marker shows whether the cell of index `4` is stored to. -/
def ctxMixedMark : bcf_p1aux_t := { ctxMixed with zswap := fun k => if k = 4 then 7 else 0 }

/-- The score of allele `i` in `cal_pdg`: the sum over the samples of the PL of
the genotype homozygous for `i`, `pi[(i+1)*(i+2)/2-1]` (line 175). -/
def pdgScore (ma : bcf_p1aux_t) (i : Nat) : Nat :=
  sumNatTo (fun j => ma.PL (j * ma.PL_len + ((i + 1) * (i + 2) / 2 - 1))) ma.n

/-- The values of `n1` that a context can hold. `bcf_p1_init` writes `n1 = -1`;
the only other store to `n1` is in `bcf_p1_set_n1`, which is reached only with
`n1 < n` and `M = 2n`. No function changes `n` or `M` after `bcf_p1_init`. -/
def SplitReach (ma : bcf_p1aux_t) : Prop :=
  ma.n1 = -1 ∨ (ma.n1 < (ma.n : Int) ∧ ma.M = ma.n * 2)

/-- The context built by `bcf_p1_init` for two diploid samples, after
`bcf_p1_indel_prior(ma, 0.5)`: indel rate one half. -/
def ctxTwoHalf : bcf_p1aux_t := bcf_p1_indel_prior (bcf_p1_init q2pTen 2 none) (1 / 2)

/-- The context built by `bcf_p1_init` for three diploid samples, with the first
sample set apart by `bcf_p1_set_n1` and the prior replaced by
`bcf_p1_init_prior(ma, MC_PTYPE_FULL, 1e-30)`; `bcf_p1_init_subprior` is not
called, so `phi1` and `phi2` are zero. -/
def ctxThreeTiny : bcf_p1aux_t :=
  bcf_p1_init_prior (bcf_p1_set_n1 (bcf_p1_init q2pTen 3 none) 1).2 PType.full (1 / 10 ^ 30)

/-! ## Invariant of the recursion -/

/-- The window invariant of the loop of `mc_cal_y_core`, for buffers whose last
index is `B`: the window is not empty and lies below the running `M`, which is
at most `B`; `z[0]` is positive inside the window and sums to one there; both
buffers vanish outside the window; the accumulated likelihood is positive. -/
structure CoreInv (B : Nat) (s : CoreState) : Prop where
  le : s.last_min ≤ s.last_max
  leM : s.last_max ≤ s.M
  leB : s.M ≤ B
  pos : ∀ k, s.last_min ≤ k → k ≤ s.last_max → 0 < s.z0 k
  out0 : ∀ k, k ≤ B → (k < s.last_min ∨ s.last_max < k) → s.z0 k = 0
  out1 : ∀ k, k ≤ B → (k < s.last_min ∨ s.last_max < k) → s.z1 k = 0
  sum : sumRange s.z0 s.last_min s.last_max = 1
  etpos : 0 < s.et

/-- Two states of the loop of `mc_cal_y_core` that agree on the window, on the
running `M`, on the accumulated likelihood and on the cells `0..B` of both
buffers. -/
structure CoreEq (B : Nat) (s t : CoreState) : Prop where
  hmin : s.last_min = t.last_min
  hmax : s.last_max = t.last_max
  hM : s.M = t.M
  het : s.et = t.et
  hsw : s.swapped = t.swapped
  hz0 : ∀ k, k ≤ B → s.z0 k = t.z0 k
  hz1 : ∀ k, k ≤ B → s.z1 k = t.z1 k
  hle : s.last_min ≤ s.last_max
  hleM : s.last_max ≤ s.M

/-- A state of the loop of `mc_cal_y_core` that satisfies the window invariant
and whose window is `m..m+2`, with the running `M`, the accumulated likelihood
and the three entries of `z[0]` in the window given. -/
structure Win (B : Nat) (s : CoreState) (m M : Nat) (e a b c : ℚ) : Prop where
  inv : CoreInv B s
  hmin : s.last_min = m
  hmax : s.last_max = m + 2
  hM : s.M = M
  het : s.et = e
  h0 : s.z0 m = a
  h1 : s.z0 (m + 1) = b
  h2 : s.z0 (m + 2) = c

/-! # Theorems -/

/-! ### Sums -/

theorem sumTo_congr {f g : Nat → ℚ} {n : Nat} (h : ∀ i, i < n → f i = g i) :
    sumTo f n = sumTo g n := by
  induction n with
  | zero => rfl
  | succ n ih =>
    simp only [sumTo]
    rw [ih (fun i hi => h i (Nat.lt_succ_of_lt hi)), h n (Nat.lt_succ_self n)]

theorem sumTo_eq_sum (f : Nat → ℚ) (n : Nat) :
    sumTo f n = ∑ i in Finset.range n, f i := by
  induction n with
  | zero => simp [sumTo]
  | succ n ih => simp [sumTo, Finset.sum_range_succ, ih]

theorem sumTo_const (c : ℚ) (n : Nat) : sumTo (fun _ => c) n = n * c := by
  induction n with
  | zero => simp [sumTo]
  | succ n ih => simp only [sumTo, ih]; push_cast; ring

theorem sumTo_succ_index (n : Nat) :
    sumTo (fun i => (i : ℚ) + 1) n = (n : ℚ) * ((n : ℚ) + 1) / 2 := by
  induction n with
  | zero => simp [sumTo]
  | succ n ih => simp only [sumTo, ih]; push_cast; ring

theorem sumTo_mul_right (f : Nat → ℚ) (c : ℚ) (n : Nat) :
    sumTo (fun i => f i * c) n = sumTo f n * c := by
  induction n with
  | zero => simp [sumTo]
  | succ n ih => simp only [sumTo, ih]; ring

theorem sumTo_div (f : Nat → ℚ) (c : ℚ) (n : Nat) :
    sumTo (fun i => f i / c) n = sumTo f n / c := by
  simp only [div_eq_mul_inv]; exact sumTo_mul_right f c⁻¹ n

theorem sumRange_eq_sum (f : Nat → ℚ) (lo hi : Nat) :
    sumRange f lo hi = ∑ i in Finset.Ico lo (hi + 1), f i := by
  rw [sumRange, sumTo_eq_sum, Finset.sum_Ico_eq_sum_range]

theorem sumRange_congr {f g : Nat → ℚ} {lo hi : Nat}
    (h : ∀ k, lo ≤ k → k ≤ hi → f k = g k) : sumRange f lo hi = sumRange g lo hi := by
  rw [sumRange_eq_sum, sumRange_eq_sum]
  refine Finset.sum_congr rfl (fun k hk => ?_)
  rw [Finset.mem_Ico] at hk
  exact h k hk.1 (by omega)

theorem sumRange_div (f : Nat → ℚ) (c : ℚ) (lo hi : Nat) :
    sumRange (fun k => f k / c) lo hi = sumRange f lo hi / c := by
  rw [sumRange_eq_sum, sumRange_eq_sum, Finset.sum_div]

theorem sumRange_pos {f : Nat → ℚ} {lo hi : Nat} (hle : lo ≤ hi)
    (h : ∀ k, lo ≤ k → k ≤ hi → 0 < f k) : 0 < sumRange f lo hi := by
  rw [sumRange_eq_sum]
  refine Finset.sum_pos (fun k hk => ?_) ⟨lo, by rw [Finset.mem_Ico]; omega⟩
  rw [Finset.mem_Ico] at hk
  exact h k hk.1 (by omega)

theorem pruneMin_spec (fuel : Nat) (z0 z1 : Arr) (mn mx : Nat) (h : mn ≤ mx) :
    mn ≤ (pruneMin fuel z0 z1 mn mx).2.2 ∧ (pruneMin fuel z0 z1 mn mx).2.2 ≤ mx
    ∧ (∀ k, (pruneMin fuel z0 z1 mn mx).1 k
        = if mn ≤ k ∧ k < (pruneMin fuel z0 z1 mn mx).2.2 then 0 else z0 k)
    ∧ (∀ k, (pruneMin fuel z0 z1 mn mx).2.1 k
        = if mn ≤ k ∧ k < (pruneMin fuel z0 z1 mn mx).2.2 then 0 else z1 k) := by
  induction fuel generalizing z0 z1 mn with
  | zero =>
    refine ⟨le_refl _, h, fun k => ?_, fun k => ?_⟩
    · show z0 k = if mn ≤ k ∧ k < mn then 0 else z0 k
      rw [if_neg (by omega)]
    · show z1 k = if mn ≤ k ∧ k < mn then 0 else z1 k
      rw [if_neg (by omega)]
  | succ fuel ih =>
    unfold pruneMin
    split_ifs with hc
    · obtain ⟨h1, h2, h3, h4⟩ := ih (z0.set mn 0) (z1.set mn 0) (mn + 1) (by omega)
      refine ⟨by omega, h2, fun k => ?_, fun k => ?_⟩
      · rw [h3 k]
        simp only [Arr.set]
        split_ifs <;> first | rfl | (exfalso; omega)
      · rw [h4 k]
        simp only [Arr.set]
        split_ifs <;> first | rfl | (exfalso; omega)
    · refine ⟨le_refl _, h, fun k => ?_, fun k => ?_⟩
      · show z0 k = if mn ≤ k ∧ k < mn then 0 else z0 k
        rw [if_neg (by omega)]
      · show z1 k = if mn ≤ k ∧ k < mn then 0 else z1 k
        rw [if_neg (by omega)]

theorem pruneMax_spec (fuel : Nat) (z0 z1 : Arr) (mn mx : Nat) (h : mn ≤ mx) :
    mn ≤ (pruneMax fuel z0 z1 mn mx).2.2 ∧ (pruneMax fuel z0 z1 mn mx).2.2 ≤ mx
    ∧ (∀ k, (pruneMax fuel z0 z1 mn mx).1 k
        = if (pruneMax fuel z0 z1 mn mx).2.2 < k ∧ k ≤ mx then 0 else z0 k)
    ∧ (∀ k, (pruneMax fuel z0 z1 mn mx).2.1 k
        = if (pruneMax fuel z0 z1 mn mx).2.2 < k ∧ k ≤ mx then 0 else z1 k) := by
  induction fuel generalizing z0 z1 mx with
  | zero =>
    refine ⟨h, le_refl _, fun k => ?_, fun k => ?_⟩
    · show z0 k = if mx < k ∧ k ≤ mx then 0 else z0 k
      rw [if_neg (by omega)]
    · show z1 k = if mx < k ∧ k ≤ mx then 0 else z1 k
      rw [if_neg (by omega)]
  | succ fuel ih =>
    unfold pruneMax
    split_ifs with hc
    · obtain ⟨h1, h2, h3, h4⟩ := ih (z0.set mx 0) (z1.set mx 0) (mx - 1) (by omega)
      refine ⟨h1, by omega, fun k => ?_, fun k => ?_⟩
      · rw [h3 k]
        simp only [Arr.set]
        split_ifs <;> first | rfl | (exfalso; omega)
      · rw [h4 k]
        simp only [Arr.set]
        split_ifs <;> first | rfl | (exfalso; omega)
    · refine ⟨h, le_refl _, fun k => ?_, fun k => ?_⟩
      · show z0 k = if mx < k ∧ k ≤ mx then 0 else z0 k
        rw [if_neg (by omega)]
      · show z1 k = if mx < k ∧ k ≤ mx then 0 else z1 k
        rw [if_neg (by omega)]

/-! ### One step of the recursion -/

/-- After the two pruning loops the window is still not empty, `z[0]` is still
positive inside it, and both buffers vanish outside it. -/
theorem prune_window (B : Nat) (z0 z1 : Arr) (mn mx : Nat) (hle : mn ≤ mx)
    (hpos : ∀ k, mn ≤ k → k ≤ mx → 0 < z0 k)
    (h0 : ∀ k, k ≤ B → (k < mn ∨ mx < k) → z0 k = 0)
    (h1 : ∀ k, k ≤ B → (k < mn ∨ mx < k) → z1 k = 0) :
    mn ≤ (pruneMin (mx - mn) z0 z1 mn mx).2.2
    ∧ (pruneMin (mx - mn) z0 z1 mn mx).2.2
        ≤ (pruneMax (mx - (pruneMin (mx - mn) z0 z1 mn mx).2.2)
            (pruneMin (mx - mn) z0 z1 mn mx).1 (pruneMin (mx - mn) z0 z1 mn mx).2.1
            (pruneMin (mx - mn) z0 z1 mn mx).2.2 mx).2.2
    ∧ (pruneMax (mx - (pruneMin (mx - mn) z0 z1 mn mx).2.2)
            (pruneMin (mx - mn) z0 z1 mn mx).1 (pruneMin (mx - mn) z0 z1 mn mx).2.1
            (pruneMin (mx - mn) z0 z1 mn mx).2.2 mx).2.2 ≤ mx
    ∧ (∀ k, (pruneMin (mx - mn) z0 z1 mn mx).2.2 ≤ k →
        k ≤ (pruneMax (mx - (pruneMin (mx - mn) z0 z1 mn mx).2.2)
            (pruneMin (mx - mn) z0 z1 mn mx).1 (pruneMin (mx - mn) z0 z1 mn mx).2.1
            (pruneMin (mx - mn) z0 z1 mn mx).2.2 mx).2.2 →
        0 < (pruneMax (mx - (pruneMin (mx - mn) z0 z1 mn mx).2.2)
            (pruneMin (mx - mn) z0 z1 mn mx).1 (pruneMin (mx - mn) z0 z1 mn mx).2.1
            (pruneMin (mx - mn) z0 z1 mn mx).2.2 mx).1 k)
    ∧ (∀ k, k ≤ B → (k < (pruneMin (mx - mn) z0 z1 mn mx).2.2
          ∨ (pruneMax (mx - (pruneMin (mx - mn) z0 z1 mn mx).2.2)
            (pruneMin (mx - mn) z0 z1 mn mx).1 (pruneMin (mx - mn) z0 z1 mn mx).2.1
            (pruneMin (mx - mn) z0 z1 mn mx).2.2 mx).2.2 < k) →
        (pruneMax (mx - (pruneMin (mx - mn) z0 z1 mn mx).2.2)
            (pruneMin (mx - mn) z0 z1 mn mx).1 (pruneMin (mx - mn) z0 z1 mn mx).2.1
            (pruneMin (mx - mn) z0 z1 mn mx).2.2 mx).1 k = 0
        ∧ (pruneMax (mx - (pruneMin (mx - mn) z0 z1 mn mx).2.2)
            (pruneMin (mx - mn) z0 z1 mn mx).1 (pruneMin (mx - mn) z0 z1 mn mx).2.1
            (pruneMin (mx - mn) z0 z1 mn mx).2.2 mx).2.1 k = 0) := by
  obtain ⟨a1, a2, a3, a4⟩ := pruneMin_spec (mx - mn) z0 z1 mn mx hle
  generalize pruneMin (mx - mn) z0 z1 mn mx = r1 at a1 a2 a3 a4 ⊢
  obtain ⟨b1, b2, b3, b4⟩ := pruneMax_spec (mx - r1.2.2) r1.1 r1.2.1 r1.2.2 mx a2
  generalize pruneMax (mx - r1.2.2) r1.1 r1.2.1 r1.2.2 mx = r2 at b1 b2 b3 b4 ⊢
  refine ⟨a1, b1, b2, fun k hk1 hk2 => ?_, fun k hkB hk => ⟨?_, ?_⟩⟩
  · rw [b3 k, if_neg (by omega), a3 k, if_neg (by omega)]
    exact hpos k (by omega) (by omega)
  · rw [b3 k, a3 k]
    split_ifs with c1 c2
    · rfl
    · rfl
    · exact h0 k hkB (by omega)
  · rw [b4 k, a4 k]
    split_ifs with c1 c2
    · rfl
    · rfl
    · exact h1 k hkB (by omega)

theorem coef_nonneg (M0 k : Nat) (hk : k ≤ M0 + 2) :
    0 ≤ ((M0 : ℚ) - k + 1) * ((M0 : ℚ) - k + 2) := by
  obtain ⟨d, hd⟩ : ∃ d : Nat, M0 + 2 = k + d := ⟨M0 + 2 - k, by omega⟩
  have hq : (M0 : ℚ) = (k : ℚ) + d - 2 := by
    have : ((M0 + 2 : Nat) : ℚ) = ((k + d : Nat) : ℚ) := by rw [hd]
    push_cast at this
    linarith
  rw [hq]
  rcases Nat.eq_zero_or_pos d with h0 | h0
  · subst h0
    simp
  · have : (1 : ℚ) ≤ d := by exact_mod_cast h0
    have h1 : (0 : ℚ) ≤ (d : ℚ) - 1 := by linarith
    have h2 : (0 : ℚ) ≤ (d : ℚ) := by linarith
    have e : ((k : ℚ) + d - 2 - k + 1) * ((k : ℚ) + d - 2 - k + 2) = ((d : ℚ) - 1) * d := by ring
    rw [e]
    exact mul_nonneg h1 h2

theorem Arr.set_apply (a : Arr) (i : Nat) (v : ℚ) (k : Nat) :
    (a.set i v) k = if k = i then v else a k := rfl

theorem Arr.set_ne (a : Arr) (i : Nat) (v : ℚ) (k : Nat) (h : k ≠ i) : (a.set i v) k = a k := by
  simp [Arr.set, h]

theorem Arr.set_zero_cases (a : Arr) (i k : Nat) : (a.set i 0) k = 0 ∨ (a.set i 0) k = a k := by
  by_cases h : k = i
  · left; simp [Arr.set, h]
  · right; simp [Arr.set, h]

theorem Arr.fill_in (a : Arr) (lo hi : Nat) (f : Nat → ℚ) (k : Nat) (h1 : lo ≤ k) (h2 : k ≤ hi) :
    (a.fill lo hi f) k = f k := by
  simp [Arr.fill, h1, h2]

theorem Arr.fill_out (a : Arr) (lo hi : Nat) (f : Nat → ℚ) (k : Nat) (h : k < lo ∨ hi < k) :
    (a.fill lo hi f) k = a k := by
  have : ¬ (lo ≤ k ∧ k ≤ hi) := by omega
  simp [Arr.fill, this]

/-- Cells of a window filled with positive values and divided by their sum are
positive and sum to one. -/
theorem normalise_window (z1 : Arr) (v : Nat → ℚ) (lo hi : Nat) (hle : lo ≤ hi)
    (hv : ∀ k, lo ≤ k → k ≤ hi → 0 < v k) :
    0 < sumRange (z1.fill lo hi v) lo hi
    ∧ (∀ k, lo ≤ k → k ≤ hi →
        ((z1.fill lo hi v).fill lo hi
          (fun k => (z1.fill lo hi v) k / sumRange (z1.fill lo hi v) lo hi)) k
          = v k / sumRange v lo hi)
    ∧ (∀ k, lo ≤ k → k ≤ hi → 0 < v k / sumRange v lo hi)
    ∧ sumRange (fun k => v k / sumRange v lo hi) lo hi = 1 := by
  have hs : sumRange (z1.fill lo hi v) lo hi = sumRange v lo hi :=
    sumRange_congr (fun k h1 h2 => Arr.fill_in z1 lo hi v k h1 h2)
  have hp : 0 < sumRange v lo hi := sumRange_pos hle hv
  refine ⟨hs ▸ hp, fun k h1 h2 => ?_, fun k h1 h2 => div_pos (hv k h1 h2) hp, ?_⟩
  · rw [Arr.fill_in _ _ _ _ _ h1 h2, Arr.fill_in _ _ _ _ _ h1 h2, hs]
  · rw [sumRange_div, div_self (ne_of_gt hp)]

theorem dipVal_pos (M0 : Nat) (p : Fin 3 → ℚ) (z0 : Arr) (mn mx k : Nat)
    (hp : ∀ i, 0 < p i) (hle : mn ≤ mx) (hM : mx ≤ M0)
    (hpos : ∀ j, mn ≤ j → j ≤ mx → 0 < z0 j)
    (hnn : ∀ j, j ≤ M0 + 2 → 0 ≤ z0 j)
    (h1 : mn ≤ k) (h2 : k ≤ mx + 2) : 0 < dipVal M0 p z0 k := by
  have c0 : 0 ≤ ((M0 : ℚ) - k + 1) * ((M0 : ℚ) - k + 2) := coef_nonneg M0 k (by omega)
  have t0 : 0 ≤ ((M0 : ℚ) - k + 1) * ((M0 : ℚ) - k + 2) * p 0 * z0 k :=
    mul_nonneg (mul_nonneg c0 (le_of_lt (hp 0))) (hnn k (by omega))
  have hkq : (k : ℚ) ≤ (M0 : ℚ) + 2 := by exact_mod_cast (show k ≤ M0 + 2 by omega)
  have hk0 : (0 : ℚ) ≤ (k : ℚ) := Nat.cast_nonneg k
  have t1 : 0 ≤ (k : ℚ) * ((M0 : ℚ) - k + 2) * p 1 * z0 (k - 1) :=
    mul_nonneg (mul_nonneg (mul_nonneg hk0 (by linarith)) (le_of_lt (hp 1))) (hnn _ (by omega))
  by_cases hA : k ≤ mx
  · -- the first term is positive
    have hkM : (k : ℚ) ≤ (M0 : ℚ) := by exact_mod_cast (show k ≤ M0 by omega)
    have s0 : 0 < ((M0 : ℚ) - k + 1) * ((M0 : ℚ) - k + 2) * p 0 * z0 k :=
      mul_pos (mul_pos (mul_pos (by linarith) (by linarith)) (hp 0)) (hpos k h1 hA)
    unfold dipVal
    split_ifs with e0 e1
    · exact s0
    · exact add_pos_of_pos_of_nonneg s0 t1
    · have hk1 : (1 : ℚ) ≤ (k : ℚ) := by exact_mod_cast (show 1 ≤ k by omega)
      have t2 : 0 ≤ (k : ℚ) * ((k : ℚ) - 1) * p 2 * z0 (k - 2) :=
        mul_nonneg (mul_nonneg (mul_nonneg hk0 (by linarith)) (le_of_lt (hp 2)))
          (hnn _ (by omega))
      exact add_pos_of_pos_of_nonneg (add_pos_of_pos_of_nonneg s0 t1) t2
  · by_cases hB : k = mx + 1
    · -- the second term is positive
      have hk1 : (1 : ℚ) ≤ (k : ℚ) := by exact_mod_cast (show 1 ≤ k by omega)
      have hkM : (k : ℚ) ≤ (M0 : ℚ) + 1 := by exact_mod_cast (show k ≤ M0 + 1 by omega)
      have hz : 0 < z0 (k - 1) := hpos _ (by omega) (by omega)
      have s1 : 0 < (k : ℚ) * ((M0 : ℚ) - k + 2) * p 1 * z0 (k - 1) :=
        mul_pos (mul_pos (mul_pos (by linarith) (by linarith)) (hp 1)) hz
      unfold dipVal
      split_ifs with e0 e1
      · omega
      · exact add_pos_of_nonneg_of_pos t0 s1
      · have t2 : 0 ≤ (k : ℚ) * ((k : ℚ) - 1) * p 2 * z0 (k - 2) :=
          mul_nonneg (mul_nonneg (mul_nonneg hk0 (by linarith)) (le_of_lt (hp 2)))
            (hnn _ (by omega))
        exact add_pos_of_pos_of_nonneg (add_pos_of_nonneg_of_pos t0 s1) t2
    · -- the third term is positive
      have hk2 : (2 : ℚ) ≤ (k : ℚ) := by exact_mod_cast (show 2 ≤ k by omega)
      have hz : 0 < z0 (k - 2) := hpos _ (by omega) (by omega)
      have s2 : 0 < (k : ℚ) * ((k : ℚ) - 1) * p 2 * z0 (k - 2) :=
        mul_pos (mul_pos (mul_pos (by linarith) (by linarith)) (hp 2)) hz
      unfold dipVal
      split_ifs with e0 e1
      · omega
      · omega
      · exact add_pos_of_nonneg_of_pos (add_nonneg t0 t1) s2

theorem dipUpdate_spec (B M0 : Nat) (pdg : Fin 3 → ℚ) (z0 z1 : Arr) (mn mx : Nat)
    (notLast : Bool) (hpdg : ∀ i, 0 < pdg i) (hle : mn ≤ mx) (hM : mx ≤ M0) (hB : M0 + 2 ≤ B)
    (hpos : ∀ k, mn ≤ k → k ≤ mx → 0 < z0 k)
    (h0 : ∀ k, k ≤ B → (k < mn ∨ mx < k) → z0 k = 0)
    (h1 : ∀ k, k ≤ B → (k < mn ∨ mx < k) → z1 k = 0) :
    (dipUpdate M0 pdg z0 z1 mn mx notLast).2.2 = mx + 2
    ∧ 0 < (dipUpdate M0 pdg z0 z1 mn mx notLast).2.1
    ∧ (∀ k, mn ≤ k → k ≤ mx + 2 → 0 < (dipUpdate M0 pdg z0 z1 mn mx notLast).1 k)
    ∧ (∀ k, k ≤ B → (k < mn ∨ mx + 2 < k) → (dipUpdate M0 pdg z0 z1 mn mx notLast).1 k = 0)
    ∧ sumRange (dipUpdate M0 pdg z0 z1 mn mx notLast).1 mn (mx + 2) = 1 := by
  have hpp : ∀ i : Fin 3, 0 < (![pdg 0, 2 * pdg 1, pdg 2] : Fin 3 → ℚ) i := by
    intro i
    fin_cases i
    · exact hpdg 0
    · exact mul_pos (by norm_num) (hpdg 1)
    · exact hpdg 2
  have hnn : ∀ j, j ≤ M0 + 2 → 0 ≤ z0 j := by
    intro j hj
    by_cases hw : mn ≤ j ∧ j ≤ mx
    · exact le_of_lt (hpos j hw.1 hw.2)
    · exact le_of_eq (h0 j (by omega) (by omega)).symm
  have hv : ∀ k, mn ≤ k → k ≤ mx + 2 → 0 < dipVal M0 ![pdg 0, 2 * pdg 1, pdg 2] z0 k :=
    fun k a b => dipVal_pos M0 _ z0 mn mx k hpp hle hM hpos hnn a b
  obtain ⟨n1, n2, n3, n4⟩ :=
    normalise_window z1 (dipVal M0 ![pdg 0, 2 * pdg 1, pdg 2] z0) mn (mx + 2) (by omega) hv
  have key_in : ∀ k, mn ≤ k → k ≤ mx + 2 → (dipUpdate M0 pdg z0 z1 mn mx notLast).1 k
      = dipVal M0 ![pdg 0, 2 * pdg 1, pdg 2] z0 k
        / sumRange (dipVal M0 ![pdg 0, 2 * pdg 1, pdg 2] z0) mn (mx + 2) := by
    intro k a b
    rw [← n2 k a b]
    simp only [dipUpdate, ite_apply, Arr.set_apply]
    split_ifs <;> first | rfl | (exfalso; omega)
  have key_out : ∀ k, (k < mn ∨ mx + 2 < k) → (dipUpdate M0 pdg z0 z1 mn mx notLast).1 k = 0
      ∨ (dipUpdate M0 pdg z0 z1 mn mx notLast).1 k = z1 k := by
    intro k hk
    have hf : ∀ f g : Nat → ℚ, ((z1.fill mn (mx + 2) f).fill mn (mx + 2) g) k = z1 k := by
      intro f g
      rw [Arr.fill_out _ _ _ _ _ hk, Arr.fill_out _ _ _ _ _ hk]
    simp only [dipUpdate, ite_apply, Arr.set_apply]
    split_ifs <;> first | (left; rfl) | (right; exact hf _ _)
  refine ⟨rfl, n1, fun k a b => ?_, fun k hkB hk => ?_, ?_⟩
  · rw [key_in k a b]
    exact n3 k a b
  · rcases key_out k hk with h | h
    · exact h
    · rw [h]
      exact h1 k hkB (by omega)
  · rw [sumRange_congr key_in]
    exact n4

theorem dipStep_inv (ma : bcf_p1aux_t) (beg j B : Nat) (s : CoreState)
    (hpdg : ∀ i, 0 < pdgOf ma j i) (hB : s.M + 2 ≤ B) (h : CoreInv B s) :
    CoreInv B (dipStep ma beg j s) := by
  obtain ⟨p1, p2, p3, p4, p5⟩ :=
    prune_window B s.z0 s.z1 s.last_min s.last_max h.le h.pos h.out0 h.out1
  obtain ⟨u1, u2, u3, u4, u5⟩ :=
    dipUpdate_spec B s.M (pdgOf ma j) _ _ _ _ (decide (j - beg + 1 < ma.n)) hpdg p2
      (le_trans p3 h.leM) hB p4 (fun k hk hw => (p5 k hk hw).1) (fun k hk hw => (p5 k hk hw).2)
  have hMq : (2 : ℚ) ≤ ((s.M + 2 : Nat) : ℚ) := by exact_mod_cast (show 2 ≤ s.M + 2 by omega)
  have e : (dipStep ma beg j s).last_max = _ := u1
  have e0 : (dipStep ma beg j s).last_min
      = (pruneMin (s.last_max - s.last_min) s.z0 s.z1 s.last_min s.last_max).2.2 := rfl
  refine
    { le := ?_, leM := ?_, leB := hB, pos := ?_, out0 := ?_, out1 := ?_, sum := ?_, etpos := ?_ }
  · rw [e]
    omega
  · rw [e]
    have := h.leM
    show _ ≤ s.M + 2
    omega
  · intro k a b
    rw [e] at b
    exact u3 k a b
  · intro k hk hw
    rw [e] at hw
    exact u4 k hk hw
  · intro k hk hw
    rw [e] at hw
    exact (p5 k hk (by omega)).1
  · rw [e]
    exact u5
  · show 0 < s.et * (_ / (((s.M + 2 : Nat) : ℚ) * (((s.M + 2 : Nat) : ℚ) - 1)))
    exact mul_pos h.etpos (div_pos u2 (mul_pos (by linarith) (by linarith)))

theorem dipStep_M (ma : bcf_p1aux_t) (beg j : Nat) (s : CoreState) :
    (dipStep ma beg j s).M = s.M + 2 := rfl

theorem dipStep_swapped (ma : bcf_p1aux_t) (beg j : Nat) (s : CoreState) :
    (dipStep ma beg j s).swapped = !s.swapped := rfl

theorem coreInit_inv (ma : bcf_p1aux_t) : CoreInv ma.M (coreInit ma) := by
  refine
    { le := le_refl _, leM := le_refl _, leB := Nat.zero_le _, pos := ?_, out0 := ?_,
      out1 := ?_, sum := ?_, etpos := ?_ }
  · intro k a b
    have hk : k = 0 := Nat.le_zero.mp b
    subst hk
    show 0 < ((ma.z.zero (ma.M + 1)).set 0 1) 0
    simp [Arr.set]
  · intro k hk hw
    have hk0 : k ≠ 0 := by
      rcases hw with h | h
      · exact absurd h (Nat.not_lt_zero k)
      · exact Nat.pos_iff_ne_zero.mp h
    show ((ma.z.zero (ma.M + 1)).set 0 1) k = 0
    simp [Arr.set, Arr.zero, hk0, Nat.lt_succ_of_le hk]
  · intro k hk _
    show (ma.zswap.zero (ma.M + 1)) k = 0
    simp [Arr.zero, Nat.lt_succ_of_le hk]
  · show sumRange ((ma.z.zero (ma.M + 1)).set 0 1) 0 0 = 1
    simp [sumRange, sumTo, Arr.set]
  · show (0 : ℚ) < 1
    norm_num

theorem dipLoop_M (ma : bcf_p1aux_t) (beg i : Nat) : (dipLoop ma beg i).M = 2 * i := by
  induction i with
  | zero => rfl
  | succ i ih =>
    show (dipStep ma beg (beg + i) (dipLoop ma beg i)).M = 2 * (i + 1)
    rw [dipStep_M, ih]
    ring

theorem dipLoop_inv (ma : bcf_p1aux_t) (beg i : Nat) (hi : 2 * i ≤ ma.M)
    (hpdg : ∀ j, beg ≤ j → j < beg + i → ∀ c, 0 < pdgOf ma j c) :
    CoreInv ma.M (dipLoop ma beg i) := by
  induction i with
  | zero => exact coreInit_inv ma
  | succ i ih =>
    have h := ih (by omega) (fun j a b c => hpdg j a (by omega) c)
    refine dipStep_inv ma beg (beg + i) ma.M _ (hpdg (beg + i) (by omega) (by omega)) ?_ h
    rw [dipLoop_M]
    omega

theorem sumNatTo_mono (f : Nat → Nat) {i n : Nat} (h : i ≤ n) : sumNatTo f i ≤ sumNatTo f n := by
  induction n with
  | zero =>
    have : i = 0 := Nat.le_zero.mp h
    subst this
    exact le_refl _
  | succ n ih =>
    rcases Nat.lt_or_eq_of_le h with h1 | h1
    · exact le_trans (ih (Nat.lt_succ_iff.mp h1)) (Nat.le_add_right _ _)
    · subst h1
      exact le_refl _

/-- What `mc_cal_y_core` leaves in `z[0..M]` is the buffer `z[0]` of the final state. -/
theorem coreFinish_z (ma : bcf_p1aux_t) (s : CoreState) (k : Nat) (hk : k ≤ ma.M) :
    (coreFinish ma s).z k = s.z0 k := by
  show (if s.swapped then s.z1.copy s.z0 (ma.M + 1) else s.z0) k = s.z0 k
  split_ifs
  · simp [Arr.copy, Nat.lt_succ_of_le hk]
  · rfl

theorem pruneMin_congr (B fuel : Nat) (z0 z1 y0 y1 : Arr) (mn mx : Nat) (hle : mn ≤ mx)
    (hB : mx ≤ B) (h0 : ∀ k, k ≤ B → z0 k = y0 k) (h1 : ∀ k, k ≤ B → z1 k = y1 k) :
    (pruneMin fuel z0 z1 mn mx).2.2 = (pruneMin fuel y0 y1 mn mx).2.2
    ∧ (∀ k, k ≤ B → (pruneMin fuel z0 z1 mn mx).1 k = (pruneMin fuel y0 y1 mn mx).1 k)
    ∧ (∀ k, k ≤ B → (pruneMin fuel z0 z1 mn mx).2.1 k = (pruneMin fuel y0 y1 mn mx).2.1 k) := by
  have e : (pruneMin fuel z0 z1 mn mx).2.2 = (pruneMin fuel y0 y1 mn mx).2.2 := by
    induction fuel generalizing z0 z1 y0 y1 mn with
    | zero => rfl
    | succ fuel ih =>
      unfold pruneMin
      by_cases hc : mn < mx
      · rw [← h0 mn (by omega)]
        split_ifs with hd
        · refine ih _ _ _ _ (mn + 1) (by omega) (fun k hk => ?_) (fun k hk => ?_)
          · simp only [Arr.set_apply, h0 k hk]
          · simp only [Arr.set_apply, h1 k hk]
        · rfl
      · rw [if_neg (fun h => hc h.1), if_neg (fun h => hc h.1)]
  obtain ⟨_, _, a3, a4⟩ := pruneMin_spec fuel z0 z1 mn mx hle
  obtain ⟨_, _, b3, b4⟩ := pruneMin_spec fuel y0 y1 mn mx hle
  refine ⟨e, fun k hk => ?_, fun k hk => ?_⟩
  · rw [a3 k, b3 k, e, h0 k hk]
  · rw [a4 k, b4 k, e, h1 k hk]

theorem pruneMax_congr (B fuel : Nat) (z0 z1 y0 y1 : Arr) (mn mx : Nat) (hle : mn ≤ mx)
    (hB : mx ≤ B) (h0 : ∀ k, k ≤ B → z0 k = y0 k) (h1 : ∀ k, k ≤ B → z1 k = y1 k) :
    (pruneMax fuel z0 z1 mn mx).2.2 = (pruneMax fuel y0 y1 mn mx).2.2
    ∧ (∀ k, k ≤ B → (pruneMax fuel z0 z1 mn mx).1 k = (pruneMax fuel y0 y1 mn mx).1 k)
    ∧ (∀ k, k ≤ B → (pruneMax fuel z0 z1 mn mx).2.1 k = (pruneMax fuel y0 y1 mn mx).2.1 k) := by
  have e : (pruneMax fuel z0 z1 mn mx).2.2 = (pruneMax fuel y0 y1 mn mx).2.2 := by
    induction fuel generalizing z0 z1 y0 y1 mx with
    | zero => rfl
    | succ fuel ih =>
      unfold pruneMax
      by_cases hc : mx > mn
      · rw [← h0 mx hB]
        split_ifs with hd
        · refine ih _ _ _ _ (mx - 1) (by omega) (by omega) (fun k hk => ?_) (fun k hk => ?_)
          · simp only [Arr.set_apply, h0 k hk]
          · simp only [Arr.set_apply, h1 k hk]
        · rfl
      · rw [if_neg (fun h => hc h.1), if_neg (fun h => hc h.1)]
  obtain ⟨_, _, a3, a4⟩ := pruneMax_spec fuel z0 z1 mn mx hle
  obtain ⟨_, _, b3, b4⟩ := pruneMax_spec fuel y0 y1 mn mx hle
  refine ⟨e, fun k hk => ?_, fun k hk => ?_⟩
  · rw [a3 k, b3 k, e, h0 k hk]
  · rw [a4 k, b4 k, e, h1 k hk]

theorem dipVal_congr (B M0 : Nat) (p : Fin 3 → ℚ) (z0 y0 : Arr) (k : Nat) (hk : k ≤ B)
    (h0 : ∀ k, k ≤ B → z0 k = y0 k) : dipVal M0 p z0 k = dipVal M0 p y0 k := by
  unfold dipVal
  rw [h0 k hk, h0 (k - 1) (by omega), h0 (k - 2) (by omega)]

theorem dipUpdate_congr (B M0 : Nat) (pdg : Fin 3 → ℚ) (z0 z1 y0 y1 : Arr) (mn mx : Nat)
    (notLast : Bool) (h0 : ∀ k, k ≤ B → z0 k = y0 k) (h1 : ∀ k, k ≤ B → z1 k = y1 k)
    (hB : mx + 2 ≤ B) :
    (dipUpdate M0 pdg z0 z1 mn mx notLast).2.1 = (dipUpdate M0 pdg y0 y1 mn mx notLast).2.1
    ∧ (dipUpdate M0 pdg z0 z1 mn mx notLast).2.2 = (dipUpdate M0 pdg y0 y1 mn mx notLast).2.2
    ∧ (∀ k, k ≤ B → (dipUpdate M0 pdg z0 z1 mn mx notLast).1 k
        = (dipUpdate M0 pdg y0 y1 mn mx notLast).1 k) := by
  have ha : ∀ k, k ≤ B → (z1.fill mn (mx + 2) (dipVal M0 ![pdg 0, 2 * pdg 1, pdg 2] z0)) k
      = (y1.fill mn (mx + 2) (dipVal M0 ![pdg 0, 2 * pdg 1, pdg 2] y0)) k := by
    intro k hk
    simp only [Arr.fill]
    split_ifs
    · exact dipVal_congr B M0 _ z0 y0 k hk h0
    · exact h1 k hk
  have hs : sumRange (z1.fill mn (mx + 2) (dipVal M0 ![pdg 0, 2 * pdg 1, pdg 2] z0)) mn (mx + 2)
      = sumRange (y1.fill mn (mx + 2) (dipVal M0 ![pdg 0, 2 * pdg 1, pdg 2] y0)) mn (mx + 2) :=
    sumRange_congr (fun k _ b => ha k (by omega))
  have hb : ∀ k, k ≤ B →
      ((z1.fill mn (mx + 2) (dipVal M0 ![pdg 0, 2 * pdg 1, pdg 2] z0)).fill mn (mx + 2)
        (fun k => (z1.fill mn (mx + 2) (dipVal M0 ![pdg 0, 2 * pdg 1, pdg 2] z0)) k
          / sumRange (z1.fill mn (mx + 2) (dipVal M0 ![pdg 0, 2 * pdg 1, pdg 2] z0)) mn (mx + 2))) k
      = ((y1.fill mn (mx + 2) (dipVal M0 ![pdg 0, 2 * pdg 1, pdg 2] y0)).fill mn (mx + 2)
        (fun k => (y1.fill mn (mx + 2) (dipVal M0 ![pdg 0, 2 * pdg 1, pdg 2] y0)) k
          / sumRange (y1.fill mn (mx + 2) (dipVal M0 ![pdg 0, 2 * pdg 1, pdg 2] y0)) mn (mx + 2))) k := by
    intro k hk
    rw [hs]
    simp only [Arr.fill]
    split_ifs
    · rw [dipVal_congr B M0 _ z0 y0 k hk h0]
    · exact h1 k hk
  refine ⟨hs, rfl, fun k hk => ?_⟩
  simp only [dipUpdate, ite_apply, Arr.set_apply]
  split_ifs <;> first | rfl | exact hb k hk

theorem dipStep_congr (ma mb : bcf_p1aux_t) (beg j B : Nat) (s t : CoreState)
    (hpdg : ma.pdg = mb.pdg) (hn : ma.n = mb.n) (h : CoreEq B s t) (hB : s.M + 2 ≤ B) :
    CoreEq B (dipStep ma beg j s) (dipStep mb beg j t) := by
  obtain ⟨hmin, hmax, hM, het, hsw, hz0, hz1, hle, hleM⟩ := h
  obtain ⟨sz0, sz1, ssw, smn, smx, sM, set, set1, scz1⟩ := s
  obtain ⟨tz0, tz1, tsw, tmn, tmx, tM, tet, tet1, tcz1⟩ := t
  simp only at hmin hmax hM het hsw hz0 hz1 hle hleM hB
  subst hmin hmax hM het hsw
  have hp : pdgOf ma j = pdgOf mb j := by
    funext i
    simp only [pdgOf, hpdg]
  obtain ⟨a1, a2, _, _⟩ := pruneMin_spec (smx - smn) sz0 sz1 smn smx hle
  obtain ⟨c1, c2, c3⟩ :=
    pruneMin_congr B (smx - smn) sz0 sz1 tz0 tz1 smn smx hle (by omega) hz0 hz1
  simp only [dipStep]
  generalize pruneMin (smx - smn) sz0 sz1 smn smx = r1s at a1 a2 c1 c2 c3 ⊢
  generalize pruneMin (smx - smn) tz0 tz1 smn smx = r1t at c1 c2 c3 ⊢
  obtain ⟨ps0, ps1, pm⟩ := r1s
  obtain ⟨pt0, pt1, pm'⟩ := r1t
  simp only at a1 a2 c1 c2 c3 ⊢
  subst c1
  obtain ⟨b1, b2, _, _⟩ := pruneMax_spec (smx - pm) ps0 ps1 pm smx a2
  obtain ⟨d1, d2, d3⟩ := pruneMax_congr B (smx - pm) ps0 ps1 pt0 pt1 pm smx a2 (by omega) c2 c3
  generalize pruneMax (smx - pm) ps0 ps1 pm smx = r2s at b1 b2 d1 d2 d3 ⊢
  generalize pruneMax (smx - pm) pt0 pt1 pm smx = r2t at d1 d2 d3 ⊢
  obtain ⟨qs0, qs1, qm⟩ := r2s
  obtain ⟨qt0, qt1, qm'⟩ := r2t
  simp only at b1 b2 d1 d2 d3 ⊢
  subst d1
  obtain ⟨e1, e2, e3⟩ :=
    dipUpdate_congr B sM (pdgOf ma j) qs0 qs1 qt0 qt1 pm qm (decide (j - beg + 1 < ma.n))
      d2 d3 (by omega)
  rw [← hp, ← hn]
  refine
    { hmin := rfl, hmax := e2, hM := rfl, het := ?_, hsw := rfl, hz0 := e3, hz1 := d2,
      hle := ?_, hleM := ?_ }
  · simp only [e1]
  · simp only [dipUpdate]
    omega
  · simp only [dipUpdate]
    omega

theorem coreInit_congr (ma mb : bcf_p1aux_t) (hM : ma.M = mb.M) :
    CoreEq ma.M (coreInit ma) (coreInit mb) := by
  refine
    { hmin := rfl, hmax := rfl, hM := rfl, het := rfl, hsw := rfl, hz0 := ?_, hz1 := ?_,
      hle := le_refl _, hleM := le_refl _ }
  · intro k hk
    show ((ma.z.zero (ma.M + 1)).set 0 1) k = ((mb.z.zero (mb.M + 1)).set 0 1) k
    rw [← hM]
    simp [Arr.set, Arr.zero, Nat.lt_succ_of_le hk]
  · intro k hk
    show (ma.zswap.zero (ma.M + 1)) k = (mb.zswap.zero (mb.M + 1)) k
    rw [← hM]
    simp [Arr.zero, Nat.lt_succ_of_le hk]

theorem dipLoop_congr (ma mb : bcf_p1aux_t) (beg i : Nat) (hpdg : ma.pdg = mb.pdg)
    (hn : ma.n = mb.n) (hM : ma.M = mb.M) (hi : 2 * i ≤ ma.M) :
    CoreEq ma.M (dipLoop ma beg i) (dipLoop mb beg i) := by
  induction i with
  | zero => exact coreInit_congr ma mb hM
  | succ i ih =>
    refine dipStep_congr ma mb beg (beg + i) ma.M _ _ hpdg hn (ih (by omega)) ?_
    rw [dipLoop_M]
    omega

/-! ### The checkpoint and the two-stage pass -/

/-- In a uniformly diploid context `mc_cal_y_core` is its first loop. -/
theorem mc_cal_y_core_dip (ma : bcf_p1aux_t) (beg : Nat) (hM : ma.M = ma.n * 2) :
    mc_cal_y_core ma beg = coreFinish ma (dipLoop ma beg (ma.n - beg)) := by
  unfold mc_cal_y_core
  rw [if_pos hM]

/-- Once the sample `n1 - 1` is processed, `t1` holds the value `t` had after it. -/
theorem dipLoop_et1 (ma : bcf_p1aux_t) (beg i c : Nat) (hn1 : ma.n1 = (c : Int) + 1)
    (hb : beg ≤ c) (hi : c - beg < i) :
    (dipLoop ma beg i).et1 = (dipLoop ma beg (c - beg + 1)).et := by
  induction i with
  | zero => omega
  | succ i ih =>
    show (if decide (((beg + i : Nat) : Int) = ma.n1 - 1) = true
        then (dipStep ma beg (beg + i) (dipLoop ma beg i)).et else (dipLoop ma beg i).et1) = _
    by_cases hc : beg + i = c
    · have hd : ((beg + i : Nat) : Int) = ma.n1 - 1 := by rw [hn1, hc]; ring
      rw [if_pos (decide_eq_true hd)]
      have : c - beg + 1 = i + 1 := by omega
      rw [this]
      rfl
    · have hd : ¬ ((beg + i : Nat) : Int) = ma.n1 - 1 := by
        rw [hn1]
        intro h
        apply hc
        have : ((beg + i : Nat) : Int) = (c : Int) := by linarith
        exact_mod_cast this
      rw [if_neg (by simpa using hd)]
      exact ih (by omega)

/-- A pass that starts at or after the sample `n1` leaves `t1` as it was. -/
theorem dipLoop_et1_none (ma : bcf_p1aux_t) (beg i : Nat) (hb : ma.n1 ≤ (beg : Int)) :
    (dipLoop ma beg i).et1 = ma.et1 := by
  induction i with
  | zero => rfl
  | succ i ih =>
    show (if decide (((beg + i : Nat) : Int) = ma.n1 - 1) = true
        then (dipStep ma beg (beg + i) (dipLoop ma beg i)).et else (dipLoop ma beg i).et1) = _
    have hd : ¬ ((beg + i : Nat) : Int) = ma.n1 - 1 := by
      push_cast
      omega
    rw [if_neg (by simpa using hd)]
    exact ih

/-- The rescaling factor `exp (t - (t1 + t2))` of `mc_cal_y`: `t` and `t1` as the
full pass leaves them, `t2` the `t` of the pass over the samples `n1..n-1`. -/
theorem mc_cal_y_z (ma : bcf_p1aux_t) (hM : ma.M = ma.n * 2) (h1 : 0 < ma.n1)
    (h2 : ma.n1 < (ma.n : Int)) (k : Nat) (hk : k ≤ ma.M) :
    (mc_cal_y ma).z k = (mc_cal_y_core ma 0).z k
      * ((mc_cal_y_core ma 0).et
          / ((mc_cal_y_core ma 0).et1 * (mc_cal_y_core ma ma.n1.toNat).et)) := by
  obtain ⟨c, hc⟩ : ∃ c : Nat, ma.n1 = (c : Int) + 1 := ⟨(ma.n1 - 1).toNat, by omega⟩
  have hcn : c + 1 < ma.n := by omega
  -- the three contexts of the two-stage path
  let a : bcf_p1aux_t := { ma with
    z1 := ma.z1.zero (2 * ma.n1.toNat + 1)
    z2 := ma.z2.zero (2 * (ma.n - ma.n1.toNat) + 1)
    et1 := 1
    et2 := 1 }
  let b : bcf_p1aux_t := mc_cal_y_core a ma.n1.toNat
  let c' : bcf_p1aux_t := { b with et2 := b.et, z2 := b.z2.copy b.z (2 * (ma.n - ma.n1.toNat) + 1) }
  let d : bcf_p1aux_t := mc_cal_y_core c' 0
  have hb : b = coreFinish a (dipLoop a ma.n1.toNat (a.n - ma.n1.toNat)) :=
    mc_cal_y_core_dip a ma.n1.toNat hM
  have hcM : c'.M = c'.n * 2 := by
    show b.M = b.n * 2
    rw [hb]
    exact hM
  have hcn' : c'.n = ma.n := by
    show b.n = ma.n
    rw [hb]
    rfl
  have hcM' : c'.M = ma.M := by
    show b.M = ma.M
    rw [hb]
    rfl
  have hcp : c'.pdg = ma.pdg := by
    show b.pdg = ma.pdg
    rw [hb]
    rfl
  have hcn1 : c'.n1 = ma.n1 := by
    show b.n1 = ma.n1
    rw [hb]
    rfl
  have hd : d = coreFinish c' (dipLoop c' 0 (c'.n - 0)) := mc_cal_y_core_dip c' 0 hcM
  have hm : mc_cal_y_core ma 0 = coreFinish ma (dipLoop ma 0 (ma.n - 0)) :=
    mc_cal_y_core_dip ma 0 hM
  have hm2 : mc_cal_y_core ma ma.n1.toNat
      = coreFinish ma (dipLoop ma ma.n1.toNat (ma.n - ma.n1.toNat)) :=
    mc_cal_y_core_dip ma ma.n1.toNat hM
  have hdM : d.M = ma.M := by
    rw [hd]
    exact hcM'
  have e0 : (mc_cal_y ma).z k = d.z k * (d.et / (d.et1 * d.et2)) := by
    unfold mc_cal_y
    rw [if_pos ⟨h1, h2, hM⟩]
    show (d.z.fill 0 d.M (fun k => d.z k * (d.et / (d.et1 * d.et2)))) k = _
    rw [Arr.fill_in _ _ _ _ _ (Nat.zero_le k) (by rw [hdM]; exact hk)]
  -- the second pass agrees with the pass on the untouched context
  have q := dipLoop_congr c' ma 0 (ma.n - 0) hcp hcn' hcM' (by rw [hcM']; omega)
  rw [hcM'] at q
  have qz : d.z k = (mc_cal_y_core ma 0).z k := by
    rw [hd, hm, coreFinish_z c' _ k (by rw [hcM']; exact hk), coreFinish_z ma _ k hk, hcn']
    exact q.hz0 k hk
  have qet : d.et = (mc_cal_y_core ma 0).et := by
    rw [hd, hm, hcn']
    exact q.het
  have q1 := dipLoop_congr c' ma 0 (c - 0 + 1) hcp hcn' hcM' (by rw [hcM']; omega)
  have qet1 : d.et1 = (mc_cal_y_core ma 0).et1 := by
    rw [hd, hm, hcn']
    show (dipLoop c' 0 (ma.n - 0)).et1 = (dipLoop ma 0 (ma.n - 0)).et1
    rw [dipLoop_et1 c' 0 (ma.n - 0) c (by rw [hcn1]; exact hc) (Nat.zero_le c) (by omega),
      dipLoop_et1 ma 0 (ma.n - 0) c hc (Nat.zero_le c) (by omega)]
    exact q1.het
  have q2 := dipLoop_congr a ma ma.n1.toNat (ma.n - ma.n1.toNat) rfl rfl rfl
    (by show _ ≤ ma.M; omega)
  have qet2 : d.et2 = (mc_cal_y_core ma ma.n1.toNat).et := by
    rw [hd, hm2]
    show b.et = _
    rw [hb]
    exact q2.het
  rw [e0, qz, qet, qet1, qet2]

/-! ### Evaluation of a step that prunes nothing -/

theorem pruneMin_stop (fuel : Nat) (z0 z1 : Arr) (mn mx : Nat)
    (h : ¬ (mn < mx ∧ z0 mn < TINY)) : pruneMin fuel z0 z1 mn mx = (z0, z1, mn) := by
  cases fuel with
  | zero => rfl
  | succ fuel =>
    unfold pruneMin
    rw [if_neg h]

theorem pruneMax_stop (fuel : Nat) (z0 z1 : Arr) (mn mx : Nat)
    (h : ¬ (mx > mn ∧ z0 mx < TINY)) : pruneMax fuel z0 z1 mn mx = (z0, z1, mx) := by
  cases fuel with
  | zero => rfl
  | succ fuel =>
    unfold pruneMax
    rw [if_neg h]

/-- A diploid step on a window whose two ends are not below `TINY`. -/
theorem dipStep_eval (ma : bcf_p1aux_t) (beg j : Nat) (s : CoreState)
    (hmin : ¬ (s.last_min < s.last_max ∧ s.z0 s.last_min < TINY))
    (hmax : ¬ (s.last_max > s.last_min ∧ s.z0 s.last_max < TINY)) :
    (dipStep ma beg j s).last_min = s.last_min
    ∧ (dipStep ma beg j s).last_max = s.last_max + 2
    ∧ (dipStep ma beg j s).M = s.M + 2
    ∧ (dipStep ma beg j s).et
        = s.et * (sumRange (dipVal s.M ![pdgOf ma j 0, 2 * pdgOf ma j 1, pdgOf ma j 2] s.z0)
            s.last_min (s.last_max + 2) / (((s.M + 2 : Nat) : ℚ) * (((s.M + 2 : Nat) : ℚ) - 1)))
    ∧ (∀ k, s.last_min ≤ k → k ≤ s.last_max + 2 →
        (dipStep ma beg j s).z0 k
          = dipVal s.M ![pdgOf ma j 0, 2 * pdgOf ma j 1, pdgOf ma j 2] s.z0 k
            / sumRange (dipVal s.M ![pdgOf ma j 0, 2 * pdgOf ma j 1, pdgOf ma j 2] s.z0)
                s.last_min (s.last_max + 2)) := by
  have hs : sumRange (s.z1.fill s.last_min (s.last_max + 2)
        (dipVal s.M ![pdgOf ma j 0, 2 * pdgOf ma j 1, pdgOf ma j 2] s.z0))
        s.last_min (s.last_max + 2)
      = sumRange (dipVal s.M ![pdgOf ma j 0, 2 * pdgOf ma j 1, pdgOf ma j 2] s.z0)
        s.last_min (s.last_max + 2) :=
    sumRange_congr (fun k a b => Arr.fill_in _ _ _ _ k a b)
  refine ⟨?_, ?_, rfl, ?_, fun k a b => ?_⟩
  · simp only [dipStep, pruneMin_stop _ _ _ _ _ hmin]
  · simp only [dipStep, pruneMin_stop _ _ _ _ _ hmin, pruneMax_stop _ _ _ _ _ hmax, dipUpdate]
  · simp only [dipStep, pruneMin_stop _ _ _ _ _ hmin, pruneMax_stop _ _ _ _ _ hmax, dipUpdate, hs]
  · simp only [dipStep, pruneMin_stop _ _ _ _ _ hmin, pruneMax_stop _ _ _ _ _ hmax, dipUpdate, hs,
      ite_apply, Arr.set_apply]
    have e : ((s.z1.fill s.last_min (s.last_max + 2)
          (dipVal s.M ![pdgOf ma j 0, 2 * pdgOf ma j 1, pdgOf ma j 2] s.z0)).fill
          s.last_min (s.last_max + 2) fun k =>
            (s.z1.fill s.last_min (s.last_max + 2)
              (dipVal s.M ![pdgOf ma j 0, 2 * pdgOf ma j 1, pdgOf ma j 2] s.z0)) k
            / sumRange (dipVal s.M ![pdgOf ma j 0, 2 * pdgOf ma j 1, pdgOf ma j 2] s.z0)
                s.last_min (s.last_max + 2)) k
        = dipVal s.M ![pdgOf ma j 0, 2 * pdgOf ma j 1, pdgOf ma j 2] s.z0 k
            / sumRange (dipVal s.M ![pdgOf ma j 0, 2 * pdgOf ma j 1, pdgOf ma j 2] s.z0)
                s.last_min (s.last_max + 2) := by
      rw [Arr.fill_in _ _ _ _ k a b, Arr.fill_in _ _ _ _ k a b]
    rw [← e]
    split_ifs <;> first | rfl | (exfalso; omega)

/-! ### The two passes on `ctxSplit` -/

theorem ctxSplit_pdg (j : Nat) :
    (![pdgOf ctxSplit j 0, 2 * pdgOf ctxSplit j 1, pdgOf ctxSplit j 2] : Fin 3 → ℚ)
      = ![1, 2, 1] := by
  simp [pdgOf, ctxSplit]

/-- The first diploid step on `ctxSplit`, whichever sample it reads. -/
theorem ctxSplit_first (beg j : Nat) :
    (dipStep ctxSplit beg j (coreInit ctxSplit)).last_min = 0
    ∧ (dipStep ctxSplit beg j (coreInit ctxSplit)).last_max = 2
    ∧ (dipStep ctxSplit beg j (coreInit ctxSplit)).M = 2
    ∧ (dipStep ctxSplit beg j (coreInit ctxSplit)).et = 3
    ∧ (dipStep ctxSplit beg j (coreInit ctxSplit)).z0 0 = 1 / 3
    ∧ (dipStep ctxSplit beg j (coreInit ctxSplit)).z0 1 = 1 / 3
    ∧ (dipStep ctxSplit beg j (coreInit ctxSplit)).z0 2 = 1 / 3 := by
  obtain ⟨a1, a2, a3, a4, a5⟩ := dipStep_eval ctxSplit beg j (coreInit ctxSplit)
    (by simp [coreInit]) (by simp [coreInit])
  have hM : ctxSplit.M = 4 := rfl
  have i0 : (coreInit ctxSplit).z0 0 = 1 := by simp [coreInit, Arr.set]
  have i1 : (coreInit ctxSplit).z0 1 = 0 := by simp [coreInit, Arr.set, Arr.zero, hM]
  have i2 : (coreInit ctxSplit).z0 2 = 0 := by simp [coreInit, Arr.set, Arr.zero, hM]
  have hmn : (coreInit ctxSplit).last_min = 0 := rfl
  have hmx : (coreInit ctxSplit).last_max = 0 := rfl
  have hM0 : (coreInit ctxSplit).M = 0 := rfl
  have het : (coreInit ctxSplit).et = 1 := rfl
  rw [ctxSplit_pdg, hmn, hmx, hM0] at a5
  rw [ctxSplit_pdg, hmn, hmx, hM0, het] at a4
  have v0 : dipVal 0 ![1, 2, 1] (coreInit ctxSplit).z0 0 = 2 := by
    norm_num [dipVal, i0]
  have v1 : dipVal 0 ![1, 2, 1] (coreInit ctxSplit).z0 1 = 2 := by
    norm_num [dipVal, i0, i1]
  have v2 : dipVal 0 ![1, 2, 1] (coreInit ctxSplit).z0 2 = 2 := by
    norm_num [dipVal, i0, i1, i2]
  have hs : sumRange (dipVal 0 ![1, 2, 1] (coreInit ctxSplit).z0) 0 (0 + 2) = 6 := by
    norm_num [sumRange, sumTo, v0, v1, v2]
  rw [hs] at a4 a5
  refine ⟨a1.trans hmn, by rw [a2, hmx], by rw [a3, hM0], ?_, ?_, ?_, ?_⟩
  · rw [a4]; norm_num
  · rw [a5 0 (by omega) (by omega), v0]; norm_num
  · rw [a5 1 (by omega) (by omega), v1]; norm_num
  · rw [a5 2 (by omega) (by omega), v2]; norm_num

/-- The second diploid step of the full pass on `ctxSplit`. -/
theorem ctxSplit_second :
    (dipStep ctxSplit 0 1 (dipStep ctxSplit 0 0 (coreInit ctxSplit))).et = 5
    ∧ ∀ k, k ≤ 4 →
        (dipStep ctxSplit 0 1 (dipStep ctxSplit 0 0 (coreInit ctxSplit))).z0 k = 1 / 5 := by
  obtain ⟨b1, b2, b3, b4, b5, b6, b7⟩ := ctxSplit_first 0 0
  have hT : ¬ ((1 : ℚ) / 3 < TINY) := by norm_num [TINY]
  obtain ⟨a1, a2, a3, a4, a5⟩ := dipStep_eval ctxSplit 0 1 (dipStep ctxSplit 0 0 (coreInit ctxSplit))
    (by rw [b1, b5]; exact fun h => hT h.2) (by rw [b2, b7]; exact fun h => hT h.2)
  rw [ctxSplit_pdg, b1, b2, b3] at a5
  rw [ctxSplit_pdg, b1, b2, b3, b4] at a4
  have v0 : dipVal 2 ![1, 2, 1] (dipStep ctxSplit 0 0 (coreInit ctxSplit)).z0 0 = 4 := by
    norm_num [dipVal, b5]
  have v1 : dipVal 2 ![1, 2, 1] (dipStep ctxSplit 0 0 (coreInit ctxSplit)).z0 1 = 4 := by
    norm_num [dipVal, b5, b6]
  have v2 : dipVal 2 ![1, 2, 1] (dipStep ctxSplit 0 0 (coreInit ctxSplit)).z0 2 = 4 := by
    norm_num [dipVal, b5, b6, b7]
  have v3 : dipVal 2 ![1, 2, 1] (dipStep ctxSplit 0 0 (coreInit ctxSplit)).z0 3 = 4 := by
    norm_num [dipVal, b5, b6, b7]
  have v4 : dipVal 2 ![1, 2, 1] (dipStep ctxSplit 0 0 (coreInit ctxSplit)).z0 4 = 4 := by
    norm_num [dipVal, b5, b6, b7]
  have hs : sumRange (dipVal 2 ![1, 2, 1] (dipStep ctxSplit 0 0 (coreInit ctxSplit)).z0) 0 (2 + 2)
      = 20 := by
    norm_num [sumRange, sumTo, v0, v1, v2, v3, v4]
  rw [hs] at a4 a5
  refine ⟨?_, fun k hk => ?_⟩
  · rw [a4]; norm_num
  · rw [a5 k (by omega) (by omega)]
    interval_cases k
    · rw [v0]; norm_num
    · rw [v1]; norm_num
    · rw [v2]; norm_num
    · rw [v3]; norm_num
    · rw [v4]; norm_num

/-! ### What the passes leave untouched -/

theorem coreFinish_frame (ma : bcf_p1aux_t) (s : CoreState) :
    (coreFinish ma s).afs = ma.afs ∧ (coreFinish ma s).afs1 = ma.afs1
    ∧ (coreFinish ma s).phi = ma.phi ∧ (coreFinish ma s).phi_indel = ma.phi_indel
    ∧ (coreFinish ma s).is_indel = ma.is_indel ∧ (coreFinish ma s).M = ma.M
    ∧ (coreFinish ma s).n = ma.n ∧ (coreFinish ma s).n1 = ma.n1
    ∧ (coreFinish ma s).pdg = ma.pdg ∧ (coreFinish ma s).hg = ma.hg :=
  ⟨rfl, rfl, rfl, rfl, rfl, rfl, rfl, rfl, rfl, rfl⟩

theorem mc_cal_y_core_frame (ma : bcf_p1aux_t) (beg : Nat) :
    (mc_cal_y_core ma beg).afs = ma.afs ∧ (mc_cal_y_core ma beg).afs1 = ma.afs1
    ∧ (mc_cal_y_core ma beg).phi = ma.phi ∧ (mc_cal_y_core ma beg).phi_indel = ma.phi_indel
    ∧ (mc_cal_y_core ma beg).is_indel = ma.is_indel ∧ (mc_cal_y_core ma beg).M = ma.M
    ∧ (mc_cal_y_core ma beg).n = ma.n ∧ (mc_cal_y_core ma beg).n1 = ma.n1
    ∧ (mc_cal_y_core ma beg).pdg = ma.pdg ∧ (mc_cal_y_core ma beg).hg = ma.hg := by
  unfold mc_cal_y_core
  split_ifs
  · exact coreFinish_frame ma _
  · cases ma.ploidy with
    | none => exact coreFinish_frame ma _
    | some pl => exact coreFinish_frame ma _

theorem mc_cal_y_frame (ma : bcf_p1aux_t) :
    (mc_cal_y ma).afs = ma.afs ∧ (mc_cal_y ma).afs1 = ma.afs1
    ∧ (mc_cal_y ma).phi = ma.phi ∧ (mc_cal_y ma).phi_indel = ma.phi_indel
    ∧ (mc_cal_y ma).is_indel = ma.is_indel ∧ (mc_cal_y ma).M = ma.M
    ∧ (mc_cal_y ma).n = ma.n ∧ (mc_cal_y ma).n1 = ma.n1
    ∧ (mc_cal_y ma).pdg = ma.pdg ∧ (mc_cal_y ma).hg = ma.hg := by
  unfold mc_cal_y
  split_ifs
  · obtain ⟨a1, a2, a3, a4, a5, a6, a7, a8, a9, a10⟩ := mc_cal_y_core_frame
      { ma with
        z1 := ma.z1.zero (2 * ma.n1.toNat + 1)
        z2 := ma.z2.zero (2 * (ma.n - ma.n1.toNat) + 1)
        et1 := 1
        et2 := 1 } ma.n1.toNat
    obtain ⟨b1, b2, b3, b4, b5, b6, b7, b8, b9, b10⟩ := mc_cal_y_core_frame
      { mc_cal_y_core
          { ma with
            z1 := ma.z1.zero (2 * ma.n1.toNat + 1)
            z2 := ma.z2.zero (2 * (ma.n - ma.n1.toNat) + 1)
            et1 := 1
            et2 := 1 } ma.n1.toNat with
        et2 := (mc_cal_y_core
          { ma with
            z1 := ma.z1.zero (2 * ma.n1.toNat + 1)
            z2 := ma.z2.zero (2 * (ma.n - ma.n1.toNat) + 1)
            et1 := 1
            et2 := 1 } ma.n1.toNat).et
        z2 := (mc_cal_y_core
          { ma with
            z1 := ma.z1.zero (2 * ma.n1.toNat + 1)
            z2 := ma.z2.zero (2 * (ma.n - ma.n1.toNat) + 1)
            et1 := 1
            et2 := 1 } ma.n1.toNat).z2.copy
            (mc_cal_y_core
              { ma with
                z1 := ma.z1.zero (2 * ma.n1.toNat + 1)
                z2 := ma.z2.zero (2 * (ma.n - ma.n1.toNat) + 1)
                et1 := 1
                et2 := 1 } ma.n1.toNat).z (2 * (ma.n - ma.n1.toNat) + 1) } 0
    exact ⟨b1.trans a1, b2.trans a2, b3.trans a3, b4.trans a4, b5.trans a5, b6.trans a6,
      b7.trans a7, b8.trans a8, b9.trans a9, b10.trans a10⟩
  · exact mc_cal_y_core_frame ma 0

/-! ### The genotype caller -/

/-- The packing `q<<2|g` of a quality and a genotype index below four. -/
theorem pack_eq (q g : Nat) (hg : g < 4) :
    (q <<< 2) ||| g = 4 * q + g ∧ ((q <<< 2) ||| g) % 4 = g ∧ ((q <<< 2) ||| g) / 4 = q := by
  have h : (q <<< 2) ||| g = 4 * q + g := by
    rw [Nat.shiftLeft_eq, Nat.mul_comm]
    exact (Nat.mul_add_lt_is_or (i := 2) (by simpa using hg) q).symm
  rw [h]
  refine ⟨rfl, by omega, by omega⟩

theorem truncInt_nonneg {x : ℚ} (hx : 0 ≤ x) : 0 ≤ truncInt x := by
  unfold truncInt
  rw [if_pos hx]
  exact Int.floor_nonneg.mpr hx

theorem truncInt_ge {x : ℚ} (n : Int) (hn : 0 ≤ n) (hx : (n : ℚ) ≤ x) : n ≤ truncInt x := by
  have h0 : (0 : ℚ) ≤ x := le_trans (by exact_mod_cast hn) hx
  unfold truncInt
  rw [if_pos h0]
  exact Int.le_floor.mpr hx

theorem callQual_le (ext : Ext) (m : ℚ) : callQual ext m ≤ 99 := by
  unfold callQual
  simp only
  split_ifs <;> omega

/-- The quality when `max = 1`: the floor `1e-308` is taken and the cap `99` is
reached as soon as `log 1e-308 ≤ -23`. -/
theorem callQual_one (ext : Ext) (hlog : ext.log (1 / 10 ^ 308) ≤ -23) : callQual ext 1 = 99 := by
  have hx : ((100 : Int) : ℚ) ≤ -(4343 / 1000) * ext.log (1 / 10 ^ 308) + 499 / 1000 := by
    push_cast
    linarith
  have h := truncInt_ge 100 (by decide) hx
  have e1 : (1 : ℚ) - 1 < 1 / 10 ^ 308 := by norm_num
  have e2 : truncInt (-(4343 / 1000) * ext.log (1 / 10 ^ 308) + 499 / 1000) > 99 := by omega
  unfold callQual
  simp only
  rw [if_pos e1, if_pos e2]

theorem callQual_nonneg (ext : Ext) (hlog : ∀ x, 0 < x → x ≤ 1 → ext.log x ≤ 0) (m : ℚ)
    (hm : 0 ≤ m) : 0 ≤ callQual ext m := by
  have key : ∀ y : ℚ, 0 < y → y ≤ 1 →
      0 ≤ truncInt (-(4343 / 1000) * ext.log y + 499 / 1000) := by
    intro y h0 h1
    have := hlog y h0 h1
    exact truncInt_nonneg (by linarith)
  have hfloor : (0 : ℚ) < 1 / 10 ^ 308 := by positivity
  have hfloor1 : (1 : ℚ) / 10 ^ 308 ≤ 1 := by norm_num
  unfold callQual
  simp only
  split_ifs with h1 h2 h3
  · decide
  · exact key _ hfloor hfloor1
  · decide
  · exact key _ (lt_of_lt_of_le hfloor (not_lt.mp h1)) (by linarith)

theorem callSum_pos (ma : bcf_p1aux_t) (f0 : ℚ) (k : Nat)
    (hpdg : ∀ i : Fin 3, 0 < ma.pdg (k * 3 + i.val)) (h0 : 0 ≤ f0) (h1 : f0 ≤ 1) :
    0 < callSum ma f0 k ∧ ∀ i : Fin 3, 0 ≤ callF3 (ploidyAt ma k) f0 i := by
  have p0 : 0 < ma.pdg (k * 3 + 0) := hpdg 0
  have p1 : 0 < ma.pdg (k * 3 + 1) := hpdg 1
  have p2 : 0 < ma.pdg (k * 3 + 2) := hpdg 2
  have g0 : 0 ≤ 1 - f0 := by linarith
  have hf : ∀ i : Fin 3, 0 ≤ callF3 (ploidyAt ma k) f0 i := by
    intro i
    unfold callF3
    split_ifs
    · fin_cases i
      · exact mul_nonneg g0 g0
      · exact mul_nonneg (mul_nonneg (by norm_num) h0) g0
      · exact mul_nonneg h0 h0
    · fin_cases i
      · exact g0
      · exact le_refl _
      · exact h0
  refine ⟨?_, hf⟩
  have t0 := mul_nonneg (le_of_lt p0) (hf 0)
  have t1 := mul_nonneg (le_of_lt p1) (hf 1)
  have t2 := mul_nonneg (le_of_lt p2) (hf 2)
  have hpos : 0 < callF3 (ploidyAt ma k) f0 0 ∨ 0 < callF3 (ploidyAt ma k) f0 2 := by
    rcases eq_or_lt_of_le h0 with h | h
    · left
      unfold callF3
      split_ifs <;> simp [← h]
    · right
      unfold callF3
      split_ifs
      · exact mul_pos h h
      · exact h
  unfold callSum
  simp only
  rcases hpos with h | h
  · have := mul_pos p0 h
    linarith
  · have := mul_pos p2 h
    linarith

/-- Every normalised posterior `g[i]` lies in `[0, 1]`. -/
theorem callG_bounds (ma : bcf_p1aux_t) (f0 : ℚ) (k : Nat)
    (hpdg : ∀ i : Fin 3, 0 < ma.pdg (k * 3 + i.val)) (h0 : 0 ≤ f0) (h1 : f0 ≤ 1) (i : Fin 3) :
    0 ≤ callG ma f0 k i ∧ callG ma f0 k i ≤ 1 := by
  obtain ⟨hs, hf⟩ := callSum_pos ma f0 k hpdg h0 h1
  have t : ∀ j : Fin 3, 0 ≤ ma.pdg (k * 3 + j.val) * callF3 (ploidyAt ma k) f0 j :=
    fun j => mul_nonneg (le_of_lt (hpdg j)) (hf j)
  have hsum : callSum ma f0 k
      = ∑ j : Fin 3, ma.pdg (k * 3 + j.val) * callF3 (ploidyAt ma k) f0 j := by
    unfold callSum
    simp [Fin.sum_univ_three]
  have hle : ma.pdg (k * 3 + i.val) * callF3 (ploidyAt ma k) f0 i ≤ callSum ma f0 k := by
    rw [hsum]
    exact Finset.single_le_sum (f := fun j : Fin 3 =>
      ma.pdg (k * 3 + j.val) * callF3 (ploidyAt ma k) f0 j) (fun j _ => t j) (Finset.mem_univ i)
  show 0 ≤ ma.pdg (k * 3 + i.val) * callF3 (ploidyAt ma k) f0 i / callSum ma f0 k
    ∧ ma.pdg (k * 3 + i.val) * callF3 (ploidyAt ma k) f0 i / callSum ma f0 k ≤ 1
  exact ⟨div_nonneg (t i) (le_of_lt hs), (div_le_one hs).mpr hle⟩

/-- The pair `(max, max_i)`: the index is at most two and `max` is one of the
`g[i]`, whether or not the site is variant. -/
theorem callMax_mem (ma : bcf_p1aux_t) (f0 : ℚ) (k : Nat) (is_var : Bool)
    (hg : -1 < callG ma f0 k 0) :
    (callMax ma f0 k is_var).2 ≤ 2
    ∧ ∃ i : Fin 3, (callMax ma f0 k is_var).1 = callG ma f0 k i := by
  unfold callMax
  simp only [gtMaxStep]
  rw [if_pos hg]
  cases is_var
  · exact ⟨le_refl _, 2, rfl⟩
  · simp only [Bool.not_true, Bool.false_eq_true, if_false]
    split_ifs
    · exact ⟨le_refl _, 2, rfl⟩
    · exact ⟨by omega, 1, rfl⟩
    · exact ⟨le_refl _, 2, rfl⟩
    · exact ⟨by omega, 0, rfl⟩

/-! ### C1: the priors sum to one -/

theorem init_prior_flat_apply (theta : ℚ) (M : Nat) (phi : Arr) (i : Nat) (hi : i ≤ M) :
    init_prior PType.flat theta (M : Int) phi i = 1 / ((M : ℚ) + 1) := by
  have h0 : ¬ ((M : Int) < 0) := by omega
  simp [init_prior, Arr.fill, hi, h0]

theorem init_prior_cond2_apply (theta : ℚ) (M : Nat) (phi : Arr) (i : Nat) (hi : i ≤ M) :
    init_prior PType.cond2 theta (M : Int) phi i
      = 2 * ((i : ℚ) + 1) / ((M : ℚ) + 1) / ((M : ℚ) + 2) := by
  have h0 : ¬ ((M : Int) < 0) := by omega
  simp [init_prior, Arr.fill, hi, h0]

theorem init_prior_full_lt (theta : ℚ) (M : Nat) (phi : Arr) (i : Nat) (hi : i < M) :
    init_prior PType.full theta (M : Int) phi i = theta / ((M : ℚ) - i) := by
  have h0 : ¬ ((M : Int) < 0) := by omega
  simp [init_prior, Arr.set, hi, Nat.ne_of_lt hi, h0]

theorem init_prior_full_last (theta : ℚ) (M : Nat) (phi : Arr) :
    init_prior PType.full theta (M : Int) phi M
      = 1 - sumTo (fun i => theta / ((M : ℚ) - i)) M := by
  have h0 : ¬ ((M : Int) < 0) := by omega
  simp only [init_prior, Arr.set, Int.toNat_ofNat, if_true, if_neg h0]
  congr 1
  exact sumTo_congr (fun i hi => by simp [hi])

theorem init_prior_full_sum (theta : ℚ) (M : Nat) (phi : Arr) :
    sumTo (init_prior PType.full theta (M : Int) phi) (M + 1) = 1 := by
  have h : sumTo (init_prior PType.full theta (M : Int) phi) (M + 1)
      = sumTo (init_prior PType.full theta (M : Int) phi) M
        + init_prior PType.full theta (M : Int) phi M := rfl
  rw [h, init_prior_full_last, sumTo_congr (fun i hi => init_prior_full_lt theta M phi i hi)]
  ring

/-- The full pass on `ctxSplit` leaves `z[k] = 1/5` and the two-stage path
`z[k] = 1/9`, for every `k` in `0..4`. -/
theorem ctxSplit_z (k : Nat) (hk : k ≤ 4) :
    (mc_cal_y_core ctxSplit 0).z k = 1 / 5 ∧ (mc_cal_y ctxSplit).z k = 1 / 9 := by
  have hM : ctxSplit.M = ctxSplit.n * 2 := rfl
  have hz : (mc_cal_y_core ctxSplit 0).z k = 1 / 5 := by
    rw [mc_cal_y_core_dip ctxSplit 0 hM, coreFinish_z ctxSplit _ k hk]
    exact ctxSplit_second.2 k hk
  have het : (mc_cal_y_core ctxSplit 0).et = 5 := by
    rw [mc_cal_y_core_dip ctxSplit 0 hM]
    exact ctxSplit_second.1
  have het1 : (mc_cal_y_core ctxSplit 0).et1 = 3 := by
    rw [mc_cal_y_core_dip ctxSplit 0 hM]
    show (dipLoop ctxSplit 0 2).et1 = 3
    rw [dipLoop_et1 ctxSplit 0 2 0 rfl (le_refl _) (by omega)]
    exact (ctxSplit_first 0 0).2.2.2.1
  have het2 : (mc_cal_y_core ctxSplit ctxSplit.n1.toNat).et = 3 := by
    rw [mc_cal_y_core_dip ctxSplit _ hM]
    exact (ctxSplit_first 1 1).2.2.2.1
  refine ⟨hz, ?_⟩
  rw [mc_cal_y_z ctxSplit hM (by decide) (by decide) k hk, hz, het, het1, het2]
  norm_num

/-- When `afs1[0..M]` is already zero the `memset` of `mc_cal_afs` changes nothing. -/
theorem afsPass_of_zero (ma : bcf_p1aux_t) (h : ∀ k, k < ma.M + 1 → ma.afs1 k = 0) :
    afsPass ma = mc_cal_y ma := by
  have e : ma.afs1.zero (ma.M + 1) = ma.afs1 := by
    funext k
    simp only [Arr.zero]
    split_ifs with hk
    · exact (h k hk).symm
    · rfl
  unfold afsPass
  rw [e]

theorem ctxSplit_afsSum : afsSum ctxSplit = 1 / 9 := by
  have hp : afsPass ctxSplit = mc_cal_y ctxSplit := afsPass_of_zero ctxSplit (fun _ _ => rfl)
  have hphi : afsPhi ctxSplit = init_prior PType.full (1 / 1000) ((4 : Nat) : Int) (fun _ => 0) := rfl
  unfold afsSum
  rw [hp, hphi]
  have hM : ctxSplit.M + 1 = 4 + 1 := rfl
  rw [hM, sumTo_congr (fun k hk => by rw [(ctxSplit_z k (Nat.lt_succ_iff.mp hk)).2]),
    sumTo_mul_right, init_prior_full_sum]
  norm_num

theorem ctxZeroPrior_afsSum : afsSum (calCtx siteTwo ctxZeroPrior) = 0 := by
  have hphi : afsPhi (calCtx siteTwo ctxZeroPrior) = fun _ => 0 := rfl
  unfold afsSum
  rw [hphi]
  simp only [zero_mul]
  rw [sumTo_const]
  ring

/-! ### The context after `bcf_p1_cal` -/

theorem contrast2_frame (ext : Ext) (p1 : bcf_p1aux_t) (ret : Fin 3 → ℚ) :
    (contrast2 ext p1 ret).2.2.afs = p1.afs ∧ (contrast2 ext p1 ret).2.2.afs1 = p1.afs1
    ∧ (contrast2 ext p1 ret).2.2.z = p1.z ∧ (contrast2 ext p1 ret).2.2.pdg = p1.pdg := by
  unfold contrast2
  cases p1.hg with
  | none =>
    simp only
    split_ifs <;> exact ⟨rfl, rfl, rfl, rfl⟩
  | some rows =>
    simp only
    split_ifs <;> exact ⟨rfl, rfl, rfl, rfl⟩

theorem bcf_p1_cal_fail (ext : Ext) (site : Site) (dc : Bool) (ma : bcf_p1aux_t)
    (rst : bcf_p1rst_t) (h : site.n_allele < 2) :
    bcf_p1_cal ext site dc ma rst = (-1, calEnter site ma, { rst with perm_rank := -1 }) := by
  unfold bcf_p1_cal
  simp only
  rw [if_pos h]

theorem bcf_p1_cal_ok (ext : Ext) (site : Site) (dc : Bool) (ma : bcf_p1aux_t)
    (rst : bcf_p1rst_t) (h : ¬ site.n_allele < 2) :
    (bcf_p1_cal ext site dc ma rst).1 = 0
    ∧ (bcf_p1_cal ext site dc ma rst).2.2.f_exp
        = (mc_cal_afs (calCtx site ma) rst.p_ref_folded rst.p_var_folded).1
    ∧ (bcf_p1_cal ext site dc ma rst).2.1.afs
        = (mc_cal_afs (calCtx site ma) rst.p_ref_folded rst.p_var_folded).2.1.afs := by
  unfold bcf_p1_cal
  simp only
  rw [if_neg h]
  split_ifs <;>
    first
    | exact ⟨rfl, rfl, rfl⟩
    | exact ⟨rfl, rfl, (contrast2_frame ext _ _).1⟩

/-- C1. For every `M` and `theta` (in particular `M ≥ 1` and `0 < theta < 1`),
`init_prior` writes `phi[i] = 1/(M+1)` (FLAT), `phi[i] = 2(i+1)/((M+1)(M+2))`
(COND2), `phi[i] = theta/(M-i)` for `i < M` and `phi[M] = 1 - Σ_{i<M} phi[i]`
(FULL), and in each of the three shapes `phi[0] + ... + phi[M] = 1`. -/
theorem init_prior_sums_to_one (theta : ℚ) (M : Nat) (phi : Arr) :
    ((∀ i, i ≤ M → init_prior PType.flat theta (M : Int) phi i = 1 / ((M : ℚ) + 1))
      ∧ sumTo (init_prior PType.flat theta (M : Int) phi) (M + 1) = 1)
    ∧ ((∀ i, i ≤ M → init_prior PType.cond2 theta (M : Int) phi i
          = 2 * ((i : ℚ) + 1) / (((M : ℚ) + 1) * ((M : ℚ) + 2)))
      ∧ sumTo (init_prior PType.cond2 theta (M : Int) phi) (M + 1) = 1)
    ∧ ((∀ i, i < M → init_prior PType.full theta (M : Int) phi i = theta / ((M : ℚ) - i))
      ∧ init_prior PType.full theta (M : Int) phi M
          = 1 - sumTo (init_prior PType.full theta (M : Int) phi) M
      ∧ sumTo (init_prior PType.full theta (M : Int) phi) (M + 1) = 1) := by
  have hM1 : ((M : ℚ) + 1) ≠ 0 := by positivity
  have hM2 : ((M : ℚ) + 2) ≠ 0 := by positivity
  refine ⟨⟨fun i hi => init_prior_flat_apply theta M phi i hi, ?_⟩,
    ⟨fun i hi => ?_, ?_⟩, ⟨fun i hi => init_prior_full_lt theta M phi i hi, ?_, ?_⟩⟩
  · rw [sumTo_congr (fun i hi => init_prior_flat_apply theta M phi i (Nat.lt_succ_iff.mp hi)),
      sumTo_const]
    push_cast
    field_simp
  · rw [init_prior_cond2_apply theta M phi i hi, div_div]
  · rw [sumTo_congr (fun i hi => init_prior_cond2_apply theta M phi i (Nat.lt_succ_iff.mp hi))]
    have h : (fun i : Nat => 2 * ((i : ℚ) + 1) / ((M : ℚ) + 1) / ((M : ℚ) + 2))
        = fun i : Nat => ((i : ℚ) + 1) * (2 / (((M : ℚ) + 1) * ((M : ℚ) + 2))) := by
      funext i
      field_simp
      ring
    rw [h, sumTo_mul_right, sumTo_succ_index]
    push_cast
    have h2 : (M : ℚ) + 1 + 1 = (M : ℚ) + 2 := by ring
    rw [h2]
    field_simp
  · rw [init_prior_full_last]
    congr 1
    exact sumTo_congr (fun i hi => (init_prior_full_lt theta M phi i hi).symm)
  · have h : sumTo (init_prior PType.full theta (M : Int) phi) (M + 1)
        = sumTo (init_prior PType.full theta (M : Int) phi) M
          + init_prior PType.full theta (M : Int) phi M := rfl
    rw [h, init_prior_full_last,
      sumTo_congr (fun i hi => init_prior_full_lt theta M phi i hi)]
    ring

/-! ### C2: the recursion leaves a probability vector -/

/-- C3 (amended). For a uniformly diploid context with a valid split
`0 < n1 < n` and strictly positive `pdg`, the `z[0..M]` left by `mc_cal_y`
equals, entry by entry, the `z[0..M]` left by the single full pass
`mc_cal_y_core(ma, 0)` multiplied by the constant `exp (t - (t1 + t2))`, which
is strictly positive; `t` and `t1` are those of the full pass and `t2` is the
`t` of the pass over the samples `n1..n-1`. -/
theorem mc_cal_y_two_stage_rescaled (ma : bcf_p1aux_t) (hM : ma.M = ma.n * 2)
    (h1 : 0 < ma.n1) (h2 : ma.n1 < (ma.n : Int))
    (hpdg : ∀ j, j < ma.n → ∀ c : Fin 3, 0 < ma.pdg (j * 3 + c.val)) :
    0 < (mc_cal_y_core ma 0).et
          / ((mc_cal_y_core ma 0).et1 * (mc_cal_y_core ma ma.n1.toNat).et)
    ∧ ∀ k, k ≤ ma.M → (mc_cal_y ma).z k = (mc_cal_y_core ma 0).z k
        * ((mc_cal_y_core ma 0).et
            / ((mc_cal_y_core ma 0).et1 * (mc_cal_y_core ma ma.n1.toNat).et)) := by
  refine ⟨?_, fun k hk => mc_cal_y_z ma hM h1 h2 k hk⟩
  obtain ⟨c, hc⟩ : ∃ c : Nat, ma.n1 = (c : Int) + 1 := ⟨(ma.n1 - 1).toNat, by omega⟩
  have hpos : ∀ beg j, beg ≤ j → j < ma.n → ∀ i, 0 < pdgOf ma j i :=
    fun _ j _ hj i => hpdg j hj i
  have e0 : 0 < (mc_cal_y_core ma 0).et := by
    rw [mc_cal_y_core_dip ma 0 hM]
    exact (dipLoop_inv ma 0 (ma.n - 0) (by omega) (fun j a b i => hpos 0 j a (by omega) i)).etpos
  have e1 : 0 < (mc_cal_y_core ma 0).et1 := by
    rw [mc_cal_y_core_dip ma 0 hM]
    show 0 < (dipLoop ma 0 (ma.n - 0)).et1
    rw [dipLoop_et1 ma 0 (ma.n - 0) c hc (Nat.zero_le c) (by omega)]
    exact (dipLoop_inv ma 0 (c - 0 + 1) (by omega) (fun j a b i => hpos 0 j a (by omega) i)).etpos
  have e2 : 0 < (mc_cal_y_core ma ma.n1.toNat).et := by
    rw [mc_cal_y_core_dip ma _ hM]
    exact (dipLoop_inv ma ma.n1.toNat (ma.n - ma.n1.toNat) (by omega)
      (fun j a b i => hpos 0 j (Nat.zero_le j) (by omega) i)).etpos
  exact div_pos e0 (mul_pos e1 e2)

/-- Witness of C3 (amended): the context `ctxSplit`. -/
theorem mc_cal_y_two_stage_rescaled_witness :
    ctxSplit.M = ctxSplit.n * 2 ∧ 0 < ctxSplit.n1 ∧ ctxSplit.n1 < (ctxSplit.n : Int)
    ∧ (∀ j, j < ctxSplit.n → ∀ c : Fin 3, 0 < ctxSplit.pdg (j * 3 + c.val))
    ∧ ∀ k, k ≤ ctxSplit.M → (mc_cal_y ctxSplit).z k = (mc_cal_y_core ctxSplit 0).z k
        * ((mc_cal_y_core ctxSplit 0).et
            / ((mc_cal_y_core ctxSplit 0).et1 * (mc_cal_y_core ctxSplit ctxSplit.n1.toNat).et)) := by
  have h3 : ∀ j, j < ctxSplit.n → ∀ c : Fin 3, 0 < ctxSplit.pdg (j * 3 + c.val) := by
    intro j _ c
    show (0 : ℚ) < 1
    norm_num
  exact ⟨rfl, by decide, by decide, h3,
    (mc_cal_y_two_stage_rescaled ctxSplit rfl (by decide) (by decide) h3).2⟩

/-- C3 (counterexample). On `ctxSplit` (two diploid samples, `n1 = 1`, every
likelihood equal to one) the single full pass leaves `z[0] = 1/5` and the
two-stage path leaves `z[0] = 1/9`: the relative error is `4/9`, not `1e-6`. -/
theorem mc_cal_y_two_stage_differs :
    ctxSplit.M = ctxSplit.n * 2 ∧ 0 < ctxSplit.n1 ∧ ctxSplit.n1 < (ctxSplit.n : Int)
    ∧ (mc_cal_y_core ctxSplit 0).z 0 = 1 / 5
    ∧ (mc_cal_y ctxSplit).z 0 = 1 / 9
    ∧ ¬ (|(mc_cal_y ctxSplit).z 0 - (mc_cal_y_core ctxSplit 0).z 0|
          ≤ 1 / 10 ^ 6 * |(mc_cal_y_core ctxSplit 0).z 0|) := by
  have hM : ctxSplit.M = ctxSplit.n * 2 := rfl
  have hz : (mc_cal_y_core ctxSplit 0).z 0 = 1 / 5 := by
    rw [mc_cal_y_core_dip ctxSplit 0 hM, coreFinish_z ctxSplit _ 0 (Nat.zero_le _)]
    exact ctxSplit_second.2 0 (by omega)
  have het : (mc_cal_y_core ctxSplit 0).et = 5 := by
    rw [mc_cal_y_core_dip ctxSplit 0 hM]
    exact ctxSplit_second.1
  have het1 : (mc_cal_y_core ctxSplit 0).et1 = 3 := by
    rw [mc_cal_y_core_dip ctxSplit 0 hM]
    show (dipLoop ctxSplit 0 2).et1 = 3
    rw [dipLoop_et1 ctxSplit 0 2 0 rfl (le_refl _) (by omega)]
    exact (ctxSplit_first 0 0).2.2.2.1
  have het2 : (mc_cal_y_core ctxSplit ctxSplit.n1.toNat).et = 3 := by
    rw [mc_cal_y_core_dip ctxSplit _ hM]
    exact (ctxSplit_first 1 1).2.2.2.1
  have hy : (mc_cal_y ctxSplit).z 0 = 1 / 9 := by
    rw [mc_cal_y_z ctxSplit hM (by decide) (by decide) 0 (Nat.zero_le _), hz, het, het1, het2]
    norm_num
  refine ⟨hM, by decide, by decide, hz, hy, ?_⟩
  rw [hy, hz]
  norm_num [abs_of_nonneg, abs_of_nonpos]

/-! ### C4: the posterior spectrum -/

/-- The three results of `mc_cal_afs` that C4 is about, when the normaliser is
not zero. -/
theorem mc_cal_afs_ok (ma : bcf_p1aux_t) (p q : ℚ) (hS : afsSum ma ≠ 0) :
    (mc_cal_afs ma p q).2.1.z = (afsPass ma).z
    ∧ (mc_cal_afs ma p q).2.1.afs1
        = (afsPass ma).afs1.fill 0 ma.M (fun k => afsPhi ma k * (afsPass ma).z k / afsSum ma)
    ∧ (mc_cal_afs ma p q).2.1.afs
        = (afsPass ma).afs.fill 0 ma.M (fun k => (afsPass ma).afs k
            + ((afsPass ma).afs1.fill 0 ma.M
                (fun k => afsPhi ma k * (afsPass ma).z k / afsSum ma)) k)
    ∧ (mc_cal_afs ma p q).1
        = sumTo (fun k => (k : ℚ) * ((afsPass ma).afs1.fill 0 ma.M
            (fun k => afsPhi ma k * (afsPass ma).z k / afsSum ma)) k) (ma.M + 1) / (ma.M : ℚ) := by
  unfold mc_cal_afs
  simp only
  rw [if_neg hS]
  exact ⟨rfl, rfl, rfl, rfl⟩

/-- The results of `mc_cal_afs` when the normaliser is zero. -/
theorem mc_cal_afs_fail (ma : bcf_p1aux_t) (p q : ℚ) (hS : afsSum ma = 0) :
    mc_cal_afs ma p q = (-1, afsPass ma, p, q) := by
  unfold mc_cal_afs
  simp only
  rw [if_pos hS]

/-- C4. Whenever the normaliser `S = Σ_k phi'[k] * z[k]` is not zero, where
`phi'` is `phi_indel` when `is_indel` is set and `phi` otherwise and `z` is what
`mc_cal_y` leaves, `mc_cal_afs` sets `afs1[k] = phi'[k] * z[k] / S` for every
`k` in `0..M`; hence `afs1` sums to one, and the value returned is
`(Σ_k k * afs1[k]) / M`. -/
theorem mc_cal_afs_posterior (ma : bcf_p1aux_t) (p q : ℚ) (hS : afsSum ma ≠ 0) :
    afsSum ma = sumTo (fun k => (if ma.is_indel then ma.phi_indel else ma.phi) k
        * (mc_cal_afs ma p q).2.1.z k) (ma.M + 1)
    ∧ (∀ k, k ≤ ma.M → (mc_cal_afs ma p q).2.1.afs1 k
        = (if ma.is_indel then ma.phi_indel else ma.phi) k * (mc_cal_afs ma p q).2.1.z k
          / afsSum ma)
    ∧ sumTo (mc_cal_afs ma p q).2.1.afs1 (ma.M + 1) = 1
    ∧ (mc_cal_afs ma p q).1
        = sumTo (fun k => (k : ℚ) * (mc_cal_afs ma p q).2.1.afs1 k) (ma.M + 1) / (ma.M : ℚ) := by
  obtain ⟨hz, h1, _, hr⟩ := mc_cal_afs_ok ma p q hS
  have hafs : ∀ k, k ≤ ma.M → (mc_cal_afs ma p q).2.1.afs1 k
      = afsPhi ma k * (afsPass ma).z k / afsSum ma := by
    intro k hk
    rw [h1]
    exact Arr.fill_in _ _ _ _ k (Nat.zero_le k) hk
  refine ⟨?_, fun k hk => ?_, ?_, ?_⟩
  · rw [hz]
    rfl
  · rw [hafs k hk, hz]
    rfl
  · rw [sumTo_congr (fun k hk => hafs k (Nat.lt_succ_iff.mp hk)), sumTo_div]
    exact div_self hS
  · rw [hr, h1]
/-- Witness of C4: the context `ctxSplit`, whose normaliser is `1/9`. -/
theorem mc_cal_afs_posterior_witness :
    afsSum ctxSplit ≠ 0 ∧ sumTo (mc_cal_afs ctxSplit 0 0).2.1.afs1 (ctxSplit.M + 1) = 1 := by
  have h : afsSum ctxSplit ≠ 0 := by
    rw [ctxSplit_afsSum]
    norm_num
  exact ⟨h, (mc_cal_afs_posterior ctxSplit 0 0 h).2.2.1⟩

/-! ### C5: the return code of `bcf_p1_cal` -/

/-- C5. `bcf_p1_cal` returns `-1` exactly when the record has fewer than two
alleles and `0` in every other case; when it returns `-1` the arrays `pdg`,
`z`, `afs1` and `afs` of the context are as they were before the call. -/
theorem bcf_p1_cal_return_code (ext : Ext) (site : Site) (dc : Bool) (ma : bcf_p1aux_t)
    (rst : bcf_p1rst_t) :
    ((bcf_p1_cal ext site dc ma rst).1 = -1 ↔ site.n_allele < 2)
    ∧ ((bcf_p1_cal ext site dc ma rst).1 = 0 ↔ ¬ site.n_allele < 2)
    ∧ ((bcf_p1_cal ext site dc ma rst).1 = -1 →
        (bcf_p1_cal ext site dc ma rst).2.1.pdg = ma.pdg
        ∧ (bcf_p1_cal ext site dc ma rst).2.1.z = ma.z
        ∧ (bcf_p1_cal ext site dc ma rst).2.1.afs1 = ma.afs1
        ∧ (bcf_p1_cal ext site dc ma rst).2.1.afs = ma.afs) := by
  by_cases h : site.n_allele < 2
  · rw [bcf_p1_cal_fail ext site dc ma rst h]
    refine ⟨⟨fun _ => h, fun _ => rfl⟩, ⟨fun e => ?_, fun e => absurd h e⟩,
      fun _ => ⟨rfl, rfl, rfl, rfl⟩⟩
    have e' : (-1 : Int) = 0 := e
    exact absurd e' (by decide)
  · have h0 := (bcf_p1_cal_ok ext site dc ma rst h).1
    rw [h0]
    refine ⟨⟨fun e => ?_, fun e => absurd e h⟩, ⟨fun _ => h, fun _ => rfl⟩, fun e => ?_⟩
    · exact absurd e (by decide)
    · exact absurd e (by decide)

/-- Witness of C5: the single-allele record `siteOne` on the context `ctxSplit`. -/
theorem bcf_p1_cal_return_code_witness :
    (bcf_p1_cal extLower siteOne true ctxSplit rstZero).1 = -1
    ∧ (bcf_p1_cal extLower siteOne true ctxSplit rstZero).2.1.afs = ctxSplit.afs :=
  have h : (bcf_p1_cal extLower siteOne true ctxSplit rstZero).1 = -1 :=
    (bcf_p1_cal_return_code extLower siteOne true ctxSplit rstZero).1.2 (by decide)
  ⟨h, ((bcf_p1_cal_return_code extLower siteOne true ctxSplit rstZero).2.2 h).2.2.2⟩

/-! ### C6: setting the split -/

/-- C6 (amended). `bcf_p1_set_n1(b, n1)` returns `0` and stores `n1` if and only
if `n1 ≠ 0`, `n1 < n` and the context is uniformly diploid (`M = 2n`): a
negative `n1` is accepted. In every other case it returns `-1` and leaves
every field of the context unchanged. -/
theorem bcf_p1_set_n1_spec (b : bcf_p1aux_t) (n1 : Int) :
    ((n1 ≠ 0 ∧ n1 < (b.n : Int) ∧ b.M = b.n * 2) →
      bcf_p1_set_n1 b n1 = (0, { b with n1 := n1 }))
    ∧ (¬ (n1 ≠ 0 ∧ n1 < (b.n : Int) ∧ b.M = b.n * 2) → bcf_p1_set_n1 b n1 = (-1, b))
    ∧ ((bcf_p1_set_n1 b n1).1 = 0 ↔ (n1 ≠ 0 ∧ n1 < (b.n : Int) ∧ b.M = b.n * 2)) := by
  have hA : (n1 ≠ 0 ∧ n1 < (b.n : Int) ∧ b.M = b.n * 2) →
      bcf_p1_set_n1 b n1 = (0, { b with n1 := n1 }) := by
    rintro ⟨a, c, d⟩
    unfold bcf_p1_set_n1
    rw [if_neg (by omega), if_neg (by simpa using d)]
  have hB : ¬ (n1 ≠ 0 ∧ n1 < (b.n : Int) ∧ b.M = b.n * 2) → bcf_p1_set_n1 b n1 = (-1, b) := by
    intro h
    unfold bcf_p1_set_n1
    split_ifs with c d
    · rfl
    · rfl
    · exact absurd ⟨by omega, by omega, by simpa using d⟩ h
  refine ⟨hA, hB, ⟨fun e => ?_, fun h => by rw [hA h]⟩⟩
  by_contra h
  rw [hB h] at e
  have e' : (-1 : Int) = 0 := e
  exact absurd e' (by decide)

/-- Witness of C6 (amended): `n1 = 1` on a uniformly diploid context of two samples. -/
theorem bcf_p1_set_n1_spec_witness :
    ((1 : Int) ≠ 0 ∧ (1 : Int) < (ctxSplit.n : Int) ∧ ctxSplit.M = ctxSplit.n * 2)
    ∧ bcf_p1_set_n1 ctxSplit 1 = (0, { ctxSplit with n1 := 1 }) :=
  ⟨⟨by decide, by decide, rfl⟩,
    (bcf_p1_set_n1_spec ctxSplit 1).1 ⟨by decide, by decide, rfl⟩⟩

/-- C6 (counterexample). On a uniformly diploid context of two samples
`bcf_p1_set_n1(b, -3)` returns `0` and stores `-3`, although `0 < -3` fails. -/
theorem bcf_p1_set_n1_accepts_negative :
    ctxSplit.M = ctxSplit.n * 2
    ∧ ¬ ((0 : Int) < -3 ∧ (-3 : Int) < (ctxSplit.n : Int))
    ∧ (bcf_p1_set_n1 ctxSplit (-3)).1 = 0
    ∧ (bcf_p1_set_n1 ctxSplit (-3)).2.n1 = -3
    ∧ (bcf_p1_set_n1 ctxSplit (-3)).2.n1 ≠ ctxSplit.n1 := by
  refine ⟨rfl, by decide, ?_, ?_, ?_⟩
  · rfl
  · rfl
  · show (-3 : Int) ≠ 1
    decide

/-! ### C7: the numeric-instability sentinel -/

/-- C7. When the normaliser `Σ_k phi'[k] * z[k]` is zero, so that every
posterior entry `phi'[k] * z[k] / sum` is NaN or infinite, `mc_cal_afs`
returns the sentinel `-1` and leaves the run-level accumulator `afs` as it
was; `bcf_p1_cal` then stores `-1` as `f_exp`, and its context has the `afs`
it had before the call. -/
theorem mc_cal_afs_sentinel (ext : Ext) (site : Site) (dc : Bool) (ma : bcf_p1aux_t)
    (rst : bcf_p1rst_t) (p q : ℚ) :
    (afsSum ma = 0 → (mc_cal_afs ma p q).1 = -1 ∧ (mc_cal_afs ma p q).2.1.afs = ma.afs)
    ∧ (¬ site.n_allele < 2 → afsSum (calCtx site ma) = 0 →
        (bcf_p1_cal ext site dc ma rst).1 = 0
        ∧ (bcf_p1_cal ext site dc ma rst).2.2.f_exp = -1
        ∧ (bcf_p1_cal ext site dc ma rst).2.1.afs = ma.afs) := by
  have key : ∀ mb : bcf_p1aux_t, ∀ p q : ℚ, afsSum mb = 0 →
      (mc_cal_afs mb p q).1 = -1 ∧ (mc_cal_afs mb p q).2.1.afs = mb.afs := by
    intro mb p q hS
    rw [mc_cal_afs_fail mb p q hS]
    exact ⟨rfl, (mc_cal_y_frame _).1⟩
  refine ⟨key ma p q, fun h hS => ?_⟩
  obtain ⟨a1, a2, a3⟩ := bcf_p1_cal_ok ext site dc ma rst h
  obtain ⟨b1, b2⟩ := key (calCtx site ma) rst.p_ref_folded rst.p_var_folded hS
  exact ⟨a1, a2.trans b1, a3.trans b2⟩

/-- Witness of C7: the biallelic record `siteTwo` on the context `ctxZeroPrior`,
whose prior is zero, so that the normaliser is zero. -/
theorem mc_cal_afs_sentinel_witness :
    ¬ siteTwo.n_allele < 2 ∧ afsSum (calCtx siteTwo ctxZeroPrior) = 0
    ∧ (bcf_p1_cal extLower siteTwo true ctxZeroPrior rstZero).2.2.f_exp = -1 :=
  ⟨by decide, ctxZeroPrior_afsSum,
    ((mc_cal_afs_sentinel extLower siteTwo true ctxZeroPrior rstZero 0 0).2 (by decide)
      ctxZeroPrior_afsSum).2.1⟩

/-! ### C8: the two extreme frequencies -/

/-- C8. For a diploid sample with strictly positive `pdg` entries at a site
flagged variant, `bcf_p1_call_gt` with `f0 = 0` returns genotype index 0 with
quality 99 (`99*4 + 0`) and with `f0 = 1` genotype index 2 with quality 99
(`99*4 + 2`); of `log` only `log 1e-308 ≤ -23` is used. -/
theorem bcf_p1_call_gt_extremes (ext : Ext) (ma : bcf_p1aux_t) (k : Nat)
    (hpl : ploidyAt ma k = 2) (hpdg : ∀ i : Fin 3, 0 < ma.pdg (k * 3 + i.val))
    (hlog : ext.log (1 / 10 ^ 308) ≤ -23) :
    bcf_p1_call_gt ext ma 0 k true = 99 * 4 + 0
    ∧ bcf_p1_call_gt ext ma 1 k true = 99 * 4 + 2 := by
  have p0 : ma.pdg (k * 3) ≠ 0 := ne_of_gt (hpdg 0)
  have p2 : ma.pdg (k * 3 + 2) ≠ 0 := ne_of_gt (hpdg 2)
  have m0 : callMax ma 0 k true = (1, 0) := by
    simp [callMax, callG, callSum, callF3, hpl, gtMaxStep, p0]
    norm_num
  have m1 : callMax ma 1 k true = (1, 2) := by
    simp [callMax, callG, callSum, callF3, hpl, gtMaxStep, p2]
  unfold bcf_p1_call_gt
  simp only [m0, m1, callQual_one ext hlog]
  exact ⟨by decide, by decide⟩

/-- Witness of C8: the first sample of `ctxSplit` with the stand-in `extLower`. -/
theorem bcf_p1_call_gt_extremes_witness :
    ploidyAt ctxSplit 0 = 2 ∧ (∀ i : Fin 3, 0 < ctxSplit.pdg (0 * 3 + i.val))
    ∧ extLower.log (1 / 10 ^ 308) ≤ -23
    ∧ bcf_p1_call_gt extLower ctxSplit 0 0 true = 99 * 4 + 0
    ∧ bcf_p1_call_gt extLower ctxSplit 1 0 true = 99 * 4 + 2 := by
  have h1 : ploidyAt ctxSplit 0 = 2 := rfl
  have h2 : ∀ i : Fin 3, 0 < ctxSplit.pdg (0 * 3 + i.val) := by
    intro i
    show (0 : ℚ) < 1
    norm_num
  have h3 : extLower.log (1 / 10 ^ 308) ≤ -23 := by
    show (1 : ℚ) - 1 / (1 / 10 ^ 308) ≤ -23
    norm_num
  exact ⟨h1, h2, h3, bcf_p1_call_gt_extremes extLower ctxSplit 0 h1 h2 h3⟩

/-! ### C9: the packed result -/

/-- C9. For every sample with strictly positive `pdg` entries and every `f0` in
`[0, 1]`, the normalising sum is positive and the value `r` returned by
`bcf_p1_call_gt` is `4*q + g` with genotype index `g ≤ 2` and quality
`0 ≤ q ≤ 99`, so that `r mod 4 = g` and `r div 4 = q`; of `log` only
`log x ≤ 0` on `(0, 1]` is used. -/
theorem bcf_p1_call_gt_packed (ext : Ext) (ma : bcf_p1aux_t) (f0 : ℚ) (k : Nat) (is_var : Bool)
    (hpdg : ∀ i : Fin 3, 0 < ma.pdg (k * 3 + i.val)) (h0 : 0 ≤ f0) (h1 : f0 ≤ 1)
    (hlog : ∀ x, 0 < x → x ≤ 1 → ext.log x ≤ 0) :
    0 < callSum ma f0 k
    ∧ (callMax ma f0 k is_var).2 ≤ 2
    ∧ 0 ≤ callQual ext (callMax ma f0 k is_var).1
    ∧ callQual ext (callMax ma f0 k is_var).1 ≤ 99
    ∧ ((bcf_p1_call_gt ext ma f0 k is_var : Nat) : Int)
        = 4 * callQual ext (callMax ma f0 k is_var).1 + ((callMax ma f0 k is_var).2 : Int)
    ∧ bcf_p1_call_gt ext ma f0 k is_var % 4 = (callMax ma f0 k is_var).2
    ∧ ((bcf_p1_call_gt ext ma f0 k is_var / 4 : Nat) : Int)
        = callQual ext (callMax ma f0 k is_var).1 := by
  have hg0 := (callG_bounds ma f0 k hpdg h0 h1 0).1
  obtain ⟨hi, i, hm⟩ := callMax_mem ma f0 k is_var (by linarith)
  have hq0 : 0 ≤ callQual ext (callMax ma f0 k is_var).1 := by
    refine callQual_nonneg ext hlog _ ?_
    rw [hm]
    exact (callG_bounds ma f0 k hpdg h0 h1 i).1
  obtain ⟨e1, e2, e3⟩ := pack_eq (callQual ext (callMax ma f0 k is_var).1).toNat
    (callMax ma f0 k is_var).2 (by omega)
  have hr : bcf_p1_call_gt ext ma f0 k is_var
      = ((callQual ext (callMax ma f0 k is_var).1).toNat <<< 2) ||| (callMax ma f0 k is_var).2 :=
    rfl
  refine ⟨(callSum_pos ma f0 k hpdg h0 h1).1, hi, hq0, callQual_le ext _, ?_, ?_, ?_⟩
  · rw [hr, e1]
    push_cast
    rw [Int.toNat_of_nonneg hq0]
  · rw [hr, e2]
  · rw [hr, e3, Int.toNat_of_nonneg hq0]

/-- Witness of C9: the first sample of `ctxSplit` at `f0 = 1/2` with `extLower`. -/
theorem bcf_p1_call_gt_packed_witness :
    (∀ i : Fin 3, 0 < ctxSplit.pdg (0 * 3 + i.val))
    ∧ (0 : ℚ) ≤ 1 / 2 ∧ (1 : ℚ) / 2 ≤ 1
    ∧ (∀ x : ℚ, 0 < x → x ≤ 1 → extLower.log x ≤ 0)
    ∧ bcf_p1_call_gt extLower ctxSplit (1 / 2) 0 true % 4
        = (callMax ctxSplit (1 / 2) 0 true).2 := by
  have h2 : ∀ i : Fin 3, 0 < ctxSplit.pdg (0 * 3 + i.val) := by
    intro i
    show (0 : ℚ) < 1
    norm_num
  have h3 : ∀ x : ℚ, 0 < x → x ≤ 1 → extLower.log x ≤ 0 := by
    intro x hx hx1
    show 1 - 1 / x ≤ 0
    have : 1 ≤ 1 / x := by
      rw [le_div_iff₀ hx]
      linarith
    linarith
  exact ⟨h2, by norm_num, by norm_num, h3,
    (bcf_p1_call_gt_packed extLower ctxSplit (1 / 2) 0 true h2 (by norm_num) (by norm_num)
      h3).2.2.2.2.2.1⟩

/-! ### C10: the forced genotype of a non-variant site -/

/-- C10. When `is_var = 0`, `bcf_p1_call_gt` returns the genotype index 2
whatever the posterior maximum is, and the quality is computed from the
normalised posterior `g[2]` of that slot, whose Hardy-Weinberg weight for a
diploid sample is `f0 * f0`: the result is `q<<2|2 = 4*q + 2` with
`q` the quality of `g[2]`. -/
theorem bcf_p1_call_gt_nonvariant (ext : Ext) (ma : bcf_p1aux_t) (f0 : ℚ) (k : Nat) :
    callMax ma f0 k false = (callG ma f0 k 2, 2)
    ∧ callG ma f0 k 2
        = ma.pdg (k * 3 + 2) * callF3 (ploidyAt ma k) f0 2 / callSum ma f0 k
    ∧ callF3 2 f0 2 = f0 * f0
    ∧ bcf_p1_call_gt ext ma f0 k false = 4 * (callQual ext (callG ma f0 k 2)).toNat + 2
    ∧ bcf_p1_call_gt ext ma f0 k false % 4 = 2
    ∧ bcf_p1_call_gt ext ma f0 k false / 4 = (callQual ext (callG ma f0 k 2)).toNat := by
  have hm : callMax ma f0 k false = (callG ma f0 k 2, 2) := by
    unfold callMax
    simp
  obtain ⟨e1, e2, e3⟩ := pack_eq (callQual ext (callG ma f0 k 2)).toNat 2 (by decide)
  have hr : bcf_p1_call_gt ext ma f0 k false
      = ((callQual ext (callG ma f0 k 2)).toNat <<< 2) ||| 2 := by
    unfold bcf_p1_call_gt
    rw [hm]
  refine ⟨hm, rfl, ?_, ?_, ?_, ?_⟩
  · simp [callF3]
  · rw [hr, e1]
  · rw [hr, e2]
  · rw [hr, e3]

/-! ### The scans of the credible interval -/

/-- The upward scan stops at the first index whose cumulated mass exceeds `0.025`. -/
theorem cilScanUp_spec (afs1 : Arr) (c lo : Nat) (p : ℚ) (hp : p ≤ 25 / 1000) :
    lo ≤ cilScanUp afs1 lo c p ∧ cilScanUp afs1 lo c p ≤ lo + c
    ∧ p + ∑ j in Finset.Ico lo (cilScanUp afs1 lo c p), afs1 j ≤ 25 / 1000
    ∧ (cilScanUp afs1 lo c p < lo + c →
        p + ∑ j in Finset.Ico lo (cilScanUp afs1 lo c p + 1), afs1 j > 25 / 1000) := by
  induction c generalizing lo p with
  | zero =>
    refine ⟨le_refl _, le_refl _, ?_, fun h => absurd h (lt_irrefl _)⟩
    show p + ∑ j in Finset.Ico lo lo, afs1 j ≤ 25 / 1000
    simpa using hp
  | succ c ih =>
    unfold cilScanUp
    split_ifs with hb
    · refine ⟨le_refl _, by omega, by simpa using hp, fun _ => ?_⟩
      simpa using hb
    · have hp' : p + afs1 lo ≤ 25 / 1000 := not_lt.mp hb
      obtain ⟨a1, a2, a3, a4⟩ := ih (lo + 1) (p + afs1 lo) hp'
      have e : ∀ u, lo + 1 ≤ u → p + ∑ j in Finset.Ico lo u, afs1 j
          = p + afs1 lo + ∑ j in Finset.Ico (lo + 1) u, afs1 j := by
        intro u hu
        rw [Finset.sum_eq_sum_Ico_succ_bot (by omega)]
        ring
      refine ⟨by omega, by omega, ?_, fun h => ?_⟩
      · rw [e _ a1]
        exact a3
      · rw [e _ (by omega)]
        exact a4 (by omega)

/-- The downward scan stops at the first index, from the top, whose cumulated
mass exceeds `0.025`; it ends at `-1` when there is none. -/
theorem cilScanDown_spec (afs1 : Arr) (c : Nat) (p : ℚ) (hp : p ≤ 25 / 1000) :
    (cilScanDown afs1 c p = -1 ∧ p + ∑ j in Finset.Ico 0 c, afs1 j ≤ 25 / 1000)
    ∨ ∃ i : Nat, i < c ∧ cilScanDown afs1 c p = (i : Int)
        ∧ p + ∑ j in Finset.Ico (i + 1) c, afs1 j ≤ 25 / 1000
        ∧ p + ∑ j in Finset.Ico i c, afs1 j > 25 / 1000 := by
  induction c generalizing p with
  | zero =>
    left
    exact ⟨rfl, by simpa using hp⟩
  | succ c ih =>
    unfold cilScanDown
    split_ifs with hb
    · right
      refine ⟨c, Nat.lt_succ_self c, rfl, by simpa using hp, ?_⟩
      simpa using hb
    · have hp' : p + afs1 c ≤ 25 / 1000 := not_lt.mp hb
      have e : ∀ u, u ≤ c → p + ∑ j in Finset.Ico u (c + 1), afs1 j
          = p + afs1 c + ∑ j in Finset.Ico u c, afs1 j := by
        intro u hu
        rw [Finset.sum_Ico_succ_top hu]
        ring
      rcases ih (p + afs1 c) hp' with ⟨a1, a2⟩ | ⟨i, a1, a2, a3, a4⟩
      · left
        refine ⟨a1, ?_⟩
        rw [e 0 (Nat.zero_le c)]
        exact a2
      · right
        refine ⟨i, by omega, a2, ?_, ?_⟩
        · rw [e (i + 1) (by omega)]
          exact a3
        · rw [e i (by omega)]
          exact a4

/-- The two scans on a probability vector: the lower index is at most the upper
one, each tail has mass at most `0.025`. -/
theorem cil_scans (afs1 : Arr) (M : Nat) (hnn : ∀ k, k ≤ M → 0 ≤ afs1 k)
    (hsum : sumTo afs1 (M + 1) = 1) :
    ∃ h : Nat, cilScanDown afs1 (M + 1) 0 = (h : Int)
      ∧ cilScanUp afs1 0 (M + 1) 0 ≤ h ∧ h ≤ M
      ∧ ∑ j in Finset.Ico 0 (cilScanUp afs1 0 (M + 1) 0), afs1 j ≤ 25 / 1000
      ∧ ∑ j in Finset.Ico (h + 1) (M + 1), afs1 j ≤ 25 / 1000 := by
  have hs : ∑ j in Finset.Ico 0 (M + 1), afs1 j = 1 := by
    rw [← hsum, sumTo_eq_sum, Finset.range_eq_Ico]
  have hnn' : ∀ a b, b ≤ M + 1 → 0 ≤ ∑ j in Finset.Ico a b, afs1 j := by
    intro a b hb
    refine Finset.sum_nonneg (fun j hj => hnn j ?_)
    rw [Finset.mem_Ico] at hj
    omega
  obtain ⟨u1, u2, u3, u4⟩ := cilScanUp_spec afs1 (M + 1) 0 0 (by norm_num)
  simp only [zero_add] at u2 u3 u4
  rcases cilScanDown_spec afs1 (M + 1) 0 (by norm_num) with ⟨_, d2⟩ | ⟨h, d1, d2, d3, d4⟩
  · rw [hs] at d2
    norm_num at d2
  · simp only [zero_add] at d3 d4
    refine ⟨h, d2, ?_, by omega, u3, d3⟩
    by_contra hlt
    have hlt' : h + 1 ≤ cilScanUp afs1 0 (M + 1) 0 := by omega
    -- the mass up to `h` is below the lower index, the mass above `h` is the upper tail
    have s1 : ∑ j in Finset.Ico 0 (M + 1), afs1 j
        = ∑ j in Finset.Ico 0 (h + 1), afs1 j + ∑ j in Finset.Ico (h + 1) (M + 1), afs1 j :=
      (Finset.sum_Ico_consecutive afs1 (Nat.zero_le _) (by omega)).symm
    have s2 : ∑ j in Finset.Ico 0 (cilScanUp afs1 0 (M + 1) 0), afs1 j
        = ∑ j in Finset.Ico 0 (h + 1), afs1 j
          + ∑ j in Finset.Ico (h + 1) (cilScanUp afs1 0 (M + 1) 0), afs1 j :=
      (Finset.sum_Ico_consecutive afs1 (Nat.zero_le _) hlt').symm
    have s3 := hnn' (h + 1) (cilScanUp afs1 0 (M + 1) 0) u2
    rw [hs] at s1
    linarith

/-- The fields of the result of a successful `bcf_p1_cal` that do not depend on
the contrast test, in terms of the context `mc_cal_afs` leaves. -/
theorem bcf_p1_cal_fields (ext : Ext) (site : Site) (dc : Bool) (ma : bcf_p1aux_t)
    (rst : bcf_p1rst_t) (h : ¬ site.n_allele < 2) :
    (bcf_p1_cal ext site dc ma rst).2.2.p_ref
        = (mc_cal_afs (calCtx site ma) rst.p_ref_folded rst.p_var_folded).2.1.afs1
            (mc_cal_afs (calCtx site ma) rst.p_ref_folded rst.p_var_folded).2.1.M
    ∧ (bcf_p1_cal ext site dc ma rst).2.2.p_var
        = sumTo (mc_cal_afs (calCtx site ma) rst.p_ref_folded rst.p_var_folded).2.1.afs1
            (mc_cal_afs (calCtx site ma) rst.p_ref_folded rst.p_var_folded).2.1.M
    ∧ (bcf_p1_cal ext site dc ma rst).2.2.ac
        = ((mc_cal_afs (calCtx site ma) rst.p_ref_folded rst.p_var_folded).2.1.M : Int)
          - (argMaxFrom (mc_cal_afs (calCtx site ma) rst.p_ref_folded rst.p_var_folded).2.1.z
              ((mc_cal_afs (calCtx site ma) rst.p_ref_folded rst.p_var_folded).2.1.M + 1)).2
    ∧ (bcf_p1_cal ext site dc ma rst).2.2.cil
        = ((((mc_cal_afs (calCtx site ma) rst.p_ref_folded rst.p_var_folded).2.1.M : Int)
            - cilScanDown
                (mc_cal_afs (calCtx site ma) rst.p_ref_folded rst.p_var_folded).2.1.afs1
                ((mc_cal_afs (calCtx site ma) rst.p_ref_folded rst.p_var_folded).2.1.M + 1) 0
              : Int) : ℚ)
          / ((mc_cal_afs (calCtx site ma) rst.p_ref_folded rst.p_var_folded).2.1.M : ℚ)
    ∧ (bcf_p1_cal ext site dc ma rst).2.2.cih
        = ((((mc_cal_afs (calCtx site ma) rst.p_ref_folded rst.p_var_folded).2.1.M : Int)
            - (cilScanUp
                (mc_cal_afs (calCtx site ma) rst.p_ref_folded rst.p_var_folded).2.1.afs1 0
                ((mc_cal_afs (calCtx site ma) rst.p_ref_folded rst.p_var_folded).2.1.M + 1) 0
              : Int) : Int) : ℚ)
          / ((mc_cal_afs (calCtx site ma) rst.p_ref_folded rst.p_var_folded).2.1.M : ℚ) := by
  unfold bcf_p1_cal
  simp only
  rw [if_neg h]
  split_ifs <;> exact ⟨rfl, rfl, rfl, rfl, rfl⟩

/-- The context `mc_cal_afs` leaves keeps `M`. -/
theorem mc_cal_afs_M (ma : bcf_p1aux_t) (p q : ℚ) : (mc_cal_afs ma p q).2.1.M = ma.M := by
  have e : (afsPass ma).M = ma.M := (mc_cal_y_frame _).2.2.2.2.2.1
  unfold mc_cal_afs
  simp only
  split_ifs <;> exact e

theorem calCtx_M (site : Site) (ma : bcf_p1aux_t) : (calCtx site ma).M = ma.M := rfl

/-! ### C12: the credible interval -/

/-- C12. If `afs1[0..M]` has non-negative entries that sum to one and `M ≥ 1`,
the indices `l` and `h` found by the two inward scans of `bcf_p1_cal` satisfy
`l ≤ h ≤ M`, the mass strictly below `l` and the mass strictly above `h` are
each at most `0.025`, the mass of `l..h` is at least `0.95`, and the bounds
`cil = (M-h)/M`, `cih = (M-l)/M` satisfy `0 ≤ cil ≤ cih ≤ 1`. -/
theorem credible_interval_bounds (afs1 : Arr) (M : Nat) (hM : 1 ≤ M)
    (hnn : ∀ k, k ≤ M → 0 ≤ afs1 k) (hsum : sumTo afs1 (M + 1) = 1) :
    ∃ h : Nat, cilScanDown afs1 (M + 1) 0 = (h : Int)
      ∧ cilScanUp afs1 0 (M + 1) 0 ≤ h ∧ h ≤ M
      ∧ sumTo afs1 (cilScanUp afs1 0 (M + 1) 0) ≤ 25 / 1000
      ∧ sumRange afs1 (h + 1) M ≤ 25 / 1000
      ∧ 95 / 100 ≤ sumRange afs1 (cilScanUp afs1 0 (M + 1) 0) h
      ∧ 0 ≤ ((((M : Int) - cilScanDown afs1 (M + 1) 0 : Int) : ℚ) / (M : ℚ))
      ∧ ((((M : Int) - cilScanDown afs1 (M + 1) 0 : Int) : ℚ) / (M : ℚ))
          ≤ ((((M : Int) - (cilScanUp afs1 0 (M + 1) 0 : Int) : Int) : ℚ) / (M : ℚ))
      ∧ ((((M : Int) - (cilScanUp afs1 0 (M + 1) 0 : Int) : Int) : ℚ) / (M : ℚ)) ≤ 1 := by
  obtain ⟨h, e, a1, a2, a3, a4⟩ := cil_scans afs1 M hnn hsum
  have hMq : (0 : ℚ) < (M : ℚ) := by exact_mod_cast hM
  have t1 : sumTo afs1 (cilScanUp afs1 0 (M + 1) 0) ≤ 25 / 1000 := by
    rw [sumTo_eq_sum, Finset.range_eq_Ico]
    exact a3
  have t2 : sumRange afs1 (h + 1) M ≤ 25 / 1000 := by
    rw [sumRange_eq_sum]
    exact a4
  have tot : ∑ j in Finset.Ico 0 (M + 1), afs1 j = 1 := by
    rw [← hsum, sumTo_eq_sum, Finset.range_eq_Ico]
  have split : ∑ j in Finset.Ico 0 (M + 1), afs1 j
      = ∑ j in Finset.Ico 0 (cilScanUp afs1 0 (M + 1) 0), afs1 j
        + ∑ j in Finset.Ico (cilScanUp afs1 0 (M + 1) 0) (h + 1), afs1 j
        + ∑ j in Finset.Ico (h + 1) (M + 1), afs1 j := by
    rw [Finset.sum_Ico_consecutive afs1 (Nat.zero_le _) (by omega),
      Finset.sum_Ico_consecutive afs1 (Nat.zero_le _) (by omega)]
  have t3 : 95 / 100 ≤ sumRange afs1 (cilScanUp afs1 0 (M + 1) 0) h := by
    rw [sumRange_eq_sum]
    rw [tot] at split
    linarith
  refine ⟨h, e, a1, a2, t1, t2, t3, ?_, ?_, ?_⟩
  · rw [e]
    refine div_nonneg ?_ (le_of_lt hMq)
    have : (0 : Int) ≤ (M : Int) - (h : Int) := by omega
    exact_mod_cast this
  · rw [e]
    refine div_le_div_of_nonneg_right ?_ (le_of_lt hMq)
    have : (M : Int) - (h : Int) ≤ (M : Int) - (cilScanUp afs1 0 (M + 1) 0 : Int) := by omega
    exact_mod_cast this
  · rw [div_le_one hMq]
    have : (M : Int) - (cilScanUp afs1 0 (M + 1) 0 : Int) ≤ (M : Int) := by omega
    exact_mod_cast this

/-- Witness of C12: the whole mass on the allele count 1 of `M = 1`. -/
theorem credible_interval_bounds_witness :
    sumTo afsPoint (1 + 1) = 1
    ∧ ∃ h : Nat, cilScanDown afsPoint (1 + 1) 0 = (h : Int)
        ∧ cilScanUp afsPoint 0 (1 + 1) 0 ≤ h ∧ h ≤ 1 := by
  have hs : sumTo afsPoint (1 + 1) = 1 := by norm_num [sumTo, afsPoint]
  have hn : ∀ k, k ≤ 1 → 0 ≤ afsPoint k := by
    intro k _
    unfold afsPoint
    split_ifs <;> norm_num
  obtain ⟨h, e, a, b, _⟩ := credible_interval_bounds afsPoint 1 (le_refl 1) hn hs
  exact ⟨hs, h, e, a, b⟩

/-! ### C13: the mass that `contrast2` reports -/

/-- C13. For a context with a split (`n1 > 0` and `n - n1 > 0`) whose normaliser
`Σ_k phi[k] * z[k]` is not zero (so that every quotient of `contrast2_aux` is a
number), the three masses that `contrast2` leaves in `ret` satisfy
`ret[0] + ret[1] + ret[2] ≥ 0.95`, on each of the three paths: truncated scan,
exhaustive scan, forced split. -/
theorem contrast2_mass (ext : Ext) (p1 : bcf_p1aux_t) (ret : Fin 3 → ℚ)
    (h1 : 0 < p1.n1) (h2 : 0 < (p1.n : Int) - p1.n1)
    (_hsum : sumTo (fun k => p1.phi k * p1.z k) (p1.M + 1) ≠ 0) :
    95 / 100 ≤ (contrast2 ext p1 ret).2.1 0 + (contrast2 ext p1 ret).2.1 1
      + (contrast2 ext p1 ret).2.1 2 := by
  unfold contrast2
  rw [if_neg (by omega)]
  simp only
  split_ifs with a b
  · show (95 : ℚ) / 100 ≤ 1 / 3 + 1 / 3 + 1 / 3
    norm_num
  · exact not_lt.mp b
  · exact not_lt.mp a

/-- The normaliser of `contrast2` on the two-stage pass of `ctxSplit`. -/
theorem ctxSplit_contrast_sum :
    sumTo (fun k => (mc_cal_y ctxSplit).phi k * (mc_cal_y ctxSplit).z k) ((mc_cal_y ctxSplit).M + 1)
      = 1 / 9 := by
  obtain ⟨_, _, f3, _, _, f6, _⟩ := mc_cal_y_frame ctxSplit
  have hphi : ctxSplit.phi = init_prior PType.full (1 / 1000) ((4 : Nat) : Int) (fun _ => 0) := rfl
  have hM : ctxSplit.M + 1 = 4 + 1 := rfl
  rw [f3, f6, hphi, hM,
    sumTo_congr (fun k hk => by rw [(ctxSplit_z k (Nat.lt_succ_iff.mp hk)).2]),
    sumTo_mul_right, init_prior_full_sum]
  norm_num

/-- Witness of C13: the two-stage pass of `ctxSplit`, whose normaliser is `1/9`. -/
theorem contrast2_mass_witness :
    0 < (mc_cal_y ctxSplit).n1 ∧ 0 < ((mc_cal_y ctxSplit).n : Int) - (mc_cal_y ctxSplit).n1
    ∧ 95 / 100 ≤ (contrast2 extLower (mc_cal_y ctxSplit) (fun _ => -1)).2.1 0
        + (contrast2 extLower (mc_cal_y ctxSplit) (fun _ => -1)).2.1 1
        + (contrast2 extLower (mc_cal_y ctxSplit) (fun _ => -1)).2.1 2 := by
  obtain ⟨_, _, _, _, _, _, f7, f8, _⟩ := mc_cal_y_frame ctxSplit
  have a : 0 < (mc_cal_y ctxSplit).n1 := by
    rw [f8]
    decide
  have b : 0 < ((mc_cal_y ctxSplit).n : Int) - (mc_cal_y ctxSplit).n1 := by
    rw [f7, f8]
    decide
  have c : sumTo (fun k => (mc_cal_y ctxSplit).phi k * (mc_cal_y ctxSplit).z k)
      ((mc_cal_y ctxSplit).M + 1) ≠ 0 := by
    rw [ctxSplit_contrast_sum]
    norm_num
  exact ⟨a, b, contrast2_mass extLower (mc_cal_y ctxSplit) (fun _ => -1) a b c⟩

/-! ### C15: the sum of the indel prior -/

/-- The sum of the array that `bcf_p1_indel_prior` writes. -/
theorem bcf_p1_indel_prior_sum (ma : bcf_p1aux_t) (x : ℚ) :
    sumTo (bcf_p1_indel_prior ma x).phi_indel (ma.M + 1)
      = x * sumTo ma.phi ma.M + (1 - ma.phi ma.M * x) := by
  have h : sumTo (bcf_p1_indel_prior ma x).phi_indel (ma.M + 1)
      = sumTo (bcf_p1_indel_prior ma x).phi_indel ma.M
        + (bcf_p1_indel_prior ma x).phi_indel ma.M := rfl
  have hl : (bcf_p1_indel_prior ma x).phi_indel ma.M = 1 - ma.phi ma.M * x := by
    simp [bcf_p1_indel_prior, Arr.set]
  have hi : ∀ i, i < ma.M → (bcf_p1_indel_prior ma x).phi_indel i = ma.phi i * x := by
    intro i hi
    have hne : i ≠ ma.M := by omega
    simp [bcf_p1_indel_prior, Arr.set, hne, hi]
  rw [h, hl, sumTo_congr hi, sumTo_mul_right]
  ring

/-- The prior `phi` of the context built for one diploid sample. -/
theorem ctxOne_phi :
    ctxOne.M = 2 ∧ ctxOne.phi 0 = 1 / 2000 ∧ ctxOne.phi 1 = 1 / 1000
    ∧ ctxOne.phi 2 = 1997 / 2000 := by
  have hphi : ctxOne.phi = init_prior PType.full (1 / 1000) ((2 : Nat) : Int) (fun _ => 0) := rfl
  refine ⟨rfl, ?_, ?_, ?_⟩
  · rw [hphi, init_prior_full_lt _ _ _ 0 (by omega)]
    norm_num
  · rw [hphi, init_prior_full_lt _ _ _ 1 (by omega)]
    norm_num
  · rw [hphi, init_prior_full_last]
    norm_num [sumTo]

/-- C15. The array `phi_indel[0..M]` that `bcf_p1_indel_prior(ma, x)` writes sums
to `x * (phi[0] + ... + phi[M-1]) + 1 - phi[M] * x`, which for a prior `phi` that
sums to one is `1 + x * (1 - 2 * phi[M])` and not `1`: in the context that
`bcf_p1_init` builds for one diploid sample (FULL prior, `theta = 1e-3`, rate
`0.15`) `phi` sums to `1` and `phi_indel` sums to `0.85045`. -/
theorem bcf_p1_indel_prior_not_normalised :
    (∀ (ma : bcf_p1aux_t) (x : ℚ), sumTo ma.phi (ma.M + 1) = 1 →
      sumTo (bcf_p1_indel_prior ma x).phi_indel (ma.M + 1) = 1 + x * (1 - 2 * ma.phi ma.M))
    ∧ sumTo ctxOne.phi (ctxOne.M + 1) = 1
    ∧ sumTo ctxOne.phi_indel (ctxOne.M + 1) = 85045 / 100000
    ∧ sumTo ctxOne.phi_indel (ctxOne.M + 1) ≠ 1 := by
  obtain ⟨hM, p0, p1, p2⟩ := ctxOne_phi
  have hs : sumTo ctxOne.phi (ctxOne.M + 1) = 1 := by
    rw [hM]
    norm_num [sumTo, p0, p1, p2]
  have hi : sumTo ctxOne.phi_indel (ctxOne.M + 1) = 85045 / 100000 := by
    have e : ctxOne.phi_indel
        = (bcf_p1_indel_prior
            { ctxOne with phi_indel := fun _ => 0 } MC_DEF_INDEL).phi_indel := rfl
    have e2 := bcf_p1_indel_prior_sum { ctxOne with phi_indel := fun _ => 0 } MC_DEF_INDEL
    rw [e]
    refine e2.trans ?_
    show MC_DEF_INDEL * sumTo ctxOne.phi ctxOne.M + (1 - ctxOne.phi ctxOne.M * MC_DEF_INDEL) = _
    rw [hM]
    norm_num [sumTo, p0, p1, p2, MC_DEF_INDEL]
  refine ⟨fun ma x h => ?_, hs, hi, ?_⟩
  · have h' : sumTo ma.phi ma.M = 1 - ma.phi ma.M := by
      have : sumTo ma.phi (ma.M + 1) = sumTo ma.phi ma.M + ma.phi ma.M := rfl
      linarith
    rw [bcf_p1_indel_prior_sum, h']
    ring
  · rw [hi]
    norm_num

/-- Witness of C15: the context built for one diploid sample, where the prior
`phi` sums to one. -/
theorem bcf_p1_indel_prior_not_normalised_witness :
    sumTo ctxOne.phi (ctxOne.M + 1) = 1
    ∧ sumTo (bcf_p1_indel_prior ctxOne (15 / 100)).phi_indel (ctxOne.M + 1)
        = 1 + 15 / 100 * (1 - 2 * ctxOne.phi ctxOne.M) :=
  ⟨bcf_p1_indel_prior_not_normalised.2.1,
    bcf_p1_indel_prior_not_normalised.1 ctxOne (15 / 100) bcf_p1_indel_prior_not_normalised.2.1⟩

/-! ### C17: the priors of the two subpopulations -/

/-- The context that `bcf_p1_init` returns holds `n1 = -1`. -/
theorem bcf_p1_init_reach (q2p : Nat → ℚ) (n_smpl : Nat) (ploidy : Option (Nat → Nat)) :
    SplitReach (bcf_p1_init q2p n_smpl ploidy) :=
  Or.inl rfl

/-- Whatever its argument, `bcf_p1_set_n1` leaves a context whose `n1` is one it
could hold before or one below `n`, stored only when `M = 2n`. -/
theorem bcf_p1_set_n1_reach (b : bcf_p1aux_t) (n1 : Int) (h : SplitReach b) :
    SplitReach (bcf_p1_set_n1 b n1).2 := by
  unfold bcf_p1_set_n1
  by_cases c1 : n1 = 0 ∨ n1 ≥ (b.n : Int)
  · rw [if_pos c1]
    exact h
  · rw [if_neg c1]
    by_cases c2 : b.M ≠ b.n * 2
    · rw [if_pos c2]
      exact h
    · rw [if_neg c2]
      exact Or.inr ⟨by show n1 < (b.n : Int); omega, not_not.mp c2⟩

/-- The functions `bcf_p1_init_prior` and `bcf_p1_init_subprior` leave `n1`, `n`
and `M` as they are. -/
theorem init_prior_reach (ma : bcf_p1aux_t) (type : PType) (theta : ℚ) (h : SplitReach ma) :
    SplitReach (bcf_p1_init_prior ma type theta)
    ∧ SplitReach (bcf_p1_init_subprior ma type theta) := by
  refine ⟨h, ?_⟩
  unfold bcf_p1_init_subprior
  split_ifs
  · exact h
  · exact h

/-- C17. On every context whose `n1` is one that the code can have stored
(`-1` from `bcf_p1_init`, or a value below `n` stored by `bcf_p1_set_n1`, which
requires `M = 2n`), `bcf_p1_init_subprior` writes `phi1` and `phi2` only when a
valid split exists: when `0 < n1 < n`, `phi1` is what `init_prior` writes for
`2*n1` allele copies and `phi2` what it writes for `2*(n-n1)`, every other field
being unchanged; for every other value of `n1` the context, and so both arrays,
is unchanged. -/
theorem bcf_p1_init_subprior_valid_split (ma : bcf_p1aux_t) (type : PType) (theta : ℚ)
    (hr : SplitReach ma) :
    ((0 < ma.n1 ∧ ma.n1 < (ma.n : Int)) →
      bcf_p1_init_subprior ma type theta
        = { ma with
            phi1 := init_prior type theta (2 * ma.n1) ma.phi1
            phi2 := init_prior type theta (2 * ((ma.n : Int) - ma.n1)) ma.phi2 })
    ∧ (¬ (0 < ma.n1 ∧ ma.n1 < (ma.n : Int)) →
        bcf_p1_init_subprior ma type theta = ma
        ∧ (bcf_p1_init_subprior ma type theta).phi1 = ma.phi1
        ∧ (bcf_p1_init_subprior ma type theta).phi2 = ma.phi2) := by
  refine ⟨fun h => ?_, fun h => ?_⟩
  · unfold bcf_p1_init_subprior
    rcases hr with hr | ⟨_, hM⟩
    · omega
    · have hM' : (ma.M : Int) = (ma.n : Int) * 2 := by exact_mod_cast hM
      rw [if_neg (by omega)]
  · have e : bcf_p1_init_subprior ma type theta = ma := by
      unfold bcf_p1_init_subprior
      rcases hr with hr | ⟨hlt, _⟩
      · rw [if_pos (Or.inl (by omega))]
      · rw [if_pos (Or.inl (by omega))]
    exact ⟨e, by rw [e], by rw [e]⟩

/-- Witness of C17: three diploid samples. After `bcf_p1_set_n1(ma, 1)` the
split is valid and `phi1`, `phi2` are the FLAT priors of `2` and `4` allele
copies; on the context that `bcf_p1_init` returns (`n1 = -1`) nothing changes. -/
theorem bcf_p1_init_subprior_valid_split_witness :
    (SplitReach ctxThree ∧ 0 < ctxThree.n1 ∧ ctxThree.n1 < (ctxThree.n : Int))
    ∧ (bcf_p1_init_subprior ctxThree PType.flat 0).phi1
        = init_prior PType.flat 0 2 ctxThree.phi1
    ∧ (bcf_p1_init_subprior ctxThree PType.flat 0).phi2
        = init_prior PType.flat 0 4 ctxThree.phi2 := by
  have hr : SplitReach ctxThree := bcf_p1_set_n1_reach _ 1 (bcf_p1_init_reach q2pTen 3 none)
  have h1 : 0 < ctxThree.n1 := by decide
  have h2 : ctxThree.n1 < (ctxThree.n : Int) := by decide
  have e := (bcf_p1_init_subprior_valid_split ctxThree PType.flat 0 hr).1 ⟨h1, h2⟩
  exact ⟨⟨hr, h1, h2⟩, by rw [e]; rfl, by rw [e]; rfl⟩

/-! ### C18: the run-level accumulator -/

/-- C18. When the normaliser is not zero, `mc_cal_afs` adds the posterior it has
just stored in `afs1` to the accumulator: `afs[k]` becomes `afs[k] + afs1[k]`
for every `k` in `0..M`. `bcf_p1_dump_afs` sets `afs[k] = 0` for every `k` in
`0..M` and changes no other field of the context, nor any other cell of `afs`. -/
theorem mc_cal_afs_accumulates (ma : bcf_p1aux_t) (p q : ℚ) (hS : afsSum ma ≠ 0) :
    (∀ k, k ≤ ma.M →
      (mc_cal_afs ma p q).2.1.afs k = ma.afs k + (mc_cal_afs ma p q).2.1.afs1 k)
    ∧ (∀ k, k ≤ ma.M → (bcf_p1_dump_afs ma).afs k = 0)
    ∧ (∀ k, ma.M < k → (bcf_p1_dump_afs ma).afs k = ma.afs k)
    ∧ bcf_p1_dump_afs ma = { ma with afs := (bcf_p1_dump_afs ma).afs } := by
  obtain ⟨_, h1, h2, _⟩ := mc_cal_afs_ok ma p q hS
  have hf : (afsPass ma).afs = ma.afs :=
    (mc_cal_y_frame { ma with afs1 := ma.afs1.zero (ma.M + 1) }).1
  refine ⟨fun k hk => ?_, fun k hk => ?_, fun k hk => ?_, rfl⟩
  · rw [h2, h1, Arr.fill_in _ _ _ _ k (Nat.zero_le k) hk, hf]
  · show (ma.afs.zero (ma.M + 1)) k = 0
    simp only [Arr.zero]
    rw [if_pos (by omega)]
  · show (ma.afs.zero (ma.M + 1)) k = ma.afs k
    simp only [Arr.zero]
    rw [if_neg (by omega)]

/-- Witness of C18: the context `ctxSplit`, whose normaliser is `1/9`. -/
theorem mc_cal_afs_accumulates_witness :
    afsSum ctxSplit ≠ 0
    ∧ (mc_cal_afs ctxSplit 0 0).2.1.afs 0
        = ctxSplit.afs 0 + (mc_cal_afs ctxSplit 0 0).2.1.afs1 0 := by
  have h : afsSum ctxSplit ≠ 0 := by
    rw [ctxSplit_afsSum]
    norm_num
  exact ⟨h, (mc_cal_afs_accumulates ctxSplit 0 0 h).1 0 (Nat.zero_le _)⟩

/-! ### Evaluation of a step whose pruned window is a single cell -/

theorem pruneMin_idx (fuel : Nat) (z0 z1 : Arr) (mn mx m : Nat) (hf : m - mn ≤ fuel)
    (h1 : mn ≤ m) (h2 : m ≤ mx) (hlo : ∀ k, mn ≤ k → k < m → z0 k < TINY)
    (hstop : ¬ (m < mx ∧ z0 m < TINY)) : (pruneMin fuel z0 z1 mn mx).2.2 = m := by
  induction fuel generalizing z0 z1 mn with
  | zero =>
    have : m = mn := by omega
    subst this
    rfl
  | succ fuel ih =>
    by_cases hmn : mn = m
    · subst hmn
      unfold pruneMin
      rw [if_neg hstop]
    · unfold pruneMin
      rw [if_pos ⟨by omega, hlo mn (le_refl _) (by omega)⟩]
      refine ih (z0.set mn 0) (z1.set mn 0) (mn + 1) (by omega) (by omega) (fun k a b => ?_) ?_
      · rw [Arr.set_ne _ _ _ _ (by omega)]
        exact hlo k (by omega) b
      · rw [Arr.set_ne _ _ _ _ (by omega)]
        exact hstop

theorem pruneMax_idx (fuel : Nat) (z0 z1 : Arr) (mn mx m : Nat) (hf : mx - m ≤ fuel)
    (h0 : mn ≤ m) (h1 : m ≤ mx) (hhi : ∀ k, m < k → k ≤ mx → z0 k < TINY)
    (hstop : ¬ (m > mn ∧ z0 m < TINY)) : (pruneMax fuel z0 z1 mn mx).2.2 = m := by
  induction fuel generalizing z0 z1 mx with
  | zero =>
    have : m = mx := by omega
    subst this
    rfl
  | succ fuel ih =>
    by_cases hmx : mx = m
    · subst hmx
      unfold pruneMax
      rw [if_neg hstop]
    · unfold pruneMax
      rw [if_pos ⟨by omega, hhi mx (by omega) (le_refl _)⟩]
      refine ih (z0.set mx 0) (z1.set mx 0) (mx - 1) (by omega) (by omega) (fun k a b => ?_) ?_
      · rw [Arr.set_ne _ _ _ _ (by omega)]
        exact hhi k a (by omega)
      · rw [Arr.set_ne _ _ _ _ (by omega)]
        exact hstop

/-- A diploid step in terms of what the two pruning loops return. -/
theorem dipStep_window (ma : bcf_p1aux_t) (beg j : Nat) (s : CoreState) (a0 a1 b0 b1 : Arr)
    (mn mx : Nat)
    (e1 : pruneMin (s.last_max - s.last_min) s.z0 s.z1 s.last_min s.last_max = (a0, a1, mn))
    (e2 : pruneMax (s.last_max - mn) a0 a1 mn s.last_max = (b0, b1, mx)) :
    (dipStep ma beg j s).last_min = mn
    ∧ (dipStep ma beg j s).last_max = mx + 2
    ∧ (dipStep ma beg j s).et
        = s.et * (sumRange (dipVal s.M ![pdgOf ma j 0, 2 * pdgOf ma j 1, pdgOf ma j 2] b0)
            mn (mx + 2) / (((s.M + 2 : Nat) : ℚ) * (((s.M + 2 : Nat) : ℚ) - 1)))
    ∧ (∀ k, mn ≤ k → k ≤ mx + 2 →
        (dipStep ma beg j s).z0 k
          = dipVal s.M ![pdgOf ma j 0, 2 * pdgOf ma j 1, pdgOf ma j 2] b0 k
            / sumRange (dipVal s.M ![pdgOf ma j 0, 2 * pdgOf ma j 1, pdgOf ma j 2] b0)
                mn (mx + 2)) := by
  have hs : sumRange (b1.fill mn (mx + 2)
        (dipVal s.M ![pdgOf ma j 0, 2 * pdgOf ma j 1, pdgOf ma j 2] b0)) mn (mx + 2)
      = sumRange (dipVal s.M ![pdgOf ma j 0, 2 * pdgOf ma j 1, pdgOf ma j 2] b0) mn (mx + 2) :=
    sumRange_congr (fun k a b => Arr.fill_in _ _ _ _ k a b)
  refine ⟨?_, ?_, ?_, fun k a b => ?_⟩
  · simp only [dipStep, e1]
  · simp only [dipStep, e1, e2, dipUpdate]
  · simp only [dipStep, e1, e2, dipUpdate, hs]
  · simp only [dipStep, e1, e2, dipUpdate, hs, ite_apply, Arr.set_apply]
    have e : ((b1.fill mn (mx + 2)
          (dipVal s.M ![pdgOf ma j 0, 2 * pdgOf ma j 1, pdgOf ma j 2] b0)).fill
          mn (mx + 2) fun k =>
            (b1.fill mn (mx + 2)
              (dipVal s.M ![pdgOf ma j 0, 2 * pdgOf ma j 1, pdgOf ma j 2] b0)) k
            / sumRange (dipVal s.M ![pdgOf ma j 0, 2 * pdgOf ma j 1, pdgOf ma j 2] b0)
                mn (mx + 2)) k
        = dipVal s.M ![pdgOf ma j 0, 2 * pdgOf ma j 1, pdgOf ma j 2] b0 k
            / sumRange (dipVal s.M ![pdgOf ma j 0, 2 * pdgOf ma j 1, pdgOf ma j 2] b0)
                mn (mx + 2) := by
      rw [Arr.fill_in _ _ _ _ k a b, Arr.fill_in _ _ _ _ k a b]
    rw [← e]
    split_ifs <;> first | rfl | (exfalso; omega)


/-- The values that a diploid step stores when the pruned window is the single
cell `m`: the three coefficients of lines 246-249 at `k = m, m+1, m+2`. -/
theorem dipVal_point (M0 : Nat) (p : Fin 3 → ℚ) (b0 : Arr) (m B : Nat) (hB : m + 2 ≤ B)
    (hz : ∀ k, k ≠ m → k ≤ B → b0 k = 0) :
    dipVal M0 p b0 m = ((M0 : ℚ) - m + 1) * ((M0 : ℚ) - m + 2) * p 0 * b0 m
    ∧ dipVal M0 p b0 (m + 1) = ((m : ℚ) + 1) * ((M0 : ℚ) - m + 1) * p 1 * b0 m
    ∧ dipVal M0 p b0 (m + 2) = ((m : ℚ) + 2) * ((m : ℚ) + 1) * p 2 * b0 m := by
  refine ⟨?_, ?_, ?_⟩
  · unfold dipVal
    split_ifs with c0 c1
    · rfl
    · rw [hz (m - 1) (by omega) (by omega)]
      ring
    · rw [hz (m - 1) (by omega) (by omega), hz (m - 2) (by omega) (by omega)]
      ring
  · unfold dipVal
    rw [if_neg (by omega)]
    have e1 : m + 1 - 1 = m := by omega
    split_ifs with c1
    · rw [hz (m + 1) (by omega) (by omega), e1]
      push_cast
      ring
    · rw [hz (m + 1) (by omega) (by omega), e1, hz (m + 1 - 2) (by omega) (by omega)]
      push_cast
      ring
  · unfold dipVal
    rw [if_neg (by omega), if_neg (by omega)]
    have e1 : m + 2 - 1 = m + 1 := by omega
    have e2 : m + 2 - 2 = m := by omega
    rw [hz (m + 2) (by omega) (by omega), e1, e2, hz (m + 1) (by omega) (by omega)]
    push_cast
    ring

theorem sumRange_three (f : Nat → ℚ) (m : Nat) :
    sumRange f m (m + 2) = f m + f (m + 1) + f (m + 2) := by
  have e : m + 2 + 1 - m = 3 := by omega
  unfold sumRange
  rw [e]
  simp [sumTo]

/-- A diploid step from a state whose window, once pruned, is the single cell
`m`: the new window is `m..m+2` and holds the three coefficients of the sample,
normalised. -/
theorem dipStep_point (ma : bcf_p1aux_t) (beg j B : Nat) (s : CoreState) (h : CoreInv B s)
    (hB : s.M + 2 ≤ B) (m : Nat) (h1 : s.last_min ≤ m) (h2 : m ≤ s.last_max)
    (hlo : ∀ k, s.last_min ≤ k → k < m → s.z0 k < TINY)
    (hhi : ∀ k, m < k → k ≤ s.last_max → s.z0 k < TINY)
    (hmid : ¬ s.z0 m < TINY) (c0 c1 c2 : ℚ)
    (hc0 : c0 = ((s.M : ℚ) - m + 1) * ((s.M : ℚ) - m + 2) * pdgOf ma j 0)
    (hc1 : c1 = ((m : ℚ) + 1) * ((s.M : ℚ) - m + 1) * (2 * pdgOf ma j 1))
    (hc2 : c2 = ((m : ℚ) + 2) * ((m : ℚ) + 1) * pdgOf ma j 2) :
    (dipStep ma beg j s).last_min = m
    ∧ (dipStep ma beg j s).last_max = m + 2
    ∧ (dipStep ma beg j s).et
        = s.et * (s.z0 m * (c0 + c1 + c2)
            / (((s.M + 2 : Nat) : ℚ) * (((s.M + 2 : Nat) : ℚ) - 1)))
    ∧ (dipStep ma beg j s).z0 m = c0 * s.z0 m / (s.z0 m * (c0 + c1 + c2))
    ∧ (dipStep ma beg j s).z0 (m + 1) = c1 * s.z0 m / (s.z0 m * (c0 + c1 + c2))
    ∧ (dipStep ma beg j s).z0 (m + 2) = c2 * s.z0 m / (s.z0 m * (c0 + c1 + c2)) := by
  have hmB : m + 2 ≤ B := by
    have := h.leM
    omega
  rcases e1 : pruneMin (s.last_max - s.last_min) s.z0 s.z1 s.last_min s.last_max
    with ⟨a0, a1, mn⟩
  have i1 := pruneMin_idx (s.last_max - s.last_min) s.z0 s.z1 s.last_min s.last_max m
    (by omega) h1 h2 hlo (fun c => hmid c.2)
  obtain ⟨_, _, q1, _⟩ := pruneMin_spec (s.last_max - s.last_min) s.z0 s.z1 s.last_min s.last_max
    h.le
  rw [e1] at i1 q1
  have i1' : mn = m := i1
  subst i1'
  have q1' : ∀ k, a0 k = if s.last_min ≤ k ∧ k < mn then 0 else s.z0 k := q1
  rcases e2 : pruneMax (s.last_max - mn) a0 a1 mn s.last_max with ⟨b0, b1, mx⟩
  have i2 := pruneMax_idx (s.last_max - mn) a0 a1 mn s.last_max mn (le_refl _) (le_refl _) h2
    (fun k a b => by
      rw [q1' k, if_neg (by omega)]
      exact hhi k a b)
    (fun c => absurd c.1 (lt_irrefl _))
  obtain ⟨_, _, q2, _⟩ := pruneMax_spec (s.last_max - mn) a0 a1 mn s.last_max h2
  rw [e2] at i2 q2
  have i2' : mx = mn := i2
  subst i2'
  have q2' : ∀ k, b0 k = if mx < k ∧ k ≤ s.last_max then 0 else a0 k := q2
  have hbm : b0 mx = s.z0 mx := by
    rw [q2' mx, if_neg (by omega), q1' mx, if_neg (by omega)]
  have hz : ∀ k, k ≠ mx → k ≤ B → b0 k = 0 := by
    intro k hk hkB
    rw [q2' k]
    split_ifs with c
    · rfl
    · rw [q1' k]
      split_ifs with d
      · rfl
      · exact h.out0 k hkB (by omega)
  obtain ⟨w1, w2, w3, w4⟩ := dipStep_window ma beg j s a0 a1 b0 b1 mx mx e1 e2
  obtain ⟨v0, v1, v2⟩ := dipVal_point s.M ![pdgOf ma j 0, 2 * pdgOf ma j 1, pdgOf ma j 2]
    b0 mx B hmB hz
  have p0 : (![pdgOf ma j 0, 2 * pdgOf ma j 1, pdgOf ma j 2] : Fin 3 → ℚ) 0 = pdgOf ma j 0 := rfl
  have p1 : (![pdgOf ma j 0, 2 * pdgOf ma j 1, pdgOf ma j 2] : Fin 3 → ℚ) 1
      = 2 * pdgOf ma j 1 := rfl
  have p2 : (![pdgOf ma j 0, 2 * pdgOf ma j 1, pdgOf ma j 2] : Fin 3 → ℚ) 2 = pdgOf ma j 2 := rfl
  rw [p0, hbm, ← hc0] at v0
  rw [p1, hbm, ← hc1] at v1
  rw [p2, hbm, ← hc2] at v2
  have hs : sumRange (dipVal s.M ![pdgOf ma j 0, 2 * pdgOf ma j 1, pdgOf ma j 2] b0) mx (mx + 2)
      = s.z0 mx * (c0 + c1 + c2) := by
    rw [sumRange_three, v0, v1, v2]
    ring
  rw [hs] at w3 w4
  refine ⟨w1, w2, w3, ?_, ?_, ?_⟩
  · rw [w4 mx (le_refl _) (by omega), v0]
  · rw [w4 (mx + 1) (by omega) (by omega), v1]
  · rw [w4 (mx + 2) (by omega) (le_refl _), v2]

/-! ### Steps between windows of three cells -/

/-- The first diploid step of a pass. -/
theorem win_first (ma : bcf_p1aux_t) (beg j : Nat) (hB : 2 ≤ ma.M) (p0 p1 p2 : ℚ)
    (hp0 : pdgOf ma j 0 = p0) (hp1 : pdgOf ma j 1 = p1) (hp2 : pdgOf ma j 2 = p2)
    (h0 : 0 < p0) (h1 : 0 < p1) (h2 : 0 < p2) (e a b c : ℚ)
    (he : e = (2 * p0 + 2 * p1 + 2 * p2) / 2)
    (ha : a = 2 * p0 / (2 * p0 + 2 * p1 + 2 * p2))
    (hb : b = 2 * p1 / (2 * p0 + 2 * p1 + 2 * p2))
    (hc : c = 2 * p2 / (2 * p0 + 2 * p1 + 2 * p2)) :
    Win ma.M (dipStep ma beg j (coreInit ma)) 0 2 e a b c := by
  have hpos : ∀ i, 0 < pdgOf ma j i := by
    intro i
    fin_cases i
    · exact hp0 ▸ h0
    · exact hp1 ▸ h1
    · exact hp2 ▸ h2
  have hi := coreInit_inv ma
  have z00 : (coreInit ma).z0 0 = 1 := by simp [coreInit, Arr.set]
  have hT : ¬ ((1 : ℚ) < TINY) := by norm_num [TINY]
  have hM0 : (coreInit ma).M = 0 := rfl
  have het0 : (coreInit ma).et = 1 := rfl
  obtain ⟨w1, w2, w3, w4, w5, w6⟩ := dipStep_point ma beg j ma.M (coreInit ma) hi hB 0
    (le_refl _) (le_refl _) (fun k a b => absurd b (Nat.not_lt_zero _))
    (fun k a b => absurd (lt_of_lt_of_le a b) (lt_irrefl _)) (by rw [z00]; exact hT)
    (2 * p0) (2 * p1) (2 * p2)
    (by rw [hp0, hM0]; norm_num) (by rw [hp1, hM0]; norm_num) (by rw [hp2]; norm_num)
  have hs : (2 * p0 + 2 * p1 + 2 * p2) ≠ 0 := by positivity
  rw [z00, hM0, het0] at w3
  rw [z00] at w4 w5 w6
  refine
    { inv := dipStep_inv ma beg j ma.M _ hpos hB hi, hmin := w1, hmax := w2, hM := rfl,
      het := ?_, h0 := ?_, h1 := ?_, h2 := ?_ }
  · rw [w3, he]
    norm_num
  · rw [w4, ha]
    field_simp
  · rw [w5, hb]
    field_simp
  · rw [w6, hc]
    field_simp

/-- A diploid step from a window whose two lower cells are below `TINY`. -/
theorem win_hi (ma : bcf_p1aux_t) (beg j B : Nat) (s : CoreState) (m M0 : Nat) (e a b c : ℚ)
    (w : Win B s m M0 e a b c) (hB : M0 + 2 ≤ B) (p0 p1 p2 : ℚ)
    (hp0 : pdgOf ma j 0 = p0) (hp1 : pdgOf ma j 1 = p1) (hp2 : pdgOf ma j 2 = p2)
    (h0 : 0 < p0) (h1 : 0 < p1) (h2 : 0 < p2)
    (ta : a < TINY) (tb : b < TINY) (tc : ¬ c < TINY) (c0 c1 c2 e' a' b' c' : ℚ)
    (hc0 : c0 = ((M0 : ℚ) - (m + 2) + 1) * ((M0 : ℚ) - (m + 2) + 2) * p0)
    (hc1 : c1 = ((m : ℚ) + 2 + 1) * ((M0 : ℚ) - (m + 2) + 1) * (2 * p1))
    (hc2 : c2 = ((m : ℚ) + 2 + 2) * ((m : ℚ) + 2 + 1) * p2)
    (hs : c0 + c1 + c2 ≠ 0)
    (he : e' = e * (c * (c0 + c1 + c2) / (((M0 : ℚ) + 2) * ((M0 : ℚ) + 1))))
    (ha : a' = c0 / (c0 + c1 + c2)) (hb : b' = c1 / (c0 + c1 + c2))
    (hc : c' = c2 / (c0 + c1 + c2)) :
    Win B (dipStep ma beg j s) (m + 2) (M0 + 2) e' a' b' c' := by
  have hpos : ∀ i, 0 < pdgOf ma j i := by
    intro i
    fin_cases i
    · exact hp0 ▸ h0
    · exact hp1 ▸ h1
    · exact hp2 ▸ h2
  have hM := w.hM
  have hz : s.z0 (m + 2) ≠ 0 := by
    rw [w.h2]
    intro hz
    apply tc
    rw [hz]
    norm_num [TINY]
  obtain ⟨w1, w2, w3, w4, w5, w6⟩ := dipStep_point ma beg j B s w.inv (by rw [hM]; exact hB)
    (m + 2) (by rw [w.hmin]; omega) (by rw [w.hmax])
    (fun k x y => by
      rw [w.hmin] at x
      have : k = m ∨ k = m + 1 := by omega
      rcases this with r | r
      · rw [r, w.h0]; exact ta
      · rw [r, w.h1]; exact tb)
    (fun k x y => by
      rw [w.hmax] at y
      omega)
    (by rw [w.h2]; exact tc) c0 c1 c2
    (by rw [hc0, hp0, hM]; push_cast; ring) (by rw [hc1, hp1, hM]; push_cast; ring)
    (by rw [hc2, hp2]; push_cast; ring)
  refine
    { inv := dipStep_inv ma beg j B s hpos (by rw [hM]; exact hB) w.inv, hmin := w1,
      hmax := w2, hM := by rw [dipStep_M, hM], het := ?_, h0 := ?_, h1 := ?_, h2 := ?_ }
  · rw [w3, he, w.het, w.h2, hM]
    push_cast
    ring
  · rw [w4, ha]
    field_simp
    ring
  · rw [w5, hb]
    field_simp
    ring
  · rw [w6, hc]
    field_simp
    ring

/-- A diploid step from a window whose two upper cells are below `TINY`. -/
theorem win_lo (ma : bcf_p1aux_t) (beg j B : Nat) (s : CoreState) (m M0 : Nat) (e a b c : ℚ)
    (w : Win B s m M0 e a b c) (hB : M0 + 2 ≤ B) (p0 p1 p2 : ℚ)
    (hp0 : pdgOf ma j 0 = p0) (hp1 : pdgOf ma j 1 = p1) (hp2 : pdgOf ma j 2 = p2)
    (h0 : 0 < p0) (h1 : 0 < p1) (h2 : 0 < p2)
    (ta : ¬ a < TINY) (tb : b < TINY) (tc : c < TINY) (c0 c1 c2 e' a' b' c' : ℚ)
    (hc0 : c0 = ((M0 : ℚ) - m + 1) * ((M0 : ℚ) - m + 2) * p0)
    (hc1 : c1 = ((m : ℚ) + 1) * ((M0 : ℚ) - m + 1) * (2 * p1))
    (hc2 : c2 = ((m : ℚ) + 2) * ((m : ℚ) + 1) * p2)
    (hs : c0 + c1 + c2 ≠ 0)
    (he : e' = e * (a * (c0 + c1 + c2) / (((M0 : ℚ) + 2) * ((M0 : ℚ) + 1))))
    (ha : a' = c0 / (c0 + c1 + c2)) (hb : b' = c1 / (c0 + c1 + c2))
    (hc : c' = c2 / (c0 + c1 + c2)) :
    Win B (dipStep ma beg j s) m (M0 + 2) e' a' b' c' := by
  have hpos : ∀ i, 0 < pdgOf ma j i := by
    intro i
    fin_cases i
    · exact hp0 ▸ h0
    · exact hp1 ▸ h1
    · exact hp2 ▸ h2
  have hM := w.hM
  have hz : s.z0 m ≠ 0 := by
    rw [w.h0]
    intro hz
    apply ta
    rw [hz]
    norm_num [TINY]
  obtain ⟨w1, w2, w3, w4, w5, w6⟩ := dipStep_point ma beg j B s w.inv (by rw [hM]; exact hB)
    m (by rw [w.hmin]) (by rw [w.hmax]; omega)
    (fun k x y => by
      rw [w.hmin] at x
      omega)
    (fun k x y => by
      rw [w.hmax] at y
      have : k = m + 1 ∨ k = m + 2 := by omega
      rcases this with r | r
      · rw [r, w.h1]; exact tb
      · rw [r, w.h2]; exact tc)
    (by rw [w.h0]; exact ta) c0 c1 c2
    (by rw [hc0, hp0, hM]) (by rw [hc1, hp1, hM]) (by rw [hc2, hp2])
  refine
    { inv := dipStep_inv ma beg j B s hpos (by rw [hM]; exact hB) w.inv, hmin := w1,
      hmax := w2, hM := by rw [dipStep_M, hM], het := ?_, h0 := ?_, h1 := ?_, h2 := ?_ }
  · rw [w3, he, w.het, w.h0, hM]
    push_cast
    ring
  · rw [w4, ha]
    field_simp
    ring
  · rw [w5, hb]
    field_simp
    ring
  · rw [w6, hc]
    field_simp
    ring

/-! ### Passes over samples that are homozygous -/

/-- A pass after one sample homozygous for the reference. -/
theorem pass_ref (ma : bcf_p1aux_t) (beg : Nat) (hM : 2 ≤ ma.M) (r0 : homRef ma beg) :
    Win ma.M (dipLoop ma beg 1) 0 2 ((10 ^ 25 + 2) / 10 ^ 25) (1 / (10 ^ 25 + 2))
      (1 / (10 ^ 25 + 2)) (10 ^ 25 / (10 ^ 25 + 2)) :=
  win_first ma beg (beg + 0) hM _ _ _ r0.1 r0.2.1 r0.2.2 (by norm_num) (by norm_num)
    (by norm_num) _ _ _ _ (by norm_num) (by norm_num) (by norm_num) (by norm_num)

/-- A pass after one sample homozygous for the other allele. -/
theorem pass_alt (ma : bcf_p1aux_t) (beg : Nat) (hM : 2 ≤ ma.M) (r0 : homAlt ma beg) :
    Win ma.M (dipLoop ma beg 1) 0 2 ((10 ^ 25 + 2) / 10 ^ 25) (10 ^ 25 / (10 ^ 25 + 2))
      (1 / (10 ^ 25 + 2)) (1 / (10 ^ 25 + 2)) :=
  win_first ma beg (beg + 0) hM _ _ _ r0.1 r0.2.1 r0.2.2 (by norm_num) (by norm_num)
    (by norm_num) _ _ _ _ (by norm_num) (by norm_num) (by norm_num) (by norm_num)

/-- A pass after two samples homozygous for the reference. -/
theorem pass_ref_ref (ma : bcf_p1aux_t) (beg : Nat) (hM : 4 ≤ ma.M) (r0 : homRef ma beg)
    (r1 : homRef ma (beg + 1)) :
    Win ma.M (dipLoop ma beg 2) 2 4 ((3 * 10 ^ 25 + 2) / (3 * 10 ^ 25)) (1 / (6 * 10 ^ 25 + 4))
      (3 / (6 * 10 ^ 25 + 4)) (6 * 10 ^ 25 / (6 * 10 ^ 25 + 4)) :=
  win_hi ma beg (beg + 1) ma.M _ 0 2 _ _ _ _ (pass_ref ma beg (by omega) r0) hM _ _ _
    r1.1 r1.2.1 r1.2.2 (by norm_num) (by norm_num) (by norm_num)
    (by norm_num [TINY]) (by norm_num [TINY]) (by norm_num [TINY])
    (2 / 10 ^ 25) (6 / 10 ^ 25) 12 _ _ _ _
    (by norm_num) (by norm_num) (by norm_num) (by norm_num) (by norm_num) (by norm_num)
    (by norm_num) (by norm_num)

/-- A pass after two samples homozygous for the other allele. -/
theorem pass_alt_alt (ma : bcf_p1aux_t) (beg : Nat) (hM : 4 ≤ ma.M) (r0 : homAlt ma beg)
    (r1 : homAlt ma (beg + 1)) :
    Win ma.M (dipLoop ma beg 2) 0 4 ((3 * 10 ^ 25 + 2) / (3 * 10 ^ 25))
      (6 * 10 ^ 25 / (6 * 10 ^ 25 + 4)) (3 / (6 * 10 ^ 25 + 4)) (1 / (6 * 10 ^ 25 + 4)) :=
  win_lo ma beg (beg + 1) ma.M _ 0 2 _ _ _ _ (pass_alt ma beg (by omega) r0) hM _ _ _
    r1.1 r1.2.1 r1.2.2 (by norm_num) (by norm_num) (by norm_num)
    (by norm_num [TINY]) (by norm_num [TINY]) (by norm_num [TINY])
    12 (6 / 10 ^ 25) (2 / 10 ^ 25) _ _ _ _
    (by norm_num) (by norm_num) (by norm_num) (by norm_num) (by norm_num) (by norm_num)
    (by norm_num) (by norm_num)

/-- A pass after three samples homozygous for the reference. -/
theorem pass_ref3 (ma : bcf_p1aux_t) (beg : Nat) (hM : 6 ≤ ma.M) (r0 : homRef ma beg)
    (r1 : homRef ma (beg + 1)) (r2 : homRef ma (beg + 2)) :
    Win ma.M (dipLoop ma beg 3) 4 6 ((5 * 10 ^ 25 + 2) / (5 * 10 ^ 25)) (1 / (15 * 10 ^ 25 + 6))
      (5 / (15 * 10 ^ 25 + 6)) (15 * 10 ^ 25 / (15 * 10 ^ 25 + 6)) :=
  win_hi ma beg (beg + 2) ma.M _ 2 4 _ _ _ _ (pass_ref_ref ma beg (by omega) r0 r1) hM _ _ _
    r2.1 r2.2.1 r2.2.2 (by norm_num) (by norm_num) (by norm_num)
    (by norm_num [TINY]) (by norm_num [TINY]) (by norm_num [TINY])
    (2 / 10 ^ 25) (10 / 10 ^ 25) 30 _ _ _ _
    (by norm_num) (by norm_num) (by norm_num) (by norm_num) (by norm_num) (by norm_num)
    (by norm_num) (by norm_num)

/-- A pass after four samples homozygous for the reference. -/
theorem pass_ref4 (ma : bcf_p1aux_t) (beg : Nat) (hM : 8 ≤ ma.M) (r0 : homRef ma beg)
    (r1 : homRef ma (beg + 1)) (r2 : homRef ma (beg + 2)) (r3 : homRef ma (beg + 3)) :
    Win ma.M (dipLoop ma beg 4) 6 8 ((7 * 10 ^ 25 + 2) / (7 * 10 ^ 25)) (1 / (28 * 10 ^ 25 + 8))
      (7 / (28 * 10 ^ 25 + 8)) (28 * 10 ^ 25 / (28 * 10 ^ 25 + 8)) :=
  win_hi ma beg (beg + 3) ma.M _ 4 6 _ _ _ _ (pass_ref3 ma beg (by omega) r0 r1 r2) hM _ _ _
    r3.1 r3.2.1 r3.2.2 (by norm_num) (by norm_num) (by norm_num)
    (by norm_num [TINY]) (by norm_num [TINY]) (by norm_num [TINY])
    (2 / 10 ^ 25) (14 / 10 ^ 25) 56 _ _ _ _
    (by norm_num) (by norm_num) (by norm_num) (by norm_num) (by norm_num) (by norm_num)
    (by norm_num) (by norm_num)

/-- A pass after two samples homozygous for the reference and one homozygous
for the other allele. -/
theorem pass_rra (ma : bcf_p1aux_t) (beg : Nat) (hM : 6 ≤ ma.M) (r0 : homRef ma beg)
    (r1 : homRef ma (beg + 1)) (r2 : homAlt ma (beg + 2)) :
    Win ma.M (dipLoop ma beg 3) 4 6 ((10 ^ 25 + 20) / (15 * 10 ^ 25)) (10 ^ 25 / (10 ^ 25 + 20))
      (5 / (10 ^ 25 + 20)) (15 / (10 ^ 25 + 20)) :=
  win_hi ma beg (beg + 2) ma.M _ 2 4 _ _ _ _ (pass_ref_ref ma beg (by omega) r0 r1) hM _ _ _
    r2.1 r2.2.1 r2.2.2 (by norm_num) (by norm_num) (by norm_num)
    (by norm_num [TINY]) (by norm_num [TINY]) (by norm_num [TINY])
    2 (10 / 10 ^ 25) (30 / 10 ^ 25) _ _ _ _
    (by norm_num) (by norm_num) (by norm_num) (by norm_num) (by norm_num) (by norm_num)
    (by norm_num) (by norm_num)

/-- A pass after two samples homozygous for the reference and two homozygous
for the other allele. -/
theorem pass_rraa (ma : bcf_p1aux_t) (beg : Nat) (hM : 8 ≤ ma.M) (r0 : homRef ma beg)
    (r1 : homRef ma (beg + 1)) (r2 : homAlt ma (beg + 2)) (r3 : homAlt ma (beg + 3)) :
    Win ma.M (dipLoop ma beg 4) 4 8 ((10 ^ 25 + 5) / (70 * 10 ^ 25))
      (2 * 10 ^ 25 / (2 * 10 ^ 25 + 10)) (5 / (2 * 10 ^ 25 + 10)) (5 / (2 * 10 ^ 25 + 10)) :=
  win_lo ma beg (beg + 3) ma.M _ 4 6 _ _ _ _ (pass_rra ma beg (by omega) r0 r1 r2) hM _ _ _
    r3.1 r3.2.1 r3.2.2 (by norm_num) (by norm_num) (by norm_num)
    (by norm_num [TINY]) (by norm_num [TINY]) (by norm_num [TINY])
    12 (30 / 10 ^ 25) (30 / 10 ^ 25) _ _ _ _
    (by norm_num) (by norm_num) (by norm_num) (by norm_num) (by norm_num) (by norm_num)
    (by norm_num) (by norm_num)

/-- A pass after a sample homozygous for the other allele and one homozygous for
the reference. -/
theorem pass_ar (ma : bcf_p1aux_t) (beg : Nat) (hM : 4 ≤ ma.M) (r0 : homAlt ma beg)
    (r1 : homRef ma (beg + 1)) :
    Win ma.M (dipLoop ma beg 2) 0 4 ((10 ^ 25 + 9) / (6 * 10 ^ 25)) (6 / (10 ^ 25 + 9))
      (3 / (10 ^ 25 + 9)) (10 ^ 25 / (10 ^ 25 + 9)) :=
  win_lo ma beg (beg + 1) ma.M _ 0 2 _ _ _ _ (pass_alt ma beg (by omega) r0) hM _ _ _
    r1.1 r1.2.1 r1.2.2 (by norm_num) (by norm_num) (by norm_num)
    (by norm_num [TINY]) (by norm_num [TINY]) (by norm_num [TINY])
    (12 / 10 ^ 25) (6 / 10 ^ 25) 2 _ _ _ _
    (by norm_num) (by norm_num) (by norm_num) (by norm_num) (by norm_num) (by norm_num)
    (by norm_num) (by norm_num)

/-- A pass after a sample homozygous for the other allele and two homozygous for
the reference. -/
theorem pass_arr (ma : bcf_p1aux_t) (beg : Nat) (hM : 6 ≤ ma.M) (r0 : homAlt ma beg)
    (r1 : homRef ma (beg + 1)) (r2 : homRef ma (beg + 2)) :
    Win ma.M (dipLoop ma beg 3) 2 6 ((2 * 10 ^ 25 + 5) / (30 * 10 ^ 25)) (2 / (2 * 10 ^ 25 + 5))
      (3 / (2 * 10 ^ 25 + 5)) (2 * 10 ^ 25 / (2 * 10 ^ 25 + 5)) :=
  win_hi ma beg (beg + 2) ma.M _ 0 4 _ _ _ _ (pass_ar ma beg (by omega) r0 r1) hM _ _ _
    r2.1 r2.2.1 r2.2.2 (by norm_num) (by norm_num) (by norm_num)
    (by norm_num [TINY]) (by norm_num [TINY]) (by norm_num [TINY])
    (12 / 10 ^ 25) (18 / 10 ^ 25) 12 _ _ _ _
    (by norm_num) (by norm_num) (by norm_num) (by norm_num) (by norm_num) (by norm_num)
    (by norm_num) (by norm_num)

/-! ### The arrays `z1` and `z2` of the two-stage pass -/

/-- Once the sample `n1 - 1` is processed, `z1[0..2*n1]` holds what `z[0]` held
after it. -/
theorem dipLoop_cz1 (ma : bcf_p1aux_t) (beg i c : Nat) (hn1 : ma.n1 = (c : Int) + 1)
    (hb : beg ≤ c) (hi : c - beg < i) (k : Nat) (hk : k ≤ 2 * (c + 1)) :
    (dipLoop ma beg i).cz1 k = (dipLoop ma beg (c - beg + 1)).z0 k := by
  induction i with
  | zero => omega
  | succ i ih =>
    show (if decide (((beg + i : Nat) : Int) = ma.n1 - 1) = true
        then (dipLoop ma beg i).cz1.copy (dipStep ma beg (beg + i) (dipLoop ma beg i)).z0
          (ma.n1 * 2 + 1).toNat
        else (dipLoop ma beg i).cz1) k = _
    by_cases hc : beg + i = c
    · have hd : ((beg + i : Nat) : Int) = ma.n1 - 1 := by rw [hn1, hc]; ring
      rw [if_pos (decide_eq_true hd)]
      have : c - beg + 1 = i + 1 := by omega
      rw [this]
      have hlen : k < (ma.n1 * 2 + 1).toNat := by omega
      simp only [Arr.copy]
      rw [if_pos hlen]
      rfl
    · have hd : ¬ ((beg + i : Nat) : Int) = ma.n1 - 1 := by
        rw [hn1]
        intro h
        apply hc
        have : ((beg + i : Nat) : Int) = (c : Int) := by linarith
        exact_mod_cast this
      rw [if_neg (by simpa using hd)]
      exact ih (by omega)

/-- The three arrays that `mc_cal_y` leaves for a valid split of a uniformly
diploid context, in terms of the loop run on the context itself. -/
theorem mc_cal_y_split (ma : bcf_p1aux_t) (hM : ma.M = ma.n * 2) (h1 : 0 < ma.n1)
    (h2 : ma.n1 < (ma.n : Int)) :
    (∀ k, k ≤ ma.M → (mc_cal_y ma).z k = (dipLoop ma 0 ma.n).z0 k
      * ((dipLoop ma 0 ma.n).et
          / ((dipLoop ma 0 ma.n1.toNat).et * (dipLoop ma ma.n1.toNat (ma.n - ma.n1.toNat)).et)))
    ∧ (∀ k, k ≤ 2 * ma.n1.toNat → (mc_cal_y ma).z1 k = (dipLoop ma 0 ma.n1.toNat).z0 k)
    ∧ (∀ k, k ≤ 2 * (ma.n - ma.n1.toNat) →
        (mc_cal_y ma).z2 k = (dipLoop ma ma.n1.toNat (ma.n - ma.n1.toNat)).z0 k) := by
  obtain ⟨c, hc⟩ : ∃ c : Nat, ma.n1 = (c : Int) + 1 := ⟨(ma.n1 - 1).toNat, by omega⟩
  have hcn : c + 1 < ma.n := by omega
  have hct : ma.n1.toNat = c + 1 := by omega
  let a : bcf_p1aux_t := { ma with
    z1 := ma.z1.zero (2 * ma.n1.toNat + 1)
    z2 := ma.z2.zero (2 * (ma.n - ma.n1.toNat) + 1)
    et1 := 1
    et2 := 1 }
  let b : bcf_p1aux_t := mc_cal_y_core a ma.n1.toNat
  let c' : bcf_p1aux_t := { b with et2 := b.et, z2 := b.z2.copy b.z (2 * (ma.n - ma.n1.toNat) + 1) }
  let d : bcf_p1aux_t := mc_cal_y_core c' 0
  have hb : b = coreFinish a (dipLoop a ma.n1.toNat (a.n - ma.n1.toNat)) :=
    mc_cal_y_core_dip a ma.n1.toNat hM
  have hcM : c'.M = c'.n * 2 := by
    show b.M = b.n * 2
    rw [hb]
    exact hM
  have hcn' : c'.n = ma.n := by
    show b.n = ma.n
    rw [hb]
    rfl
  have hcM' : c'.M = ma.M := by
    show b.M = ma.M
    rw [hb]
    rfl
  have hcp : c'.pdg = ma.pdg := by
    show b.pdg = ma.pdg
    rw [hb]
    rfl
  have hcn1 : c'.n1 = ma.n1 := by
    show b.n1 = ma.n1
    rw [hb]
    rfl
  have hd : d = coreFinish c' (dipLoop c' 0 (c'.n - 0)) := mc_cal_y_core_dip c' 0 hcM
  have q1 := dipLoop_congr c' ma 0 (c - 0 + 1) hcp hcn' hcM' (by rw [hcM']; omega)
  rw [hcM'] at q1
  have q2 := dipLoop_congr a ma ma.n1.toNat (ma.n - ma.n1.toNat) rfl rfl rfl
    (by show _ ≤ ma.M; omega)
  have hmz : mc_cal_y ma = { d with z := d.z.fill 0 d.M (fun k => d.z k * (d.et / (d.et1 * d.et2))) } := by
    unfold mc_cal_y
    rw [if_pos ⟨h1, h2, hM⟩]
  refine ⟨fun k hk => ?_, fun k hk => ?_, fun k hk => ?_⟩
  · rw [mc_cal_y_z ma hM h1 h2 k hk, mc_cal_y_core_dip ma 0 hM,
      mc_cal_y_core_dip ma ma.n1.toNat hM, coreFinish_z ma _ k hk]
    show (dipLoop ma 0 (ma.n - 0)).z0 k * ((dipLoop ma 0 (ma.n - 0)).et
      / ((dipLoop ma 0 (ma.n - 0)).et1 * (dipLoop ma ma.n1.toNat (ma.n - ma.n1.toNat)).et)) = _
    rw [dipLoop_et1 ma 0 (ma.n - 0) c hc (Nat.zero_le c) (by omega), hct]
    rfl
  · rw [hmz]
    show d.z1 k = _
    rw [hd]
    show (dipLoop c' 0 (c'.n - 0)).cz1 k = _
    rw [dipLoop_cz1 c' 0 (c'.n - 0) c (by rw [hcn1]; exact hc) (Nat.zero_le c)
      (by rw [hcn']; omega) k (by omega), hct]
    exact q1.hz0 k (by omega)
  · rw [hmz]
    show d.z2 k = _
    rw [hd]
    show (b.z2.copy b.z (2 * (ma.n - ma.n1.toNat) + 1)) k = _
    simp only [Arr.copy]
    rw [if_pos (by omega), hb, coreFinish_z a _ k (le_trans hk (by omega : 2 * (ma.n - ma.n1.toNat) ≤ ma.M))]
    exact q2.hz0 k (le_trans hk (by omega : 2 * (ma.n - ma.n1.toNat) ≤ ma.M))

/-! ### Four samples homozygous for the reference -/

theorem ref4_pdg (i : Nat) :
    (calCtx siteRef4 ctxFour).pdg i
      = if i < 3 * 4 then q2pTen (siteRef4.PLs (i / 3 * 3 + (2 - i % 3))) else 0 := rfl

theorem ref4_homRef (j : Nat) (hj : j < 4) : homRef (calCtx siteRef4 ctxFour) j := by
  unfold homRef pdgOf
  interval_cases j <;> refine ⟨?_, ?_, ?_⟩ <;>
    · rw [ref4_pdg]
      norm_num [siteRef4, q2pTen]

theorem ref4_win :
    Win 8 (dipLoop (calCtx siteRef4 ctxFour) 0 4) 6 8 ((7 * 10 ^ 25 + 2) / (7 * 10 ^ 25))
      (1 / (28 * 10 ^ 25 + 8)) (7 / (28 * 10 ^ 25 + 8)) (28 * 10 ^ 25 / (28 * 10 ^ 25 + 8)) :=
  pass_ref4 (calCtx siteRef4 ctxFour) 0 (by decide) (ref4_homRef 0 (by decide))
    (ref4_homRef 1 (by decide)) (ref4_homRef 2 (by decide)) (ref4_homRef 3 (by decide))

/-! ### The posterior and its mean -/

/-- The posterior that `mc_cal_afs` stores when the normaliser is not zero. -/
theorem mc_cal_afs_values (ma : bcf_p1aux_t) (p q : ℚ) (hS : afsSum ma ≠ 0) :
    (∀ k, k ≤ ma.M → (mc_cal_afs ma p q).2.1.afs1 k
        = afsPhi ma k * (afsPass ma).z k / afsSum ma)
    ∧ sumTo (mc_cal_afs ma p q).2.1.afs1 (ma.M + 1) = 1
    ∧ (mc_cal_afs ma p q).1
        = sumTo (fun k => (k : ℚ) * (mc_cal_afs ma p q).2.1.afs1 k) (ma.M + 1) / (ma.M : ℚ)
    ∧ (mc_cal_afs ma p q).2.1.z = (afsPass ma).z := by
  obtain ⟨hz, h1, _, hr⟩ := mc_cal_afs_ok ma p q hS
  have hafs : ∀ k, k ≤ ma.M → (mc_cal_afs ma p q).2.1.afs1 k
      = afsPhi ma k * (afsPass ma).z k / afsSum ma := by
    intro k hk
    rw [h1]
    exact Arr.fill_in _ _ _ _ k (Nat.zero_le k) hk
  refine ⟨hafs, ?_, ?_, hz⟩
  · rw [sumTo_congr (fun k hk => hafs k (Nat.lt_succ_iff.mp hk)), sumTo_div]
    exact div_self hS
  · rw [hr, h1]

/-- The mean of `M - k` under a probability vector lies between `M - h` and
`M - l`, up to the mass `0.025` left on each side of `l..h`. -/
theorem weighted_bounds (a : Arr) (M l h : Nat) (hl : l ≤ h) (hh : h ≤ M)
    (hnn : ∀ k, k ≤ M → 0 ≤ a k) (hsum : ∑ k in Finset.Ico 0 (M + 1), a k = 1)
    (hlo : ∑ k in Finset.Ico 0 l, a k ≤ 25 / 1000)
    (hhi : ∑ k in Finset.Ico (h + 1) (M + 1), a k ≤ 25 / 1000) :
    ((M : ℚ) - h) - 25 / 1000 * M ≤ ∑ k in Finset.Ico 0 (M + 1), ((M : ℚ) - k) * a k
    ∧ ∑ k in Finset.Ico 0 (M + 1), ((M : ℚ) - k) * a k ≤ ((M : ℚ) - l) + 25 / 1000 * M := by
  have hMq : (0 : ℚ) ≤ (M : ℚ) := Nat.cast_nonneg M
  have hlq : (l : ℚ) ≤ (M : ℚ) := by exact_mod_cast le_trans hl hh
  have hhq : (h : ℚ) ≤ (M : ℚ) := by exact_mod_cast hh
  have s1 : ∑ k in Finset.Ico 0 (M + 1), ((M : ℚ) - k) * a k
      = ∑ k in Finset.Ico 0 l, ((M : ℚ) - k) * a k
        + ∑ k in Finset.Ico l (M + 1), ((M : ℚ) - k) * a k :=
    (Finset.sum_Ico_consecutive _ (Nat.zero_le _) (by omega)).symm
  have s2 : ∑ k in Finset.Ico 0 (M + 1), ((M : ℚ) - k) * a k
      = ∑ k in Finset.Ico 0 (h + 1), ((M : ℚ) - k) * a k
        + ∑ k in Finset.Ico (h + 1) (M + 1), ((M : ℚ) - k) * a k :=
    (Finset.sum_Ico_consecutive _ (Nat.zero_le _) (by omega)).symm
  have t1 : ∑ k in Finset.Ico 0 (M + 1), a k
      = ∑ k in Finset.Ico 0 l, a k + ∑ k in Finset.Ico l (M + 1), a k :=
    (Finset.sum_Ico_consecutive _ (Nat.zero_le _) (by omega)).symm
  have t2 : ∑ k in Finset.Ico 0 (M + 1), a k
      = ∑ k in Finset.Ico 0 (h + 1), a k + ∑ k in Finset.Ico (h + 1) (M + 1), a k :=
    (Finset.sum_Ico_consecutive _ (Nat.zero_le _) (by omega)).symm
  have n1 : 0 ≤ ∑ k in Finset.Ico 0 l, a k :=
    Finset.sum_nonneg (fun k hk => hnn k (by have := Finset.mem_Ico.mp hk; omega))
  have n2 : 0 ≤ ∑ k in Finset.Ico (h + 1) (M + 1), a k :=
    Finset.sum_nonneg (fun k hk => hnn k (by have := Finset.mem_Ico.mp hk; omega))
  have n3 : 0 ≤ ∑ k in Finset.Ico (h + 1) (M + 1), ((M : ℚ) - k) * a k := by
    refine Finset.sum_nonneg (fun k hk => ?_)
    have hk' := Finset.mem_Ico.mp hk
    have : (k : ℚ) ≤ (M : ℚ) := by exact_mod_cast (by omega : k ≤ M)
    exact mul_nonneg (by linarith) (hnn k (by omega))
  constructor
  · have u : ∑ k in Finset.Ico 0 (h + 1), ((M : ℚ) - h) * a k
        ≤ ∑ k in Finset.Ico 0 (h + 1), ((M : ℚ) - k) * a k := by
      refine Finset.sum_le_sum (fun k hk => ?_)
      have hk' := Finset.mem_Ico.mp hk
      have : (k : ℚ) ≤ (h : ℚ) := by exact_mod_cast (by omega : k ≤ h)
      exact mul_le_mul_of_nonneg_right (by linarith) (hnn k (by omega))
    rw [← Finset.mul_sum] at u
    have v : ∑ k in Finset.Ico 0 (h + 1), a k = 1 - ∑ k in Finset.Ico (h + 1) (M + 1), a k := by
      linarith
    rw [v] at u
    have w : ((M : ℚ) - h) * ∑ k in Finset.Ico (h + 1) (M + 1), a k ≤ (M : ℚ) * (25 / 1000) :=
      mul_le_mul (by linarith) hhi n2 hMq
    nlinarith
  · have u : ∑ k in Finset.Ico 0 l, ((M : ℚ) - k) * a k ≤ ∑ k in Finset.Ico 0 l, (M : ℚ) * a k := by
      refine Finset.sum_le_sum (fun k hk => ?_)
      have hk' := Finset.mem_Ico.mp hk
      have : (0 : ℚ) ≤ (k : ℚ) := Nat.cast_nonneg k
      exact mul_le_mul_of_nonneg_right (by linarith) (hnn k (by omega))
    rw [← Finset.mul_sum] at u
    have u2 : ∑ k in Finset.Ico l (M + 1), ((M : ℚ) - k) * a k
        ≤ ∑ k in Finset.Ico l (M + 1), ((M : ℚ) - l) * a k := by
      refine Finset.sum_le_sum (fun k hk => ?_)
      have hk' := Finset.mem_Ico.mp hk
      have : (l : ℚ) ≤ (k : ℚ) := by exact_mod_cast hk'.1
      exact mul_le_mul_of_nonneg_right (by linarith) (hnn k (by omega))
    rw [← Finset.mul_sum] at u2
    have v : ∑ k in Finset.Ico l (M + 1), a k ≤ 1 := by linarith
    have w1 : (M : ℚ) * ∑ k in Finset.Ico 0 l, a k ≤ (M : ℚ) * (25 / 1000) :=
      mul_le_mul_of_nonneg_left hlo hMq
    have w2 : ((M : ℚ) - l) * ∑ k in Finset.Ico l (M + 1), a k ≤ ((M : ℚ) - l) * 1 :=
      mul_le_mul_of_nonneg_left v (by linarith)
    linarith

/-- The bounds `cil`, `cih` that the two scans give and the mean
`Σ k * afs1[k] / M` of a probability vector: `1 - mean` lies in
`[cil - 0.025, cih + 0.025]`. -/
theorem mean_bounds (a : Arr) (M : Nat) (hM : 1 ≤ M) (hnn : ∀ k, k ≤ M → 0 ≤ a k)
    (hsum : sumTo a (M + 1) = 1) :
    ((((M : Int) - cilScanDown a (M + 1) 0 : Int) : ℚ) / (M : ℚ)) - 25 / 1000
        ≤ 1 - sumTo (fun k => (k : ℚ) * a k) (M + 1) / (M : ℚ)
    ∧ 1 - sumTo (fun k => (k : ℚ) * a k) (M + 1) / (M : ℚ)
        ≤ ((((M : Int) - (cilScanUp a 0 (M + 1) 0 : Int) : Int) : ℚ) / (M : ℚ)) + 25 / 1000 := by
  obtain ⟨h, e, a1, a2, a3, a4⟩ := cil_scans a M hnn hsum
  have hMq : (0 : ℚ) < (M : ℚ) := by exact_mod_cast hM
  have tot : ∑ j in Finset.Ico 0 (M + 1), a j = 1 := by
    rw [← hsum, sumTo_eq_sum, Finset.range_eq_Ico]
  obtain ⟨b1, b2⟩ := weighted_bounds a M (cilScanUp a 0 (M + 1) 0) h a1 a2 hnn tot a3 a4
  have hG : 1 - sumTo (fun k => (k : ℚ) * a k) (M + 1) / (M : ℚ)
      = (∑ k in Finset.Ico 0 (M + 1), ((M : ℚ) - k) * a k) / (M : ℚ) := by
    rw [sumTo_eq_sum, Finset.range_eq_Ico]
    have : ∑ k in Finset.Ico 0 (M + 1), ((M : ℚ) - k) * a k
        = (M : ℚ) * ∑ k in Finset.Ico 0 (M + 1), a k
          - ∑ k in Finset.Ico 0 (M + 1), (k : ℚ) * a k := by
      rw [Finset.mul_sum, ← Finset.sum_sub_distrib]
      exact Finset.sum_congr rfl (fun k _ => by ring)
    rw [this, tot]
    field_simp
  have c1 : ((((M : Int) - (h : Int) : Int) : ℚ)) = (M : ℚ) - h := by push_cast; ring
  have c2 : ((((M : Int) - (cilScanUp a 0 (M + 1) 0 : Int) : Int) : ℚ))
      = (M : ℚ) - (cilScanUp a 0 (M + 1) 0 : ℕ) := by push_cast; ring
  rw [hG, e, c1, c2]
  constructor
  · rw [div_sub' _ _ _ (ne_of_gt hMq), div_le_div_iff_of_pos_right hMq]
    linarith
  · rw [div_add' _ _ _ (ne_of_gt hMq), div_le_div_iff_of_pos_right hMq]
    linarith

/-! ### A posterior concentrated on the last allele count -/

theorem argMaxFrom_mem (f : Nat → ℚ) (m : Nat) :
    (argMaxFrom f m).1 = -1 ∨ ∃ k, k < m ∧ (argMaxFrom f m).1 = f k := by
  induction m with
  | zero => exact Or.inl rfl
  | succ m ih =>
    unfold argMaxFrom
    simp only
    split_ifs with c
    · exact Or.inr ⟨m, Nat.lt_succ_self m, rfl⟩
    · rcases ih with e | ⟨k, hk, e⟩
      · exact Or.inl e
      · exact Or.inr ⟨k, Nat.lt_succ_of_lt hk, e⟩

/-- The scan for the maximum ends on the last cell when it is above all others. -/
theorem argMaxFrom_last (f : Nat → ℚ) (n : Nat) (h : ∀ k, k < n → f k < f n) (hpos : -1 < f n) :
    (argMaxFrom f (n + 1)).2 = (n : Int) := by
  have c : (argMaxFrom f n).1 < f n := by
    rcases argMaxFrom_mem f n with e | ⟨k, hk, e⟩
    · rw [e]
      exact hpos
    · rw [e]
      exact h k hk
  unfold argMaxFrom
  simp only
  rw [if_pos c]

/-- When the last entry of a probability vector is above `0.975` both scans of
the credible interval stop on it. -/
theorem cil_point (a : Arr) (M : Nat) (hnn : ∀ k, k ≤ M → 0 ≤ a k)
    (hsum : sumTo a (M + 1) = 1) (hlast : 975 / 1000 < a M) :
    cilScanDown a (M + 1) 0 = (M : Int) ∧ cilScanUp a 0 (M + 1) 0 = M := by
  have hd : cilScanDown a (M + 1) 0 = (M : Int) := by
    unfold cilScanDown
    rw [if_pos (by linarith)]
  refine ⟨hd, ?_⟩
  obtain ⟨_, u2, _, u4⟩ := cilScanUp_spec a (M + 1) 0 0 (by norm_num)
  by_contra hne
  have hlt : cilScanUp a 0 (M + 1) 0 < M := by
    obtain ⟨h, e, a1, a2, _, _⟩ := cil_scans a M hnn hsum
    omega
  have v := u4 (by omega)
  have tot : ∑ j in Finset.Ico 0 (M + 1), a j = 1 := by
    rw [← hsum, sumTo_eq_sum, Finset.range_eq_Ico]
  have sp : ∑ j in Finset.Ico 0 (M + 1), a j
      = ∑ j in Finset.Ico 0 (cilScanUp a 0 (M + 1) 0 + 1), a j
        + ∑ j in Finset.Ico (cilScanUp a 0 (M + 1) 0 + 1) (M + 1), a j :=
    (Finset.sum_Ico_consecutive _ (Nat.zero_le _) (by omega)).symm
  have hm : a M ≤ ∑ j in Finset.Ico (cilScanUp a 0 (M + 1) 0 + 1) (M + 1), a j :=
    Finset.single_le_sum (f := a)
      (fun k hk => hnn k (by have := Finset.mem_Ico.mp hk; omega))
      (Finset.mem_Ico.mpr ⟨by omega, by omega⟩)
  linarith

/-- The mean `Σ k * a[k] / M` of a vector with non-negative entries is at least
its last entry. -/
theorem mean_ge_last (a : Arr) (M : Nat) (hM : 1 ≤ M) (hnn : ∀ k, k ≤ M → 0 ≤ a k) :
    a M ≤ sumTo (fun k => (k : ℚ) * a k) (M + 1) / (M : ℚ) := by
  have hMq : (0 : ℚ) < (M : ℚ) := by exact_mod_cast hM
  have e : sumTo (fun k => (k : ℚ) * a k) (M + 1)
      = sumTo (fun k => (k : ℚ) * a k) M + (M : ℚ) * a M := rfl
  have n0 : 0 ≤ sumTo (fun k => (k : ℚ) * a k) M := by
    rw [sumTo_eq_sum]
    exact Finset.sum_nonneg (fun k hk =>
      mul_nonneg (Nat.cast_nonneg k) (hnn k (by have := Finset.mem_range.mp hk; omega)))
  rw [le_div_iff₀ hMq, e]
  linarith

theorem ref4_pass :
    afsPass (calCtx siteRef4 ctxFour)
      = coreFinish (calCtx siteRef4 ctxFour) (dipLoop (calCtx siteRef4 ctxFour) 0 4) := by
  rw [afsPass_of_zero (calCtx siteRef4 ctxFour) (fun _ _ => rfl)]
  unfold mc_cal_y
  rw [if_neg (fun h => absurd h.1 (by decide))]
  exact mc_cal_y_core_dip (calCtx siteRef4 ctxFour) 0 rfl

/-- The likelihoods `z[0..8]` of four samples homozygous for the reference. -/
theorem ref4_z :
    (∀ k, k < 6 → (afsPass (calCtx siteRef4 ctxFour)).z k = 0)
    ∧ (afsPass (calCtx siteRef4 ctxFour)).z 6 = 1 / (28 * 10 ^ 25 + 8)
    ∧ (afsPass (calCtx siteRef4 ctxFour)).z 7 = 7 / (28 * 10 ^ 25 + 8)
    ∧ (afsPass (calCtx siteRef4 ctxFour)).z 8 = 28 * 10 ^ 25 / (28 * 10 ^ 25 + 8) := by
  have w := ref4_win
  have hM : (calCtx siteRef4 ctxFour).M = 8 := rfl
  have hz : ∀ k, k ≤ 8 → (afsPass (calCtx siteRef4 ctxFour)).z k
      = (dipLoop (calCtx siteRef4 ctxFour) 0 4).z0 k := by
    intro k hk
    rw [ref4_pass]
    exact coreFinish_z _ _ k (by rw [hM]; exact hk)
  refine ⟨fun k hk => ?_, ?_, ?_, ?_⟩
  · rw [hz k (by omega)]
    exact w.inv.out0 k (by omega) (Or.inl (by rw [w.hmin]; exact hk))
  · rw [hz 6 (by omega)]
    exact w.h0
  · rw [hz 7 (by omega)]
    exact w.h1
  · rw [hz 8 (by omega)]
    exact w.h2

/-- The FULL prior of `ctxFour`. -/
theorem ref4_phi :
    (∀ k, k < 8 → afsPhi (calCtx siteRef4 ctxFour) k = 1 / 1000 / ((8 : ℚ) - k))
    ∧ afsPhi (calCtx siteRef4 ctxFour) 8 = 279239 / 280000 := by
  have e : afsPhi (calCtx siteRef4 ctxFour)
      = init_prior PType.full (1 / 1000) ((8 : Nat) : Int) (fun _ => 0) := rfl
  refine ⟨fun k hk => ?_, ?_⟩
  · rw [e, init_prior_full_lt _ _ _ k hk]
    norm_num
  · rw [e, init_prior_full_last]
    norm_num [sumTo]

/-- The normaliser of `mc_cal_afs` for four samples homozygous for the reference. -/
theorem ref4_afsSum :
    afsSum (calCtx siteRef4 ctxFour)
      = (1 / 2000 + 7 / 1000 + 279239 / 280000 * (28 * 10 ^ 25)) / (28 * 10 ^ 25 + 8) := by
  obtain ⟨z0, z6, z7, z8⟩ := ref4_z
  obtain ⟨p0, p8⟩ := ref4_phi
  have hM : (calCtx siteRef4 ctxFour).M + 1 = 9 := rfl
  unfold afsSum
  rw [hM]
  simp only [sumTo]
  rw [z0 0 (by omega), z0 1 (by omega), z0 2 (by omega), z0 3 (by omega), z0 4 (by omega),
    z0 5 (by omega), z6, z7, z8, p0 6 (by omega), p0 7 (by omega), p8]
  norm_num

/-- The posterior of four samples homozygous for the reference: its entries are
not negative and the last one is above `0.99`. -/
theorem ref4_afs1 (p q : ℚ) :
    afsSum (calCtx siteRef4 ctxFour) ≠ 0
    ∧ (∀ k, k ≤ 8 → 0 ≤ (mc_cal_afs (calCtx siteRef4 ctxFour) p q).2.1.afs1 k)
    ∧ 99 / 100 < (mc_cal_afs (calCtx siteRef4 ctxFour) p q).2.1.afs1 8 := by
  obtain ⟨z0, z6, z7, z8⟩ := ref4_z
  obtain ⟨p0, p8⟩ := ref4_phi
  have hS : afsSum (calCtx siteRef4 ctxFour) ≠ 0 := by
    rw [ref4_afsSum]
    norm_num
  have hSp : 0 < afsSum (calCtx siteRef4 ctxFour) := by
    rw [ref4_afsSum]
    norm_num
  obtain ⟨v1, _, _, _⟩ := mc_cal_afs_values (calCtx siteRef4 ctxFour) p q hS
  have hM : (calCtx siteRef4 ctxFour).M = 8 := rfl
  rw [hM] at v1
  refine ⟨hS, fun k hk => ?_, ?_⟩
  · rw [v1 k hk]
    refine div_nonneg (mul_nonneg ?_ ?_) (le_of_lt hSp)
    · rcases Nat.lt_or_ge k 8 with c | c
      · rw [p0 k c]
        have : (k : ℚ) < 8 := by exact_mod_cast c
        exact div_nonneg (by norm_num) (by linarith)
      · have : k = 8 := by omega
        rw [this, p8]
        norm_num
    · rcases Nat.lt_or_ge k 6 with c | c
      · rw [z0 k c]
      · have : k = 6 ∨ k = 7 ∨ k = 8 := by omega
        rcases this with r | r | r
        · rw [r, z6]; norm_num
        · rw [r, z7]; norm_num
        · rw [r, z8]; norm_num
  · rw [v1 8 (le_refl _), p8, z8, ref4_afsSum]
    norm_num

/-- The array `afs1` of the context that a successful `bcf_p1_cal` leaves is the
one `mc_cal_afs` has stored. -/
theorem bcf_p1_cal_afs1 (ext : Ext) (site : Site) (dc : Bool) (ma : bcf_p1aux_t)
    (rst : bcf_p1rst_t) (h : ¬ site.n_allele < 2) :
    (bcf_p1_cal ext site dc ma rst).2.1.afs1
      = (mc_cal_afs (calCtx site ma) rst.p_ref_folded rst.p_var_folded).2.1.afs1 := by
  unfold bcf_p1_cal
  simp only
  rw [if_neg h]
  split_ifs <;>
    first
    | rfl
    | exact (contrast2_frame ext _ _).2.1

/-- The result of `bcf_p1_cal` for four samples homozygous for the reference. -/
theorem ref4_result (ext : Ext) (dc : Bool) (rst : bcf_p1rst_t) :
    (bcf_p1_cal ext siteRef4 dc ctxFour rst).1 = 0
    ∧ (bcf_p1_cal ext siteRef4 dc ctxFour rst).2.2.ac = 0
    ∧ 99 / 100 < (bcf_p1_cal ext siteRef4 dc ctxFour rst).2.2.p_ref
    ∧ (bcf_p1_cal ext siteRef4 dc ctxFour rst).2.2.p_var < 1 / 100
    ∧ (bcf_p1_cal ext siteRef4 dc ctxFour rst).2.2.cil = 0
    ∧ (bcf_p1_cal ext siteRef4 dc ctxFour rst).2.2.cih = 0
    ∧ 99 / 100 < (bcf_p1_cal ext siteRef4 dc ctxFour rst).2.2.f_exp := by
  have hn : ¬ siteRef4.n_allele < 2 := by decide
  obtain ⟨r0, rf, _⟩ := bcf_p1_cal_ok ext siteRef4 dc ctxFour rst hn
  obtain ⟨f1, f2, f3, f4, f5⟩ := bcf_p1_cal_fields ext siteRef4 dc ctxFour rst hn
  obtain ⟨hS, hnn, hlast⟩ := ref4_afs1 rst.p_ref_folded rst.p_var_folded
  obtain ⟨_, v2, v3, v4⟩ :=
    mc_cal_afs_values (calCtx siteRef4 ctxFour) rst.p_ref_folded rst.p_var_folded hS
  have hM : (mc_cal_afs (calCtx siteRef4 ctxFour) rst.p_ref_folded rst.p_var_folded).2.1.M = 8 :=
    mc_cal_afs_M _ _ _
  have hM' : (calCtx siteRef4 ctxFour).M = 8 := rfl
  rw [hM] at f1 f2 f3 f4 f5
  rw [hM'] at v2 v3
  obtain ⟨z0, z6, z7, z8⟩ := ref4_z
  obtain ⟨c1, c2⟩ := cil_point _ 8 hnn v2 (by linarith)
  refine ⟨r0, ?_, ?_, ?_, ?_, ?_, ?_⟩
  · rw [f3, v4, argMaxFrom_last _ 8 (fun k hk => ?_) (by rw [z8]; norm_num)]
    · norm_num
    · rcases Nat.lt_or_ge k 6 with c | c
      · rw [z0 k c, z8]
        norm_num
      · have : k = 6 ∨ k = 7 := by omega
        rcases this with r | r
        · rw [r, z6, z8]
          norm_num
        · rw [r, z7, z8]
          norm_num
  · rw [f1]
    exact hlast
  · rw [f2]
    have e : sumTo (mc_cal_afs (calCtx siteRef4 ctxFour) rst.p_ref_folded rst.p_var_folded).2.1.afs1
          (8 + 1)
        = sumTo (mc_cal_afs (calCtx siteRef4 ctxFour) rst.p_ref_folded rst.p_var_folded).2.1.afs1 8
          + (mc_cal_afs (calCtx siteRef4 ctxFour) rst.p_ref_folded rst.p_var_folded).2.1.afs1 8 :=
      rfl
    linarith
  · rw [f4, c1]
    norm_num
  · rw [f5, c2]
    norm_num
  · rw [rf, v3]
    exact lt_of_lt_of_le hlast (mean_ge_last _ 8 (by norm_num) hnn)

/-! ### C19: four samples homozygous for the reference -/

/-- C19. For four diploid samples (`M = 8`) in the context that `bcf_p1_init`
builds (FULL prior, `theta = 1e-3`) and a biallelic SNP record where every
sample has PL `(0, 250, 250)`, `bcf_p1_cal` returns `0` with allele count
`ac = 0`, `p_ref > 0.99` and `p_var < 0.01`, whatever `log`, `kf_gammaq`,
`do_contrast` and the previous content of the result record are. -/
theorem bcf_p1_cal_hom_ref (ext : Ext) (dc : Bool) (rst : bcf_p1rst_t) :
    ctxFour.M = 8
    ∧ (bcf_p1_cal ext siteRef4 dc ctxFour rst).1 = 0
    ∧ (bcf_p1_cal ext siteRef4 dc ctxFour rst).2.2.ac = 0
    ∧ 99 / 100 < (bcf_p1_cal ext siteRef4 dc ctxFour rst).2.2.p_ref
    ∧ (bcf_p1_cal ext siteRef4 dc ctxFour rst).2.2.p_var < 1 / 100 := by
  obtain ⟨a, b, c, d, _⟩ := ref4_result ext dc rst
  exact ⟨rfl, a, b, c, d⟩

/-! ### C11: the credible interval and the expected frequency -/

/-- Counterexample to C11: for four samples homozygous for the reference
`bcf_p1_cal` succeeds with `cil = cih = 0` and `f_exp > 0.99`, so `f_exp ≤ cih`
fails: `f_exp` is a frequency of the reference allele, the interval one of the
other allele. -/
theorem bcf_p1_cal_f_exp_above_cih :
    (bcf_p1_cal extLower siteRef4 false ctxFour rstZero).1 = 0
    ∧ ¬ ((bcf_p1_cal extLower siteRef4 false ctxFour rstZero).2.2.f_exp
        ≤ (bcf_p1_cal extLower siteRef4 false ctxFour rstZero).2.2.cih) := by
  obtain ⟨a, _, _, _, _, e, f⟩ := ref4_result extLower false rstZero
  refine ⟨a, ?_⟩
  rw [e]
  intro h
  linarith

/-- C11 (amended). For every successful `bcf_p1_cal` with `M ≥ 1`, a normaliser
that is not zero and a posterior `afs1` without negative entries, the interval
bounds the frequency `1 - f_exp` of the non-reference allele up to the tail
mass: `cil - 0.025 ≤ 1 - f_exp ≤ cih + 0.025`. For four diploid samples that
are homozygous for the reference under the FULL prior of `bcf_p1_init` the
result is `cil = cih = 0` with `f_exp > 0.99`. -/
theorem bcf_p1_cal_interval (ext : Ext) (dc : Bool) (rst : bcf_p1rst_t) :
    (∀ (site : Site) (ma : bcf_p1aux_t), ¬ site.n_allele < 2 → 1 ≤ ma.M →
      afsSum (calCtx site ma) ≠ 0 →
      (∀ k, k ≤ ma.M → 0 ≤ (bcf_p1_cal ext site dc ma rst).2.1.afs1 k) →
      (bcf_p1_cal ext site dc ma rst).2.2.cil - 25 / 1000
          ≤ 1 - (bcf_p1_cal ext site dc ma rst).2.2.f_exp
      ∧ 1 - (bcf_p1_cal ext site dc ma rst).2.2.f_exp
          ≤ (bcf_p1_cal ext site dc ma rst).2.2.cih + 25 / 1000)
    ∧ (bcf_p1_cal ext siteRef4 dc ctxFour rst).2.2.cil = 0
    ∧ (bcf_p1_cal ext siteRef4 dc ctxFour rst).2.2.cih = 0
    ∧ 99 / 100 < (bcf_p1_cal ext siteRef4 dc ctxFour rst).2.2.f_exp := by
  obtain ⟨_, _, _, _, e1, e2, e3⟩ := ref4_result ext dc rst
  refine ⟨fun site ma hn hM hS hnn => ?_, e1, e2, e3⟩
  obtain ⟨_, rf, _⟩ := bcf_p1_cal_ok ext site dc ma rst hn
  obtain ⟨_, _, _, f4, f5⟩ := bcf_p1_cal_fields ext site dc ma rst hn
  obtain ⟨_, v2, v3, _⟩ :=
    mc_cal_afs_values (calCtx site ma) rst.p_ref_folded rst.p_var_folded hS
  have hMb : (mc_cal_afs (calCtx site ma) rst.p_ref_folded rst.p_var_folded).2.1.M = ma.M :=
    mc_cal_afs_M _ _ _
  have hMc : (calCtx site ma).M = ma.M := rfl
  rw [bcf_p1_cal_afs1 ext site dc ma rst hn] at hnn
  rw [hMb] at f4 f5
  rw [hMc] at v2 v3
  rw [f4, f5, rf, v3]
  exact mean_bounds _ ma.M hM hnn v2

/-- Witness of C11: four samples homozygous for the reference. -/
theorem bcf_p1_cal_interval_witness :
    ¬ siteRef4.n_allele < 2 ∧ 1 ≤ ctxFour.M ∧ afsSum (calCtx siteRef4 ctxFour) ≠ 0
    ∧ (bcf_p1_cal extLower siteRef4 false ctxFour rstZero).2.2.cil - 25 / 1000
        ≤ 1 - (bcf_p1_cal extLower siteRef4 false ctxFour rstZero).2.2.f_exp
    ∧ 1 - (bcf_p1_cal extLower siteRef4 false ctxFour rstZero).2.2.f_exp
        ≤ (bcf_p1_cal extLower siteRef4 false ctxFour rstZero).2.2.cih + 25 / 1000 := by
  have hn : ¬ siteRef4.n_allele < 2 := by decide
  have hM : 1 ≤ ctxFour.M := by decide
  obtain ⟨hS, hnn, _⟩ := ref4_afs1 rstZero.p_ref_folded rstZero.p_var_folded
  have hnn' : ∀ k, k ≤ ctxFour.M →
      0 ≤ (bcf_p1_cal extLower siteRef4 false ctxFour rstZero).2.1.afs1 k := by
    intro k hk
    rw [bcf_p1_cal_afs1 extLower siteRef4 false ctxFour rstZero hn]
    exact hnn k hk
  exact ⟨hn, hM, hS,
    (bcf_p1_cal_interval extLower false rstZero).1 siteRef4 ctxFour hn hM hS hnn'⟩

/-! ### The passes do not read `is_indel` -/

theorem dipLoop_indel (ma : bcf_p1aux_t) (b : Bool) (beg i : Nat) :
    dipLoop { ma with is_indel := b } beg i = dipLoop ma beg i := by
  induction i with
  | zero => rfl
  | succ i ih =>
    show dipStep { ma with is_indel := b } beg (beg + i) (dipLoop { ma with is_indel := b } beg i)
      = dipStep ma beg (beg + i) (dipLoop ma beg i)
    rw [ih]
    rfl

theorem mixLoop_indel (ma : bcf_p1aux_t) (b : Bool) (pl : Nat → Nat) (i : Nat) :
    mixLoop { ma with is_indel := b } pl i = mixLoop ma pl i := by
  induction i with
  | zero => rfl
  | succ i ih =>
    show mixStep { ma with is_indel := b } (pl i) i (mixLoop { ma with is_indel := b } pl i)
      = mixStep ma (pl i) i (mixLoop ma pl i)
    rw [ih]
    rfl

theorem mc_cal_y_core_indel (ma : bcf_p1aux_t) (b : Bool) (beg : Nat) :
    mc_cal_y_core { ma with is_indel := b } beg
      = { mc_cal_y_core ma beg with is_indel := b } := by
  unfold mc_cal_y_core
  by_cases h : ma.M = ma.n * 2
  · rw [if_pos h, if_pos (show ({ ma with is_indel := b } : bcf_p1aux_t).M
        = ({ ma with is_indel := b } : bcf_p1aux_t).n * 2 from h), dipLoop_indel]
    rfl
  · rw [if_neg h, if_neg (show ¬ ({ ma with is_indel := b } : bcf_p1aux_t).M
        = ({ ma with is_indel := b } : bcf_p1aux_t).n * 2 from h)]
    have key : ∀ o : Option (Nat → Nat),
        (match o with
          | some pl =>
            coreFinish { ma with is_indel := b } (mixLoop { ma with is_indel := b } pl ma.n)
          | none => coreFinish { ma with is_indel := b } (coreInit { ma with is_indel := b }))
        = { (match o with
              | some pl => coreFinish ma (mixLoop ma pl ma.n)
              | none => coreFinish ma (coreInit ma)) with is_indel := b } := by
      intro o
      cases o with
      | none => rfl
      | some pl =>
        simp only
        rw [mixLoop_indel]
        rfl
    exact key ma.ploidy

theorem mc_cal_y_indel (ma : bcf_p1aux_t) (b : Bool) :
    mc_cal_y { ma with is_indel := b } = { mc_cal_y ma with is_indel := b } := by
  unfold mc_cal_y
  by_cases h : ma.n1 > 0 ∧ ma.n1 < (ma.n : Int) ∧ ma.M = ma.n * 2
  · rw [if_pos h, if_pos (show ({ ma with is_indel := b } : bcf_p1aux_t).n1 > 0
        ∧ ({ ma with is_indel := b } : bcf_p1aux_t).n1
            < (({ ma with is_indel := b } : bcf_p1aux_t).n : Int)
        ∧ ({ ma with is_indel := b } : bcf_p1aux_t).M
            = ({ ma with is_indel := b } : bcf_p1aux_t).n * 2 from h)]
    simp only
    have e1 := mc_cal_y_core_indel
      { ma with
        z1 := ma.z1.zero (2 * ma.n1.toNat + 1)
        z2 := ma.z2.zero (2 * (ma.n - ma.n1.toNat) + 1)
        et1 := 1
        et2 := 1 } b ma.n1.toNat
    rw [e1]
    generalize mc_cal_y_core
      { ma with
        z1 := ma.z1.zero (2 * ma.n1.toNat + 1)
        z2 := ma.z2.zero (2 * (ma.n - ma.n1.toNat) + 1)
        et1 := 1
        et2 := 1 } ma.n1.toNat = A
    have e2 := mc_cal_y_core_indel
      { A with et2 := A.et, z2 := A.z2.copy A.z (2 * (ma.n - ma.n1.toNat) + 1) } b 0
    simp only at e2 ⊢
    rw [e2]
  · rw [if_neg h, if_neg (show ¬ (({ ma with is_indel := b } : bcf_p1aux_t).n1 > 0
        ∧ ({ ma with is_indel := b } : bcf_p1aux_t).n1
            < (({ ma with is_indel := b } : bcf_p1aux_t).n : Int)
        ∧ ({ ma with is_indel := b } : bcf_p1aux_t).M
            = ({ ma with is_indel := b } : bcf_p1aux_t).n * 2) from h)]
    exact mc_cal_y_core_indel ma b 0

/-- The array `z` that the pass of `mc_cal_afs` leaves does not depend on
`is_indel`. -/
theorem afsPass_indel (ma : bcf_p1aux_t) (b : Bool) :
    (afsPass { ma with is_indel := b }).z = (afsPass ma).z := by
  unfold afsPass
  have e := mc_cal_y_indel { ma with afs1 := ma.afs1.zero (ma.M + 1) } b
  have e' : mc_cal_y { ({ ma with is_indel := b } : bcf_p1aux_t) with
      afs1 := ({ ma with is_indel := b } : bcf_p1aux_t).afs1.zero
        (({ ma with is_indel := b } : bcf_p1aux_t).M + 1) }
      = { mc_cal_y { ma with afs1 := ma.afs1.zero (ma.M + 1) } with is_indel := b } := e
  rw [e']

/-! ### The effect of the indel flag on the posterior -/

/-- When `phi_indel[k] = x * phi[k]` below `M` and both normalisers are not zero,
the posteriors under the two values of `is_indel` agree on `0..M` exactly when
`phi[k] * z[k]` vanishes below `M` or `(phi_indel[M] - x * phi[M]) * z[M]` does. -/
theorem indel_flag_iff (ma : bcf_p1aux_t) (x p q : ℚ)
    (hx : ∀ k, k < ma.M → ma.phi_indel k = x * ma.phi k)
    (hS : afsSum { ma with is_indel := false } ≠ 0)
    (hS' : afsSum { ma with is_indel := true } ≠ 0) :
    (∀ k, k ≤ ma.M →
      (mc_cal_afs { ma with is_indel := true } p q).2.1.afs1 k
        = (mc_cal_afs { ma with is_indel := false } p q).2.1.afs1 k)
    ↔ ((∀ k, k < ma.M → ma.phi k * (afsPass ma).z k = 0)
        ∨ (ma.phi_indel ma.M - x * ma.phi ma.M) * (afsPass ma).z ma.M = 0) := by
  have vs := (mc_cal_afs_values { ma with is_indel := false } p q hS).1
  have vi := (mc_cal_afs_values { ma with is_indel := true } p q hS').1
  have zs : (afsPass { ma with is_indel := false }).z = (afsPass ma).z := afsPass_indel ma false
  have zi : (afsPass { ma with is_indel := true }).z = (afsPass ma).z := afsPass_indel ma true
  have ps : afsPhi { ma with is_indel := false } = ma.phi := rfl
  have pi : afsPhi { ma with is_indel := true } = ma.phi_indel := rfl
  have eS : afsSum { ma with is_indel := false }
      = sumTo (fun k => ma.phi k * (afsPass ma).z k) ma.M + ma.phi ma.M * (afsPass ma).z ma.M := by
    show sumTo (fun k => afsPhi { ma with is_indel := false } k
      * (afsPass { ma with is_indel := false }).z k) (ma.M + 1) = _
    rw [ps, zs]
    rfl
  have eS' : afsSum { ma with is_indel := true }
      = x * sumTo (fun k => ma.phi k * (afsPass ma).z k) ma.M
        + ma.phi_indel ma.M * (afsPass ma).z ma.M := by
    show sumTo (fun k => afsPhi { ma with is_indel := true } k
      * (afsPass { ma with is_indel := true }).z k) (ma.M + 1) = _
    rw [pi, zi]
    have e : sumTo (fun k => ma.phi_indel k * (afsPass ma).z k) (ma.M + 1)
        = sumTo (fun k => ma.phi_indel k * (afsPass ma).z k) ma.M
          + ma.phi_indel ma.M * (afsPass ma).z ma.M := rfl
    have e3 : sumTo (fun k => ma.phi_indel k * (afsPass ma).z k) ma.M
        = sumTo (fun k => ma.phi k * (afsPass ma).z k * x) ma.M :=
      sumTo_congr (fun k hk => by rw [hx k hk]; ring)
    rw [e, e3, sumTo_mul_right]
    ring
  have hvs : ∀ k, k ≤ ma.M → (mc_cal_afs { ma with is_indel := false } p q).2.1.afs1 k
      = ma.phi k * (afsPass ma).z k / afsSum { ma with is_indel := false } := by
    intro k hk
    rw [vs k hk, ps, zs]
  have hvi : ∀ k, k ≤ ma.M → (mc_cal_afs { ma with is_indel := true } p q).2.1.afs1 k
      = ma.phi_indel k * (afsPass ma).z k / afsSum { ma with is_indel := true } := by
    intro k hk
    rw [vi k hk, pi, zi]
  clear vs vi zs zi ps pi
  generalize afsSum { ma with is_indel := false } = S at hS eS hvs
  generalize afsSum { ma with is_indel := true } = S' at hS' eS' hvi
  constructor
  · intro h
    by_cases c : ∀ k, k < ma.M → ma.phi k * (afsPass ma).z k = 0
    · exact Or.inl c
    · right
      push_neg at c
      obtain ⟨k, hk, hne⟩ := c
      have e := h k (le_of_lt hk)
      rw [hvi k (le_of_lt hk), hvs k (le_of_lt hk), hx k hk, div_eq_div_iff hS' hS] at e
      have e2 : x * S = S' := by
        have : (ma.phi k * (afsPass ma).z k) * (x * S) = (ma.phi k * (afsPass ma).z k) * S' := by
          linarith
        exact mul_left_cancel₀ hne this
      rw [eS, eS'] at e2
      linarith
  · rintro (c | c) k hk
    · have hA : sumTo (fun k => ma.phi k * (afsPass ma).z k) ma.M = 0 := by
        rw [sumTo_congr c, sumTo_const]
        ring
      rw [hA] at eS eS'
      rw [hvi k hk, hvs k hk]
      rcases Nat.lt_or_ge k ma.M with d | d
      · rw [hx k d, mul_assoc, c k d]
        simp
      · have : k = ma.M := by omega
        rw [this, eS, eS']
        have b0 : ma.phi ma.M * (afsPass ma).z ma.M ≠ 0 := by
          intro hb
          apply hS
          rw [eS, hb]
          ring
        have c0 : ma.phi_indel ma.M * (afsPass ma).z ma.M ≠ 0 := by
          intro hb
          apply hS'
          rw [eS', hb]
          ring
        simp only [mul_zero, zero_add]
        rw [div_self b0, div_self c0]
    · have e2 : S' = x * S := by
        rw [eS, eS']
        linarith
      have hx0 : x ≠ 0 := by
        intro h0
        apply hS'
        rw [e2, h0]
        ring
      rw [hvi k hk, hvs k hk, e2]
      rcases Nat.lt_or_ge k ma.M with d | d
      · rw [hx k d]
        field_simp
        ring
      · have : k = ma.M := by omega
        rw [this]
        have : ma.phi_indel ma.M * (afsPass ma).z ma.M
            = x * (ma.phi ma.M * (afsPass ma).z ma.M) := by linarith
        rw [this]
        field_simp
        ring

/-! ### Two samples homozygous for the other allele -/

theorem alt2_pdg (i : Nat) :
    (calCtx siteAlt2 ctxTwo).pdg i
      = if i < 3 * 2 then q2pTen (siteAlt2.PLs (i / 3 * 3 + (2 - i % 3))) else 0 := rfl

theorem alt2_homAlt (j : Nat) (hj : j < 2) : homAlt (calCtx siteAlt2 ctxTwo) j := by
  unfold homAlt pdgOf
  interval_cases j <;> refine ⟨?_, ?_, ?_⟩ <;>
    · rw [alt2_pdg]
      norm_num [siteAlt2, q2pTen]

theorem alt2_pass :
    afsPass (calCtx siteAlt2 ctxTwo)
      = coreFinish (calCtx siteAlt2 ctxTwo) (dipLoop (calCtx siteAlt2 ctxTwo) 0 2) := by
  rw [afsPass_of_zero (calCtx siteAlt2 ctxTwo) (fun _ _ => rfl)]
  unfold mc_cal_y
  rw [if_neg (fun h => absurd h.1 (by decide))]
  exact mc_cal_y_core_dip (calCtx siteAlt2 ctxTwo) 0 rfl

/-- The likelihoods `z[0..4]` of two samples homozygous for the other allele:
the window of the pass ends at `2`, so `z[3] = z[4] = 0`. -/
theorem alt2_z :
    (afsPass (calCtx siteAlt2 ctxTwo)).z 0 = 6 * 10 ^ 25 / (6 * 10 ^ 25 + 4)
    ∧ (afsPass (calCtx siteAlt2 ctxTwo)).z 1 = 3 / (6 * 10 ^ 25 + 4)
    ∧ (afsPass (calCtx siteAlt2 ctxTwo)).z 2 = 1 / (6 * 10 ^ 25 + 4)
    ∧ (afsPass (calCtx siteAlt2 ctxTwo)).z 3 = 0
    ∧ (afsPass (calCtx siteAlt2 ctxTwo)).z 4 = 0 := by
  have w := pass_alt_alt (calCtx siteAlt2 ctxTwo) 0 (by decide) (alt2_homAlt 0 (by decide))
    (alt2_homAlt 1 (by decide))
  have hM : (calCtx siteAlt2 ctxTwo).M = 4 := rfl
  have hz : ∀ k, k ≤ 4 → (afsPass (calCtx siteAlt2 ctxTwo)).z k
      = (dipLoop (calCtx siteAlt2 ctxTwo) 0 2).z0 k := by
    intro k hk
    rw [alt2_pass]
    exact coreFinish_z _ _ k (by rw [hM]; exact hk)
  refine ⟨?_, ?_, ?_, ?_, ?_⟩
  · rw [hz 0 (by omega)]
    exact w.h0
  · rw [hz 1 (by omega)]
    exact w.h1
  · rw [hz 2 (by omega)]
    exact w.h2
  · rw [hz 3 (by omega)]
    exact w.inv.out0 3 (by rw [hM]; omega) (Or.inr (by rw [w.hmax]; omega))
  · rw [hz 4 (by omega)]
    exact w.inv.out0 4 (by rw [hM]) (Or.inr (by rw [w.hmax]; omega))

/-- The two priors of `ctxTwo`. -/
theorem alt2_phi :
    (∀ k, k < 4 → (calCtx siteAlt2 ctxTwo).phi k = 1 / 1000 / ((4 : ℚ) - k))
    ∧ (∀ k, k < 4 →
        (calCtx siteAlt2 ctxTwo).phi_indel k = 15 / 100 * (calCtx siteAlt2 ctxTwo).phi k)
    ∧ (calCtx siteAlt2 ctxTwo).phi_indel 4 = 1 - 15 / 100 * (calCtx siteAlt2 ctxTwo).phi 4 := by
  have e : (calCtx siteAlt2 ctxTwo).phi
      = init_prior PType.full (1 / 1000) ((4 : Nat) : Int) (fun _ => 0) := rfl
  have e2 : ∀ k, (calCtx siteAlt2 ctxTwo).phi_indel k
      = Arr.set (fun i => if i < 4 then (calCtx siteAlt2 ctxTwo).phi i * MC_DEF_INDEL else 0) 4
          (1 - (calCtx siteAlt2 ctxTwo).phi 4 * MC_DEF_INDEL) k := fun _ => rfl
  refine ⟨fun k hk => ?_, fun k hk => ?_, ?_⟩
  · rw [e, init_prior_full_lt _ _ _ k hk]
    norm_num
  · rw [e2 k, Arr.set_ne _ _ _ _ (by omega), if_pos hk]
    norm_num [MC_DEF_INDEL]
    ring
  · rw [e2 4, Arr.set_apply, if_pos rfl]
    norm_num [MC_DEF_INDEL]
    ring

/-- The two normalisers for two samples homozygous for the other allele. -/
theorem alt2_afsSum :
    afsSum { calCtx siteAlt2 ctxTwo with is_indel := false } ≠ 0
    ∧ afsSum { calCtx siteAlt2 ctxTwo with is_indel := true } ≠ 0 := by
  obtain ⟨z0, z1, z2, z3, z4⟩ := alt2_z
  obtain ⟨p0, pi, _⟩ := alt2_phi
  have zs := afsPass_indel (calCtx siteAlt2 ctxTwo) false
  have zi := afsPass_indel (calCtx siteAlt2 ctxTwo) true
  constructor
  · show sumTo (fun k => (calCtx siteAlt2 ctxTwo).phi k
      * (afsPass { calCtx siteAlt2 ctxTwo with is_indel := false }).z k) (4 + 1) ≠ 0
    rw [zs]
    simp only [sumTo]
    rw [z0, z1, z2, z3, z4, p0 0 (by omega), p0 1 (by omega), p0 2 (by omega)]
    norm_num
  · show sumTo (fun k => (calCtx siteAlt2 ctxTwo).phi_indel k
      * (afsPass { calCtx siteAlt2 ctxTwo with is_indel := true }).z k) (4 + 1) ≠ 0
    rw [zi]
    simp only [sumTo]
    rw [z0, z1, z2, z3, z4, pi 0 (by omega), pi 1 (by omega), pi 2 (by omega),
      p0 0 (by omega), p0 1 (by omega), p0 2 (by omega)]
    norm_num


/-! ### Two samples homozygous for the other allele, indel rate one half -/

theorem half_pdg (i : Nat) :
    (calCtx siteAlt2 ctxTwoHalf).pdg i
      = if i < 3 * 2 then q2pTen (siteAlt2.PLs (i / 3 * 3 + (2 - i % 3))) else 0 := rfl

theorem half_homAlt (j : Nat) (hj : j < 2) : homAlt (calCtx siteAlt2 ctxTwoHalf) j := by
  unfold homAlt pdgOf
  interval_cases j <;> refine ⟨?_, ?_, ?_⟩ <;>
    · rw [half_pdg]
      norm_num [siteAlt2, q2pTen]

theorem half_pass :
    afsPass (calCtx siteAlt2 ctxTwoHalf)
      = coreFinish (calCtx siteAlt2 ctxTwoHalf) (dipLoop (calCtx siteAlt2 ctxTwoHalf) 0 2) := by
  rw [afsPass_of_zero (calCtx siteAlt2 ctxTwoHalf) (fun _ _ => rfl)]
  unfold mc_cal_y
  rw [if_neg (fun h => absurd h.1 (by decide))]
  exact mc_cal_y_core_dip (calCtx siteAlt2 ctxTwoHalf) 0 rfl

/-- The likelihoods `z[0..4]` of two samples homozygous for the other allele:
the window of the pass ends at `2`, so `z[3] = z[4] = 0`. -/
theorem half_z :
    (afsPass (calCtx siteAlt2 ctxTwoHalf)).z 0 = 6 * 10 ^ 25 / (6 * 10 ^ 25 + 4)
    ∧ (afsPass (calCtx siteAlt2 ctxTwoHalf)).z 1 = 3 / (6 * 10 ^ 25 + 4)
    ∧ (afsPass (calCtx siteAlt2 ctxTwoHalf)).z 2 = 1 / (6 * 10 ^ 25 + 4)
    ∧ (afsPass (calCtx siteAlt2 ctxTwoHalf)).z 3 = 0
    ∧ (afsPass (calCtx siteAlt2 ctxTwoHalf)).z 4 = 0 := by
  have w := pass_alt_alt (calCtx siteAlt2 ctxTwoHalf) 0 (by decide) (half_homAlt 0 (by decide))
    (half_homAlt 1 (by decide))
  have hM : (calCtx siteAlt2 ctxTwoHalf).M = 4 := rfl
  have hz : ∀ k, k ≤ 4 → (afsPass (calCtx siteAlt2 ctxTwoHalf)).z k
      = (dipLoop (calCtx siteAlt2 ctxTwoHalf) 0 2).z0 k := by
    intro k hk
    rw [half_pass]
    exact coreFinish_z _ _ k (by rw [hM]; exact hk)
  refine ⟨?_, ?_, ?_, ?_, ?_⟩
  · rw [hz 0 (by omega)]
    exact w.h0
  · rw [hz 1 (by omega)]
    exact w.h1
  · rw [hz 2 (by omega)]
    exact w.h2
  · rw [hz 3 (by omega)]
    exact w.inv.out0 3 (by rw [hM]; omega) (Or.inr (by rw [w.hmax]; omega))
  · rw [hz 4 (by omega)]
    exact w.inv.out0 4 (by rw [hM]) (Or.inr (by rw [w.hmax]; omega))

/-- The two priors of `ctxTwoHalf`: below `M` the indel prior is half the SNP
prior. -/
theorem half_phi :
    (∀ k, k < 4 → (calCtx siteAlt2 ctxTwoHalf).phi k = 1 / 1000 / ((4 : ℚ) - k))
    ∧ (∀ k, k < 4 →
        (calCtx siteAlt2 ctxTwoHalf).phi_indel k = 1 / 2 * (calCtx siteAlt2 ctxTwoHalf).phi k) := by
  have e : (calCtx siteAlt2 ctxTwoHalf).phi
      = init_prior PType.full (1 / 1000) ((4 : Nat) : Int) (fun _ => 0) := rfl
  have e2 : ∀ k, (calCtx siteAlt2 ctxTwoHalf).phi_indel k
      = Arr.set (fun i => if i < 4 then (calCtx siteAlt2 ctxTwoHalf).phi i * (1 / 2)
            else (calCtx siteAlt2 ctxTwo).phi_indel i) 4
          (1 - (calCtx siteAlt2 ctxTwoHalf).phi 4 * (1 / 2)) k := fun _ => rfl
  refine ⟨fun k hk => ?_, fun k hk => ?_⟩
  · rw [e, init_prior_full_lt _ _ _ k hk]
    norm_num
  · rw [e2 k, Arr.set_ne _ _ _ _ (by omega), if_pos hk]
    ring

/-- The two normalisers for two samples homozygous for the other allele. -/
theorem half_afsSum :
    afsSum { calCtx siteAlt2 ctxTwoHalf with is_indel := false } ≠ 0
    ∧ afsSum { calCtx siteAlt2 ctxTwoHalf with is_indel := true } ≠ 0 := by
  obtain ⟨z0, z1, z2, z3, z4⟩ := half_z
  obtain ⟨p0, pi⟩ := half_phi
  have zs := afsPass_indel (calCtx siteAlt2 ctxTwoHalf) false
  have zi := afsPass_indel (calCtx siteAlt2 ctxTwoHalf) true
  constructor
  · show sumTo (fun k => (calCtx siteAlt2 ctxTwoHalf).phi k
      * (afsPass { calCtx siteAlt2 ctxTwoHalf with is_indel := false }).z k) (4 + 1) ≠ 0
    rw [zs]
    simp only [sumTo]
    rw [z0, z1, z2, z3, z4, p0 0 (by omega), p0 1 (by omega), p0 2 (by omega)]
    norm_num
  · show sumTo (fun k => (calCtx siteAlt2 ctxTwoHalf).phi_indel k
      * (afsPass { calCtx siteAlt2 ctxTwoHalf with is_indel := true }).z k) (4 + 1) ≠ 0
    rw [zi]
    simp only [sumTo]
    rw [z0, z1, z2, z3, z4, pi 0 (by omega), pi 1 (by omega), pi 2 (by omega),
      p0 0 (by omega), p0 1 (by omega), p0 2 (by omega)]
    norm_num

/-! ### Two samples with every likelihood one, under both priors -/

/-- The two normalisers of `ctxSplit` (every likelihood one) and the entry of
its indel prior at `M`. -/
theorem ctxSplit_indel :
    (∀ k, k < 4 → ctxSplit.phi_indel k = 15 / 100 * ctxSplit.phi k)
    ∧ (∀ k, k < 4 → ctxSplit.phi k = 1 / 1000 / ((4 : ℚ) - k))
    ∧ ctxSplit.phi 4 = 11975 / 12000
    ∧ ctxSplit.phi_indel 4 = 1 - 15 / 100 * (11975 / 12000)
    ∧ (∀ k, k ≤ 4 → (afsPass ctxSplit).z k = 1 / 9)
    ∧ afsSum { ctxSplit with is_indel := false } ≠ 0
    ∧ afsSum { ctxSplit with is_indel := true } ≠ 0 := by
  have e : ctxSplit.phi = init_prior PType.full (1 / 1000) ((4 : Nat) : Int) (fun _ => 0) := rfl
  have e2 : ∀ k, ctxSplit.phi_indel k
      = Arr.set (fun i => if i < 4 then ctxSplit.phi i * MC_DEF_INDEL else 0) 4
          (1 - ctxSplit.phi 4 * MC_DEF_INDEL) k := fun _ => rfl
  have p0 : ∀ k, k < 4 → ctxSplit.phi k = 1 / 1000 / ((4 : ℚ) - k) := by
    intro k hk
    rw [e, init_prior_full_lt _ _ _ k hk]
    norm_num
  have p4 : ctxSplit.phi 4 = 11975 / 12000 := by
    rw [e, init_prior_full_last]
    norm_num [sumTo]
  have pi : ∀ k, k < 4 → ctxSplit.phi_indel k = 15 / 100 * ctxSplit.phi k := by
    intro k hk
    rw [e2 k, Arr.set_ne _ _ _ _ (by omega), if_pos hk]
    norm_num [MC_DEF_INDEL]
    ring
  have pi4 : ctxSplit.phi_indel 4 = 1 - 15 / 100 * (11975 / 12000) := by
    rw [e2 4, Arr.set_apply, if_pos rfl, p4]
    norm_num [MC_DEF_INDEL]
  have hp : afsPass ctxSplit = mc_cal_y ctxSplit := afsPass_of_zero _ (fun _ _ => rfl)
  have hz : ∀ k, k ≤ 4 → (afsPass ctxSplit).z k = 1 / 9 := by
    intro k hk
    rw [hp]
    exact (ctxSplit_z k hk).2
  have zs := afsPass_indel ctxSplit false
  have zi := afsPass_indel ctxSplit true
  refine ⟨pi, p0, p4, pi4, hz, ?_, ?_⟩
  · show sumTo (fun k => ctxSplit.phi k
      * (afsPass { ctxSplit with is_indel := false }).z k) (4 + 1) ≠ 0
    rw [zs]
    simp only [sumTo]
    rw [hz 0 (by omega), hz 1 (by omega), hz 2 (by omega), hz 3 (by omega), hz 4 (by omega),
      p0 0 (by omega), p0 1 (by omega), p0 2 (by omega), p0 3 (by omega), p4]
    norm_num
  · show sumTo (fun k => ctxSplit.phi_indel k
      * (afsPass { ctxSplit with is_indel := true }).z k) (4 + 1) ≠ 0
    rw [zi]
    simp only [sumTo]
    rw [hz 0 (by omega), hz 1 (by omega), hz 2 (by omega), hz 3 (by omega), hz 4 (by omega),
      pi 0 (by omega), pi 1 (by omega), pi 2 (by omega), pi 3 (by omega), pi4,
      p0 0 (by omega), p0 1 (by omega), p0 2 (by omega), p0 3 (by omega)]
    norm_num

/-! ### C16: the indel flag and the posterior -/

/-- Counterexample to C16: two samples homozygous for the other allele, in the
context that `bcf_p1_init` builds, after `bcf_p1_indel_prior(ma, 0.5)`. The
indel rate is `0.5`, not `1`, both normalisers are not zero, and `afs1` is the
same on `0..M` whether `is_indel` is set or clear: the pass leaves `z[M] = 0`,
and below `M` the indel prior is the SNP prior times `0.5`, which the
normalisation cancels. -/
theorem indel_flag_no_effect_half :
    (1 / 2 : ℚ) ≠ 1
    ∧ afsSum { calCtx siteAlt2 ctxTwoHalf with is_indel := false } ≠ 0
    ∧ afsSum { calCtx siteAlt2 ctxTwoHalf with is_indel := true } ≠ 0
    ∧ ∀ k, k ≤ (calCtx siteAlt2 ctxTwoHalf).M →
        (mc_cal_afs { calCtx siteAlt2 ctxTwoHalf with is_indel := true } 0 0).2.1.afs1 k
          = (mc_cal_afs { calCtx siteAlt2 ctxTwoHalf with is_indel := false } 0 0).2.1.afs1 k := by
  obtain ⟨hS, hS'⟩ := half_afsSum
  obtain ⟨_, _, _, _, z4⟩ := half_z
  refine ⟨by norm_num, hS, hS', ?_⟩
  refine (indel_flag_iff (calCtx siteAlt2 ctxTwoHalf) (1 / 2) 0 0 half_phi.2 hS hS').mpr
    (Or.inr ?_)
  show _ * (afsPass (calCtx siteAlt2 ctxTwoHalf)).z 4 = 0
  rw [z4]
  ring

/-- C16 (amended). Take a context whose indel prior is `phi_indel[k] = x * phi[k]`
for every `k < M`, as `bcf_p1_indel_prior(ma, x)` writes it, and whose
normalisers are not zero under both values of `is_indel`. The `afs1` that
`mc_cal_afs` computes with `is_indel` set differs somewhere on `0..M` from the
one it computes with `is_indel` clear if and only if `z[M] ≠ 0`,
`phi[k] * z[k] ≠ 0` for some `k < M`, and `phi_indel[M] ≠ x * phi[M]`. In
particular the two are equal, for every rate `x`, when `z[M] = 0` and when
`phi[k] * z[k] = 0` for every `k < M`. -/
theorem indel_flag_differs (ma : bcf_p1aux_t) (x p q : ℚ)
    (hx : ∀ k, k < ma.M → ma.phi_indel k = x * ma.phi k)
    (hS : afsSum { ma with is_indel := false } ≠ 0)
    (hS' : afsSum { ma with is_indel := true } ≠ 0) :
    (∀ k, k < ma.M → (bcf_p1_indel_prior ma x).phi_indel k = x * ma.phi k)
    ∧ ((∃ k, k ≤ ma.M ∧
          (mc_cal_afs { ma with is_indel := true } p q).2.1.afs1 k
            ≠ (mc_cal_afs { ma with is_indel := false } p q).2.1.afs1 k)
        ↔ ((afsPass ma).z ma.M ≠ 0
            ∧ (∃ k, k < ma.M ∧ ma.phi k * (afsPass ma).z k ≠ 0)
            ∧ ma.phi_indel ma.M ≠ x * ma.phi ma.M))
    ∧ ((afsPass ma).z ma.M = 0 →
        ∀ k, k ≤ ma.M →
          (mc_cal_afs { ma with is_indel := true } p q).2.1.afs1 k
            = (mc_cal_afs { ma with is_indel := false } p q).2.1.afs1 k)
    ∧ ((∀ k, k < ma.M → ma.phi k * (afsPass ma).z k = 0) →
        ∀ k, k ≤ ma.M →
          (mc_cal_afs { ma with is_indel := true } p q).2.1.afs1 k
            = (mc_cal_afs { ma with is_indel := false } p q).2.1.afs1 k) := by
  have key := indel_flag_iff ma x p q hx hS hS'
  refine ⟨fun k hk => ?_, ?_, fun hz => ?_, fun hl => ?_⟩
  · have hne : k ≠ ma.M := by omega
    simp [bcf_p1_indel_prior, Arr.set, hne, hk]
    ring
  · constructor
    · rintro ⟨k, hk, hne⟩
      have hn : ¬ ((∀ k, k < ma.M → ma.phi k * (afsPass ma).z k = 0)
          ∨ (ma.phi_indel ma.M - x * ma.phi ma.M) * (afsPass ma).z ma.M = 0) :=
        fun h => hne (key.mpr h k hk)
      push_neg at hn
      obtain ⟨⟨j, hj, hjn⟩, hm⟩ := hn
      refine ⟨fun h0 => hm (by rw [h0]; ring), ⟨j, hj, hjn⟩, fun he => hm (by rw [he]; ring)⟩
    · rintro ⟨hz, ⟨j, hj, hjn⟩, hm⟩
      by_contra hall
      push_neg at hall
      rcases key.mp hall with c | c
      · exact hjn (c j hj)
      · rcases mul_eq_zero.mp c with c | c
        · exact hm (by linarith)
        · exact hz c
  · exact key.mpr (Or.inr (by rw [hz]; ring))
  · exact key.mpr (Or.inl hl)

/-- Witness of C16 (amended): two diploid samples with every likelihood equal
to one, in the context that `bcf_p1_init` builds (indel rate `0.15`): `z[M]` is
`1/9`, the products below `M` are not zero and `phi_indel[M]` is not
`0.15 * phi[M]`, so `afs1` differs between the two values of `is_indel`. -/
theorem indel_flag_differs_witness :
    (∀ k, k < ctxSplit.M → ctxSplit.phi_indel k = 15 / 100 * ctxSplit.phi k)
    ∧ afsSum { ctxSplit with is_indel := false } ≠ 0
    ∧ afsSum { ctxSplit with is_indel := true } ≠ 0
    ∧ ∃ k, k ≤ ctxSplit.M ∧
        (mc_cal_afs { ctxSplit with is_indel := true } 0 0).2.1.afs1 k
          ≠ (mc_cal_afs { ctxSplit with is_indel := false } 0 0).2.1.afs1 k := by
  obtain ⟨pi, p0, p4, pi4, hz, hS, hS'⟩ := ctxSplit_indel
  refine ⟨pi, hS, hS', ?_⟩
  refine (indel_flag_differs ctxSplit (15 / 100) 0 0 pi hS hS').2.1.mpr ⟨?_, ⟨0, by decide, ?_⟩, ?_⟩
  · show (afsPass ctxSplit).z 4 ≠ 0
    rw [hz 4 (le_refl _)]
    norm_num
  · rw [hz 0 (by omega), p0 0 (by omega)]
    norm_num
  · show ctxSplit.phi_indel 4 ≠ 15 / 100 * ctxSplit.phi 4
    rw [pi4, p4]
    norm_num

/-! ### The scans of `contrast2` -/

/-- The three paths of `contrast2` for a context with a split. -/
theorem contrast2_eq (ext : Ext) (p1 : bcf_p1aux_t) (ret : Fin 3 → ℚ)
    (h1 : 0 < p1.n1) (h2 : 0 < (p1.n : Int) - p1.n1) :
    contrast2 ext p1 ret
      = if (truncScan ext p1).1 0 + (truncScan ext p1).1 1 + (truncScan ext p1).1 2 < 95 / 100
        then
          if (fullScan ext (contrastCtx p1) (contrastSum p1) p1.n1.toNat
                ((p1.n : Int) - p1.n1).toNat).1 0
              + (fullScan ext (contrastCtx p1) (contrastSum p1) p1.n1.toNat
                  ((p1.n : Int) - p1.n1).toNat).1 1
              + (fullScan ext (contrastCtx p1) (contrastSum p1) p1.n1.toNat
                  ((p1.n : Int) - p1.n1).toNat).1 2 < 95 / 100
          then (1, (fun _ => 1 / 3), contrastCtx p1)
          else ((fullScan ext (contrastCtx p1) (contrastSum p1) p1.n1.toNat
                  ((p1.n : Int) - p1.n1).toNat).2,
                (fullScan ext (contrastCtx p1) (contrastSum p1) p1.n1.toNat
                  ((p1.n : Int) - p1.n1).toNat).1, contrastCtx p1)
        else ((truncScan ext p1).2, (truncScan ext p1).1, contrastCtx p1) := by
  unfold contrast2
  rw [if_neg (by omega)]
  rfl

theorem contrast2_aux_lt (ext : Ext) (p1 : bcf_p1aux_t) (sum : ℚ) (k1 k2 : Nat) (x : Fin 3 → ℚ)
    (h : cellP p1 sum k1 k2 < CONTRAST_TINY) : contrast2_aux ext p1 sum k1 k2 x = (-1, x) := by
  unfold contrast2_aux
  simp only
  exact if_pos h

theorem contrast2_aux_ge (ext : Ext) (p1 : bcf_p1aux_t) (sum : ℚ) (k1 k2 : Nat) (x : Fin 3 → ℚ)
    (h : ¬ cellP p1 sum k1 k2 < CONTRAST_TINY) :
    contrast2_aux ext p1 sum k1 k2 x
      = (cellP p1 sum k1 k2
          * chi2_test ext k1 k2 (p1.n1 * 2 - k1) (((p1.n : Int) - p1.n1) * 2 - k2),
        Function.update x (cellSlot p1 k1 k2) (x (cellSlot p1 k1 k2) + cellP p1 sum k1 k2)) := by
  unfold contrast2_aux
  simp only
  refine (if_neg h).trans ?_
  unfold cellSlot cellP
  split_ifs <;> rfl

theorem update_total (x : Fin 3 → ℚ) (i : Fin 3) (p : ℚ) :
    Function.update x i (x i + p) 0 + Function.update x i (x i + p) 1
      + Function.update x i (x i + p) 2 = x 0 + x 1 + x 2 + p := by
  fin_cases i <;> simp [Function.update] <;> ring

/-- The exhaustive scan adds the counted mass of the cell to the total of the
three slots and never breaks. -/
theorem fullCell_total (ext : Ext) (p1 : bcf_p1aux_t) (sum : ℚ) (k1 k2 : Nat) (s : ScanAcc) :
    (fullCell ext p1 sum k1 k2 s).2 = false
    ∧ (fullCell ext p1 sum k1 k2 s).1.1 0 + (fullCell ext p1 sum k1 k2 s).1.1 1
        + (fullCell ext p1 sum k1 k2 s).1.1 2
      = s.1 0 + s.1 1 + s.1 2 + cellMass p1 sum k1 k2 := by
  unfold fullCell cellMass
  simp only
  by_cases h : cellP p1 sum k1 k2 < CONTRAST_TINY
  · rw [contrast2_aux_lt ext p1 sum k1 k2 s.1 h, if_pos h]
    refine ⟨by split_ifs <;> rfl, ?_⟩
    split_ifs <;> simp
  · rw [contrast2_aux_ge ext p1 sum k1 k2 s.1 h, if_neg h]
    refine ⟨by split_ifs <;> rfl, ?_⟩
    split_ifs <;> exact update_total _ _ _

theorem sumTo_shift (w : Nat → ℚ) (lo c : Nat) :
    sumTo (fun i => w (lo + i)) (c + 1) = w lo + sumTo (fun i => w (lo + 1 + i)) c := by
  induction c with
  | zero => simp [sumTo]
  | succ c ih =>
    have e : sumTo (fun i => w (lo + i)) (c + 1 + 1)
        = sumTo (fun i => w (lo + i)) (c + 1) + w (lo + (c + 1)) := rfl
    have e2 : sumTo (fun i => w (lo + 1 + i)) (c + 1)
        = sumTo (fun i => w (lo + 1 + i)) c + w (lo + 1 + c) := rfl
    have e3 : lo + (c + 1) = lo + 1 + c := by omega
    rw [e, ih, e2, e3]
    ring

/-- A loop whose body never breaks and adds `w k` to a quantity `F` of the state
adds the sum of the `w k`. -/
theorem loopUp_sum {σ : Type} (body : Nat → σ → σ × Bool) (F : σ → ℚ) (w : Nat → ℚ)
    (hb : ∀ k s, (body k s).2 = false) (hF : ∀ k s, F (body k s).1 = F s + w k)
    (lo c : Nat) (s : σ) :
    F (loopUp body lo c s) = F s + sumTo (fun i => w (lo + i)) c := by
  induction c generalizing lo s with
  | zero => simp [loopUp, sumTo]
  | succ c ih =>
    unfold loopUp
    simp only
    rw [hb lo s]
    simp only [Bool.false_eq_true, if_false]
    rw [ih (lo + 1) (body lo s).1, hF lo s, sumTo_shift]
    ring

/-- The total of the three masses that the exhaustive scan leaves. -/
theorem fullScan_total (ext : Ext) (p1 : bcf_p1aux_t) (sum : ℚ) (n1 n2 : Nat) :
    (fullScan ext p1 sum n1 n2).1 0 + (fullScan ext p1 sum n1 n2).1 1
        + (fullScan ext p1 sum n1 n2).1 2
      = sumTo (fun k1 => sumTo (fun k2 => cellMass p1 sum k1 k2) (2 * n2 + 1)) (2 * n1 + 1) := by
  have inner : ∀ k1 (s : ScanAcc),
      (loopUp (fullCell ext p1 sum k1) 0 (2 * n2 + 1) s).1 0
          + (loopUp (fullCell ext p1 sum k1) 0 (2 * n2 + 1) s).1 1
          + (loopUp (fullCell ext p1 sum k1) 0 (2 * n2 + 1) s).1 2
        = s.1 0 + s.1 1 + s.1 2 + sumTo (fun k2 => cellMass p1 sum k1 k2) (2 * n2 + 1) := by
    intro k1 s
    have := loopUp_sum (fullCell ext p1 sum k1) (fun t : ScanAcc => t.1 0 + t.1 1 + t.1 2)
      (fun k2 => cellMass p1 sum k1 k2) (fun k t => (fullCell_total ext p1 sum k1 k t).1)
      (fun k t => (fullCell_total ext p1 sum k1 k t).2) 0 (2 * n2 + 1) s
    simpa using this
  have outer := loopUp_sum
    (fun k1 (s : ScanAcc) => (loopUp (fullCell ext p1 sum k1) 0 (2 * n2 + 1) s, false))
    (fun t : ScanAcc => t.1 0 + t.1 1 + t.1 2)
    (fun k1 => sumTo (fun k2 => cellMass p1 sum k1 k2) (2 * n2 + 1))
    (fun _ _ => rfl) (fun k1 s => inner k1 s) 0 (2 * n1 + 1) ((fun _ => 0), 0)
  unfold fullScan
  simpa using outer

theorem cellMass_nonneg (p1 : bcf_p1aux_t) (sum : ℚ) (k1 k2 : Nat) :
    0 ≤ cellMass p1 sum k1 k2 := by
  unfold cellMass
  split_ifs with h
  · exact le_refl _
  · have : (0 : ℚ) < CONTRAST_TINY := by norm_num [CONTRAST_TINY]
    linarith [not_lt.mp h]

/-! ### The context that `bcf_p1_cal` hands to `contrast2` -/

theorem mc_cal_y_core_phi12 (ma : bcf_p1aux_t) (beg : Nat) :
    (mc_cal_y_core ma beg).phi1 = ma.phi1 ∧ (mc_cal_y_core ma beg).phi2 = ma.phi2 := by
  unfold mc_cal_y_core
  split_ifs
  · exact ⟨rfl, rfl⟩
  · cases ma.ploidy with
    | none => exact ⟨rfl, rfl⟩
    | some pl => exact ⟨rfl, rfl⟩

theorem mc_cal_y_phi12 (ma : bcf_p1aux_t) :
    (mc_cal_y ma).phi1 = ma.phi1 ∧ (mc_cal_y ma).phi2 = ma.phi2 := by
  unfold mc_cal_y
  split_ifs
  · obtain ⟨a1, a2⟩ := mc_cal_y_core_phi12
      { ma with
        z1 := ma.z1.zero (2 * ma.n1.toNat + 1)
        z2 := ma.z2.zero (2 * (ma.n - ma.n1.toNat) + 1)
        et1 := 1
        et2 := 1 } ma.n1.toNat
    obtain ⟨b1, b2⟩ := mc_cal_y_core_phi12
      { mc_cal_y_core
          { ma with
            z1 := ma.z1.zero (2 * ma.n1.toNat + 1)
            z2 := ma.z2.zero (2 * (ma.n - ma.n1.toNat) + 1)
            et1 := 1
            et2 := 1 } ma.n1.toNat with
        et2 := (mc_cal_y_core
          { ma with
            z1 := ma.z1.zero (2 * ma.n1.toNat + 1)
            z2 := ma.z2.zero (2 * (ma.n - ma.n1.toNat) + 1)
            et1 := 1
            et2 := 1 } ma.n1.toNat).et
        z2 := (mc_cal_y_core
          { ma with
            z1 := ma.z1.zero (2 * ma.n1.toNat + 1)
            z2 := ma.z2.zero (2 * (ma.n - ma.n1.toNat) + 1)
            et1 := 1
            et2 := 1 } ma.n1.toNat).z2.copy
            (mc_cal_y_core
              { ma with
                z1 := ma.z1.zero (2 * ma.n1.toNat + 1)
                z2 := ma.z2.zero (2 * (ma.n - ma.n1.toNat) + 1)
                et1 := 1
                et2 := 1 } ma.n1.toNat).z (2 * (ma.n - ma.n1.toNat) + 1) } 0
    exact ⟨b1.trans a1, b2.trans a2⟩
  · exact mc_cal_y_core_phi12 ma 0

/-- The fields of the context after a successful `mc_cal_afs` that `contrast2`
reads, when `afs1[0..M]` was zero before the call. -/
theorem mc_cal_afs_ctx (ma : bcf_p1aux_t) (p q : ℚ) (hz : ∀ k, k < ma.M + 1 → ma.afs1 k = 0)
    (hS : afsSum ma ≠ 0) :
    (mc_cal_afs ma p q).2.1.z = (mc_cal_y ma).z
    ∧ (mc_cal_afs ma p q).2.1.z1 = (mc_cal_y ma).z1
    ∧ (mc_cal_afs ma p q).2.1.z2 = (mc_cal_y ma).z2
    ∧ (mc_cal_afs ma p q).2.1.phi = ma.phi
    ∧ (mc_cal_afs ma p q).2.1.phi1 = ma.phi1
    ∧ (mc_cal_afs ma p q).2.1.phi2 = ma.phi2
    ∧ (mc_cal_afs ma p q).2.1.hg = ma.hg
    ∧ (mc_cal_afs ma p q).2.1.n = ma.n
    ∧ (mc_cal_afs ma p q).2.1.n1 = ma.n1
    ∧ (mc_cal_afs ma p q).2.1.M = ma.M := by
  have e : (mc_cal_afs ma p q).2.1
      = { afsPass ma with
          afs1 := (mc_cal_afs ma p q).2.1.afs1, afs := (mc_cal_afs ma p q).2.1.afs } := by
    unfold mc_cal_afs
    simp only
    rw [if_neg hS]
  have hp := afsPass_of_zero ma hz
  obtain ⟨_, _, f3, _, _, f6, f7, f8, _, f10⟩ := mc_cal_y_frame ma
  obtain ⟨g1, g2⟩ := mc_cal_y_phi12 ma
  rw [e]
  simp only
  rw [hp]
  exact ⟨rfl, rfl, rfl, f3, g1, g2, f10, f7, f8, f6⟩

/-- When `z[M] = 0` the whole posterior mass is below `M`: `p_var = 1`. -/
theorem p_var_one (ma : bcf_p1aux_t) (p q : ℚ) (hS : afsSum ma ≠ 0)
    (hz : (afsPass ma).z ma.M = 0) :
    sumTo (mc_cal_afs ma p q).2.1.afs1 ma.M = 1 := by
  obtain ⟨v1, v2, _, _⟩ := mc_cal_afs_values ma p q hS
  have e : sumTo (mc_cal_afs ma p q).2.1.afs1 (ma.M + 1)
      = sumTo (mc_cal_afs ma p q).2.1.afs1 ma.M + (mc_cal_afs ma p q).2.1.afs1 ma.M := rfl
  rw [e, v1 ma.M (le_refl _), hz] at v2
  simpa using v2

/-- With `do_contrast` set and `p_var > 0.5`, `bcf_p1_cal` reports what
`contrast2` returns on the context that `mc_cal_afs` leaves. -/
theorem bcf_p1_cal_contrast (ext : Ext) (site : Site) (ma : bcf_p1aux_t) (rst : bcf_p1rst_t)
    (h : ¬ site.n_allele < 2)
    (hv : sumTo (mc_cal_afs (calCtx site ma) rst.p_ref_folded rst.p_var_folded).2.1.afs1
        (mc_cal_afs (calCtx site ma) rst.p_ref_folded rst.p_var_folded).2.1.M > 1 / 2) :
    (bcf_p1_cal ext site true ma rst).2.2.cmp
        = (contrast2 ext (mc_cal_afs (calCtx site ma) rst.p_ref_folded rst.p_var_folded).2.1
            (fun _ => -1)).2.1
    ∧ (bcf_p1_cal ext site true ma rst).2.2.p_chi2
        = (contrast2 ext (mc_cal_afs (calCtx site ma) rst.p_ref_folded rst.p_var_folded).2.1
            (fun _ => -1)).1 := by
  unfold bcf_p1_cal
  simp only
  rw [if_neg h, if_pos ⟨trivial, hv⟩]
  exact ⟨rfl, rfl⟩

/-! ### Loops with `break` -/

theorem loopDown_break {σ : Type} (body : Nat → σ → σ × Bool) (k : Nat) (s : σ)
    (h : (body k s).2 = true) : loopDown body (k + 1) s = (body k s).1 := by
  unfold loopDown
  simp only
  rw [if_pos h]

theorem loopDown_next {σ : Type} (body : Nat → σ → σ × Bool) (k : Nat) (s : σ)
    (h : (body k s).2 = false) : loopDown body (k + 1) s = loopDown body k (body k s).1 := by
  conv_lhs => unfold loopDown
  simp only
  rw [h]
  simp

theorem loopUp_break {σ : Type} (body : Nat → σ → σ × Bool) (lo c : Nat) (s : σ)
    (h : (body lo s).2 = true) : loopUp body lo (c + 1) s = (body lo s).1 := by
  unfold loopUp
  simp only
  rw [if_pos h]

theorem loopUp_next {σ : Type} (body : Nat → σ → σ × Bool) (lo c : Nat) (s : σ)
    (h : (body lo s).2 = false) :
    loopUp body lo (c + 1) s = loopUp body (lo + 1) c (body lo s).1 := by
  conv_lhs => unfold loopUp
  simp only
  rw [h]
  simp

/-- A loop whose body leaves the state as it is and never breaks. -/
theorem loopUp_id {σ : Type} (body : Nat → σ → σ × Bool) (h : ∀ k s, body k s = (s, false))
    (lo c : Nat) (s : σ) : loopUp body lo c s = s := by
  induction c generalizing lo s with
  | zero => rfl
  | succ c ih =>
    rw [loopUp_next body lo c s (by rw [h])]
    rw [h, ih]

/-- A cell below `CONTRAST_TINY` ends the inner loop of the truncated scan. -/
theorem scanCell_break (ext : Ext) (p1 : bcf_p1aux_t) (sum : ℚ) (k1 k2 : Nat) (s : ScanAcc)
    (h : cellP p1 sum k1 k2 < CONTRAST_TINY) : scanCell ext p1 sum k1 k2 s = (s, true) := by
  unfold scanCell
  simp only
  rw [contrast2_aux_lt ext p1 sum k1 k2 s.1 h]
  simp

/-- A cell that is not below `CONTRAST_TINY`, with a test value that is not
negative, is counted by the truncated scan. -/
theorem scanCell_count (ext : Ext) (p1 : bcf_p1aux_t) (sum : ℚ) (k1 k2 : Nat) (s : ScanAcc)
    (h : ¬ cellP p1 sum k1 k2 < CONTRAST_TINY)
    (hc : 0 ≤ chi2_test ext k1 k2 (p1.n1 * 2 - k1) (((p1.n : Int) - p1.n1) * 2 - k2)) :
    scanCell ext p1 sum k1 k2 s
      = ((Function.update s.1 (cellSlot p1 k1 k2) (s.1 (cellSlot p1 k1 k2) + cellP p1 sum k1 k2),
          s.2 + cellP p1 sum k1 k2
            * chi2_test ext k1 k2 (p1.n1 * 2 - k1) (((p1.n : Int) - p1.n1) * 2 - k2)), false) := by
  have hp : 0 ≤ cellP p1 sum k1 k2 := by
    have : (0 : ℚ) < CONTRAST_TINY := by norm_num [CONTRAST_TINY]
    linarith [not_lt.mp h]
  unfold scanCell
  simp only
  rw [contrast2_aux_ge ext p1 sum k1 k2 s.1 h]
  simp only
  rw [if_neg (not_lt.mpr (mul_nonneg hp hc))]

/-- The scan for the mode finds nothing when no product is positive. -/
theorem argMaxPos_none (f : Nat → ℚ) (n : Nat) (h : ∀ k, k < n → f k ≤ 0) :
    argMaxPos f n = (0, -1) := by
  induction n with
  | zero => rfl
  | succ n ih =>
    unfold argMaxPos
    simp only
    rw [ih (fun k hk => h k (Nat.lt_succ_of_lt hk))]
    simp only
    rw [if_neg (not_lt.mpr (h n (Nat.lt_succ_self n)))]

theorem argMaxPos_mem (f : Nat → ℚ) (m : Nat) :
    (argMaxPos f m).1 = 0 ∨ ∃ k, k < m ∧ (argMaxPos f m).1 = f k := by
  induction m with
  | zero => exact Or.inl rfl
  | succ m ih =>
    unfold argMaxPos
    simp only
    split_ifs with c
    · exact Or.inr ⟨m, Nat.lt_succ_self m, rfl⟩
    · rcases ih with e | ⟨k, hk, e⟩
      · exact Or.inl e
      · exact Or.inr ⟨k, Nat.lt_succ_of_lt hk, e⟩

/-- The scan for the mode ends on the last cell when it is positive and above
all others. -/
theorem argMaxPos_last (f : Nat → ℚ) (n : Nat) (h : ∀ k, k < n → f k < f n) (hpos : 0 < f n) :
    (argMaxPos f (n + 1)).2 = (n : Int) := by
  have c : f n > (argMaxPos f n).1 := by
    rcases argMaxPos_mem f n with e | ⟨k, hk, e⟩
    · rw [e]
      exact hpos
    · rw [e]
      exact h k hk
  unfold argMaxPos
  simp only
  rw [if_pos c]

/-- The scan for the mode stays on the first cell when it is positive and no
other is above it. -/
theorem argMaxPos_first (f : Nat → ℚ) (n : Nat) (h : ∀ k, k < n + 1 → f k ≤ f 0) (hpos : 0 < f 0) :
    argMaxPos f (n + 1) = (f 0, 0) := by
  induction n with
  | zero =>
    unfold argMaxPos
    simp only
    have e : argMaxPos f 0 = (0, -1) := rfl
    rw [e]
    simp only
    rw [if_pos hpos]
    rfl
  | succ n ih =>
    unfold argMaxPos
    simp only
    rw [ih (fun k hk => h k (Nat.lt_succ_of_lt hk))]
    simp only
    rw [if_neg (not_lt.mpr (h (n + 1) (Nat.lt_succ_self _)))]

/-- The entries of the matrix that `contrast2` builds. -/
theorem hgAt_build (M n1 n2 k1 k2 : Nat) (h1 : k1 ≤ 2 * n1) (h2 : k2 ≤ 2 * n2) :
    hgAt (some (hgBuild M n1 n2)) k1 k2 = hgVal M n1 n2 k1 k2 := by
  have a1 : k1 < 2 * n1 + 1 := by omega
  have a2 : k2 < 2 * n2 + 1 := by omega
  simp [hgAt, hgBuild, List.getD_eq_getElem?_getD, List.getElem?_range, a1, a2]

/-! ### Generic facts about the scans -/

theorem contrastCtx_none (p1 : bcf_p1aux_t) (hhg : p1.hg = none) :
    contrastCtx p1
      = { p1 with hg := some (hgBuild p1.M p1.n1.toNat ((p1.n : Int) - p1.n1).toNat) } := by
  unfold contrastCtx
  rw [hhg]

/-- The truncated scan of `contrast2` when no mode is found and every row ends
on its first cell: nothing is counted. -/
theorem truncScan_none (ext : Ext) (p1 : bcf_p1aux_t) (n2 : Nat)
    (hn2 : ((p1.n : Int) - p1.n1).toNat = n2)
    (ha1 : argMaxPos (fun k => (contrastCtx p1).phi1 k * (contrastCtx p1).z1 k)
        (2 * p1.n1.toNat + 1) = (0, -1))
    (ha2 : argMaxPos (fun k => (contrastCtx p1).phi2 k * (contrastCtx p1).z2 k)
        (2 * n2 + 1) = (0, -1))
    (hrow : ∀ k (s : ScanAcc),
      scanRow ext (contrastCtx p1) (contrastSum p1) n2 0 k s = (s, false)) :
    truncScan ext p1 = ((fun _ => 0 + 0), 0) := by
  unfold truncScan
  simp only
  rw [hn2, ha1, ha2]
  have t3 : ((-1 : Int) + 1).toNat = 0 := rfl
  simp only [t3]
  have e0 : loopDown (scanRow ext (contrastCtx p1) (contrastSum p1) n2 0) 0
      ((fun _ => 0), 0) = ((fun _ => 0), 0) := rfl
  rw [e0]
  simp only
  rw [loopUp_id _ hrow]

/-! ### One sample homozygous for the other allele against two for the reference -/

theorem tiny_pdg (i : Nat) :
    (calCtx siteAltRef ctxThreeTiny).pdg i
      = if i < 3 * 3 then q2pTen (siteAltRef.PLs (i / 3 * 3 + (2 - i % 3))) else 0 := rfl

theorem tiny_hom :
    homAlt (calCtx siteAltRef ctxThreeTiny) 0 ∧ homRef (calCtx siteAltRef ctxThreeTiny) 1
    ∧ homRef (calCtx siteAltRef ctxThreeTiny) 2 := by
  unfold homAlt homRef pdgOf
  refine ⟨⟨?_, ?_, ?_⟩, ⟨?_, ?_, ?_⟩, ⟨?_, ?_, ?_⟩⟩ <;>
    · rw [tiny_pdg]
      norm_num [siteAltRef, q2pTen]

/-- The arrays `z`, `z1`, `z2` that `mc_cal_y` leaves for the three samples. -/
theorem tiny_arrays :
    (∀ k, k ≤ 6 → (mc_cal_y (calCtx siteAltRef ctxThreeTiny)).z k
      = (dipLoop (calCtx siteAltRef ctxThreeTiny) 0 3).z0 k
        * ((2 * 10 ^ 25 + 5) / (30 * 10 ^ 25)
            / ((10 ^ 25 + 2) / 10 ^ 25 * ((3 * 10 ^ 25 + 2) / (3 * 10 ^ 25)))))
    ∧ (dipLoop (calCtx siteAltRef ctxThreeTiny) 0 3).z0 4 = 2 * 10 ^ 25 / (2 * 10 ^ 25 + 5)
    ∧ (dipLoop (calCtx siteAltRef ctxThreeTiny) 0 3).z0 3 = 3 / (2 * 10 ^ 25 + 5)
    ∧ (dipLoop (calCtx siteAltRef ctxThreeTiny) 0 3).z0 2 = 2 / (2 * 10 ^ 25 + 5)
    ∧ (∀ k, k ≤ 6 → (k < 2 ∨ 4 < k) → (dipLoop (calCtx siteAltRef ctxThreeTiny) 0 3).z0 k = 0)
    ∧ (mc_cal_y (calCtx siteAltRef ctxThreeTiny)).z1 0 = 10 ^ 25 / (10 ^ 25 + 2)
    ∧ (mc_cal_y (calCtx siteAltRef ctxThreeTiny)).z1 2 = 1 / (10 ^ 25 + 2)
    ∧ (mc_cal_y (calCtx siteAltRef ctxThreeTiny)).z2 0 = 0
    ∧ (mc_cal_y (calCtx siteAltRef ctxThreeTiny)).z2 4 = 6 * 10 ^ 25 / (6 * 10 ^ 25 + 4) := by
  obtain ⟨h0, h1, h2⟩ := tiny_hom
  have w3 := pass_arr (calCtx siteAltRef ctxThreeTiny) 0 (by decide) h0 h1 h2
  have w1 := pass_alt (calCtx siteAltRef ctxThreeTiny) 0 (by decide) h0
  have w2 := pass_ref_ref (calCtx siteAltRef ctxThreeTiny) 1 (by decide) h1 h2
  obtain ⟨s1, s2, s3⟩ := mc_cal_y_split (calCtx siteAltRef ctxThreeTiny) rfl (by decide) (by decide)
  have s1' : ∀ k, k ≤ 6 → (mc_cal_y (calCtx siteAltRef ctxThreeTiny)).z k
      = (dipLoop (calCtx siteAltRef ctxThreeTiny) 0 3).z0 k
        * ((dipLoop (calCtx siteAltRef ctxThreeTiny) 0 3).et
          / ((dipLoop (calCtx siteAltRef ctxThreeTiny) 0 1).et
              * (dipLoop (calCtx siteAltRef ctxThreeTiny) 1 2).et)) := s1
  have s2' : ∀ k, k ≤ 2 → (mc_cal_y (calCtx siteAltRef ctxThreeTiny)).z1 k
      = (dipLoop (calCtx siteAltRef ctxThreeTiny) 0 1).z0 k := s2
  have s3' : ∀ k, k ≤ 4 → (mc_cal_y (calCtx siteAltRef ctxThreeTiny)).z2 k
      = (dipLoop (calCtx siteAltRef ctxThreeTiny) 1 2).z0 k := s3
  have hM : (calCtx siteAltRef ctxThreeTiny).M = 6 := rfl
  refine ⟨fun k hk => ?_, w3.h2, w3.h1, w3.h0, fun k hk hw => ?_, ?_, ?_, ?_, ?_⟩
  · rw [s1' k hk, w3.het, w1.het, w2.het]
  · refine w3.inv.out0 k (by rw [hM]; exact hk) ?_
    rw [w3.hmin, w3.hmax]
    omega
  · rw [s2' 0 (by omega)]
    exact w1.h0
  · rw [s2' 2 (by omega)]
    exact w1.h2
  · rw [s3' 0 (by omega)]
    refine w2.inv.out0 0 (Nat.zero_le _) (Or.inl ?_)
    rw [w2.hmin]
    omega
  · rw [s3' 4 (by omega)]
    exact w2.h2

/-- The prior and the normaliser of the three samples. -/
theorem tiny_sum :
    (∀ k, k < 6 → (calCtx siteAltRef ctxThreeTiny).phi k = 1 / 10 ^ 30 / ((6 : ℚ) - k))
    ∧ (calCtx siteAltRef ctxThreeTiny).phi 6 = (20 * 10 ^ 30 - 49) / (20 * 10 ^ 30)
    ∧ afsSum (calCtx siteAltRef ctxThreeTiny)
        = (1 / (4 * 10 ^ 30) * 2 + 1 / (3 * 10 ^ 30) * 3 + 1 / (2 * 10 ^ 30) * (2 * 10 ^ 25)) / (2 * 10 ^ 25 + 5)
          * ((2 * 10 ^ 25 + 5) / (30 * 10 ^ 25)
            / ((10 ^ 25 + 2) / 10 ^ 25 * ((3 * 10 ^ 25 + 2) / (3 * 10 ^ 25)))) := by
  have e : (calCtx siteAltRef ctxThreeTiny).phi
      = init_prior PType.full (1 / 10 ^ 30) ((6 : Nat) : Int)
          (init_prior PType.full (1 / 1000) ((6 : Nat) : Int) (fun _ => 0)) := rfl
  have p0 : ∀ k, k < 6 → (calCtx siteAltRef ctxThreeTiny).phi k = 1 / 10 ^ 30 / ((6 : ℚ) - k) := by
    intro k hk
    rw [e, init_prior_full_lt _ _ _ k hk]
    norm_num
  have p6 : (calCtx siteAltRef ctxThreeTiny).phi 6 = (20 * 10 ^ 30 - 49) / (20 * 10 ^ 30) := by
    rw [e, init_prior_full_last]
    norm_num [sumTo]
  refine ⟨p0, p6, ?_⟩
  obtain ⟨a1, a2, a3, a4, a5, _⟩ := tiny_arrays
  have hp : afsPass (calCtx siteAltRef ctxThreeTiny) = mc_cal_y (calCtx siteAltRef ctxThreeTiny) :=
    afsPass_of_zero _ (fun _ _ => rfl)
  have hphi : afsPhi (calCtx siteAltRef ctxThreeTiny) = (calCtx siteAltRef ctxThreeTiny).phi := rfl
  have hM : (calCtx siteAltRef ctxThreeTiny).M + 1 = 7 := rfl
  unfold afsSum
  rw [hp, hphi, hM]
  simp only [sumTo]
  rw [a1 0 (by omega), a1 1 (by omega), a1 2 (by omega), a1 3 (by omega), a1 4 (by omega),
    a1 5 (by omega), a1 6 (by omega), a5 0 (by omega) (by omega), a5 1 (by omega) (by omega),
    a5 5 (by omega) (by omega), a5 6 (by omega) (by omega), a2, a3, a4, p0 2 (by omega),
    p0 3 (by omega), p0 4 (by omega)]
  norm_num

/-- The context that `bcf_p1_cal` hands to `contrast2` for the three samples, as
`contrast2` scans it. -/
theorem tiny_ctx (p q : ℚ) :
    afsSum (calCtx siteAltRef ctxThreeTiny) ≠ 0
    ∧ (mc_cal_afs (calCtx siteAltRef ctxThreeTiny) p q).2.1.n1 = 1
    ∧ (mc_cal_afs (calCtx siteAltRef ctxThreeTiny) p q).2.1.n = 3
    ∧ (mc_cal_afs (calCtx siteAltRef ctxThreeTiny) p q).2.1.M = 6
    ∧ (contrastCtx (mc_cal_afs (calCtx siteAltRef ctxThreeTiny) p q).2.1).phi
        = (calCtx siteAltRef ctxThreeTiny).phi
    ∧ (contrastCtx (mc_cal_afs (calCtx siteAltRef ctxThreeTiny) p q).2.1).phi1 = (fun _ => 0)
    ∧ (contrastCtx (mc_cal_afs (calCtx siteAltRef ctxThreeTiny) p q).2.1).phi2 = (fun _ => 0)
    ∧ (contrastCtx (mc_cal_afs (calCtx siteAltRef ctxThreeTiny) p q).2.1).z1
        = (mc_cal_y (calCtx siteAltRef ctxThreeTiny)).z1
    ∧ (contrastCtx (mc_cal_afs (calCtx siteAltRef ctxThreeTiny) p q).2.1).z2
        = (mc_cal_y (calCtx siteAltRef ctxThreeTiny)).z2
    ∧ (contrastCtx (mc_cal_afs (calCtx siteAltRef ctxThreeTiny) p q).2.1).hg
        = some (hgBuild 6 1 2)
    ∧ (contrastCtx (mc_cal_afs (calCtx siteAltRef ctxThreeTiny) p q).2.1).n1 = 1
    ∧ (contrastCtx (mc_cal_afs (calCtx siteAltRef ctxThreeTiny) p q).2.1).n = 3
    ∧ contrastSum (mc_cal_afs (calCtx siteAltRef ctxThreeTiny) p q).2.1
        = afsSum (calCtx siteAltRef ctxThreeTiny) := by
  have hS : afsSum (calCtx siteAltRef ctxThreeTiny) ≠ 0 := by
    rw [tiny_sum.2.2]
    norm_num
  obtain ⟨c1, c2, c3, c4, c5, c6, c7, c8, c9, c10⟩ :=
    mc_cal_afs_ctx (calCtx siteAltRef ctxThreeTiny) p q (fun _ _ => rfl) hS
  have hn1 : (mc_cal_afs (calCtx siteAltRef ctxThreeTiny) p q).2.1.n1 = 1 := c9
  have hn : (mc_cal_afs (calCtx siteAltRef ctxThreeTiny) p q).2.1.n = 3 := c8
  have hM : (mc_cal_afs (calCtx siteAltRef ctxThreeTiny) p q).2.1.M = 6 := c10
  have hhg : (mc_cal_afs (calCtx siteAltRef ctxThreeTiny) p q).2.1.hg = none := c7
  have hq := contrastCtx_none _ hhg
  have hp : afsPass (calCtx siteAltRef ctxThreeTiny) = mc_cal_y (calCtx siteAltRef ctxThreeTiny) :=
    afsPass_of_zero _ (fun _ _ => rfl)
  refine ⟨hS, hn1, hn, hM, ?_, ?_, ?_, ?_, ?_, ?_, ?_, ?_, ?_⟩
  · rw [hq]
    exact c4
  · rw [hq]
    exact c5
  · rw [hq]
    exact c6
  · rw [hq]
    exact c2
  · rw [hq]
    exact c3
  · rw [hq]
    show some (hgBuild _ _ _) = _
    rw [hM, hn1, hn]
    rfl
  · rw [hq]
    exact hn1
  · rw [hq]
    exact hn
  · unfold contrastSum afsSum
    rw [hq]
    show sumTo (fun k => (mc_cal_afs (calCtx siteAltRef ctxThreeTiny) p q).2.1.phi k
      * (mc_cal_afs (calCtx siteAltRef ctxThreeTiny) p q).2.1.z k)
      ((mc_cal_afs (calCtx siteAltRef ctxThreeTiny) p q).2.1.M + 1) = _
    rw [c4, c1, hM, hp]
    rfl

/-- The truncated scan of `contrast2` on the three samples visits no cell: no
mode is found (`phi1 = phi2 = 0`) and every row starts on a cell with
`z2[0] = 0`. -/
theorem tiny_trunc (ext : Ext) (p q : ℚ) :
    (truncScan ext (mc_cal_afs (calCtx siteAltRef ctxThreeTiny) p q).2.1).1 = (fun _ => 0 + 0) := by
  obtain ⟨hS, hn1, hn, hM, q1, q2, q3, q4, q5, q6, q7, q8, q9⟩ := tiny_ctx p q
  obtain ⟨_, _, _, _, _, _, _, z20, _⟩ := tiny_arrays
  have hcell : ∀ k1 (s : ScanAcc),
      scanCell ext (contrastCtx (mc_cal_afs (calCtx siteAltRef ctxThreeTiny) p q).2.1)
        (contrastSum (mc_cal_afs (calCtx siteAltRef ctxThreeTiny) p q).2.1) k1 0 s = (s, true) := by
    intro k1 s
    refine scanCell_break _ _ _ _ _ _ ?_
    unfold cellP
    rw [q5, z20]
    norm_num [CONTRAST_TINY]
  have hrow : ∀ k1 (s : ScanAcc),
      scanRow ext (contrastCtx (mc_cal_afs (calCtx siteAltRef ctxThreeTiny) p q).2.1)
        (contrastSum (mc_cal_afs (calCtx siteAltRef ctxThreeTiny) p q).2.1) 2 0 k1 s = (s, false) := by
    intro k1 s
    unfold scanRow
    have e : loopDown (scanCell ext (contrastCtx (mc_cal_afs (calCtx siteAltRef ctxThreeTiny) p q).2.1)
        (contrastSum (mc_cal_afs (calCtx siteAltRef ctxThreeTiny) p q).2.1) k1) 0 s = s := rfl
    have e5 : 2 * 2 + 1 - 0 = 4 + 1 := rfl
    rw [e, e5, loopUp_break _ 0 4 s (by rw [hcell]), hcell]
  have a1 : argMaxPos (fun k => (contrastCtx (mc_cal_afs (calCtx siteAltRef ctxThreeTiny) p q).2.1).phi1 k
      * (contrastCtx (mc_cal_afs (calCtx siteAltRef ctxThreeTiny) p q).2.1).z1 k) (2 * 1 + 1)
      = (0, -1) := by
    refine argMaxPos_none _ _ (fun k _ => ?_)
    rw [q2]
    simp
  have a2 : argMaxPos (fun k => (contrastCtx (mc_cal_afs (calCtx siteAltRef ctxThreeTiny) p q).2.1).phi2 k
      * (contrastCtx (mc_cal_afs (calCtx siteAltRef ctxThreeTiny) p q).2.1).z2 k) (2 * 2 + 1)
      = (0, -1) := by
    refine argMaxPos_none _ _ (fun k _ => ?_)
    rw [q3]
    simp
  have hn2 : (((mc_cal_afs (calCtx siteAltRef ctxThreeTiny) p q).2.1.n : Int)
      - (mc_cal_afs (calCtx siteAltRef ctxThreeTiny) p q).2.1.n1).toNat = 2 := by
    rw [hn1, hn]
    rfl
  have hn1' : (mc_cal_afs (calCtx siteAltRef ctxThreeTiny) p q).2.1.n1.toNat = 1 := by
    rw [hn1]
    rfl
  rw [truncScan_none ext _ 2 hn2 (by rw [hn1']; exact a1) a2 hrow]

/-- The exhaustive scan of `contrast2` on the three samples under the prior with
`theta = 1e-30` counts far more than the whole mass: the cell `(2, 4)` alone is
about `3e6`, since `z[6]` was pruned from the normaliser while `z1[2] * z2[4]`
was not. -/
theorem tiny_full (ext : Ext) (p q : ℚ) :
    1000000 < (fullScan ext (contrastCtx (mc_cal_afs (calCtx siteAltRef ctxThreeTiny) p q).2.1)
          (contrastSum (mc_cal_afs (calCtx siteAltRef ctxThreeTiny) p q).2.1) 1 2).1 0
        + (fullScan ext (contrastCtx (mc_cal_afs (calCtx siteAltRef ctxThreeTiny) p q).2.1)
            (contrastSum (mc_cal_afs (calCtx siteAltRef ctxThreeTiny) p q).2.1) 1 2).1 1
        + (fullScan ext (contrastCtx (mc_cal_afs (calCtx siteAltRef ctxThreeTiny) p q).2.1)
            (contrastSum (mc_cal_afs (calCtx siteAltRef ctxThreeTiny) p q).2.1) 1 2).1 2 := by
  obtain ⟨hS, hn1, hn, hM, q1, q2, q3, q4, q5, q6, q7, q8, q9⟩ := tiny_ctx p q
  obtain ⟨_, _, _, _, _, z10, z12, _, z24⟩ := tiny_arrays
  obtain ⟨p0, p6, eS⟩ := tiny_sum
  have c04 : cellP (contrastCtx (mc_cal_afs (calCtx siteAltRef ctxThreeTiny) p q).2.1)
      (contrastSum (mc_cal_afs (calCtx siteAltRef ctxThreeTiny) p q).2.1) 0 4
      = 2 * 10 ^ 25 / (2 * 10 ^ 25 + 3) := by
    unfold cellP
    rw [q1, q4, q5, q6, q9, eS, z10, z24, p0 (0 + 4) (by omega), hgAt_build 6 1 2 0 4 (by omega)
      (by omega)]
    norm_num [hgVal, Nat.factorial]
  have c24 : cellP (contrastCtx (mc_cal_afs (calCtx siteAltRef ctxThreeTiny) p q).2.1)
      (contrastSum (mc_cal_afs (calCtx siteAltRef ctxThreeTiny) p q).2.1) 2 4
      = 3 * (20 * 10 ^ 30 - 49) / (2 * 10 ^ 25 + 3) := by
    unfold cellP
    rw [q1, q4, q5, q6, q9, eS, z12, z24, p6, hgAt_build 6 1 2 2 4 (by omega) (by omega)]
    norm_num [hgVal, Nat.factorial]
  have m04 : cellMass (contrastCtx (mc_cal_afs (calCtx siteAltRef ctxThreeTiny) p q).2.1)
      (contrastSum (mc_cal_afs (calCtx siteAltRef ctxThreeTiny) p q).2.1) 0 4
      = 2 * 10 ^ 25 / (2 * 10 ^ 25 + 3) := by
    unfold cellMass
    rw [c04, if_neg (by norm_num [CONTRAST_TINY])]
  have m24 : cellMass (contrastCtx (mc_cal_afs (calCtx siteAltRef ctxThreeTiny) p q).2.1)
      (contrastSum (mc_cal_afs (calCtx siteAltRef ctxThreeTiny) p q).2.1) 2 4
      = 3 * (20 * 10 ^ 30 - 49) / (2 * 10 ^ 25 + 3) := by
    unfold cellMass
    rw [c24, if_neg (by norm_num [CONTRAST_TINY])]
  rw [fullScan_total]
  simp only [sumTo]
  generalize contrastCtx (mc_cal_afs (calCtx siteAltRef ctxThreeTiny) p q).2.1 = Q at m04 m24 ⊢
  generalize contrastSum (mc_cal_afs (calCtx siteAltRef ctxThreeTiny) p q).2.1 = S at m04 m24 ⊢
  have e1 : (2 : ℚ) * 10 ^ 25 / (2 * 10 ^ 25 + 3)
      + 3 * (20 * 10 ^ 30 - 49) / (2 * 10 ^ 25 + 3) > 1000000 := by norm_num
  rw [m04, m24]
  linarith [cellMass_nonneg Q S 0 0, cellMass_nonneg Q S 0 1, cellMass_nonneg Q S 0 2,
    cellMass_nonneg Q S 0 3, cellMass_nonneg Q S 1 0, cellMass_nonneg Q S 1 1,
    cellMass_nonneg Q S 1 2, cellMass_nonneg Q S 1 3, cellMass_nonneg Q S 1 4,
    cellMass_nonneg Q S 2 0, cellMass_nonneg Q S 2 1, cellMass_nonneg Q S 2 2,
    cellMass_nonneg Q S 2 3]

/-- The split, the fallback and the exhaustive total of `contrast2` on the
three samples. -/
theorem tiny_paths (ext : Ext) (p q : ℚ) :
    0 < (mc_cal_afs (calCtx siteAltRef ctxThreeTiny) p q).2.1.n1
    ∧ 0 < ((mc_cal_afs (calCtx siteAltRef ctxThreeTiny) p q).2.1.n : Int)
        - (mc_cal_afs (calCtx siteAltRef ctxThreeTiny) p q).2.1.n1
    ∧ (truncScan ext (mc_cal_afs (calCtx siteAltRef ctxThreeTiny) p q).2.1).1 0
        + (truncScan ext (mc_cal_afs (calCtx siteAltRef ctxThreeTiny) p q).2.1).1 1
        + (truncScan ext (mc_cal_afs (calCtx siteAltRef ctxThreeTiny) p q).2.1).1 2 < 95 / 100
    ∧ 1000000 < (fullScan ext (contrastCtx (mc_cal_afs (calCtx siteAltRef ctxThreeTiny) p q).2.1)
            (contrastSum (mc_cal_afs (calCtx siteAltRef ctxThreeTiny) p q).2.1)
            (mc_cal_afs (calCtx siteAltRef ctxThreeTiny) p q).2.1.n1.toNat
            (((mc_cal_afs (calCtx siteAltRef ctxThreeTiny) p q).2.1.n : Int)
              - (mc_cal_afs (calCtx siteAltRef ctxThreeTiny) p q).2.1.n1).toNat).1 0
        + (fullScan ext (contrastCtx (mc_cal_afs (calCtx siteAltRef ctxThreeTiny) p q).2.1)
            (contrastSum (mc_cal_afs (calCtx siteAltRef ctxThreeTiny) p q).2.1)
            (mc_cal_afs (calCtx siteAltRef ctxThreeTiny) p q).2.1.n1.toNat
            (((mc_cal_afs (calCtx siteAltRef ctxThreeTiny) p q).2.1.n : Int)
              - (mc_cal_afs (calCtx siteAltRef ctxThreeTiny) p q).2.1.n1).toNat).1 1
        + (fullScan ext (contrastCtx (mc_cal_afs (calCtx siteAltRef ctxThreeTiny) p q).2.1)
            (contrastSum (mc_cal_afs (calCtx siteAltRef ctxThreeTiny) p q).2.1)
            (mc_cal_afs (calCtx siteAltRef ctxThreeTiny) p q).2.1.n1.toNat
            (((mc_cal_afs (calCtx siteAltRef ctxThreeTiny) p q).2.1.n : Int)
              - (mc_cal_afs (calCtx siteAltRef ctxThreeTiny) p q).2.1.n1).toNat).1 2 := by
  obtain ⟨hS, hn1, hn, _⟩ := tiny_ctx p q
  have hn2 : (((mc_cal_afs (calCtx siteAltRef ctxThreeTiny) p q).2.1.n : Int)
      - (mc_cal_afs (calCtx siteAltRef ctxThreeTiny) p q).2.1.n1).toNat = 2 := by
    rw [hn1, hn]
    rfl
  have hn1' : (mc_cal_afs (calCtx siteAltRef ctxThreeTiny) p q).2.1.n1.toNat = 1 := by
    rw [hn1]
    rfl
  refine ⟨by rw [hn1]; decide, by rw [hn1, hn]; decide, ?_, ?_⟩
  · rw [tiny_trunc ext p q]
    norm_num
  · rw [hn1', hn2]
    exact tiny_full ext p q

/-- What `bcf_p1_cal` reports for the three samples with `do_contrast` set. -/
theorem tiny_result (ext : Ext) (rst : bcf_p1rst_t) :
    (bcf_p1_cal ext siteAltRef true ctxThreeTiny rst).1 = 0
    ∧ (bcf_p1_cal ext siteAltRef true ctxThreeTiny rst).2.2.cmp
        = (contrast2 ext
            (mc_cal_afs (calCtx siteAltRef ctxThreeTiny) rst.p_ref_folded rst.p_var_folded).2.1
            (fun _ => -1)).2.1 := by
  have hn : ¬ siteAltRef.n_allele < 2 := by decide
  obtain ⟨hS, _, _, hM, _⟩ := tiny_ctx rst.p_ref_folded rst.p_var_folded
  obtain ⟨a1, _, _, _, a5, _⟩ := tiny_arrays
  have hp : afsPass (calCtx siteAltRef ctxThreeTiny) = mc_cal_y (calCtx siteAltRef ctxThreeTiny) :=
    afsPass_of_zero _ (fun _ _ => rfl)
  have hz : (afsPass (calCtx siteAltRef ctxThreeTiny)).z (calCtx siteAltRef ctxThreeTiny).M = 0 := by
    rw [hp]
    show (mc_cal_y (calCtx siteAltRef ctxThreeTiny)).z 6 = 0
    rw [a1 6 (le_refl _), a5 6 (le_refl _) (Or.inr (by omega))]
    ring
  have hv := p_var_one (calCtx siteAltRef ctxThreeTiny) rst.p_ref_folded rst.p_var_folded hS hz
  have hv' : sumTo
      (mc_cal_afs (calCtx siteAltRef ctxThreeTiny) rst.p_ref_folded rst.p_var_folded).2.1.afs1
      (mc_cal_afs (calCtx siteAltRef ctxThreeTiny) rst.p_ref_folded rst.p_var_folded).2.1.M
      > 1 / 2 := by
    rw [hM]
    have : sumTo
        (mc_cal_afs (calCtx siteAltRef ctxThreeTiny) rst.p_ref_folded rst.p_var_folded).2.1.afs1 6
        = 1 := hv
    rw [this]
    norm_num
  exact ⟨(bcf_p1_cal_ok ext siteAltRef true ctxThreeTiny rst hn).1,
    (bcf_p1_cal_contrast ext siteAltRef ctxThreeTiny rst hn hv').1⟩


/-! ### C14: the fallback paths of `contrast2` -/

/-- Counterexample to C14: three samples, the first homozygous for the other
allele and set apart by `bcf_p1_set_n1`, the other two homozygous for the
reference, under the prior of `bcf_p1_init_prior(ma, MC_PTYPE_FULL, 1e-30)`.
`bcf_p1_cal` with `do_contrast` set succeeds, the truncated scan of `contrast2`
explains less than `0.95` (nothing at all), the result of the exhaustive scan is
kept, and the three masses it reports sum to more than `1000000`, not to `1`. -/
theorem contrast2_fallback_far_above_one :
    (bcf_p1_cal extLower siteAltRef true ctxThreeTiny rstZero).1 = 0
    ∧ (truncScan extLower
          (mc_cal_afs (calCtx siteAltRef ctxThreeTiny) rstZero.p_ref_folded
            rstZero.p_var_folded).2.1).1 0
        + (truncScan extLower
            (mc_cal_afs (calCtx siteAltRef ctxThreeTiny) rstZero.p_ref_folded
              rstZero.p_var_folded).2.1).1 1
        + (truncScan extLower
            (mc_cal_afs (calCtx siteAltRef ctxThreeTiny) rstZero.p_ref_folded
              rstZero.p_var_folded).2.1).1 2 < 95 / 100
    ∧ 1000000 < (bcf_p1_cal extLower siteAltRef true ctxThreeTiny rstZero).2.2.cmp 0
        + (bcf_p1_cal extLower siteAltRef true ctxThreeTiny rstZero).2.2.cmp 1
        + (bcf_p1_cal extLower siteAltRef true ctxThreeTiny rstZero).2.2.cmp 2 := by
  obtain ⟨r0, rc⟩ := tiny_result extLower rstZero
  obtain ⟨h1, h2, ht, hf⟩ := tiny_paths extLower rstZero.p_ref_folded rstZero.p_var_folded
  refine ⟨r0, ht, ?_⟩
  rw [rc, contrast2_eq extLower _ _ h1 h2, if_pos ht, if_neg (by linarith)]
  exact hf

/-- C14 (amended). When the truncated scan of `contrast2` explains less than
`0.95` of the mass, the exhaustive scan is run. If its three masses sum to less
than `0.95`, each reported mass is `1/3`, their sum is `1` and the returned
statistic is `1`. Otherwise the masses and the statistic of the exhaustive scan
are reported: their sum is the total of the cell values `p(k1, k2)` that are at
least `1e-30`, which is at least `0.95` and need not be `1`. -/
theorem contrast2_fallback (ext : Ext) (p1 : bcf_p1aux_t) (ret : Fin 3 → ℚ)
    (h1 : 0 < p1.n1) (h2 : 0 < (p1.n : Int) - p1.n1)
    (hfb : (truncScan ext p1).1 0 + (truncScan ext p1).1 1 + (truncScan ext p1).1 2 < 95 / 100) :
    ((fullScan ext (contrastCtx p1) (contrastSum p1) p1.n1.toNat
            ((p1.n : Int) - p1.n1).toNat).1 0
          + (fullScan ext (contrastCtx p1) (contrastSum p1) p1.n1.toNat
              ((p1.n : Int) - p1.n1).toNat).1 1
          + (fullScan ext (contrastCtx p1) (contrastSum p1) p1.n1.toNat
              ((p1.n : Int) - p1.n1).toNat).1 2 < 95 / 100 →
        (contrast2 ext p1 ret).1 = 1
        ∧ (∀ i, (contrast2 ext p1 ret).2.1 i = 1 / 3)
        ∧ (contrast2 ext p1 ret).2.1 0 + (contrast2 ext p1 ret).2.1 1
            + (contrast2 ext p1 ret).2.1 2 = 1)
    ∧ (¬ ((fullScan ext (contrastCtx p1) (contrastSum p1) p1.n1.toNat
            ((p1.n : Int) - p1.n1).toNat).1 0
          + (fullScan ext (contrastCtx p1) (contrastSum p1) p1.n1.toNat
              ((p1.n : Int) - p1.n1).toNat).1 1
          + (fullScan ext (contrastCtx p1) (contrastSum p1) p1.n1.toNat
              ((p1.n : Int) - p1.n1).toNat).1 2 < 95 / 100) →
        (contrast2 ext p1 ret).1
            = (fullScan ext (contrastCtx p1) (contrastSum p1) p1.n1.toNat
                ((p1.n : Int) - p1.n1).toNat).2
        ∧ (contrast2 ext p1 ret).2.1
            = (fullScan ext (contrastCtx p1) (contrastSum p1) p1.n1.toNat
                ((p1.n : Int) - p1.n1).toNat).1
        ∧ (contrast2 ext p1 ret).2.1 0 + (contrast2 ext p1 ret).2.1 1
            + (contrast2 ext p1 ret).2.1 2
          = sumTo (fun k1 => sumTo (fun k2 => cellMass (contrastCtx p1) (contrastSum p1) k1 k2)
              (2 * ((p1.n : Int) - p1.n1).toNat + 1)) (2 * p1.n1.toNat + 1)
        ∧ 95 / 100 ≤ (contrast2 ext p1 ret).2.1 0 + (contrast2 ext p1 ret).2.1 1
            + (contrast2 ext p1 ret).2.1 2) := by
  constructor
  · intro hf
    rw [contrast2_eq ext p1 ret h1 h2, if_pos hfb, if_pos hf]
    refine ⟨rfl, fun _ => rfl, ?_⟩
    norm_num
  · intro hf
    rw [contrast2_eq ext p1 ret h1 h2, if_pos hfb, if_neg hf]
    exact ⟨rfl, rfl, fullScan_total _ _ _ _ _, not_lt.mp hf⟩

/-- Witness of C14 (amended): the three samples of the counterexample, where the
truncated scan explains nothing and the exhaustive scan is kept. -/
theorem contrast2_fallback_witness :
    0 < (mc_cal_afs (calCtx siteAltRef ctxThreeTiny) 0 0).2.1.n1
    ∧ 0 < ((mc_cal_afs (calCtx siteAltRef ctxThreeTiny) 0 0).2.1.n : Int)
        - (mc_cal_afs (calCtx siteAltRef ctxThreeTiny) 0 0).2.1.n1
    ∧ (truncScan extLower (mc_cal_afs (calCtx siteAltRef ctxThreeTiny) 0 0).2.1).1 0
        + (truncScan extLower (mc_cal_afs (calCtx siteAltRef ctxThreeTiny) 0 0).2.1).1 1
        + (truncScan extLower (mc_cal_afs (calCtx siteAltRef ctxThreeTiny) 0 0).2.1).1 2
      < 95 / 100
    ∧ 95 / 100
        ≤ (contrast2 extLower (mc_cal_afs (calCtx siteAltRef ctxThreeTiny) 0 0).2.1
              (fun _ => -1)).2.1 0
          + (contrast2 extLower (mc_cal_afs (calCtx siteAltRef ctxThreeTiny) 0 0).2.1
              (fun _ => -1)).2.1 1
          + (contrast2 extLower (mc_cal_afs (calCtx siteAltRef ctxThreeTiny) 0 0).2.1
              (fun _ => -1)).2.1 2 := by
  obtain ⟨h1, h2, ht, hf⟩ := tiny_paths extLower 0 0
  exact ⟨h1, h2, ht,
    ((contrast2_fallback extLower (mc_cal_afs (calCtx siteAltRef ctxThreeTiny) 0 0).2.1
      (fun _ => -1) h1 h2 ht).2 (by linarith)).2.2.2⟩

/-! ### Two samples homozygous for the reference against two for the other allele -/

theorem split4_pdg (i : Nat) :
    (calCtx siteSplit4 ctxSplit4).pdg i
      = if i < 3 * 4 then q2pTen (siteSplit4.PLs (i / 3 * 3 + (2 - i % 3))) else 0 := rfl

theorem split4_hom :
    homRef (calCtx siteSplit4 ctxSplit4) 0 ∧ homRef (calCtx siteSplit4 ctxSplit4) 1
    ∧ homAlt (calCtx siteSplit4 ctxSplit4) 2 ∧ homAlt (calCtx siteSplit4 ctxSplit4) 3 := by
  unfold homAlt homRef pdgOf
  refine ⟨⟨?_, ?_, ?_⟩, ⟨?_, ?_, ?_⟩, ⟨?_, ?_, ?_⟩, ⟨?_, ?_, ?_⟩⟩ <;>
    · rw [split4_pdg]
      norm_num [siteSplit4, q2pTen]

/-- The arrays `z`, `z1`, `z2` that `mc_cal_y` leaves for the four samples. -/
theorem split4_arrays :
    (∀ k, k ≤ 8 → (mc_cal_y (calCtx siteSplit4 ctxSplit4)).z k
      = (dipLoop (calCtx siteSplit4 ctxSplit4) 0 4).z0 k
        * ((10 ^ 25 + 5) / (70 * 10 ^ 25)
            / ((3 * 10 ^ 25 + 2) / (3 * 10 ^ 25) * ((3 * 10 ^ 25 + 2) / (3 * 10 ^ 25)))))
    ∧ ((dipLoop (calCtx siteSplit4 ctxSplit4) 0 4).z0 4 = 2 * 10 ^ 25 / (2 * 10 ^ 25 + 10)
      ∧ (dipLoop (calCtx siteSplit4 ctxSplit4) 0 4).z0 5 = 5 / (2 * 10 ^ 25 + 10)
      ∧ (dipLoop (calCtx siteSplit4 ctxSplit4) 0 4).z0 6 = 5 / (2 * 10 ^ 25 + 10)
      ∧ (∀ k, k ≤ 8 → (k < 4 ∨ 6 < k) → (dipLoop (calCtx siteSplit4 ctxSplit4) 0 4).z0 k = 0))
    ∧ ((mc_cal_y (calCtx siteSplit4 ctxSplit4)).z1 0 = 0
      ∧ (mc_cal_y (calCtx siteSplit4 ctxSplit4)).z1 1 = 0
      ∧ (mc_cal_y (calCtx siteSplit4 ctxSplit4)).z1 2 = 1 / (6 * 10 ^ 25 + 4)
      ∧ (mc_cal_y (calCtx siteSplit4 ctxSplit4)).z1 3 = 3 / (6 * 10 ^ 25 + 4)
      ∧ (mc_cal_y (calCtx siteSplit4 ctxSplit4)).z1 4 = 6 * 10 ^ 25 / (6 * 10 ^ 25 + 4))
    ∧ ((mc_cal_y (calCtx siteSplit4 ctxSplit4)).z2 0 = 6 * 10 ^ 25 / (6 * 10 ^ 25 + 4)
      ∧ (mc_cal_y (calCtx siteSplit4 ctxSplit4)).z2 1 = 3 / (6 * 10 ^ 25 + 4)
      ∧ (mc_cal_y (calCtx siteSplit4 ctxSplit4)).z2 2 = 1 / (6 * 10 ^ 25 + 4)
      ∧ (mc_cal_y (calCtx siteSplit4 ctxSplit4)).z2 3 = 0
      ∧ (mc_cal_y (calCtx siteSplit4 ctxSplit4)).z2 4 = 0) := by
  obtain ⟨h0, h1, h2, h3⟩ := split4_hom
  have w4 := pass_rraa (calCtx siteSplit4 ctxSplit4) 0 (by decide) h0 h1 h2 h3
  have w1 := pass_ref_ref (calCtx siteSplit4 ctxSplit4) 0 (by decide) h0 h1
  have w2 := pass_alt_alt (calCtx siteSplit4 ctxSplit4) 2 (by decide) h2 h3
  obtain ⟨s1, s2, s3⟩ := mc_cal_y_split (calCtx siteSplit4 ctxSplit4) rfl (by decide) (by decide)
  have s1' : ∀ k, k ≤ 8 → (mc_cal_y (calCtx siteSplit4 ctxSplit4)).z k
      = (dipLoop (calCtx siteSplit4 ctxSplit4) 0 4).z0 k
        * ((dipLoop (calCtx siteSplit4 ctxSplit4) 0 4).et
          / ((dipLoop (calCtx siteSplit4 ctxSplit4) 0 2).et
              * (dipLoop (calCtx siteSplit4 ctxSplit4) 2 2).et)) := s1
  have s2' : ∀ k, k ≤ 4 → (mc_cal_y (calCtx siteSplit4 ctxSplit4)).z1 k
      = (dipLoop (calCtx siteSplit4 ctxSplit4) 0 2).z0 k := s2
  have s3' : ∀ k, k ≤ 4 → (mc_cal_y (calCtx siteSplit4 ctxSplit4)).z2 k
      = (dipLoop (calCtx siteSplit4 ctxSplit4) 2 2).z0 k := s3
  have hM : (calCtx siteSplit4 ctxSplit4).M = 8 := rfl
  refine ⟨fun k hk => ?_, ⟨w4.h0, w4.h1, w4.h2, fun k hk hw => ?_⟩, ⟨?_, ?_, ?_, ?_, ?_⟩,
    ⟨?_, ?_, ?_, ?_, ?_⟩⟩
  · rw [s1' k hk, w4.het, w1.het, w2.het]
  · refine w4.inv.out0 k (by rw [hM]; exact hk) ?_
    rw [w4.hmin, w4.hmax]
    omega
  · rw [s2' 0 (by omega)]
    exact w1.inv.out0 0 (Nat.zero_le _) (Or.inl (by rw [w1.hmin]; omega))
  · rw [s2' 1 (by omega)]
    exact w1.inv.out0 1 (by rw [hM]; omega) (Or.inl (by rw [w1.hmin]; omega))
  · rw [s2' 2 (by omega)]
    exact w1.h0
  · rw [s2' 3 (by omega)]
    exact w1.h1
  · rw [s2' 4 (by omega)]
    exact w1.h2
  · rw [s3' 0 (by omega)]
    exact w2.h0
  · rw [s3' 1 (by omega)]
    exact w2.h1
  · rw [s3' 2 (by omega)]
    exact w2.h2
  · rw [s3' 3 (by omega)]
    exact w2.inv.out0 3 (by rw [hM]; omega) (Or.inr (by rw [w2.hmax]; omega))
  · rw [s3' 4 (by omega)]
    exact w2.inv.out0 4 (by rw [hM]; omega) (Or.inr (by rw [w2.hmax]; omega))

/-- The priors and the normaliser of the four samples. -/
theorem split4_sum :
    ((∀ k, k < 8 → (calCtx siteSplit4 ctxSplit4).phi k = 1 / 1000 / ((8 : ℚ) - k))
      ∧ (calCtx siteSplit4 ctxSplit4).phi 8 = 279239 / 280000)
    ∧ ((∀ k, k < 4 → (calCtx siteSplit4 ctxSplit4).phi1 k = 1 / 1000 / ((4 : ℚ) - k))
      ∧ (calCtx siteSplit4 ctxSplit4).phi1 4 = 11975 / 12000)
    ∧ ((∀ k, k < 4 → (calCtx siteSplit4 ctxSplit4).phi2 k = 1 / 1000 / ((4 : ℚ) - k))
      ∧ (calCtx siteSplit4 ctxSplit4).phi2 4 = 11975 / 12000)
    ∧ afsSum (calCtx siteSplit4 ctxSplit4)
        = (1 / 4000 * (2 * 10 ^ 25) + 1 / 3000 * 5 + 1 / 2000 * 5) / (2 * 10 ^ 25 + 10)
          * ((10 ^ 25 + 5) / (70 * 10 ^ 25)
            / ((3 * 10 ^ 25 + 2) / (3 * 10 ^ 25) * ((3 * 10 ^ 25 + 2) / (3 * 10 ^ 25)))) := by
  have e : (calCtx siteSplit4 ctxSplit4).phi
      = init_prior PType.full (1 / 1000) ((8 : Nat) : Int) (fun _ => 0) := rfl
  have e1 : (calCtx siteSplit4 ctxSplit4).phi1
      = init_prior PType.full (1 / 1000) ((4 : Nat) : Int) (fun _ => 0) := rfl
  have e2 : (calCtx siteSplit4 ctxSplit4).phi2
      = init_prior PType.full (1 / 1000) ((4 : Nat) : Int) (fun _ => 0) := rfl
  have p0 : ∀ k, k < 8 → (calCtx siteSplit4 ctxSplit4).phi k = 1 / 1000 / ((8 : ℚ) - k) := by
    intro k hk
    rw [e, init_prior_full_lt _ _ _ k hk]
    norm_num
  have p8 : (calCtx siteSplit4 ctxSplit4).phi 8 = 279239 / 280000 := by
    rw [e, init_prior_full_last]
    norm_num [sumTo]
  refine ⟨⟨p0, p8⟩, ⟨fun k hk => ?_, ?_⟩, ⟨fun k hk => ?_, ?_⟩, ?_⟩
  · rw [e1, init_prior_full_lt _ _ _ k hk]
    norm_num
  · rw [e1, init_prior_full_last]
    norm_num [sumTo]
  · rw [e2, init_prior_full_lt _ _ _ k hk]
    norm_num
  · rw [e2, init_prior_full_last]
    norm_num [sumTo]
  obtain ⟨a1, ⟨a4, a5, a6, a0⟩, _, _⟩ := split4_arrays
  have hp : afsPass (calCtx siteSplit4 ctxSplit4) = mc_cal_y (calCtx siteSplit4 ctxSplit4) :=
    afsPass_of_zero _ (fun _ _ => rfl)
  have hphi : afsPhi (calCtx siteSplit4 ctxSplit4) = (calCtx siteSplit4 ctxSplit4).phi := rfl
  have hM : (calCtx siteSplit4 ctxSplit4).M + 1 = 9 := rfl
  unfold afsSum
  rw [hp, hphi, hM]
  simp only [sumTo]
  rw [a1 0 (by omega), a1 1 (by omega), a1 2 (by omega), a1 3 (by omega), a1 4 (by omega),
    a1 5 (by omega), a1 6 (by omega), a1 7 (by omega), a1 8 (by omega),
    a0 0 (by omega) (by omega), a0 1 (by omega) (by omega), a0 2 (by omega) (by omega),
    a0 3 (by omega) (by omega), a0 7 (by omega) (by omega), a0 8 (by omega) (by omega),
    a4, a5, a6, p0 4 (by omega), p0 5 (by omega), p0 6 (by omega)]
  norm_num

/-- The context that `bcf_p1_cal` hands to `contrast2`, as `contrast2` scans it,
for a context whose `afs1` is zero, whose `hg` is absent and whose flag
`is_indel` is clear. -/
theorem contrast_ctx (ma : bcf_p1aux_t) (p q : ℚ) (hz : ∀ k, k < ma.M + 1 → ma.afs1 k = 0)
    (hS : afsSum ma ≠ 0) (hhg : ma.hg = none) (hi : ma.is_indel = false) :
    ((mc_cal_afs ma p q).2.1.n1 = ma.n1 ∧ (mc_cal_afs ma p q).2.1.n = ma.n
      ∧ (mc_cal_afs ma p q).2.1.M = ma.M)
    ∧ ((contrastCtx (mc_cal_afs ma p q).2.1).phi = ma.phi
      ∧ (contrastCtx (mc_cal_afs ma p q).2.1).phi1 = ma.phi1
      ∧ (contrastCtx (mc_cal_afs ma p q).2.1).phi2 = ma.phi2)
    ∧ ((contrastCtx (mc_cal_afs ma p q).2.1).z1 = (mc_cal_y ma).z1
      ∧ (contrastCtx (mc_cal_afs ma p q).2.1).z2 = (mc_cal_y ma).z2)
    ∧ ((contrastCtx (mc_cal_afs ma p q).2.1).hg
        = some (hgBuild ma.M ma.n1.toNat ((ma.n : Int) - ma.n1).toNat)
      ∧ (contrastCtx (mc_cal_afs ma p q).2.1).n1 = ma.n1
      ∧ (contrastCtx (mc_cal_afs ma p q).2.1).n = ma.n)
    ∧ contrastSum (mc_cal_afs ma p q).2.1 = afsSum ma := by
  obtain ⟨c1, c2, c3, c4, c5, c6, c7, c8, c9, c10⟩ := mc_cal_afs_ctx ma p q hz hS
  have hq := contrastCtx_none _ (c7.trans hhg)
  have hp : afsPass ma = mc_cal_y ma := afsPass_of_zero ma hz
  have hphi : afsPhi ma = ma.phi := by
    unfold afsPhi
    rw [hi]
    rfl
  refine ⟨⟨c9, c8, c10⟩, ⟨?_, ?_, ?_⟩, ⟨?_, ?_⟩, ⟨?_, ?_, ?_⟩, ?_⟩
  · rw [hq]
    exact c4
  · rw [hq]
    exact c5
  · rw [hq]
    exact c6
  · rw [hq]
    exact c2
  · rw [hq]
    exact c3
  · rw [hq]
    show some (hgBuild _ _ _) = _
    rw [c10, c9, c8]
  · rw [hq]
    exact c9
  · rw [hq]
    exact c8
  · unfold contrastSum afsSum
    rw [hq]
    show sumTo (fun k => (mc_cal_afs ma p q).2.1.phi k * (mc_cal_afs ma p q).2.1.z k)
      ((mc_cal_afs ma p q).2.1.M + 1) = _
    rw [c4, c1, c10, hp, hphi]

/-- The test of `chi2_test` lies in `[0, 1]` when `kf_gammaq` does. -/
theorem chi2_test_bounds (ext : Ext)
    (hq : ∀ a x, 0 ≤ ext.kf_gammaq a x ∧ ext.kf_gammaq a x ≤ 1) (a b c d : Int) :
    0 ≤ chi2_test ext a b c d ∧ chi2_test ext a b c d ≤ 1 := by
  unfold chi2_test
  simp only
  split_ifs
  · exact ⟨by norm_num, le_refl _⟩
  · exact hq _ _

/-- A counted cell of the truncated scan that goes to the slot `2`, on a state
whose slots `0` and `1` are empty. -/
theorem scanCell_acc (ext : Ext) (p1 : bcf_p1aux_t) (sum : ℚ) (k1 k2 : Nat) (s : ScanAcc)
    (a z : ℚ) (h : ¬ cellP p1 sum k1 k2 < CONTRAST_TINY)
    (hc : 0 ≤ chi2_test ext k1 k2 (p1.n1 * 2 - k1) (((p1.n : Int) - p1.n1) * 2 - k2))
    (hs : cellSlot p1 k1 k2 = 2)
    (hacc : s.1 0 = 0 ∧ s.1 1 = 0 ∧ s.1 2 = a ∧ s.2 = z) :
    (scanCell ext p1 sum k1 k2 s).2 = false
    ∧ ((scanCell ext p1 sum k1 k2 s).1.1 0 = 0
      ∧ (scanCell ext p1 sum k1 k2 s).1.1 1 = 0
      ∧ (scanCell ext p1 sum k1 k2 s).1.1 2 = a + cellP p1 sum k1 k2
      ∧ (scanCell ext p1 sum k1 k2 s).1.2
          = z + cellP p1 sum k1 k2
            * chi2_test ext k1 k2 (p1.n1 * 2 - k1) (((p1.n : Int) - p1.n1) * 2 - k2)) := by
  obtain ⟨a0, a1, a2, a3⟩ := hacc
  rw [scanCell_count ext p1 sum k1 k2 s h hc, hs]
  refine ⟨rfl, ?_, ?_, ?_, ?_⟩
  · show Function.update s.1 2 (s.1 2 + cellP p1 sum k1 k2) 0 = 0
    rw [Function.update_noteq (by decide)]
    exact a0
  · show Function.update s.1 2 (s.1 2 + cellP p1 sum k1 k2) 1 = 0
    rw [Function.update_noteq (by decide)]
    exact a1
  · show Function.update s.1 2 (s.1 2 + cellP p1 sum k1 k2) 2 = _
    rw [Function.update_same, a2]
  · show s.2 + _ = _
    rw [a3]

/-- A row of the truncated scan, started at `k2 = 0`, whose two first cells are
below `CONTRAST_TINY`. -/
theorem scanRow_skip (ext : Ext) (p1 : bcf_p1aux_t) (sum : ℚ) (k1 : Nat) (s : ScanAcc)
    (h0 : cellP p1 sum k1 0 < CONTRAST_TINY) (h1 : cellP p1 sum k1 1 < CONTRAST_TINY) :
    scanRow ext p1 sum 2 1 k1 s = (s, false) := by
  unfold scanRow
  have e5 : 2 * 2 + 1 - 1 = 3 + 1 := rfl
  have e1 : (1 : Nat) = 0 + 1 := rfl
  rw [e5]
  nth_rewrite 2 [e1]
  rw [loopDown_break _ 0 s (by rw [scanCell_break ext p1 sum k1 0 s h0]),
    scanCell_break ext p1 sum k1 0 s h0]
  simp only
  rw [loopUp_break _ 1 3 s (by rw [scanCell_break ext p1 sum k1 1 s h1]),
    scanCell_break ext p1 sum k1 1 s h1]

/-- A row of the truncated scan, started at `k2 = 0`, that counts its first cell
only. -/
theorem scanRow_one (ext : Ext) (p1 : bcf_p1aux_t) (sum : ℚ) (k1 : Nat) (s : ScanAcc)
    (h0 : (scanCell ext p1 sum k1 0 s).2 = false) (h1 : cellP p1 sum k1 1 < CONTRAST_TINY) :
    scanRow ext p1 sum 2 1 k1 s = ((scanCell ext p1 sum k1 0 s).1, false) := by
  unfold scanRow
  have e5 : 2 * 2 + 1 - 1 = 3 + 1 := rfl
  have e1 : (1 : Nat) = 0 + 1 := rfl
  rw [e5]
  nth_rewrite 2 [e1]
  rw [loopDown_next _ 0 s h0]
  have e0 : loopDown (scanCell ext p1 sum k1) 0 (scanCell ext p1 sum k1 0 s).1
      = (scanCell ext p1 sum k1 0 s).1 := rfl
  rw [e0, loopUp_break _ 1 3 _ (by rw [scanCell_break ext p1 sum k1 1 _ h1]),
    scanCell_break ext p1 sum k1 1 _ h1]

/-- A row of the truncated scan, started at `k2 = 0`, that counts its three first
cells. -/
theorem scanRow_three (ext : Ext) (p1 : bcf_p1aux_t) (sum : ℚ) (k1 : Nat) (s : ScanAcc)
    (h0 : (scanCell ext p1 sum k1 0 s).2 = false)
    (h1 : (scanCell ext p1 sum k1 1 (scanCell ext p1 sum k1 0 s).1).2 = false)
    (h2 : (scanCell ext p1 sum k1 2
        (scanCell ext p1 sum k1 1 (scanCell ext p1 sum k1 0 s).1).1).2 = false)
    (h3 : cellP p1 sum k1 3 < CONTRAST_TINY) :
    scanRow ext p1 sum 2 1 k1 s
      = ((scanCell ext p1 sum k1 2
          (scanCell ext p1 sum k1 1 (scanCell ext p1 sum k1 0 s).1).1).1, false) := by
  unfold scanRow
  have e5 : 2 * 2 + 1 - 1 = 3 + 1 := rfl
  have e1 : (1 : Nat) = 0 + 1 := rfl
  rw [e5]
  nth_rewrite 2 [e1]
  rw [loopDown_next _ 0 s h0]
  have e0 : loopDown (scanCell ext p1 sum k1) 0 (scanCell ext p1 sum k1 0 s).1
      = (scanCell ext p1 sum k1 0 s).1 := rfl
  rw [e0, loopUp_next _ 1 3 _ h1]
  have e3 : (3 : Nat) = 2 + 1 := rfl
  have e2 : (2 : Nat) = 1 + 1 := rfl
  rw [e3, loopUp_next _ (1 + 1) 2 _ h2, e2, loopUp_break _ (1 + 1 + 1) 1 _
    (by rw [scanCell_break ext p1 sum k1 3 _ h3]), scanCell_break ext p1 sum k1 3 _ h3]

/-- The truncated scan of `contrast2` for two and two samples when the mode is
`(k1, k2) = (4, 0)`: the rows `4, 3, 2, 1, 0`, each started at `k2 = 0`. -/
theorem truncScan_mode (ext : Ext) (p1 : bcf_p1aux_t) (hn1 : p1.n1.toNat = 2)
    (hn2 : ((p1.n : Int) - p1.n1).toNat = 2)
    (ha1 : (argMaxPos (fun k => (contrastCtx p1).phi1 k * (contrastCtx p1).z1 k)
        (2 * 2 + 1)).2 = 4)
    (ha2 : (argMaxPos (fun k => (contrastCtx p1).phi2 k * (contrastCtx p1).z2 k)
        (2 * 2 + 1)).2 = 0) :
    truncScan ext p1
      = ((fun i => (loopDown (scanRow ext (contrastCtx p1) (contrastSum p1) 2 1) 5
            ((fun _ => 0), 0)).1 i + 0),
          (loopDown (scanRow ext (contrastCtx p1) (contrastSum p1) 2 1) 5
            ((fun _ => 0), 0)).2) := by
  unfold truncScan
  simp only
  rw [hn1, hn2, ha1, ha2]
  rfl

/-- The cells of `contrast2` for the four samples. -/
theorem split4_cell (p q : ℚ) (k1 k2 : Nat) (h1 : k1 ≤ 4) (h2 : k2 ≤ 4) :
    cellP (contrastCtx (mc_cal_afs (calCtx siteSplit4 ctxSplit4) p q).2.1)
        (contrastSum (mc_cal_afs (calCtx siteSplit4 ctxSplit4) p q).2.1) k1 k2
      = (calCtx siteSplit4 ctxSplit4).phi (k1 + k2)
          * (mc_cal_y (calCtx siteSplit4 ctxSplit4)).z1 k1
          * (mc_cal_y (calCtx siteSplit4 ctxSplit4)).z2 k2
          / ((1 / 4000 * (2 * 10 ^ 25) + 1 / 3000 * 5 + 1 / 2000 * 5) / (2 * 10 ^ 25 + 10)
            * ((10 ^ 25 + 5) / (70 * 10 ^ 25)
              / ((3 * 10 ^ 25 + 2) / (3 * 10 ^ 25) * ((3 * 10 ^ 25 + 2) / (3 * 10 ^ 25)))))
          * hgVal 8 2 2 k1 k2 := by
  have hS : afsSum (calCtx siteSplit4 ctxSplit4) ≠ 0 := by
    rw [split4_sum.2.2.2]
    norm_num
  obtain ⟨_, ⟨q1, _, _⟩, ⟨q4, q5⟩, ⟨q6, _, _⟩, q9⟩ :=
    contrast_ctx (calCtx siteSplit4 ctxSplit4) p q (fun _ _ => rfl) hS rfl rfl
  have q6' : (contrastCtx (mc_cal_afs (calCtx siteSplit4 ctxSplit4) p q).2.1).hg
      = some (hgBuild 8 2 2) := q6
  unfold cellP
  rw [q1, q4, q5, q6', q9, split4_sum.2.2.2, hgAt_build 8 2 2 k1 k2 (by omega) (by omega)]

/-- The cells that the truncated scan meets for the four samples: which are
counted, with bounds, and which are below `CONTRAST_TINY`. -/
theorem split4_cells (p q : ℚ) :
    ((99 / 100 < cellP (contrastCtx (mc_cal_afs (calCtx siteSplit4 ctxSplit4) p q).2.1)
          (contrastSum (mc_cal_afs (calCtx siteSplit4 ctxSplit4) p q).2.1) 4 0
        ∧ cellP (contrastCtx (mc_cal_afs (calCtx siteSplit4 ctxSplit4) p q).2.1)
          (contrastSum (mc_cal_afs (calCtx siteSplit4 ctxSplit4) p q).2.1) 4 0 ≤ 1)
      ∧ (CONTRAST_TINY ≤ cellP (contrastCtx (mc_cal_afs (calCtx siteSplit4 ctxSplit4) p q).2.1)
          (contrastSum (mc_cal_afs (calCtx siteSplit4 ctxSplit4) p q).2.1) 4 1
        ∧ cellP (contrastCtx (mc_cal_afs (calCtx siteSplit4 ctxSplit4) p q).2.1)
          (contrastSum (mc_cal_afs (calCtx siteSplit4 ctxSplit4) p q).2.1) 4 1 ≤ 1 / 10 ^ 20)
      ∧ (CONTRAST_TINY ≤ cellP (contrastCtx (mc_cal_afs (calCtx siteSplit4 ctxSplit4) p q).2.1)
          (contrastSum (mc_cal_afs (calCtx siteSplit4 ctxSplit4) p q).2.1) 4 2
        ∧ cellP (contrastCtx (mc_cal_afs (calCtx siteSplit4 ctxSplit4) p q).2.1)
          (contrastSum (mc_cal_afs (calCtx siteSplit4 ctxSplit4) p q).2.1) 4 2 ≤ 1 / 10 ^ 20)
      ∧ (CONTRAST_TINY ≤ cellP (contrastCtx (mc_cal_afs (calCtx siteSplit4 ctxSplit4) p q).2.1)
          (contrastSum (mc_cal_afs (calCtx siteSplit4 ctxSplit4) p q).2.1) 3 0
        ∧ cellP (contrastCtx (mc_cal_afs (calCtx siteSplit4 ctxSplit4) p q).2.1)
          (contrastSum (mc_cal_afs (calCtx siteSplit4 ctxSplit4) p q).2.1) 3 0 ≤ 1 / 10 ^ 20)
      ∧ (CONTRAST_TINY ≤ cellP (contrastCtx (mc_cal_afs (calCtx siteSplit4 ctxSplit4) p q).2.1)
          (contrastSum (mc_cal_afs (calCtx siteSplit4 ctxSplit4) p q).2.1) 2 0
        ∧ cellP (contrastCtx (mc_cal_afs (calCtx siteSplit4 ctxSplit4) p q).2.1)
          (contrastSum (mc_cal_afs (calCtx siteSplit4 ctxSplit4) p q).2.1) 2 0 ≤ 1 / 10 ^ 20))
    ∧ (cellP (contrastCtx (mc_cal_afs (calCtx siteSplit4 ctxSplit4) p q).2.1)
          (contrastSum (mc_cal_afs (calCtx siteSplit4 ctxSplit4) p q).2.1) 4 3 < CONTRAST_TINY
      ∧ cellP (contrastCtx (mc_cal_afs (calCtx siteSplit4 ctxSplit4) p q).2.1)
          (contrastSum (mc_cal_afs (calCtx siteSplit4 ctxSplit4) p q).2.1) 3 1 < CONTRAST_TINY
      ∧ cellP (contrastCtx (mc_cal_afs (calCtx siteSplit4 ctxSplit4) p q).2.1)
          (contrastSum (mc_cal_afs (calCtx siteSplit4 ctxSplit4) p q).2.1) 2 1 < CONTRAST_TINY)
    ∧ (∀ k1 k2, k1 ≤ 1 → k2 ≤ 1 →
        cellP (contrastCtx (mc_cal_afs (calCtx siteSplit4 ctxSplit4) p q).2.1)
          (contrastSum (mc_cal_afs (calCtx siteSplit4 ctxSplit4) p q).2.1) k1 k2
          < CONTRAST_TINY) := by
  obtain ⟨_, _, ⟨a10, a11, a12, a13, a14⟩, ⟨a20, a21, a22, a23, a24⟩⟩ := split4_arrays
  obtain ⟨⟨p0, p8⟩, _⟩ := split4_sum
  refine ⟨⟨⟨?_, ?_⟩, ⟨?_, ?_⟩, ⟨?_, ?_⟩, ⟨?_, ?_⟩, ⟨?_, ?_⟩⟩, ⟨?_, ?_, ?_⟩, ?_⟩
  · rw [split4_cell p q 4 0 (by omega) (by omega), a14, a20, p0 (4 + 0) (by omega)]
    norm_num [hgVal, Nat.factorial]
  · rw [split4_cell p q 4 0 (by omega) (by omega), a14, a20, p0 (4 + 0) (by omega)]
    norm_num [hgVal, Nat.factorial]
  · rw [split4_cell p q 4 1 (by omega) (by omega), a14, a21, p0 (4 + 1) (by omega)]
    norm_num [hgVal, Nat.factorial, CONTRAST_TINY]
  · rw [split4_cell p q 4 1 (by omega) (by omega), a14, a21, p0 (4 + 1) (by omega)]
    norm_num [hgVal, Nat.factorial]
  · rw [split4_cell p q 4 2 (by omega) (by omega), a14, a22, p0 (4 + 2) (by omega)]
    norm_num [hgVal, Nat.factorial, CONTRAST_TINY]
  · rw [split4_cell p q 4 2 (by omega) (by omega), a14, a22, p0 (4 + 2) (by omega)]
    norm_num [hgVal, Nat.factorial]
  · rw [split4_cell p q 3 0 (by omega) (by omega), a13, a20, p0 (3 + 0) (by omega)]
    norm_num [hgVal, Nat.factorial, CONTRAST_TINY]
  · rw [split4_cell p q 3 0 (by omega) (by omega), a13, a20, p0 (3 + 0) (by omega)]
    norm_num [hgVal, Nat.factorial]
  · rw [split4_cell p q 2 0 (by omega) (by omega), a12, a20, p0 (2 + 0) (by omega)]
    norm_num [hgVal, Nat.factorial, CONTRAST_TINY]
  · rw [split4_cell p q 2 0 (by omega) (by omega), a12, a20, p0 (2 + 0) (by omega)]
    norm_num [hgVal, Nat.factorial]
  · rw [split4_cell p q 4 3 (by omega) (by omega), a23]
    norm_num [CONTRAST_TINY]
  · rw [split4_cell p q 3 1 (by omega) (by omega), a13, a21, p0 (3 + 1) (by omega)]
    norm_num [hgVal, Nat.factorial, CONTRAST_TINY]
  · rw [split4_cell p q 2 1 (by omega) (by omega), a12, a21, p0 (2 + 1) (by omega)]
    norm_num [hgVal, Nat.factorial, CONTRAST_TINY]
  · intro k1 k2 h1 h2
    have hz : (mc_cal_y (calCtx siteSplit4 ctxSplit4)).z1 k1 = 0 := by
      have : k1 = 0 ∨ k1 = 1 := by omega
      rcases this with r | r
      · rw [r]; exact a10
      · rw [r]; exact a11
    rw [split4_cell p q k1 k2 (by omega) (by omega), hz]
    norm_num [CONTRAST_TINY]

/-- With two and two samples a cell with `k2 < k1` goes to the slot `2`. -/
theorem cellSlot_two (p1 : bcf_p1aux_t) (hn1 : p1.n1 = 2) (hn : p1.n = 4) (k1 k2 : Nat)
    (h : k2 < k1) : cellSlot p1 k1 k2 = 2 := by
  have hk : (k2 : ℚ) < (k1 : ℚ) := by exact_mod_cast h
  unfold cellSlot
  rw [hn1, hn]
  have e1 : (((2 : Int)) : ℚ) = 2 := by norm_num
  have e2 : (((((4 : Nat) : Int) - 2 : Int)) : ℚ) = 2 := by norm_num
  rw [e1, e2, if_neg (by linarith), if_pos (by linarith)]

/-- The test of the cell `(4, 0)` for two and two samples is `kf_gammaq(1/2, 4)`. -/
theorem chi2_test_mode (ext : Ext) (p1 : bcf_p1aux_t) (hn1 : p1.n1 = 2) (hn : p1.n = 4) :
    chi2_test ext ((4 : Nat) : Int) ((0 : Nat) : Int) (p1.n1 * 2 - ((4 : Nat) : Int))
        (((p1.n : Int) - p1.n1) * 2 - ((0 : Nat) : Int))
      = ext.kf_gammaq (1 / 2) 4 := by
  rw [hn1, hn]
  unfold chi2_test
  norm_num

/-- The mode that `contrast2` finds for the four samples: `(k1, k2) = (4, 0)`. -/
theorem split4_mode (p q : ℚ) :
    (argMaxPos (fun k => (contrastCtx (mc_cal_afs (calCtx siteSplit4 ctxSplit4) p q).2.1).phi1 k
        * (contrastCtx (mc_cal_afs (calCtx siteSplit4 ctxSplit4) p q).2.1).z1 k) (2 * 2 + 1)).2 = 4
    ∧ (argMaxPos (fun k => (contrastCtx (mc_cal_afs (calCtx siteSplit4 ctxSplit4) p q).2.1).phi2 k
        * (contrastCtx (mc_cal_afs (calCtx siteSplit4 ctxSplit4) p q).2.1).z2 k) (2 * 2 + 1)).2
        = 0 := by
  have hS : afsSum (calCtx siteSplit4 ctxSplit4) ≠ 0 := by
    rw [split4_sum.2.2.2]
    norm_num
  obtain ⟨_, ⟨_, q2, q3⟩, ⟨q4, q5⟩, _⟩ :=
    contrast_ctx (calCtx siteSplit4 ctxSplit4) p q (fun _ _ => rfl) hS rfl rfl
  obtain ⟨_, _, ⟨a10, a11, a12, a13, a14⟩, ⟨a20, a21, a22, a23, a24⟩⟩ := split4_arrays
  obtain ⟨_, ⟨f1, f14⟩, ⟨f2, f24⟩, _⟩ := split4_sum
  rw [q2, q3, q4, q5]
  constructor
  · have e := argMaxPos_last (fun k => (calCtx siteSplit4 ctxSplit4).phi1 k
        * (mc_cal_y (calCtx siteSplit4 ctxSplit4)).z1 k) 4 (fun k hk => ?_) ?_
    · exact e
    · show (calCtx siteSplit4 ctxSplit4).phi1 k * (mc_cal_y (calCtx siteSplit4 ctxSplit4)).z1 k
        < (calCtx siteSplit4 ctxSplit4).phi1 4 * (mc_cal_y (calCtx siteSplit4 ctxSplit4)).z1 4
      rw [f14, a14]
      interval_cases k
      · rw [a10]; norm_num
      · rw [a11]; norm_num
      · rw [a12, f1 2 (by omega)]; norm_num
      · rw [a13, f1 3 (by omega)]; norm_num
    · show 0 < (calCtx siteSplit4 ctxSplit4).phi1 4 * (mc_cal_y (calCtx siteSplit4 ctxSplit4)).z1 4
      rw [f14, a14]
      norm_num
  · have e := argMaxPos_first (fun k => (calCtx siteSplit4 ctxSplit4).phi2 k
        * (mc_cal_y (calCtx siteSplit4 ctxSplit4)).z2 k) 4 (fun k hk => ?_) ?_
    · have e' : 2 * 2 + 1 = 4 + 1 := rfl
      rw [e', e]
    · show (calCtx siteSplit4 ctxSplit4).phi2 k * (mc_cal_y (calCtx siteSplit4 ctxSplit4)).z2 k
        ≤ (calCtx siteSplit4 ctxSplit4).phi2 0 * (mc_cal_y (calCtx siteSplit4 ctxSplit4)).z2 0
      rw [f2 0 (by omega), a20]
      interval_cases k
      · rw [a20, f2 0 (by omega)]
      · rw [a21, f2 1 (by omega)]; norm_num
      · rw [a22, f2 2 (by omega)]; norm_num
      · rw [a23]; norm_num
      · rw [a24]; norm_num
    · show 0 < (calCtx siteSplit4 ctxSplit4).phi2 0 * (mc_cal_y (calCtx siteSplit4 ctxSplit4)).z2 0
      rw [f2 0 (by omega), a20]
      norm_num

/-- The rows `4, 3, 2, 1, 0` of the truncated scan, each started at `k2 = 0`,
when the cells `(4,0)`, `(4,1)`, `(4,2)`, `(3,0)`, `(2,0)` are counted in the
slot `2` and the next cell of every row is below `CONTRAST_TINY`. -/
theorem trunc_rows (ext : Ext) (Q : bcf_p1aux_t) (S : ℚ)
    (hslot : ∀ k1 k2 : Nat, k2 < k1 → cellSlot Q k1 k2 = 2)
    (hchi : ∀ k1 k2 : Nat,
      0 ≤ chi2_test ext k1 k2 (Q.n1 * 2 - k1) (((Q.n : Int) - Q.n1) * 2 - k2))
    (c40 : ¬ cellP Q S 4 0 < CONTRAST_TINY) (c41 : ¬ cellP Q S 4 1 < CONTRAST_TINY)
    (c42 : ¬ cellP Q S 4 2 < CONTRAST_TINY) (c30 : ¬ cellP Q S 3 0 < CONTRAST_TINY)
    (c20 : ¬ cellP Q S 2 0 < CONTRAST_TINY)
    (b43 : cellP Q S 4 3 < CONTRAST_TINY) (b31 : cellP Q S 3 1 < CONTRAST_TINY)
    (b21 : cellP Q S 2 1 < CONTRAST_TINY)
    (b0 : ∀ k1 k2, k1 ≤ 1 → k2 ≤ 1 → cellP Q S k1 k2 < CONTRAST_TINY) :
    (loopDown (scanRow ext Q S 2 1) 5 ((fun _ => 0), 0)).1 0 = 0
    ∧ (loopDown (scanRow ext Q S 2 1) 5 ((fun _ => 0), 0)).1 1 = 0
    ∧ (loopDown (scanRow ext Q S 2 1) 5 ((fun _ => 0), 0)).1 2
        = 0 + cellP Q S 4 0 + cellP Q S 4 1 + cellP Q S 4 2 + cellP Q S 3 0 + cellP Q S 2 0
    ∧ (loopDown (scanRow ext Q S 2 1) 5 ((fun _ => 0), 0)).2
        = 0 + cellP Q S 4 0
              * chi2_test ext ((4 : Nat) : Int) ((0 : Nat) : Int) (Q.n1 * 2 - ((4 : Nat) : Int))
                  (((Q.n : Int) - Q.n1) * 2 - ((0 : Nat) : Int))
            + cellP Q S 4 1
              * chi2_test ext ((4 : Nat) : Int) ((1 : Nat) : Int) (Q.n1 * 2 - ((4 : Nat) : Int))
                  (((Q.n : Int) - Q.n1) * 2 - ((1 : Nat) : Int))
            + cellP Q S 4 2
              * chi2_test ext ((4 : Nat) : Int) ((2 : Nat) : Int) (Q.n1 * 2 - ((4 : Nat) : Int))
                  (((Q.n : Int) - Q.n1) * 2 - ((2 : Nat) : Int))
            + cellP Q S 3 0
              * chi2_test ext ((3 : Nat) : Int) ((0 : Nat) : Int) (Q.n1 * 2 - ((3 : Nat) : Int))
                  (((Q.n : Int) - Q.n1) * 2 - ((0 : Nat) : Int))
            + cellP Q S 2 0
              * chi2_test ext ((2 : Nat) : Int) ((0 : Nat) : Int) (Q.n1 * 2 - ((2 : Nat) : Int))
                  (((Q.n : Int) - Q.n1) * 2 - ((0 : Nat) : Int)) := by
  have A1 := scanCell_acc ext Q S 4 0 ((fun _ => 0), 0) 0 0 c40 (hchi 4 0) (hslot 4 0 (by omega))
    ⟨rfl, rfl, rfl, rfl⟩
  generalize hs1 : (scanCell ext Q S 4 0 ((fun _ => 0), 0)).1 = s1 at A1
  have A2 := scanCell_acc ext Q S 4 1 s1 _ _ c41 (hchi 4 1) (hslot 4 1 (by omega)) A1.2
  generalize hs2 : (scanCell ext Q S 4 1 s1).1 = s2 at A2
  have A3 := scanCell_acc ext Q S 4 2 s2 _ _ c42 (hchi 4 2) (hslot 4 2 (by omega)) A2.2
  generalize hs3 : (scanCell ext Q S 4 2 s2).1 = s3 at A3
  have A4 := scanCell_acc ext Q S 3 0 s3 _ _ c30 (hchi 3 0) (hslot 3 0 (by omega)) A3.2
  generalize hs4 : (scanCell ext Q S 3 0 s3).1 = s4 at A4
  have A5 := scanCell_acc ext Q S 2 0 s4 _ _ c20 (hchi 2 0) (hslot 2 0 (by omega)) A4.2
  generalize hs5 : (scanCell ext Q S 2 0 s4).1 = s5 at A5
  have row4 : scanRow ext Q S 2 1 4 ((fun _ => 0), 0) = (s3, false) := by
    rw [scanRow_three ext Q S 4 _ A1.1 (by rw [hs1]; exact A2.1)
      (by rw [hs1, hs2]; exact A3.1) b43, hs1, hs2, hs3]
  have row3 : scanRow ext Q S 2 1 3 s3 = (s4, false) := by
    rw [scanRow_one ext Q S 3 s3 A4.1 b31, hs4]
  have row2 : scanRow ext Q S 2 1 2 s4 = (s5, false) := by
    rw [scanRow_one ext Q S 2 s4 A5.1 b21, hs5]
  have row1 : scanRow ext Q S 2 1 1 s5 = (s5, false) :=
    scanRow_skip ext Q S 1 s5 (b0 1 0 (by omega) (by omega)) (b0 1 1 (by omega) (by omega))
  have row0 : scanRow ext Q S 2 1 0 s5 = (s5, false) :=
    scanRow_skip ext Q S 0 s5 (b0 0 0 (by omega) (by omega)) (b0 0 1 (by omega) (by omega))
  have e : loopDown (scanRow ext Q S 2 1) 5 ((fun _ => 0), 0) = s5 := by
    have e5 : (5 : Nat) = 4 + 1 := rfl
    rw [e5, loopDown_next _ 4 _ (by rw [row4]), row4]
    simp only
    have e4 : (4 : Nat) = 3 + 1 := rfl
    rw [e4, loopDown_next _ 3 _ (by rw [row3]), row3]
    simp only
    have e3 : (3 : Nat) = 2 + 1 := rfl
    rw [e3, loopDown_next _ 2 _ (by rw [row2]), row2]
    simp only
    have e2 : (2 : Nat) = 1 + 1 := rfl
    rw [e2, loopDown_next _ 1 _ (by rw [row1]), row1]
    simp only
    have e1 : (1 : Nat) = 0 + 1 := rfl
    rw [e1, loopDown_next _ 0 _ (by rw [row0]), row0]
    rfl
  rw [e]
  exact A5.2

/-- For the four samples `p_var` is above `0.5`: the contrast test is run. -/
theorem split4_pvar (rst : bcf_p1rst_t) :
    sumTo (mc_cal_afs (calCtx siteSplit4 ctxSplit4) rst.p_ref_folded rst.p_var_folded).2.1.afs1
      (mc_cal_afs (calCtx siteSplit4 ctxSplit4) rst.p_ref_folded rst.p_var_folded).2.1.M
      > 1 / 2 := by
  have hS : afsSum (calCtx siteSplit4 ctxSplit4) ≠ 0 := by
    rw [split4_sum.2.2.2]
    norm_num
  obtain ⟨⟨m1, m2, m3⟩, _, _, ⟨_, q7, q8⟩, _⟩ :=
    contrast_ctx (calCtx siteSplit4 ctxSplit4) rst.p_ref_folded rst.p_var_folded
      (fun _ _ => rfl) hS rfl rfl
  have hM : (mc_cal_afs (calCtx siteSplit4 ctxSplit4) rst.p_ref_folded rst.p_var_folded).2.1.M
      = 8 := m3
  obtain ⟨a1, ⟨_, _, _, a0⟩, _, _⟩ := split4_arrays
  have hp : afsPass (calCtx siteSplit4 ctxSplit4) = mc_cal_y (calCtx siteSplit4 ctxSplit4) :=
    afsPass_of_zero _ (fun _ _ => rfl)
  have hz : (afsPass (calCtx siteSplit4 ctxSplit4)).z (calCtx siteSplit4 ctxSplit4).M = 0 := by
    rw [hp]
    show (mc_cal_y (calCtx siteSplit4 ctxSplit4)).z 8 = 0
    rw [a1 8 (le_refl _), a0 8 (le_refl _) (Or.inr (by omega))]
    ring
  have hv := p_var_one (calCtx siteSplit4 ctxSplit4) rst.p_ref_folded rst.p_var_folded hS hz
  rw [hM]
  have : sumTo
      (mc_cal_afs (calCtx siteSplit4 ctxSplit4) rst.p_ref_folded rst.p_var_folded).2.1.afs1 8
      = 1 := hv
  rw [this]
  norm_num

/-- The truncated scan of `contrast2` for two samples against two, when the
mode is `(4, 0)`, the cell `(4, 0)` holds more than `0.99`, the cells `(4, 1)`,
`(4, 2)`, `(3, 0)`, `(2, 0)` are counted and at most `1e-20`, and the next cell
of every row is below `CONTRAST_TINY`. -/
theorem truncScan_split (ext : Ext)
    (hq : ∀ a x, 0 ≤ ext.kf_gammaq a x ∧ ext.kf_gammaq a x ≤ 1)
    (h4 : ext.kf_gammaq (1 / 2) 4 ≤ 1 / 100) (p1 : bcf_p1aux_t)
    (hn1 : p1.n1 = 2) (hnn : p1.n = 4)
    (qn1 : (contrastCtx p1).n1 = 2) (qn : (contrastCtx p1).n = 4)
    (g1 : (argMaxPos (fun k => (contrastCtx p1).phi1 k * (contrastCtx p1).z1 k)
        (2 * 2 + 1)).2 = 4)
    (g2 : (argMaxPos (fun k => (contrastCtx p1).phi2 k * (contrastCtx p1).z2 k)
        (2 * 2 + 1)).2 = 0)
    (hc : ((99 / 100 < cellP (contrastCtx p1) (contrastSum p1) 4 0
          ∧ cellP (contrastCtx p1) (contrastSum p1) 4 0 ≤ 1)
        ∧ (CONTRAST_TINY ≤ cellP (contrastCtx p1) (contrastSum p1) 4 1
          ∧ cellP (contrastCtx p1) (contrastSum p1) 4 1 ≤ 1 / 10 ^ 20)
        ∧ (CONTRAST_TINY ≤ cellP (contrastCtx p1) (contrastSum p1) 4 2
          ∧ cellP (contrastCtx p1) (contrastSum p1) 4 2 ≤ 1 / 10 ^ 20)
        ∧ (CONTRAST_TINY ≤ cellP (contrastCtx p1) (contrastSum p1) 3 0
          ∧ cellP (contrastCtx p1) (contrastSum p1) 3 0 ≤ 1 / 10 ^ 20)
        ∧ (CONTRAST_TINY ≤ cellP (contrastCtx p1) (contrastSum p1) 2 0
          ∧ cellP (contrastCtx p1) (contrastSum p1) 2 0 ≤ 1 / 10 ^ 20))
      ∧ (cellP (contrastCtx p1) (contrastSum p1) 4 3 < CONTRAST_TINY
        ∧ cellP (contrastCtx p1) (contrastSum p1) 3 1 < CONTRAST_TINY
        ∧ cellP (contrastCtx p1) (contrastSum p1) 2 1 < CONTRAST_TINY)
      ∧ (∀ k1 k2, k1 ≤ 1 → k2 ≤ 1 →
          cellP (contrastCtx p1) (contrastSum p1) k1 k2 < CONTRAST_TINY)) :
    (truncScan ext p1).1 0 = 0
    ∧ (truncScan ext p1).1 1 = 0
    ∧ 99 / 100 < (truncScan ext p1).1 2
    ∧ (truncScan ext p1).2 < 5 / 100 := by
  obtain ⟨⟨⟨c40, u40⟩, ⟨c41, u41⟩, ⟨c42, u42⟩, ⟨c30, u30⟩, ⟨c20, u20⟩⟩, ⟨b43, b31, b21⟩, b0⟩ := hc
  have hT : (0 : ℚ) < CONTRAST_TINY := by norm_num [CONTRAST_TINY]
  have hT2 : CONTRAST_TINY < 99 / 100 := by norm_num [CONTRAST_TINY]
  have tm := truncScan_mode ext p1 (by rw [hn1]; rfl) (by rw [hn1, hnn]; rfl) g1 g2
  obtain ⟨t0, t1, t2, t3⟩ := trunc_rows ext (contrastCtx p1) (contrastSum p1)
    (fun k1 k2 h => cellSlot_two _ qn1 qn k1 k2 h)
    (fun k1 k2 => (chi2_test_bounds ext hq _ _ _ _).1)
    (not_lt.mpr (le_of_lt (lt_trans hT2 c40))) (not_lt.mpr c41) (not_lt.mpr c42)
    (not_lt.mpr c30) (not_lt.mpr c20) b43 b31 b21 b0
  rw [chi2_test_mode ext _ qn1 qn] at t3
  have x1 := (chi2_test_bounds ext hq ((4 : Nat) : Int) ((1 : Nat) : Int)
    ((contrastCtx p1).n1 * 2 - ((4 : Nat) : Int))
    ((((contrastCtx p1).n : Int) - (contrastCtx p1).n1) * 2 - ((1 : Nat) : Int))).2
  have x2 := (chi2_test_bounds ext hq ((4 : Nat) : Int) ((2 : Nat) : Int)
    ((contrastCtx p1).n1 * 2 - ((4 : Nat) : Int))
    ((((contrastCtx p1).n : Int) - (contrastCtx p1).n1) * 2 - ((2 : Nat) : Int))).2
  have x3 := (chi2_test_bounds ext hq ((3 : Nat) : Int) ((0 : Nat) : Int)
    ((contrastCtx p1).n1 * 2 - ((3 : Nat) : Int))
    ((((contrastCtx p1).n : Int) - (contrastCtx p1).n1) * 2 - ((0 : Nat) : Int))).2
  have x4 := (chi2_test_bounds ext hq ((2 : Nat) : Int) ((0 : Nat) : Int)
    ((contrastCtx p1).n1 * 2 - ((2 : Nat) : Int))
    ((((contrastCtx p1).n : Int) - (contrastCtx p1).n1) * 2 - ((0 : Nat) : Int))).2
  have y0 := (hq (1 / 2) 4).1
  rw [tm]
  simp only
  rw [t0, t1, t2, t3]
  generalize chi2_test ext ((4 : Nat) : Int) ((1 : Nat) : Int) _ _ = X1 at x1
  generalize chi2_test ext ((4 : Nat) : Int) ((2 : Nat) : Int) _ _ = X2 at x2
  generalize chi2_test ext ((3 : Nat) : Int) ((0 : Nat) : Int) _ _ = X3 at x3
  generalize chi2_test ext ((2 : Nat) : Int) ((0 : Nat) : Int) _ _ = X4 at x4
  generalize cellP _ _ 4 0 = P40 at c40 u40
  generalize cellP _ _ 4 1 = P41 at c41 u41
  generalize cellP _ _ 4 2 = P42 at c42 u42
  generalize cellP _ _ 3 0 = P30 at c30 u30
  generalize cellP _ _ 2 0 = P20 at c20 u20
  have hE : (1 : ℚ) / 10 ^ 20 ≤ 1 / 1000 := by norm_num
  have v41 : P41 ≤ 1 / 1000 := le_trans u41 hE
  have v42 : P42 ≤ 1 / 1000 := le_trans u42 hE
  have v30 : P30 ≤ 1 / 1000 := le_trans u30 hE
  have v20 : P20 ≤ 1 / 1000 := le_trans u20 hE
  have n41 : 0 ≤ P41 := le_trans (le_of_lt hT) c41
  have n42 : 0 ≤ P42 := le_trans (le_of_lt hT) c42
  have n30 : 0 ≤ P30 := le_trans (le_of_lt hT) c30
  have n20 : 0 ≤ P20 := le_trans (le_of_lt hT) c20
  have k1 : P41 * X1 ≤ P41 := mul_le_of_le_one_right n41 x1
  have k2 : P42 * X2 ≤ P42 := mul_le_of_le_one_right n42 x2
  have k3 : P30 * X3 ≤ P30 := mul_le_of_le_one_right n30 x3
  have k4 : P20 * X4 ≤ P20 := mul_le_of_le_one_right n20 x4
  have k0 : P40 * ext.kf_gammaq (1 / 2) 4 ≤ 1 * (1 / 100) :=
    mul_le_mul u40 h4 y0 (by norm_num)
  refine ⟨by ring, by ring, ?_, ?_⟩
  · linarith only [c40, n41, n42, n30, n20]
  · linarith only [k0, k1, k2, k3, k4, v41, v42, v30, v20]

/-- The truncated scan of `contrast2` for the four samples. -/
theorem split4_trunc (ext : Ext)
    (hq : ∀ a x, 0 ≤ ext.kf_gammaq a x ∧ ext.kf_gammaq a x ≤ 1)
    (h4 : ext.kf_gammaq (1 / 2) 4 ≤ 1 / 100) (p q : ℚ) :
    (truncScan ext (mc_cal_afs (calCtx siteSplit4 ctxSplit4) p q).2.1).1 0 = 0
    ∧ (truncScan ext (mc_cal_afs (calCtx siteSplit4 ctxSplit4) p q).2.1).1 1 = 0
    ∧ 99 / 100 < (truncScan ext (mc_cal_afs (calCtx siteSplit4 ctxSplit4) p q).2.1).1 2
    ∧ (truncScan ext (mc_cal_afs (calCtx siteSplit4 ctxSplit4) p q).2.1).2 < 5 / 100 := by
  have hS : afsSum (calCtx siteSplit4 ctxSplit4) ≠ 0 := by
    rw [split4_sum.2.2.2]
    norm_num
  obtain ⟨⟨m1, m2, m3⟩, _, _, ⟨_, q7, q8⟩, _⟩ :=
    contrast_ctx (calCtx siteSplit4 ctxSplit4) p q (fun _ _ => rfl) hS rfl rfl
  have hn1 : (mc_cal_afs (calCtx siteSplit4 ctxSplit4) p q).2.1.n1 = 2 := m1
  have hnn : (mc_cal_afs (calCtx siteSplit4 ctxSplit4) p q).2.1.n = 4 := m2
  have qn1 : (contrastCtx (mc_cal_afs (calCtx siteSplit4 ctxSplit4) p q).2.1).n1 = 2 := q7
  have qn : (contrastCtx (mc_cal_afs (calCtx siteSplit4 ctxSplit4) p q).2.1).n = 4 := q8
  exact truncScan_split ext hq h4 _ hn1 hnn qn1 qn (split4_mode p q).1 (split4_mode p q).2
    (split4_cells p q)

/-- When the truncated scan of `contrast2` holds at least `0.95` of the mass,
its sums are what `contrast2` returns. -/
theorem contrast2_trunc (ext : Ext) (p1 : bcf_p1aux_t) (ret : Fin 3 → ℚ)
    (h1 : 0 < p1.n1) (h2 : 0 < (p1.n : Int) - p1.n1)
    (hmass : ¬ ((truncScan ext p1).1 0 + (truncScan ext p1).1 1 + (truncScan ext p1).1 2
      < 95 / 100)) :
    (contrast2 ext p1 ret).2.1 = (truncScan ext p1).1
    ∧ (contrast2 ext p1 ret).1 = (truncScan ext p1).2 := by
  rw [contrast2_eq ext p1 ret h1 h2, if_neg hmass]
  exact ⟨rfl, rfl⟩

/-- What `bcf_p1_cal` reports with `do_contrast` set when `p_var` is above `0.5`
and the truncated scan of `contrast2` holds at least `0.95` of the mass. -/
theorem bcf_p1_cal_trunc (ext : Ext) (site : Site) (ma : bcf_p1aux_t) (rst : bcf_p1rst_t)
    (h : ¬ site.n_allele < 2)
    (hv : sumTo (mc_cal_afs (calCtx site ma) rst.p_ref_folded rst.p_var_folded).2.1.afs1
        (mc_cal_afs (calCtx site ma) rst.p_ref_folded rst.p_var_folded).2.1.M > 1 / 2)
    (h1 : 0 < (mc_cal_afs (calCtx site ma) rst.p_ref_folded rst.p_var_folded).2.1.n1)
    (h2 : 0 < ((mc_cal_afs (calCtx site ma) rst.p_ref_folded rst.p_var_folded).2.1.n : Int)
      - (mc_cal_afs (calCtx site ma) rst.p_ref_folded rst.p_var_folded).2.1.n1)
    (hmass : ¬ ((truncScan ext
          (mc_cal_afs (calCtx site ma) rst.p_ref_folded rst.p_var_folded).2.1).1 0
        + (truncScan ext
          (mc_cal_afs (calCtx site ma) rst.p_ref_folded rst.p_var_folded).2.1).1 1
        + (truncScan ext
          (mc_cal_afs (calCtx site ma) rst.p_ref_folded rst.p_var_folded).2.1).1 2
      < 95 / 100)) :
    (bcf_p1_cal ext site true ma rst).1 = 0
    ∧ (bcf_p1_cal ext site true ma rst).2.2.cmp
        = (truncScan ext
            (mc_cal_afs (calCtx site ma) rst.p_ref_folded rst.p_var_folded).2.1).1
    ∧ (bcf_p1_cal ext site true ma rst).2.2.p_chi2
        = (truncScan ext
            (mc_cal_afs (calCtx site ma) rst.p_ref_folded rst.p_var_folded).2.1).2 := by
  obtain ⟨rc, rp⟩ := bcf_p1_cal_contrast ext site ma rst h hv
  obtain ⟨e1, e2⟩ := contrast2_trunc ext
    (mc_cal_afs (calCtx site ma) rst.p_ref_folded rst.p_var_folded).2.1 (fun _ => -1) h1 h2 hmass
  exact ⟨(bcf_p1_cal_ok ext site true ma rst h).1, rc.trans e1, rp.trans e2⟩

/-- The context that `bcf_p1_cal` hands to `contrast2` for the four samples has
two samples in each group. -/
theorem split4_groups (p q : ℚ) :
    (mc_cal_afs (calCtx siteSplit4 ctxSplit4) p q).2.1.n1 = 2
    ∧ (mc_cal_afs (calCtx siteSplit4 ctxSplit4) p q).2.1.n = 4 := by
  have hS : afsSum (calCtx siteSplit4 ctxSplit4) ≠ 0 := by
    rw [split4_sum.2.2.2]
    norm_num
  obtain ⟨⟨m1, m2, _⟩, _⟩ :=
    contrast_ctx (calCtx siteSplit4 ctxSplit4) p q (fun _ _ => rfl) hS rfl rfl
  exact ⟨m1, m2⟩

/-- What `bcf_p1_cal` reports for the four samples with `do_contrast` set, for
a `kf_gammaq` with values in `[0, 1]` that is at most `0.01` at `(1/2, 4)`. -/
theorem split4_result (ext : Ext)
    (hq : ∀ a x, 0 ≤ ext.kf_gammaq a x ∧ ext.kf_gammaq a x ≤ 1)
    (h4 : ext.kf_gammaq (1 / 2) 4 ≤ 1 / 100) (rst : bcf_p1rst_t) :
    (bcf_p1_cal ext siteSplit4 true ctxSplit4 rst).1 = 0
    ∧ (bcf_p1_cal ext siteSplit4 true ctxSplit4 rst).2.2.cmp 0 = 0
    ∧ (bcf_p1_cal ext siteSplit4 true ctxSplit4 rst).2.2.cmp 1 = 0
    ∧ 99 / 100 < (bcf_p1_cal ext siteSplit4 true ctxSplit4 rst).2.2.cmp 2
    ∧ (bcf_p1_cal ext siteSplit4 true ctxSplit4 rst).2.2.p_chi2 < 5 / 100 := by
  obtain ⟨hn1, hnn⟩ := split4_groups rst.p_ref_folded rst.p_var_folded
  obtain ⟨t0, t1, t2, t3⟩ := split4_trunc ext hq h4 rst.p_ref_folded rst.p_var_folded
  have hmass : ¬ ((truncScan ext (mc_cal_afs (calCtx siteSplit4 ctxSplit4) rst.p_ref_folded
        rst.p_var_folded).2.1).1 0
      + (truncScan ext (mc_cal_afs (calCtx siteSplit4 ctxSplit4) rst.p_ref_folded
        rst.p_var_folded).2.1).1 1
      + (truncScan ext (mc_cal_afs (calCtx siteSplit4 ctxSplit4) rst.p_ref_folded
        rst.p_var_folded).2.1).1 2 < 95 / 100) := by
    rw [t0, t1]
    linarith only [t2]
  obtain ⟨r0, rc, rp⟩ := bcf_p1_cal_trunc ext siteSplit4 ctxSplit4 rst (by decide)
    (split4_pvar rst) (by rw [hn1]; decide) (by rw [hn1, hnn]; decide) hmass
  exact ⟨r0, (congrFun rc 0).trans t0, (congrFun rc 1).trans t1,
    lt_of_lt_of_eq t2 (congrFun rc 2).symm, lt_of_eq_of_lt rp t3⟩

/-! ### C20: two samples against two -/

/-- Counterexample to C20: for the four samples split two and two, the first
two homozygous for the reference and the last two for the other allele,
`bcf_p1_cal` with `do_contrast` set succeeds and reports `cmp[1] = 0`, not a
mass above `0.99`: `k` counts reference alleles, so here `k1/(2*n1)` is above
`k2/(2*n2)` and the mass goes to `cmp[2]`. -/
theorem bcf_p1_cal_contrast_slot :
    (bcf_p1_cal extChi siteSplit4 true ctxSplit4 rstZero).1 = 0
    ∧ (bcf_p1_cal extChi siteSplit4 true ctxSplit4 rstZero).2.2.cmp 1 = 0
    ∧ ¬ (99 / 100 < (bcf_p1_cal extChi siteSplit4 true ctxSplit4 rstZero).2.2.cmp 1) := by
  have hq : ∀ a x, 0 ≤ extChi.kf_gammaq a x ∧ extChi.kf_gammaq a x ≤ 1 := by
    intro a x
    show 0 ≤ 1 / (1 + x ^ 4) ∧ 1 / (1 + x ^ 4) ≤ 1
    have : 0 ≤ x ^ 4 := by positivity
    exact ⟨by positivity, by rw [div_le_one (by linarith)]; linarith⟩
  have h4 : extChi.kf_gammaq (1 / 2) 4 ≤ 1 / 100 := by
    show (1 : ℚ) / (1 + 4 ^ 4) ≤ 1 / 100
    norm_num
  obtain ⟨r0, _, r1, _⟩ := split4_result extChi hq h4 rstZero
  refine ⟨r0, r1, ?_⟩
  rw [r1]
  norm_num

/-- C20 (amended). For the four diploid samples split two and two (`n1 = 2`,
subpopulation priors written by `bcf_p1_init_subprior`), the first two with PL
`(0, 250, 250)` and the last two with PL `(250, 250, 0)`, `bcf_p1_cal` with
`do_contrast` set returns `0` and reports `cmp[2]`, the slot incremented when
`k1/(2*n1) > k2/(2*n2)`, above `0.99`, `cmp[0] = cmp[1] = 0`, and
`p_chi2 < 0.05`; of `kf_gammaq` only that its values lie in `[0, 1]` and that
`kf_gammaq(1/2, 4) ≤ 0.01` is used. -/
theorem bcf_p1_cal_contrast_split (ext : Ext)
    (hq : ∀ a x, 0 ≤ ext.kf_gammaq a x ∧ ext.kf_gammaq a x ≤ 1)
    (h4 : ext.kf_gammaq (1 / 2) 4 ≤ 1 / 100) (rst : bcf_p1rst_t) :
    (bcf_p1_cal ext siteSplit4 true ctxSplit4 rst).1 = 0
    ∧ 99 / 100 < (bcf_p1_cal ext siteSplit4 true ctxSplit4 rst).2.2.cmp 2
    ∧ (bcf_p1_cal ext siteSplit4 true ctxSplit4 rst).2.2.cmp 0 = 0
    ∧ (bcf_p1_cal ext siteSplit4 true ctxSplit4 rst).2.2.cmp 1 = 0
    ∧ (bcf_p1_cal ext siteSplit4 true ctxSplit4 rst).2.2.p_chi2 < 5 / 100 := by
  obtain ⟨a, b, c, d, e⟩ := split4_result ext hq h4 rst
  exact ⟨a, d, b, c, e⟩

/-- Witness of C20 (amended): the stand-in `extChi`, whose `kf_gammaq` is
`1 / (1 + x^4)`. -/
theorem bcf_p1_cal_contrast_split_witness :
    (∀ a x, 0 ≤ extChi.kf_gammaq a x ∧ extChi.kf_gammaq a x ≤ 1)
    ∧ extChi.kf_gammaq (1 / 2) 4 ≤ 1 / 100
    ∧ 99 / 100 < (bcf_p1_cal extChi siteSplit4 true ctxSplit4 rstZero).2.2.cmp 2
    ∧ (bcf_p1_cal extChi siteSplit4 true ctxSplit4 rstZero).2.2.p_chi2 < 5 / 100 := by
  have hq : ∀ a x, 0 ≤ extChi.kf_gammaq a x ∧ extChi.kf_gammaq a x ≤ 1 := by
    intro a x
    show 0 ≤ 1 / (1 + x ^ 4) ∧ 1 / (1 + x ^ 4) ≤ 1
    have : 0 ≤ x ^ 4 := by positivity
    exact ⟨by positivity, by rw [div_le_one (by linarith)]; linarith⟩
  have h4 : extChi.kf_gammaq (1 / 2) 4 ≤ 1 / 100 := by
    show (1 : ℚ) / (1 + 4 ^ 4) ≤ 1 / 100
    norm_num
  exact ⟨hq, h4, (bcf_p1_cal_contrast_split extChi hq h4 rstZero).2.1,
    (bcf_p1_cal_contrast_split extChi hq h4 rstZero).2.2.2.2⟩

/-- The context `mc_cal_afs` leaves keeps `n1`. -/
theorem mc_cal_afs_n1 (ma : bcf_p1aux_t) (p q : ℚ) : (mc_cal_afs ma p q).2.1.n1 = ma.n1 := by
  have e : (afsPass ma).n1 = ma.n1 := (mc_cal_y_frame _).2.2.2.2.2.2.2.1
  unfold mc_cal_afs
  simp only
  split_ifs <;> exact e

/-- The outputs of `bcf_p1_cal` for the tests: `perm_rank`, `lrt`, and `cmp`,
`p_chi2` when `contrast2` is not called. -/
theorem bcf_p1_cal_tests (ext : Ext) (site : Site) (dc : Bool) (ma : bcf_p1aux_t)
    (rst : bcf_p1rst_t) (h : ¬ site.n_allele < 2) :
    (bcf_p1_cal ext site dc ma rst).2.2.perm_rank = -1
    ∧ (ma.n1 ≤ 0 → (bcf_p1_cal ext site dc ma rst).2.2.lrt = -1)
    ∧ (¬ (dc = true ∧ (bcf_p1_cal ext site dc ma rst).2.2.p_var > 1 / 2) →
        (bcf_p1_cal ext site dc ma rst).2.2.cmp = (fun _ => -1)
        ∧ (bcf_p1_cal ext site dc ma rst).2.2.p_chi2 = -1)
    ∧ ((dc = true ∧ (bcf_p1_cal ext site dc ma rst).2.2.p_var > 1 / 2) →
        (bcf_p1_cal ext site dc ma rst).2.2.cmp
          = (contrast2 ext (mc_cal_afs (calCtx site ma) rst.p_ref_folded rst.p_var_folded).2.1
              (fun _ => -1)).2.1
        ∧ (bcf_p1_cal ext site dc ma rst).2.2.p_chi2
          = (contrast2 ext (mc_cal_afs (calCtx site ma) rst.p_ref_folded rst.p_var_folded).2.1
              (fun _ => -1)).1) := by
  have hn1 : (mc_cal_afs (calCtx site ma) rst.p_ref_folded rst.p_var_folded).2.1.n1 = ma.n1 :=
    mc_cal_afs_n1 _ _ _
  have hpv := (bcf_p1_cal_fields ext site dc ma rst h).2.1
  rw [hpv]
  unfold bcf_p1_cal
  simp only
  rw [if_neg h]
  by_cases hc : (dc = true ∧
      sumTo (mc_cal_afs (calCtx site ma) rst.p_ref_folded rst.p_var_folded).2.1.afs1
        (mc_cal_afs (calCtx site ma) rst.p_ref_folded rst.p_var_folded).2.1.M > 1 / 2)
  · rw [if_pos hc]
    refine ⟨rfl, fun hle => ?_, fun hnc => absurd hc hnc, fun _ => ⟨rfl, rfl⟩⟩
    show (if (mc_cal_afs (calCtx site ma) rst.p_ref_folded rst.p_var_folded).2.1.n1 > 0
      then _ else (-1 : ℚ)) = -1
    rw [if_neg (by rw [hn1]; omega)]
  · rw [if_neg hc]
    refine ⟨rfl, fun hle => ?_, fun _ => ⟨rfl, rfl⟩, fun hcc => absurd hcc hc⟩
    show (if (mc_cal_afs (calCtx site ma) rst.p_ref_folded rst.p_var_folded).2.1.n1 > 0
      then _ else (-1 : ℚ)) = -1
    rw [if_neg (by rw [hn1]; omega)]

/-! ### C21: the sentinels of the tests that are not run -/

/-- C21. `bcf_p1_cal` always stores `perm_rank = -1`. When it succeeds
(`n_allele ≥ 2`, return code `0`): unless `do_contrast` is set and
`p_var > 0.5`, `contrast2` is not called and `cmp[0]`, `cmp[1]`, `cmp[2]` and
`p_chi2` are all `-1`; when `do_contrast` is set and `p_var > 0.5` they are
what `contrast2` leaves; and `lrt` is `-1` when `n1 ≤ 0`. -/
theorem bcf_p1_cal_sentinels (ext : Ext) (site : Site) (dc : Bool) (ma : bcf_p1aux_t)
    (rst : bcf_p1rst_t) :
    (bcf_p1_cal ext site dc ma rst).2.2.perm_rank = -1
    ∧ (¬ site.n_allele < 2 →
        (bcf_p1_cal ext site dc ma rst).1 = 0
        ∧ (¬ (dc = true ∧ (bcf_p1_cal ext site dc ma rst).2.2.p_var > 1 / 2) →
            (∀ i, (bcf_p1_cal ext site dc ma rst).2.2.cmp i = -1)
            ∧ (bcf_p1_cal ext site dc ma rst).2.2.p_chi2 = -1)
        ∧ ((dc = true ∧ (bcf_p1_cal ext site dc ma rst).2.2.p_var > 1 / 2) →
            (bcf_p1_cal ext site dc ma rst).2.2.cmp
              = (contrast2 ext
                  (mc_cal_afs (calCtx site ma) rst.p_ref_folded rst.p_var_folded).2.1
                  (fun _ => -1)).2.1
            ∧ (bcf_p1_cal ext site dc ma rst).2.2.p_chi2
              = (contrast2 ext
                  (mc_cal_afs (calCtx site ma) rst.p_ref_folded rst.p_var_folded).2.1
                  (fun _ => -1)).1)
        ∧ (ma.n1 ≤ 0 → (bcf_p1_cal ext site dc ma rst).2.2.lrt = -1)) := by
  constructor
  · by_cases h : site.n_allele < 2
    · rw [bcf_p1_cal_fail ext site dc ma rst h]
    · exact (bcf_p1_cal_tests ext site dc ma rst h).1
  · intro h
    obtain ⟨_, t2, t3, t4⟩ := bcf_p1_cal_tests ext site dc ma rst h
    refine ⟨(bcf_p1_cal_ok ext site dc ma rst h).1, fun hc => ?_, t4, t2⟩
    obtain ⟨c1, c2⟩ := t3 hc
    exact ⟨fun i => congrFun c1 i, c2⟩

/-- Witness of C21: four samples homozygous for the reference, without
`do_contrast` and without a split. -/
theorem bcf_p1_cal_sentinels_witness :
    ¬ siteRef4.n_allele < 2
    ∧ ctxFour.n1 ≤ 0
    ∧ (bcf_p1_cal extLower siteRef4 false ctxFour rstZero).2.2.perm_rank = -1
    ∧ (bcf_p1_cal extLower siteRef4 false ctxFour rstZero).2.2.lrt = -1
    ∧ (∀ i, (bcf_p1_cal extLower siteRef4 false ctxFour rstZero).2.2.cmp i = -1)
    ∧ (bcf_p1_cal extLower siteRef4 false ctxFour rstZero).2.2.p_chi2 = -1 := by
  have hn : ¬ siteRef4.n_allele < 2 := by decide
  have h1 : ctxFour.n1 ≤ 0 := by decide
  obtain ⟨w1, w2⟩ := bcf_p1_cal_sentinels extLower siteRef4 false ctxFour rstZero
  obtain ⟨_, w3, _, w5⟩ := w2 hn
  have hc : ¬ (false = true ∧
      (bcf_p1_cal extLower siteRef4 false ctxFour rstZero).2.2.p_var > 1 / 2) :=
    fun hh => Bool.false_ne_true hh.1
  exact ⟨hn, h1, w1, w5 h1, (w3 hc).1, (w3 hc).2⟩

/-- A sum over `0..M` split into its first entry, the entries `1..M-1` and its
last entry. -/
theorem sumTo_ends (f : Nat → ℚ) (M : Nat) (hM : 1 ≤ M) :
    sumTo f (M + 1) = f 0 + sumRange f 1 (M - 1) + f M := by
  obtain ⟨m, rfl⟩ : ∃ m, M = m + 1 := ⟨M - 1, by omega⟩
  have e : sumTo f (m + 1) = f 0 + sumRange f 1 m := by
    rw [sumRange_eq_sum, sumTo_eq_sum, Finset.range_eq_Ico,
      Finset.sum_eq_sum_Ico_succ_bot (Nat.succ_pos m)]
  show sumTo f (m + 1) + f (m + 1) = _
  rw [e]
  rfl

/-- The folded probabilities that `mc_cal_afs` stores when the normaliser is not
zero and `M ≥ 1`. -/
theorem mc_cal_afs_folded (ma : bcf_p1aux_t) (p q : ℚ) (hS : afsSum ma ≠ 0) (hM : 1 ≤ ma.M) :
    (mc_cal_afs ma p q).2.2.1
        = (afsPhi ma ma.M + afsPhi ma 0) / 2 * ((afsPass ma).z ma.M + (afsPass ma).z 0)
          / afsFoldSum ma
    ∧ (mc_cal_afs ma p q).2.2.2
        = sumRange (fun k => (afsPhi ma k + afsPhi ma (ma.M - k)) / 2 * (afsPass ma).z k) 1
            (ma.M - 1) / afsFoldSum ma := by
  unfold mc_cal_afs
  simp only
  rw [if_neg hS]
  refine ⟨?_, rfl⟩
  show (afsPhi ma (if ma.M < 1 then 1 else ma.M)
      + afsPhi ma (ma.M - (if ma.M < 1 then 1 else ma.M))) / 2 * _ / _ = _
  rw [if_neg (by omega), Nat.sub_self]
  rfl

/-- The folded probabilities of `mc_cal_afs` sum to one. -/
theorem mc_cal_afs_folded_sum (ma : bcf_p1aux_t) (p q : ℚ) (hS : afsSum ma ≠ 0)
    (hM : 1 ≤ ma.M) (hF : afsFoldSum ma ≠ 0) :
    (mc_cal_afs ma p q).2.2.1 + (mc_cal_afs ma p q).2.2.2 = 1 := by
  obtain ⟨e1, e2⟩ := mc_cal_afs_folded ma p q hS hM
  rw [e1, e2, ← add_div, div_eq_one_iff_eq hF]
  unfold afsFoldSum
  rw [sumTo_ends _ ma.M hM]
  simp only [Nat.sub_zero, Nat.sub_self]
  ring

/-- The folded probabilities that `bcf_p1_cal` reports are those of `mc_cal_afs`. -/
theorem bcf_p1_cal_folded (ext : Ext) (site : Site) (dc : Bool) (ma : bcf_p1aux_t)
    (rst : bcf_p1rst_t) (h : ¬ site.n_allele < 2) :
    (bcf_p1_cal ext site dc ma rst).2.2.p_ref_folded
        = (mc_cal_afs (calCtx site ma) rst.p_ref_folded rst.p_var_folded).2.2.1
    ∧ (bcf_p1_cal ext site dc ma rst).2.2.p_var_folded
        = (mc_cal_afs (calCtx site ma) rst.p_ref_folded rst.p_var_folded).2.2.2 := by
  unfold bcf_p1_cal
  simp only
  rw [if_neg h]
  split_ifs <;> exact ⟨rfl, rfl⟩

/-! ### C30: the reference and variant probabilities are complementary -/

/-- C30. When `bcf_p1_cal` succeeds with `M ≥ 1`, a normaliser `Σ phi[k] z[k]`
and a folded normaliser `Σ (phi[k] + phi[M-k])/2 z[k]` that are not zero, then
`p_ref = afs1[M]`, `p_var = Σ_{k<M} afs1[k]` and `p_ref + p_var = 1`;
`p_ref_folded` is `(phi[M] + phi[0])/2 * (z[M] + z[0])` over the folded
normaliser, `p_var_folded` is the sum of `(phi[k] + phi[M-k])/2 * z[k]` for
`k` in `1..M-1` over it, and `p_ref_folded + p_var_folded = 1`; `phi` is the
prior that `is_indel` selects. -/
theorem bcf_p1_cal_complementary (ext : Ext) (site : Site) (dc : Bool) (ma : bcf_p1aux_t)
    (rst : bcf_p1rst_t) (h : ¬ site.n_allele < 2) (hM : 1 ≤ ma.M)
    (hS : afsSum (calCtx site ma) ≠ 0) (hF : afsFoldSum (calCtx site ma) ≠ 0) :
    (bcf_p1_cal ext site dc ma rst).1 = 0
    ∧ (bcf_p1_cal ext site dc ma rst).2.2.p_ref
        = (bcf_p1_cal ext site dc ma rst).2.1.afs1 ma.M
    ∧ (bcf_p1_cal ext site dc ma rst).2.2.p_var
        = sumTo (bcf_p1_cal ext site dc ma rst).2.1.afs1 ma.M
    ∧ (bcf_p1_cal ext site dc ma rst).2.2.p_ref + (bcf_p1_cal ext site dc ma rst).2.2.p_var = 1
    ∧ (bcf_p1_cal ext site dc ma rst).2.2.p_ref_folded
        = (afsPhi (calCtx site ma) ma.M + afsPhi (calCtx site ma) 0) / 2
            * ((afsPass (calCtx site ma)).z ma.M + (afsPass (calCtx site ma)).z 0)
          / afsFoldSum (calCtx site ma)
    ∧ (bcf_p1_cal ext site dc ma rst).2.2.p_var_folded
        = sumRange (fun k => (afsPhi (calCtx site ma) k + afsPhi (calCtx site ma) (ma.M - k)) / 2
              * (afsPass (calCtx site ma)).z k) 1 (ma.M - 1)
          / afsFoldSum (calCtx site ma)
    ∧ (bcf_p1_cal ext site dc ma rst).2.2.p_ref_folded
        + (bcf_p1_cal ext site dc ma rst).2.2.p_var_folded = 1 := by
  obtain ⟨f1, f2, _⟩ := bcf_p1_cal_fields ext site dc ma rst h
  obtain ⟨g1, g2⟩ := bcf_p1_cal_folded ext site dc ma rst h
  have hM' : (mc_cal_afs (calCtx site ma) rst.p_ref_folded rst.p_var_folded).2.1.M = ma.M :=
    mc_cal_afs_M _ _ _
  have ha := bcf_p1_cal_afs1 ext site dc ma rst h
  obtain ⟨_, v2, _⟩ := mc_cal_afs_values (calCtx site ma) rst.p_ref_folded rst.p_var_folded hS
  obtain ⟨e1, e2⟩ := mc_cal_afs_folded (calCtx site ma) rst.p_ref_folded rst.p_var_folded hS hM
  have es := mc_cal_afs_folded_sum (calCtx site ma) rst.p_ref_folded rst.p_var_folded hS hM hF
  rw [hM'] at f1 f2
  refine ⟨(bcf_p1_cal_ok ext site dc ma rst h).1, ?_, ?_, ?_, g1.trans e1, g2.trans e2, ?_⟩
  · rw [f1, ha]
  · rw [f2, ha]
  · rw [f1, f2, add_comm]
    exact v2
  · rw [g1, g2]
    exact es

/-- The folded normaliser of four samples homozygous for the reference. -/
theorem ref4_foldSum : 0 < afsFoldSum (calCtx siteRef4 ctxFour) := by
  obtain ⟨z0, z6, z7, z8⟩ := ref4_z
  obtain ⟨p0, p8⟩ := ref4_phi
  have hM : (calCtx siteRef4 ctxFour).M = 8 := rfl
  unfold afsFoldSum
  rw [hM]
  simp only [sumTo]
  rw [z0 0 (by omega), z0 1 (by omega), z0 2 (by omega), z0 3 (by omega), z0 4 (by omega),
    z0 5 (by omega), z6, z7, z8]
  simp only [Nat.reduceSub]
  rw [p0 6 (by omega), p0 7 (by omega), p8, p0 2 (by omega), p0 1 (by omega), p0 0 (by omega)]
  norm_num

/-- Witness of C30: four samples homozygous for the reference. -/
theorem bcf_p1_cal_complementary_witness :
    (¬ siteRef4.n_allele < 2 ∧ 1 ≤ ctxFour.M ∧ afsSum (calCtx siteRef4 ctxFour) ≠ 0
      ∧ afsFoldSum (calCtx siteRef4 ctxFour) ≠ 0)
    ∧ (bcf_p1_cal extLower siteRef4 false ctxFour rstZero).2.2.p_ref
        + (bcf_p1_cal extLower siteRef4 false ctxFour rstZero).2.2.p_var = 1
    ∧ (bcf_p1_cal extLower siteRef4 false ctxFour rstZero).2.2.p_ref_folded
        + (bcf_p1_cal extLower siteRef4 false ctxFour rstZero).2.2.p_var_folded = 1 := by
  have hn : ¬ siteRef4.n_allele < 2 := by decide
  have hM : 1 ≤ ctxFour.M := by decide
  have hS : afsSum (calCtx siteRef4 ctxFour) ≠ 0 := (ref4_afs1 0 0).1
  have hF : afsFoldSum (calCtx siteRef4 ctxFour) ≠ 0 := ne_of_gt ref4_foldSum
  have w := bcf_p1_cal_complementary extLower siteRef4 false ctxFour rstZero hn hM hS hF
  exact ⟨⟨hn, hM, hS, hF⟩, w.2.2.2.1, w.2.2.2.2.2.2⟩

/-- The context that `contrast2` returns: the one it was given, with `hg` built
when it was absent and the split is valid. -/
theorem contrast2_ctx (ext : Ext) (p1 : bcf_p1aux_t) (ret : Fin 3 → ℚ) :
    (contrast2 ext p1 ret).2.2
      = if p1.n1 ≤ 0 ∨ (p1.n : Int) - p1.n1 ≤ 0 then p1 else contrastCtx p1 := by
  by_cases h : p1.n1 ≤ 0 ∨ (p1.n : Int) - p1.n1 ≤ 0
  · rw [if_pos h]
    unfold contrast2
    rw [if_pos h]
  · rw [if_neg h]
    have h1 : 0 < p1.n1 := by omega
    have h2 : 0 < (p1.n : Int) - p1.n1 := by omega
    rw [contrast2_eq ext p1 ret h1 h2]
    split_ifs <;> rfl

/-- A matrix `hg` that is present is kept by `bcf_p1_set_n1` and by `contrast2`. -/
theorem applyCall_hg (ext : Ext) (ma : bcf_p1aux_t) (c : CtxCall) (h : List (List ℚ))
    (hh : ma.hg = some h) : (applyCall ext ma c).hg = some h := by
  cases c with
  | set_n1 n1 =>
    show (bcf_p1_set_n1 ma n1).2.hg = some h
    unfold bcf_p1_set_n1
    split_ifs <;> exact hh
  | contrast ret =>
    show (contrast2 ext ma ret).2.2.hg = some h
    rw [contrast2_ctx]
    have e : contrastCtx ma = ma := by
      unfold contrastCtx
      rw [hh]
    rw [e]
    split_ifs <;> exact hh

/-- A matrix `hg` that is present is kept by every sequence of calls. -/
theorem applyCalls_hg (ext : Ext) (cs : List CtxCall) (ma : bcf_p1aux_t) (h : List (List ℚ))
    (hh : ma.hg = some h) : (applyCalls ext ma cs).hg = some h := by
  induction cs generalizing ma with
  | nil => exact hh
  | cons c cs ih => exact ih (applyCall ext ma c) (applyCall_hg ext ma c h hh)

/-- The shape of the matrix that `contrast2` builds. -/
theorem hgBuild_shape (M n1 n2 : Nat) :
    (hgBuild M n1 n2).length = 2 * n1 + 1
    ∧ ∀ row, row ∈ hgBuild M n1 n2 → row.length = 2 * n2 + 1 := by
  unfold hgBuild
  refine ⟨by simp, fun row hrow => ?_⟩
  rw [List.mem_map] at hrow
  obtain ⟨k1, _, rfl⟩ := hrow
  simp

/-- The fields that `bcf_p1_set_n1` and `contrast2` keep. -/
theorem applyCall_frame (ext : Ext) (ma : bcf_p1aux_t) (c : CtxCall) :
    (applyCall ext ma c).n = ma.n ∧ (applyCall ext ma c).M = ma.M := by
  cases c with
  | set_n1 n1 =>
    show (bcf_p1_set_n1 ma n1).2.n = ma.n ∧ (bcf_p1_set_n1 ma n1).2.M = ma.M
    unfold bcf_p1_set_n1
    split_ifs <;> exact ⟨rfl, rfl⟩
  | contrast ret =>
    show (contrast2 ext ma ret).2.2.n = ma.n ∧ (contrast2 ext ma ret).2.2.M = ma.M
    rw [contrast2_ctx]
    unfold contrastCtx
    split_ifs <;> first | exact ⟨rfl, rfl⟩ | (split <;> exact ⟨rfl, rfl⟩)

/-- What `bcf_p1_set_n1` does to `n1` and `hg`: a value that is accepted is
stored, and `hg` is not touched. -/
theorem set_n1_hg (ext : Ext) (ma : bcf_p1aux_t) (v : Int) :
    (applyCall ext ma (CtxCall.set_n1 v)).hg = ma.hg
    ∧ (v ≠ 0 → v < (ma.n : Int) → ma.M = ma.n * 2 →
        (applyCall ext ma (CtxCall.set_n1 v)).n1 = v) := by
  show (bcf_p1_set_n1 ma v).2.hg = ma.hg ∧ (v ≠ 0 → v < (ma.n : Int) → ma.M = ma.n * 2 →
    (bcf_p1_set_n1 ma v).2.n1 = v)
  unfold bcf_p1_set_n1
  refine ⟨by split_ifs <;> rfl, fun h0 h1 h2 => ?_⟩
  rw [if_neg (by omega), if_neg (by omega)]

/-- What `contrast2` does to `n1` and `hg`: `n1` is kept, and an absent `hg` is
built for the split in force when the split is valid. -/
theorem contrast_hg (ext : Ext) (ma : bcf_p1aux_t) (ret : Fin 3 → ℚ) :
    (applyCall ext ma (CtxCall.contrast ret)).n1 = ma.n1
    ∧ (ma.hg = none → 0 < ma.n1 → ma.n1 < (ma.n : Int) →
        (applyCall ext ma (CtxCall.contrast ret)).hg
          = some (hgBuild ma.M ma.n1.toNat ((ma.n : Int) - ma.n1).toNat))
    ∧ (ma.hg = none → ¬ (0 < ma.n1 ∧ ma.n1 < (ma.n : Int)) →
        (applyCall ext ma (CtxCall.contrast ret)).hg = none) := by
  show (contrast2 ext ma ret).2.2.n1 = ma.n1
    ∧ (ma.hg = none → 0 < ma.n1 → ma.n1 < (ma.n : Int) →
        (contrast2 ext ma ret).2.2.hg
          = some (hgBuild ma.M ma.n1.toNat ((ma.n : Int) - ma.n1).toNat))
    ∧ (ma.hg = none → ¬ (0 < ma.n1 ∧ ma.n1 < (ma.n : Int)) →
        (contrast2 ext ma ret).2.2.hg = none)
  rw [contrast2_ctx]
  refine ⟨?_, fun hh h1 h2 => ?_, fun hh hv => ?_⟩
  · unfold contrastCtx
    split_ifs <;> first | rfl | (split <;> rfl)
  · rw [if_neg (by omega), contrastCtx_none ma hh]
  · rw [if_pos (by omega)]
    exact hh

/-- The calls `bcf_p1_set_n1(a)`, `contrast2`, `bcf_p1_set_n1(b)`, `contrast2` on
a uniformly diploid context without `hg`, for two valid splits `a` and `b`: the
split is `b` and `hg` is the matrix of the split `a`. -/
theorem resplit_hg (ext : Ext) (ma : bcf_p1aux_t) (a b : Int) (r1 r2 : Fin 3 → ℚ)
    (hh : ma.hg = none) (hM : ma.M = ma.n * 2) (ha : 0 < a) (ha2 : a < (ma.n : Int))
    (hb : 0 < b) (hb2 : b < (ma.n : Int)) :
    (applyCalls ext ma
        [CtxCall.set_n1 a, CtxCall.contrast r1, CtxCall.set_n1 b, CtxCall.contrast r2]).n1 = b
    ∧ (applyCalls ext ma
        [CtxCall.set_n1 a, CtxCall.contrast r1, CtxCall.set_n1 b, CtxCall.contrast r2]).hg
        = some (hgBuild ma.M a.toNat ((ma.n : Int) - a).toNat) := by
  show (applyCall ext (applyCall ext (applyCall ext (applyCall ext ma (CtxCall.set_n1 a))
      (CtxCall.contrast r1)) (CtxCall.set_n1 b)) (CtxCall.contrast r2)).n1 = b
    ∧ (applyCall ext (applyCall ext (applyCall ext (applyCall ext ma (CtxCall.set_n1 a))
      (CtxCall.contrast r1)) (CtxCall.set_n1 b)) (CtxCall.contrast r2)).hg = _
  obtain ⟨s1, s2⟩ := set_n1_hg ext ma a
  have s2 := s2 (by omega) ha2 hM
  obtain ⟨f1, f2⟩ := applyCall_frame ext ma (CtxCall.set_n1 a)
  generalize applyCall ext ma (CtxCall.set_n1 a) = c1 at s1 s2 f1 f2
  obtain ⟨t1, t2, _⟩ := contrast_hg ext c1 r1
  have t2 := t2 (s1.trans hh) (by rw [s2]; exact ha) (by rw [s2, f1]; exact ha2)
  rw [f2, s2, f1] at t2
  obtain ⟨g1, g2⟩ := applyCall_frame ext c1 (CtxCall.contrast r1)
  generalize applyCall ext c1 (CtxCall.contrast r1) = c2 at t1 t2 g1 g2
  obtain ⟨u1, u2⟩ := set_n1_hg ext c2 b
  have u2 := u2 (by omega) (by rw [g1, f1]; exact hb2) (by rw [g2, g1, f2, f1]; exact hM)
  generalize applyCall ext c2 (CtxCall.set_n1 b) = c3 at u1 u2
  obtain ⟨v1, _⟩ := contrast_hg ext c3 r2
  exact ⟨v1.trans u2, applyCall_hg ext c3 _ _ (u1.trans t2)⟩

/-! ### C26: the cached matrix -/

/-- C26. On the context of three diploid samples, after `bcf_p1_set_n1(1)`,
`contrast2`, `bcf_p1_set_n1(2)`, `contrast2`, the split is `n1 = 2` and the
matrix `hg` is still the one built for `n1 = 1`: it has `3` rows, not
`2*n1 + 1 = 5`, and its entry `hg[0][1]` is `2/3`, not the value `1/3` of the
split two and one. The second `contrast2` and `bcf_p1_destroy` index it with
the bounds of the new split. -/
theorem hg_not_rebuilt :
    (applyCalls extLower ctxThreeInit callsResplit).n1 = 2
    ∧ (applyCalls extLower ctxThreeInit callsResplit).hg = some (hgBuild 6 1 2)
    ∧ (hgBuild 6 1 2).length = 3
    ∧ 2 * (applyCalls extLower ctxThreeInit callsResplit).n1.toNat + 1 = 5
    ∧ hgAt (applyCalls extLower ctxThreeInit callsResplit).hg 0 1 = 2 / 3
    ∧ hgVal 6 2 1 0 1 = 1 / 3 := by
  obtain ⟨r1, r2⟩ := resplit_hg extLower ctxThreeInit 1 2 (fun _ => 0) (fun _ => 0) rfl rfl
    (by decide) (by decide) (by decide) (by decide)
  have r1' : (applyCalls extLower ctxThreeInit callsResplit).n1 = 2 := r1
  have r2' : (applyCalls extLower ctxThreeInit callsResplit).hg = some (hgBuild 6 1 2) := r2
  refine ⟨r1', r2', (hgBuild_shape 6 1 2).1, ?_, ?_, ?_⟩
  · rw [r1']
    rfl
  · rw [r2', hgAt_build 6 1 2 0 1 (by omega) (by omega)]
    norm_num [hgVal, Nat.factorial]
  · norm_num [hgVal, Nat.factorial]

/-- The life of the matrix `hg`. It is built by `contrast2` only, when it is
absent and the split is valid (`0 < n1 < n`): it then has `2*n1 + 1` rows of
`2*(n - n1) + 1` entries, the hypergeometric values of the split in force at
that call. `bcf_p1_set_n1` never touches `hg`, and once `hg` is present no
sequence of `bcf_p1_set_n1` and `contrast2` calls changes it. -/
theorem hg_built_once (ext : Ext) (ma : bcf_p1aux_t) :
    (∀ v, (applyCall ext ma (CtxCall.set_n1 v)).hg = ma.hg)
    ∧ (∀ ret, ma.hg = none → 0 < ma.n1 → ma.n1 < (ma.n : Int) →
        (applyCall ext ma (CtxCall.contrast ret)).hg
            = some (hgBuild ma.M ma.n1.toNat ((ma.n : Int) - ma.n1).toNat)
        ∧ (hgBuild ma.M ma.n1.toNat ((ma.n : Int) - ma.n1).toNat).length
            = 2 * ma.n1.toNat + 1
        ∧ (∀ row, row ∈ hgBuild ma.M ma.n1.toNat ((ma.n : Int) - ma.n1).toNat →
            row.length = 2 * ((ma.n : Int) - ma.n1).toNat + 1)
        ∧ (∀ k1 k2, k1 ≤ 2 * ma.n1.toNat → k2 ≤ 2 * ((ma.n : Int) - ma.n1).toNat →
            hgAt (applyCall ext ma (CtxCall.contrast ret)).hg k1 k2
              = hgVal ma.M ma.n1.toNat ((ma.n : Int) - ma.n1).toNat k1 k2))
    ∧ (∀ ret, ma.hg = none → ¬ (0 < ma.n1 ∧ ma.n1 < (ma.n : Int)) →
        (applyCall ext ma (CtxCall.contrast ret)).hg = none)
    ∧ (∀ h cs, ma.hg = some h → (applyCalls ext ma cs).hg = some h) := by
  refine ⟨fun v => (set_n1_hg ext ma v).1, fun ret hh h1 h2 => ?_,
    fun ret hh hv => (contrast_hg ext ma ret).2.2 hh hv,
    fun h cs hh => applyCalls_hg ext cs ma h hh⟩
  have e := (contrast_hg ext ma ret).2.1 hh h1 h2
  refine ⟨e, (hgBuild_shape _ _ _).1, (hgBuild_shape _ _ _).2, fun k1 k2 a b => ?_⟩
  rw [e, hgAt_build _ _ _ k1 k2 a b]

/-- An instance of `hg_built_once`: the context of three diploid samples with
the first sample set apart. -/
theorem hg_built_once_witness :
    (ctxThree.hg = none ∧ 0 < ctxThree.n1 ∧ ctxThree.n1 < (ctxThree.n : Int))
    ∧ (applyCall extLower ctxThree (CtxCall.contrast (fun _ => 0))).hg
        = some (hgBuild ctxThree.M ctxThree.n1.toNat ((ctxThree.n : Int) - ctxThree.n1).toNat)
    ∧ (∀ cs, (applyCalls extLower
          (applyCall extLower ctxThree (CtxCall.contrast (fun _ => 0))) cs).hg
        = some (hgBuild ctxThree.M ctxThree.n1.toNat
            ((ctxThree.n : Int) - ctxThree.n1).toNat)) := by
  have h0 : ctxThree.hg = none := rfl
  have h1 : 0 < ctxThree.n1 := by decide
  have h2 : ctxThree.n1 < (ctxThree.n : Int) := by decide
  have e := ((hg_built_once extLower ctxThree).2.1 (fun _ => 0) h0 h1 h2).1
  exact ⟨⟨h0, h1, h2⟩, e, fun cs =>
    (hg_built_once extLower (applyCall extLower ctxThree (CtxCall.contrast (fun _ => 0)))).2.2.2
      _ cs e⟩

/-- A cell of `z[0]` that is zero is zero after the two pruning loops. -/
theorem prune_keeps_zero (f1 f2 : Nat) (z0 z1 : Arr) (mn mx k : Nat) (h : mn ≤ mx)
    (hz : z0 k = 0) :
    (pruneMax f2 (pruneMin f1 z0 z1 mn mx).1 (pruneMin f1 z0 z1 mn mx).2.1
      (pruneMin f1 z0 z1 mn mx).2.2 mx).1 k = 0 := by
  obtain ⟨_, a2, a3, _⟩ := pruneMin_spec f1 z0 z1 mn mx h
  obtain ⟨_, _, b3, _⟩ := pruneMax_spec f2 (pruneMin f1 z0 z1 mn mx).1
    (pruneMin f1 z0 z1 mn mx).2.1 (pruneMin f1 z0 z1 mn mx).2.2 mx a2
  rw [b3 k, a3 k, hz]
  split_ifs <;> rfl

/-- After a haploid sample the buffer `z[1]` is the pruned former `z[0]`: a cell
that was zero is zero. -/
theorem mixStep_hap_z1 (ma : bcf_p1aux_t) (j : Nat) (s : CoreState) (k : Nat)
    (h : s.last_min ≤ s.last_max) (hz : s.z0 k = 0) : (mixStep ma 1 j s).z1 k = 0 :=
  prune_keeps_zero _ _ s.z0 s.z1 s.last_min s.last_max k h hz

/-! ### C28: the indices of the two buffers -/

/-- C28. For the context that `bcf_p1_init` builds for two samples of ploidy
`(2, 1)` (`M = 3`, so `z` and `zswap` have the four cells `0..3`),
`mc_cal_y_core` stores to the cell of index `4 = M + 1` of `zswap`: the first
sample is diploid and not the last one, so after `_max += 2` the line
`z[1][_max+1] = z[1][_max+2] = 0.` runs with `_max = 2`. The marker held by
that cell is overwritten, by the first turn of the loop and in the context
that `mc_cal_y_core` returns. -/
theorem mc_cal_y_core_store_past_end :
    ctxMixedMark.n = 2 ∧ ctxMixedMark.M = 3
    ∧ ctxMixedMark.ploidy.map (fun p => (p 0, p 1)) = some (2, 1)
    ∧ ctxMixedMark.zswap 4 = 7
    ∧ (coreInit ctxMixedMark).z1 4 = 7
    ∧ (mixStep ctxMixedMark 2 0 (coreInit ctxMixedMark)).last_max = 2
    ∧ (mixStep ctxMixedMark 2 0 (coreInit ctxMixedMark)).z0 4 = 0
    ∧ (mc_cal_y_core ctxMixedMark 0).zswap 4 = 0 := by
  have z4 : (mixStep ctxMixedMark 2 0 (coreInit ctxMixedMark)).z0 4 = 0 := rfl
  have hle : (mixStep ctxMixedMark 2 0 (coreInit ctxMixedMark)).last_min
      ≤ (mixStep ctxMixedMark 2 0 (coreInit ctxMixedMark)).last_max := by decide
  refine ⟨rfl, rfl, rfl, rfl, rfl, rfl, z4, ?_⟩
  exact mixStep_hap_z1 ctxMixedMark 1 _ 4 hle z4

/-- A sum of entries that are `c` times the entries of another sum. -/
theorem sumTo_scale (f g : Nat → ℚ) (c : ℚ) (n : Nat) (h : ∀ k, k < n → f k = c * g k) :
    sumTo f n = c * sumTo g n := by
  rw [sumTo_congr h, mul_comm, ← sumTo_mul_right]
  exact sumTo_congr (fun k _ => mul_comm _ _)

/-- The index found by the loop `if (max < f k) max = f k, arg = k` does not
change when entries that are not negative are multiplied by a positive
constant. -/
theorem argMaxFrom_scale (f g : Nat → ℚ) (c : ℚ) (hc : 0 < c) (n : Nat)
    (hg : ∀ k, k < n → 0 ≤ g k) (hf : ∀ k, k < n → f k = c * g k) :
    (argMaxFrom f n).2 = (argMaxFrom g n).2
    ∧ (((argMaxFrom f n).1 = -1 ∧ (argMaxFrom g n).1 = -1)
      ∨ ((argMaxFrom f n).1 = c * (argMaxFrom g n).1 ∧ 0 ≤ (argMaxFrom g n).1)) := by
  induction n with
  | zero => exact ⟨rfl, Or.inl ⟨rfl, rfl⟩⟩
  | succ n ih =>
    obtain ⟨i1, i2⟩ := ih (fun k hk => hg k (by omega)) (fun k hk => hf k (by omega))
    have hgn := hg n (by omega)
    have hfn := hf n (by omega)
    have hfn0 : 0 ≤ f n := by rw [hfn]; exact mul_nonneg (le_of_lt hc) hgn
    show (if (argMaxFrom f n).1 < f n then (f n, (n : Int)) else argMaxFrom f n).2
        = (if (argMaxFrom g n).1 < g n then (g n, (n : Int)) else argMaxFrom g n).2
      ∧ (((if (argMaxFrom f n).1 < f n then (f n, (n : Int)) else argMaxFrom f n).1 = -1
          ∧ (if (argMaxFrom g n).1 < g n then (g n, (n : Int)) else argMaxFrom g n).1 = -1)
        ∨ ((if (argMaxFrom f n).1 < f n then (f n, (n : Int)) else argMaxFrom f n).1
            = c * (if (argMaxFrom g n).1 < g n then (g n, (n : Int)) else argMaxFrom g n).1
          ∧ 0 ≤ (if (argMaxFrom g n).1 < g n then (g n, (n : Int)) else argMaxFrom g n).1))
    rcases i2 with ⟨a1, a2⟩ | ⟨a1, a2⟩
    · rw [if_pos (by rw [a1]; linarith), if_pos (by rw [a2]; linarith)]
      exact ⟨rfl, Or.inr ⟨hfn, hgn⟩⟩
    · by_cases hlt : (argMaxFrom g n).1 < g n
      · rw [if_pos hlt, if_pos (by rw [a1, hfn]; exact mul_lt_mul_of_pos_left hlt hc)]
        exact ⟨rfl, Or.inr ⟨hfn, hgn⟩⟩
      · rw [if_neg hlt, if_neg (by
          rw [a1, hfn]
          exact not_lt.mpr (mul_le_mul_of_nonneg_left (not_lt.mp hlt) (le_of_lt hc)))]
        exact ⟨i1, Or.inr ⟨a1, a2⟩⟩

/-- The upward scan of the credible interval reads the cells `lo..lo+c-1` only. -/
theorem cilScanUp_congr (a b : Arr) (lo c : Nat) (p : ℚ)
    (h : ∀ k, lo ≤ k → k < lo + c → a k = b k) : cilScanUp a lo c p = cilScanUp b lo c p := by
  induction c generalizing lo p with
  | zero => rfl
  | succ c ih =>
    unfold cilScanUp
    rw [h lo (le_refl _) (by omega), ih (lo + 1) (p + b lo) (fun k h1 h2 => h k (by omega) (by omega))]

/-- The downward scan of the credible interval reads the cells `0..c-1` only. -/
theorem cilScanDown_congr (a b : Arr) (c : Nat) (p : ℚ) (h : ∀ k, k < c → a k = b k) :
    cilScanDown a c p = cilScanDown b c p := by
  induction c generalizing p with
  | zero => rfl
  | succ c ih =>
    unfold cilScanDown
    rw [h c (by omega), ih (p + b c) (fun k h1 => h k (by omega))]

/-- The outputs of `mc_cal_afs` for two contexts with the same `M` and prior
whose distributions `z[0..M]` differ by a constant factor that is not zero. -/
theorem mc_cal_afs_scale (X Y : bcf_p1aux_t) (p q c : ℚ) (hc : c ≠ 0) (hM : X.M = Y.M)
    (hphi : afsPhi X = afsPhi Y)
    (hz : ∀ k, k ≤ X.M → (afsPass X).z k = c * (afsPass Y).z k) (hS : afsSum Y ≠ 0) :
    afsSum X ≠ 0
    ∧ (∀ k, k ≤ X.M → (mc_cal_afs X p q).2.1.afs1 k = (mc_cal_afs Y p q).2.1.afs1 k)
    ∧ (mc_cal_afs X p q).1 = (mc_cal_afs Y p q).1
    ∧ (mc_cal_afs X p q).2.2.1 = (mc_cal_afs Y p q).2.2.1
    ∧ (mc_cal_afs X p q).2.2.2 = (mc_cal_afs Y p q).2.2.2 := by
  have eS : afsSum X = c * afsSum Y := by
    unfold afsSum
    rw [hM]
    refine sumTo_scale _ _ c _ (fun k hk => ?_)
    rw [hz k (by omega), hphi]
    ring
  have hSX : afsSum X ≠ 0 := by
    rw [eS]
    exact mul_ne_zero hc hS
  obtain ⟨x1, _, x3, _⟩ := mc_cal_afs_values X p q hSX
  obtain ⟨y1, _, y3, _⟩ := mc_cal_afs_values Y p q hS
  have e1 : ∀ k, k ≤ X.M → (mc_cal_afs X p q).2.1.afs1 k = (mc_cal_afs Y p q).2.1.afs1 k := by
    intro k hk
    rw [x1 k hk, y1 k (by omega), eS, hz k hk, hphi, mul_left_comm, mul_div_mul_left _ _ hc]
  have eF : sumTo (fun k => (afsPhi X k + afsPhi X (X.M - k)) / 2 * (afsPass X).z k) (X.M + 1)
      = c * sumTo (fun k => (afsPhi Y k + afsPhi Y (Y.M - k)) / 2 * (afsPass Y).z k)
          (Y.M + 1) := by
    rw [hM]
    refine sumTo_scale _ _ c _ (fun k hk => ?_)
    rw [hz k (by omega), hphi]
    ring
  have eR : sumRange (fun k => (afsPhi X k + afsPhi X (X.M - k)) / 2 * (afsPass X).z k) 1
        (X.M - 1)
      = c * sumRange (fun k => (afsPhi Y k + afsPhi Y (Y.M - k)) / 2 * (afsPass Y).z k) 1
          (Y.M - 1) := by
    rw [hM]
    unfold sumRange
    refine sumTo_scale _ _ c _ (fun k hk => ?_)
    show (afsPhi X (1 + k) + afsPhi X (Y.M - (1 + k))) / 2 * (afsPass X).z (1 + k)
      = c * ((afsPhi Y (1 + k) + afsPhi Y (Y.M - (1 + k))) / 2 * (afsPass Y).z (1 + k))
    rw [hz (1 + k) (by omega), hphi]
    ring
  refine ⟨hSX, e1, ?_, ?_, ?_⟩
  · rw [x3, y3, hM]
    congr 1
    exact sumTo_congr (fun k hk => by rw [e1 k (by omega)])
  · unfold mc_cal_afs
    simp only
    rw [if_neg hSX, if_neg hS]
    show (afsPhi X (if X.M < 1 then 1 else X.M)
          + afsPhi X (X.M - (if X.M < 1 then 1 else X.M))) / 2
          * ((afsPass X).z X.M + (afsPass X).z 0)
          / sumTo (fun k => (afsPhi X k + afsPhi X (X.M - k)) / 2 * (afsPass X).z k) (X.M + 1)
        = (afsPhi Y (if Y.M < 1 then 1 else Y.M)
          + afsPhi Y (Y.M - (if Y.M < 1 then 1 else Y.M))) / 2
          * ((afsPass Y).z Y.M + (afsPass Y).z 0)
          / sumTo (fun k => (afsPhi Y k + afsPhi Y (Y.M - k)) / 2 * (afsPass Y).z k) (Y.M + 1)
    rw [eF, hz X.M (le_refl _), hz 0 (Nat.zero_le _), hphi, hM, ← mul_add, mul_left_comm,
      mul_div_mul_left _ _ hc]
  · unfold mc_cal_afs
    simp only
    rw [if_neg hSX, if_neg hS]
    show sumRange (fun k => (afsPhi X k + afsPhi X (X.M - k)) / 2 * (afsPass X).z k) 1 (X.M - 1)
          / sumTo (fun k => (afsPhi X k + afsPhi X (X.M - k)) / 2 * (afsPass X).z k) (X.M + 1)
        = sumRange (fun k => (afsPhi Y k + afsPhi Y (Y.M - k)) / 2 * (afsPass Y).z k) 1
            (Y.M - 1)
          / sumTo (fun k => (afsPhi Y k + afsPhi Y (Y.M - k)) / 2 * (afsPass Y).z k) (Y.M + 1)
    rw [eF, eR, mul_div_mul_left _ _ hc]

/-- The distribution left by the two-stage path of `mc_cal_y` is a positive
multiple of the one left by the single pass, which the context takes when its
`n1` is not a valid split; the entries of the latter are not negative. -/
theorem afsPass_scale (A : bcf_p1aux_t) (b : Int) (hM : A.M = A.n * 2) (h1 : 0 < A.n1)
    (h2 : A.n1 < (A.n : Int)) (hb : ¬ (0 < b ∧ b < (A.n : Int)))
    (hpdg : ∀ j, j < A.n → ∀ i, 0 < pdgOf A j i) :
    ∃ c : ℚ, 0 < c
      ∧ (∀ k, k ≤ A.M → (afsPass A).z k = c * (afsPass { A with n1 := b }).z k)
      ∧ (∀ k, k ≤ A.M → 0 ≤ (afsPass { A with n1 := b }).z k) := by
  have hn1 : ((A.n1.toNat : Nat) : Int) = A.n1 := Int.toNat_of_nonneg (le_of_lt h1)
  have hlt : A.n1.toNat < A.n := by omega
  have hpos : 0 < A.n1.toNat := by omega
  obtain ⟨s1, _, _⟩ := mc_cal_y_split { A with afs1 := A.afs1.zero (A.M + 1) } hM h1 h2
  have iF := dipLoop_inv { A with afs1 := A.afs1.zero (A.M + 1) } 0 A.n
    (by show 2 * A.n ≤ A.M; omega) (fun j _ hj c => hpdg j (by omega) c)
  have i1 := dipLoop_inv { A with afs1 := A.afs1.zero (A.M + 1) } 0 A.n1.toNat
    (by show 2 * A.n1.toNat ≤ A.M; omega) (fun j _ hj c => hpdg j (by omega) c)
  have i2 := dipLoop_inv { A with afs1 := A.afs1.zero (A.M + 1) } A.n1.toNat
    (A.n - A.n1.toNat) (by show 2 * (A.n - A.n1.toNat) ≤ A.M; omega)
    (fun j _ hj c => hpdg j (by omega) c)
  have hB : afsPass { A with n1 := b }
      = coreFinish { A with n1 := b, afs1 := A.afs1.zero (A.M + 1) }
          (dipLoop { A with n1 := b, afs1 := A.afs1.zero (A.M + 1) } 0 (A.n - 0)) := by
    unfold afsPass mc_cal_y
    rw [if_neg (fun h => hb ⟨h.1, h.2.1⟩)]
    exact mc_cal_y_core_dip _ 0 hM
  have hcg := dipLoop_congr { A with afs1 := A.afs1.zero (A.M + 1) }
    { A with n1 := b, afs1 := A.afs1.zero (A.M + 1) } 0 A.n rfl rfl rfl
    (by show 2 * A.n ≤ A.M; omega)
  have zB : ∀ k, k ≤ A.M → (afsPass { A with n1 := b }).z k
      = (dipLoop { A with afs1 := A.afs1.zero (A.M + 1) } 0 A.n).z0 k := by
    intro k hk
    rw [hB]
    exact (coreFinish_z _ _ k hk).trans (hcg.hz0 k hk).symm
  refine ⟨(dipLoop { A with afs1 := A.afs1.zero (A.M + 1) } 0 A.n).et
      / ((dipLoop { A with afs1 := A.afs1.zero (A.M + 1) } 0 A.n1.toNat).et
        * (dipLoop { A with afs1 := A.afs1.zero (A.M + 1) } A.n1.toNat
            (A.n - A.n1.toNat)).et),
    div_pos iF.etpos (mul_pos i1.etpos i2.etpos), fun k hk => ?_, fun k hk => ?_⟩
  · rw [zB k hk, mul_comm]
    exact s1 k hk
  · rw [zB k hk]
    by_cases hw : (dipLoop { A with afs1 := A.afs1.zero (A.M + 1) } 0 A.n).last_min ≤ k
        ∧ k ≤ (dipLoop { A with afs1 := A.afs1.zero (A.M + 1) } 0 A.n).last_max
    · exact le_of_lt (iF.pos k hw.1 hw.2)
    · exact le_of_eq (iF.out0 k hk (by omega)).symm

/-- The fields `f_flat` and `z` that `bcf_p1_cal` leaves. -/
theorem bcf_p1_cal_flat (ext : Ext) (site : Site) (dc : Bool) (ma : bcf_p1aux_t)
    (rst : bcf_p1rst_t) (h : ¬ site.n_allele < 2) :
    (bcf_p1_cal ext site dc ma rst).2.2.f_flat
        = sumTo (fun k => (k : ℚ)
            * ((mc_cal_afs (calCtx site ma) rst.p_ref_folded rst.p_var_folded).2.1.z k
              / sumTo (mc_cal_afs (calCtx site ma) rst.p_ref_folded rst.p_var_folded).2.1.z
                  ((mc_cal_afs (calCtx site ma) rst.p_ref_folded rst.p_var_folded).2.1.M + 1)))
            ((mc_cal_afs (calCtx site ma) rst.p_ref_folded rst.p_var_folded).2.1.M + 1)
          / ((mc_cal_afs (calCtx site ma) rst.p_ref_folded rst.p_var_folded).2.1.M : ℚ)
    ∧ (bcf_p1_cal ext site dc ma rst).2.1.z
        = (mc_cal_afs (calCtx site ma) rst.p_ref_folded rst.p_var_folded).2.1.z := by
  unfold bcf_p1_cal
  simp only
  rw [if_neg h]
  split_ifs <;>
    first
    | exact ⟨rfl, rfl⟩
    | exact ⟨rfl, (contrast2_frame ext _ _).2.2.1⟩

/-- The normalisers of `mc_cal_afs` for two contexts with the same `M` and prior
whose distributions `z[0..M]` differ by a constant factor. -/
theorem afsSum_scale (X Y : bcf_p1aux_t) (c : ℚ) (hM : X.M = Y.M) (hphi : afsPhi X = afsPhi Y)
    (hz : ∀ k, k ≤ X.M → (afsPass X).z k = c * (afsPass Y).z k) :
    afsSum X = c * afsSum Y := by
  unfold afsSum
  rw [hM]
  refine sumTo_scale _ _ c _ (fun k hk => ?_)
  rw [hz k (by omega), hphi]
  ring

/-- The outputs of `bcf_p1_cal` that depend on the shape of `z` only, for a
context with a valid split and for the same context with an `n1` that is not
one. -/
theorem bcf_p1_cal_scale (ext : Ext) (site : Site) (dc : Bool) (ma : bcf_p1aux_t)
    (rst : bcf_p1rst_t) (b : Int) (hn : ¬ site.n_allele < 2) (hM : ma.M = ma.n * 2)
    (hq : ∀ i, 0 < ma.q2p i) (h1 : 0 < ma.n1) (h2 : ma.n1 < (ma.n : Int))
    (hb : ¬ (0 < b ∧ b < (ma.n : Int))) (hS : afsSum (calCtx site ma) ≠ 0) :
    ((∀ k, k ≤ ma.M → (bcf_p1_cal ext site dc ma rst).2.1.afs1 k
        = (bcf_p1_cal ext site dc { ma with n1 := b } rst).2.1.afs1 k)
      ∧ (bcf_p1_cal ext site dc ma rst).2.2.f_exp
        = (bcf_p1_cal ext site dc { ma with n1 := b } rst).2.2.f_exp
      ∧ (bcf_p1_cal ext site dc ma rst).2.2.p_ref
        = (bcf_p1_cal ext site dc { ma with n1 := b } rst).2.2.p_ref
      ∧ (bcf_p1_cal ext site dc ma rst).2.2.p_var
        = (bcf_p1_cal ext site dc { ma with n1 := b } rst).2.2.p_var
      ∧ (bcf_p1_cal ext site dc ma rst).2.2.p_ref_folded
        = (bcf_p1_cal ext site dc { ma with n1 := b } rst).2.2.p_ref_folded
      ∧ (bcf_p1_cal ext site dc ma rst).2.2.p_var_folded
        = (bcf_p1_cal ext site dc { ma with n1 := b } rst).2.2.p_var_folded)
    ∧ ((bcf_p1_cal ext site dc ma rst).2.2.ac
        = (bcf_p1_cal ext site dc { ma with n1 := b } rst).2.2.ac
      ∧ (bcf_p1_cal ext site dc ma rst).2.2.f_flat
        = (bcf_p1_cal ext site dc { ma with n1 := b } rst).2.2.f_flat
      ∧ (bcf_p1_cal ext site dc ma rst).2.2.cil
        = (bcf_p1_cal ext site dc { ma with n1 := b } rst).2.2.cil
      ∧ (bcf_p1_cal ext site dc ma rst).2.2.cih
        = (bcf_p1_cal ext site dc { ma with n1 := b } rst).2.2.cih)
    ∧ ∃ c : ℚ, 0 < c ∧ ∀ k, k ≤ ma.M →
        (bcf_p1_cal ext site dc ma rst).2.1.z k
          = c * (bcf_p1_cal ext site dc { ma with n1 := b } rst).2.1.z k := by
  have hctx : calCtx site { ma with n1 := b } = { calCtx site ma with n1 := b } := rfl
  have hpdg : ∀ j, j < (calCtx site ma).n → ∀ i, 0 < pdgOf (calCtx site ma) j i := by
    intro j hj i
    have hi := i.isLt
    show 0 < (if j * 3 + i.val < 3 * ma.n then _ else _)
    rw [if_pos (by have : j < ma.n := hj; omega)]
    exact hq _
  obtain ⟨c, hc, hz, hz0⟩ := afsPass_scale (calCtx site ma) b hM h1 h2 hb hpdg
  have hSB : afsSum { calCtx site ma with n1 := b } ≠ 0 := by
    intro h0
    exact hS (by rw [afsSum_scale (calCtx site ma) { calCtx site ma with n1 := b } c rfl rfl hz,
      h0, mul_zero])
  obtain ⟨_, e1, e2, e3, e4⟩ := mc_cal_afs_scale (calCtx site ma) { calCtx site ma with n1 := b }
    rst.p_ref_folded rst.p_var_folded c (ne_of_gt hc) rfl rfl hz hSB
  have zA := (mc_cal_afs_values (calCtx site ma) rst.p_ref_folded rst.p_var_folded hS).2.2.2
  have zB := (mc_cal_afs_values { calCtx site ma with n1 := b } rst.p_ref_folded
    rst.p_var_folded hSB).2.2.2
  have mA : (mc_cal_afs (calCtx site ma) rst.p_ref_folded rst.p_var_folded).2.1.M = ma.M :=
    mc_cal_afs_M _ _ _
  have mB : (mc_cal_afs { calCtx site ma with n1 := b } rst.p_ref_folded
      rst.p_var_folded).2.1.M = ma.M := mc_cal_afs_M _ _ _
  obtain ⟨a1, a2, a3, a4, a5⟩ := bcf_p1_cal_fields ext site dc ma rst hn
  obtain ⟨b1, b2, b3, b4, b5⟩ := bcf_p1_cal_fields ext site dc { ma with n1 := b } rst hn
  obtain ⟨_, a6, _⟩ := bcf_p1_cal_ok ext site dc ma rst hn
  obtain ⟨_, b6, _⟩ := bcf_p1_cal_ok ext site dc { ma with n1 := b } rst hn
  obtain ⟨a7, a8⟩ := bcf_p1_cal_folded ext site dc ma rst hn
  obtain ⟨b7, b8⟩ := bcf_p1_cal_folded ext site dc { ma with n1 := b } rst hn
  obtain ⟨a9, a10⟩ := bcf_p1_cal_flat ext site dc ma rst hn
  obtain ⟨b9, b10⟩ := bcf_p1_cal_flat ext site dc { ma with n1 := b } rst hn
  have a11 := bcf_p1_cal_afs1 ext site dc ma rst hn
  have b11 := bcf_p1_cal_afs1 ext site dc { ma with n1 := b } rst hn
  rw [hctx] at b1 b2 b3 b4 b5 b6 b7 b8 b9 b10 b11
  rw [mA] at a1 a2 a3 a4 a5 a9
  rw [mB] at b1 b2 b3 b4 b5 b9
  rw [zA] at a3 a9 a10
  rw [zB] at b3 b9 b10
  have hsz : sumTo (afsPass (calCtx site ma)).z (ma.M + 1)
      = c * sumTo (afsPass { calCtx site ma with n1 := b }).z (ma.M + 1) :=
    sumTo_scale _ _ c _ (fun k hk => hz k (by have : (calCtx site ma).M = ma.M := rfl; omega))
  refine ⟨⟨fun k hk => ?_, ?_, ?_, ?_, ?_, ?_⟩, ⟨?_, ?_, ?_, ?_⟩, c, hc, fun k hk => ?_⟩
  · rw [a11, b11]
    exact e1 k hk
  · rw [a6, b6]
    exact e2
  · rw [a1, b1]
    exact e1 ma.M (le_refl _)
  · rw [a2, b2]
    exact sumTo_congr (fun k hk => e1 k (by have : (calCtx site ma).M = ma.M := rfl; omega))
  · rw [a7, b7]
    exact e3
  · rw [a8, b8]
    exact e4
  · rw [a3, b3, (argMaxFrom_scale _ _ c hc (ma.M + 1) (fun k hk => hz0 k (by
      have : (calCtx site ma).M = ma.M := rfl
      omega)) (fun k hk => hz k (by
      have : (calCtx site ma).M = ma.M := rfl
      omega))).1]
  · rw [a9, b9, hsz]
    congr 1
    refine sumTo_congr (fun k hk => ?_)
    rw [hz k (by have : (calCtx site ma).M = ma.M := rfl; omega),
      mul_div_mul_left _ _ (ne_of_gt hc)]
  · rw [a4, b4, cilScanDown_congr _ _ (ma.M + 1) 0 (fun k hk => e1 k (by
      have : (calCtx site ma).M = ma.M := rfl
      omega))]
  · rw [a5, b5, cilScanUp_congr _ _ 0 (ma.M + 1) 0 (fun k _ hk => e1 k (by
      have : (calCtx site ma).M = ma.M := rfl
      omega))]
  · rw [a10, b10]
    exact hz k hk

/-! ### C29: the outputs that do not depend on the split -/

/-- C29. For a uniformly diploid context (`M = 2n`) with a valid split
`0 < n1 < n`, a table `q2p` with positive entries (as `pow(10, -i/10)` is, so
that every likelihood `pdg` that `cal_pdg` stores is positive) and a normaliser
that is not zero, `bcf_p1_cal` reports the same `afs1[0..M]`, `f_exp`, `p_ref`,
`p_var`, `p_ref_folded`, `p_var_folded`, `ac`, `f_flat`, `cil` and `cih` as for
the same context with any `n1` that is not a valid split (such as the `-1` of
`bcf_p1_init`): the `z[0..M]` of the two-stage path is the `z[0..M]` of the
single pass multiplied by one positive constant. -/
theorem bcf_p1_cal_split_independent (ext : Ext) (site : Site) (dc : Bool)
    (ma : bcf_p1aux_t) (rst : bcf_p1rst_t) (b : Int) (hn : ¬ site.n_allele < 2)
    (hM : ma.M = ma.n * 2) (hq : ∀ i, 0 < ma.q2p i) (h1 : 0 < ma.n1)
    (h2 : ma.n1 < (ma.n : Int)) (hb : ¬ (0 < b ∧ b < (ma.n : Int)))
    (hS : afsSum (calCtx site ma) ≠ 0) :
    ((∀ k, k ≤ ma.M → (bcf_p1_cal ext site dc ma rst).2.1.afs1 k
        = (bcf_p1_cal ext site dc { ma with n1 := b } rst).2.1.afs1 k)
      ∧ (bcf_p1_cal ext site dc ma rst).2.2.f_exp
        = (bcf_p1_cal ext site dc { ma with n1 := b } rst).2.2.f_exp
      ∧ (bcf_p1_cal ext site dc ma rst).2.2.p_ref
        = (bcf_p1_cal ext site dc { ma with n1 := b } rst).2.2.p_ref
      ∧ (bcf_p1_cal ext site dc ma rst).2.2.p_var
        = (bcf_p1_cal ext site dc { ma with n1 := b } rst).2.2.p_var
      ∧ (bcf_p1_cal ext site dc ma rst).2.2.p_ref_folded
        = (bcf_p1_cal ext site dc { ma with n1 := b } rst).2.2.p_ref_folded
      ∧ (bcf_p1_cal ext site dc ma rst).2.2.p_var_folded
        = (bcf_p1_cal ext site dc { ma with n1 := b } rst).2.2.p_var_folded)
    ∧ ((bcf_p1_cal ext site dc ma rst).2.2.ac
        = (bcf_p1_cal ext site dc { ma with n1 := b } rst).2.2.ac
      ∧ (bcf_p1_cal ext site dc ma rst).2.2.f_flat
        = (bcf_p1_cal ext site dc { ma with n1 := b } rst).2.2.f_flat
      ∧ (bcf_p1_cal ext site dc ma rst).2.2.cil
        = (bcf_p1_cal ext site dc { ma with n1 := b } rst).2.2.cil
      ∧ (bcf_p1_cal ext site dc ma rst).2.2.cih
        = (bcf_p1_cal ext site dc { ma with n1 := b } rst).2.2.cih)
    ∧ ∃ c : ℚ, 0 < c ∧ ∀ k, k ≤ ma.M →
        (bcf_p1_cal ext site dc ma rst).2.1.z k
          = c * (bcf_p1_cal ext site dc { ma with n1 := b } rst).2.1.z k :=
  bcf_p1_cal_scale ext site dc ma rst b hn hM hq h1 h2 hb hS

/-- Witness of C29: the four samples split two and two, against the same
context with `n1 = -1`. -/
theorem bcf_p1_cal_split_independent_witness :
    (¬ siteSplit4.n_allele < 2 ∧ ctxSplit4.M = ctxSplit4.n * 2 ∧ (∀ i, 0 < ctxSplit4.q2p i)
      ∧ 0 < ctxSplit4.n1 ∧ ctxSplit4.n1 < (ctxSplit4.n : Int)
      ∧ ¬ (0 < (-1 : Int) ∧ (-1 : Int) < (ctxSplit4.n : Int))
      ∧ afsSum (calCtx siteSplit4 ctxSplit4) ≠ 0)
    ∧ (bcf_p1_cal extLower siteSplit4 false ctxSplit4 rstZero).2.2.f_exp
        = (bcf_p1_cal extLower siteSplit4 false { ctxSplit4 with n1 := -1 } rstZero).2.2.f_exp
    ∧ (bcf_p1_cal extLower siteSplit4 false ctxSplit4 rstZero).2.2.ac
        = (bcf_p1_cal extLower siteSplit4 false { ctxSplit4 with n1 := -1 } rstZero).2.2.ac := by
  have hn : ¬ siteSplit4.n_allele < 2 := by decide
  have hM : ctxSplit4.M = ctxSplit4.n * 2 := by decide
  have hq : ∀ i, 0 < ctxSplit4.q2p i := by
    intro i
    show (0 : ℚ) < 1 / 10 ^ (i / 10)
    positivity
  have h1 : 0 < ctxSplit4.n1 := by decide
  have h2 : ctxSplit4.n1 < (ctxSplit4.n : Int) := by decide
  have hb : ¬ (0 < (-1 : Int) ∧ (-1 : Int) < (ctxSplit4.n : Int)) := by decide
  have hS : afsSum (calCtx siteSplit4 ctxSplit4) ≠ 0 := by
    rw [split4_sum.2.2.2]
    norm_num
  have w := bcf_p1_cal_split_independent extLower siteSplit4 false ctxSplit4 rstZero (-1)
    hn hM hq h1 h2 hb hS
  exact ⟨⟨hn, hM, hq, h1, h2, hb, hS⟩, w.1.2.1, w.2.1.1⟩

/-- The key `p[i]<<4 | i` of an allele `i < 16` is `16 * score + i`. -/
theorem pdgKeys_eq (ma : bcf_p1aux_t) (i : Nat) (hi : i < 16) :
    pdgKeys ma i = pdgScore ma i * 16 + i := by
  have h := Nat.mul_add_lt_is_or (i := 4) (by simpa using hi) (pdgScore ma i)
  show (pdgScore ma i <<< 4) ||| i = pdgScore ma i * 16 + i
  rw [Nat.shiftLeft_eq, Nat.mul_comm, ← h]

/-- The exchange of two cells is the composition with a transposition. -/
theorem swapCells_eq (p : Nat → Nat) (a b : Nat) :
    swapCells p a b = fun k => p (Equiv.swap a b k) := by
  funext k
  unfold swapCells
  rw [Equiv.swap_apply_def]
  split_ifs <;> rfl

/-- The inner loop of the insertion sort permutes the cells `0..j`. -/
theorem insInner_perm (j : Nat) (p : Nat → Nat) :
    ∃ σ : Equiv.Perm Nat, (∀ k, j < k → σ k = k) ∧ insInner p j = fun k => p (σ k) := by
  induction j generalizing p with
  | zero => exact ⟨1, fun _ _ => rfl, rfl⟩
  | succ j ih =>
    unfold insInner
    split_ifs with h
    · obtain ⟨τ, hτ, e⟩ := ih (swapCells p (j + 1) j)
      refine ⟨Equiv.swap (j + 1) j * τ, fun k hk => ?_, ?_⟩
      · rw [Equiv.Perm.mul_apply, hτ k (by omega),
          Equiv.swap_apply_of_ne_of_ne (by omega) (by omega)]
      · rw [e, swapCells_eq]
        rfl
    · exact ⟨1, fun _ _ => rfl, rfl⟩

/-- The insertion sort permutes the cells `0..c`. -/
theorem insSort_perm (c : Nat) (p : Nat → Nat) :
    ∃ σ : Equiv.Perm Nat, (∀ k, c < k → σ k = k) ∧ insSort p c = fun k => p (σ k) := by
  induction c with
  | zero => exact ⟨1, fun _ _ => rfl, rfl⟩
  | succ c ih =>
    obtain ⟨σ1, h1, e1⟩ := ih
    obtain ⟨σ2, h2, e2⟩ := insInner_perm (c + 1) (insSort p c)
    refine ⟨σ1 * σ2, fun k hk => ?_, ?_⟩
    · rw [Equiv.Perm.mul_apply, h2 k hk, h1 k (by omega)]
    · show insInner (insSort p c) (c + 1) = _
      rw [e2, e1]
      rfl

/-- The inner loop of the insertion sort, started at `j` on cells `0..i` that
are in order when the cell `j` is left out and whose cell `j` is at most every
cell after it, leaves the cells `0..i` in order. -/
theorem insInner_sorted (i j : Nat) (p : Nat → Nat)
    (h1 : ∀ a b, a < b → b ≤ i → a ≠ j → b ≠ j → p a ≤ p b)
    (h2 : ∀ b, j < b → b ≤ i → p j ≤ p b) :
    ∀ a b, a < b → b ≤ i → insInner p j a ≤ insInner p j b := by
  induction j generalizing p with
  | zero =>
    intro a b hab hb
    show p a ≤ p b
    rcases Nat.eq_zero_or_pos a with ha | ha
    · rw [ha]
      exact h2 b (by omega) hb
    · exact h1 a b hab hb (by omega) (by omega)
  | succ j ih =>
    unfold insInner
    split_ifs with h
    · refine ih (swapCells p (j + 1) j) (fun a b hab hb ha hbj => ?_) (fun b hjb hb => ?_)
      · unfold swapCells
        by_cases hb1 : b = j + 1
        · rw [if_neg (by omega), if_neg ha, if_pos hb1]
          exact h1 a j (by omega) (by omega) (by omega) (by omega)
        · by_cases ha1 : a = j + 1
          · rw [if_pos ha1, if_neg hb1, if_neg hbj]
            exact h1 j b (by omega) hb (by omega) hb1
          · rw [if_neg ha1, if_neg ha, if_neg hb1, if_neg hbj]
            exact h1 a b hab hb ha1 hb1
      · unfold swapCells
        rw [if_neg (by omega), if_pos rfl]
        by_cases hb1 : b = j + 1
        · rw [if_pos hb1]
          exact le_of_lt h
        · rw [if_neg hb1, if_neg (by omega)]
          exact h2 b (by omega) hb
    · intro a b hab hb
      by_cases hb1 : b = j + 1
      · rw [hb1]
        by_cases haj : a = j
        · rw [haj]
          exact not_lt.mp h
        · exact le_trans (h1 a j (by omega) (by omega) (by omega) (by omega)) (not_lt.mp h)
      · by_cases ha1 : a = j + 1
        · rw [ha1]
          exact h2 b (by omega) hb
        · exact h1 a b hab hb ha1 hb1

/-- The insertion sort leaves the cells `0..c` in order. -/
theorem insSort_sorted (c : Nat) (p : Nat → Nat) :
    ∀ a b, a < b → b ≤ c → insSort p c a ≤ insSort p c b := by
  induction c with
  | zero =>
    intro a b hab hb
    omega
  | succ c ih =>
    show ∀ a b, a < b → b ≤ c + 1 →
      insInner (insSort p c) (c + 1) a ≤ insInner (insSort p c) (c + 1) b
    exact insInner_sorted (c + 1) (c + 1) (insSort p c)
      (fun a b hab hb _ hbj => ih a b hab (by omega)) (fun b hjb hb => by omega)

/-- The scan for the key whose low four bits are zero finds the index `t` when
it is the only one among `0..c-1`. -/
theorem scanRank_spec (p : Nat → Nat) (c t : Nat) (ht : t < c) (h0 : p t &&& 0xf = 0)
    (h1 : ∀ i, t < i → i < c → p i &&& 0xf ≠ 0) : scanRank p c = (t : Int) := by
  induction c with
  | zero => omega
  | succ c ih =>
    unfold scanRank
    by_cases hc : t = c
    · rw [← hc, if_pos h0]
    · rw [if_neg (h1 c (by omega) (by omega))]
      exact ih (by omega) (fun i a b => h1 i a (by omega))

/-- The index that `cal_pdg` returns: for at most sixteen alleles the sorted
array holds the keys in strictly ascending order, the key of allele `0` stands
at the returned index, and that index is the number of alleles whose score is
below the score of allele `0`. -/
theorem cal_pdg_sorted (m : Nat) (ma : bcf_p1aux_t) (h1 : 1 ≤ m) (h16 : m ≤ 16) :
    (∀ a b, a < b → b < m →
        insSort (pdgKeys ma) (m - 1) a < insSort (pdgKeys ma) (m - 1) b)
    ∧ (∃ σ : Equiv.Perm Nat, (∀ k, m ≤ k → σ k = k)
        ∧ ∀ i, insSort (pdgKeys ma) (m - 1) i = pdgKeys ma (σ i))
    ∧ ∃ r : Nat, scanRank (insSort (pdgKeys ma) (m - 1)) m = (r : Int) ∧ r < m
        ∧ insSort (pdgKeys ma) (m - 1) r = pdgKeys ma 0
        ∧ r = ((Finset.range m).filter
            (fun i => 1 ≤ i ∧ pdgScore ma i < pdgScore ma 0)).card := by
  obtain ⟨σ, hfix, hσ⟩ := insSort_perm (m - 1) (pdgKeys ma)
  have hP : ∀ i, insSort (pdgKeys ma) (m - 1) i = pdgKeys ma (σ i) := fun i => by rw [hσ]
  have hfix' : ∀ k, m ≤ k → σ k = k := fun k hk => hfix k (by omega)
  have hrange : ∀ i, i < m → σ i < m := by
    intro i hi
    by_contra hc
    have e := hfix' (σ i) (by omega)
    have := σ.injective e
    omega
  have hK : ∀ i, i < m → pdgKeys ma i = pdgScore ma i * 16 + i :=
    fun i hi => pdgKeys_eq ma i (by omega)
  have hinj : ∀ a b, a < m → b < m → pdgKeys ma a = pdgKeys ma b → a = b := by
    intro a b ha hb e
    rw [hK a ha, hK b hb] at e
    omega
  have hsorted : ∀ a b, a < b → b < m →
      insSort (pdgKeys ma) (m - 1) a < insSort (pdgKeys ma) (m - 1) b := by
    intro a b hab hb
    refine lt_of_le_of_ne (insSort_sorted (m - 1) (pdgKeys ma) a b hab (by omega)) (fun e => ?_)
    rw [hP a, hP b] at e
    have := σ.injective (hinj _ _ (hrange a (by omega)) (hrange b hb) e)
    omega
  have ht : σ.symm 0 < m := by
    by_contra hc
    have e := hfix' (σ.symm 0) (by omega)
    rw [Equiv.apply_symm_apply] at e
    omega
  have hPt : insSort (pdgKeys ma) (m - 1) (σ.symm 0) = pdgKeys ma 0 := by
    rw [hP, Equiv.apply_symm_apply]
  have hmod : ∀ x : Nat, x &&& 0xf = x % 16 := fun x => Nat.and_pow_two_sub_one_eq_mod x 4
  have hscan : scanRank (insSort (pdgKeys ma) (m - 1)) m = ((σ.symm 0 : Nat) : Int) := by
    refine scanRank_spec _ m (σ.symm 0) ht ?_ (fun i hi him => ?_)
    · rw [hPt, hmod, hK 0 (by omega)]
      omega
    · rw [hP, hmod, hK (σ i) (hrange i him)]
      have hne : σ i ≠ 0 := by
        intro e
        have := congrArg σ.symm e
        rw [Equiv.symm_apply_apply] at this
        omega
      have := hrange i him
      omega
  refine ⟨hsorted, ⟨σ, hfix', hP⟩, σ.symm 0, hscan, ht, hPt, ?_⟩
  have hlow : (Finset.range m).filter
        (fun i => insSort (pdgKeys ma) (m - 1) i < pdgKeys ma 0)
      = Finset.range (σ.symm 0) := by
    ext i
    rw [Finset.mem_filter, Finset.mem_range, Finset.mem_range, ← hPt]
    constructor
    · rintro ⟨him, hlt⟩
      by_contra hc
      rcases Nat.lt_or_ge (σ.symm 0) i with c | c
      · exact absurd hlt (not_lt.mpr (le_of_lt (hsorted _ _ c him)))
      · have e : i = σ.symm 0 := by omega
        rw [e] at hlt
        exact lt_irrefl _ hlt
    · intro hi
      exact ⟨by omega, hsorted _ _ hi ht⟩
  have hcard : ((Finset.range m).filter
        (fun i => insSort (pdgKeys ma) (m - 1) i < pdgKeys ma 0)).card
      = ((Finset.range m).filter (fun a => pdgKeys ma a < pdgKeys ma 0)).card := by
    refine Finset.card_bij (fun i _ => σ i) (fun i hi => ?_) (fun i _ j _ e => σ.injective e)
      (fun a ha => ?_)
    · rw [Finset.mem_filter, Finset.mem_range] at hi ⊢
      exact ⟨hrange i hi.1, by rw [← hP]; exact hi.2⟩
    · rw [Finset.mem_filter, Finset.mem_range] at ha
      have hs : σ.symm a < m := by
        by_contra hc
        have e := hfix' (σ.symm a) (by omega)
        rw [Equiv.apply_symm_apply] at e
        omega
      refine ⟨σ.symm a, ?_, Equiv.apply_symm_apply σ a⟩
      rw [Finset.mem_filter, Finset.mem_range]
      exact ⟨hs, by rw [hP, Equiv.apply_symm_apply]; exact ha.2⟩
  have hkey : (Finset.range m).filter (fun a => pdgKeys ma a < pdgKeys ma 0)
      = (Finset.range m).filter (fun i => 1 ≤ i ∧ pdgScore ma i < pdgScore ma 0) := by
    refine Finset.filter_congr (fun a ha => ?_)
    rw [Finset.mem_range] at ha
    have ea := hK a ha
    have e0 := hK 0 (by omega)
    show pdgKeys ma a < pdgKeys ma 0 ↔ 1 ≤ a ∧ pdgScore ma a < pdgScore ma 0
    constructor
    · intro h
      have hpos : 1 ≤ a := by
        rcases Nat.eq_zero_or_pos a with h0 | h0
        · rw [h0] at h
          exact absurd h (lt_irrefl _)
        · exact h0
      exact ⟨hpos, by omega⟩
    · rintro ⟨g1, g2⟩
      omega
  rw [← hkey, ← hcard, hlow, Finset.card_range]

/-! ### C25: the likelihoods and the rank of the reference allele -/

/-- C25. For a record with at most sixteen alleles (and at least one), `cal_pdg`
sets `pdg[3j..3j+2] = (q2p[PL_j[2]], q2p[PL_j[1]], q2p[PL_j[0]])` for every
sample `j`; the key of allele `i` is `16 * score_i + i`, `score_i` being the sum
over the samples of `PL_j[(i+1)(i+2)/2 - 1]`; the insertion sort leaves the keys
in strictly ascending order; and the returned value is the index of the key of
allele `0` in that order, which is the number of alleles `i ≥ 1` with
`score_i < score_0`, a value in `0..n_allele-1`. -/
theorem cal_pdg_spec (n_allele : Nat) (ma : bcf_p1aux_t) (h1 : 1 ≤ n_allele)
    (h16 : n_allele ≤ 16) :
    (∀ j c, j < ma.n → c < 3 →
        (cal_pdg n_allele ma).2.pdg (3 * j + c) = ma.q2p (ma.PL (j * ma.PL_len + (2 - c))))
    ∧ (∀ i, i < n_allele → pdgKeys ma i = pdgScore ma i * 16 + i)
    ∧ (∀ a b, a < b → b < n_allele →
        insSort (pdgKeys ma) (n_allele - 1) a < insSort (pdgKeys ma) (n_allele - 1) b)
    ∧ (∃ σ : Equiv.Perm Nat, (∀ k, n_allele ≤ k → σ k = k)
        ∧ ∀ i, insSort (pdgKeys ma) (n_allele - 1) i = pdgKeys ma (σ i))
    ∧ ∃ r : Nat, (cal_pdg n_allele ma).1 = (r : Int) ∧ r < n_allele
        ∧ insSort (pdgKeys ma) (n_allele - 1) r = pdgKeys ma 0
        ∧ r = ((Finset.range n_allele).filter
            (fun i => 1 ≤ i ∧ pdgScore ma i < pdgScore ma 0)).card := by
  obtain ⟨s1, s2, s3⟩ := cal_pdg_sorted n_allele ma h1 h16
  refine ⟨fun j c hj hc => ?_, fun i hi => pdgKeys_eq ma i (by omega), s1, s2, s3⟩
  show (if 3 * j + c < 3 * ma.n
      then ma.q2p (ma.PL ((3 * j + c) / 3 * ma.PL_len + (2 - (3 * j + c) % 3)))
      else ma.pdg (3 * j + c)) = _
  have e1 : (3 * j + c) / 3 = j := by omega
  have e2 : (3 * j + c) % 3 = c := by omega
  rw [if_pos (by omega), e1, e2]

/-- Witness of C25: the biallelic record of four samples homozygous for the
reference. -/
theorem cal_pdg_spec_witness :
    (1 ≤ siteRef4.n_allele ∧ siteRef4.n_allele ≤ 16)
    ∧ (∀ j c, j < (calEnter siteRef4 ctxFour).n → c < 3 →
        (cal_pdg siteRef4.n_allele (calEnter siteRef4 ctxFour)).2.pdg (3 * j + c)
          = (calEnter siteRef4 ctxFour).q2p
              ((calEnter siteRef4 ctxFour).PL (j * (calEnter siteRef4 ctxFour).PL_len + (2 - c))))
    ∧ ∃ r : Nat, (cal_pdg siteRef4.n_allele (calEnter siteRef4 ctxFour)).1 = (r : Int)
        ∧ r < siteRef4.n_allele :=
  have w := cal_pdg_spec siteRef4.n_allele (calEnter siteRef4 ctxFour) (by decide) (by decide)
  ⟨⟨by decide, by decide⟩, w.1, w.2.2.2.2.imp (fun _ h => ⟨h.1, h.2.1⟩)⟩

/-- The accumulated likelihoods `t1` and `t2` that the two-stage path of
`mc_cal_y` leaves: those of the full pass after the sample `n1 - 1` and of the
pass over the samples `n1..n-1`. -/
theorem mc_cal_y_split_et (ma : bcf_p1aux_t) (hM : ma.M = ma.n * 2) (h1 : 0 < ma.n1)
    (h2 : ma.n1 < (ma.n : Int)) :
    (mc_cal_y ma).et1 = (dipLoop ma 0 ma.n1.toNat).et
    ∧ (mc_cal_y ma).et2 = (dipLoop ma ma.n1.toNat (ma.n - ma.n1.toNat)).et := by
  obtain ⟨c, hc⟩ : ∃ c : Nat, ma.n1 = (c : Int) + 1 := ⟨(ma.n1 - 1).toNat, by omega⟩
  have hcn : c + 1 < ma.n := by omega
  have hct : ma.n1.toNat = c + 1 := by omega
  let a : bcf_p1aux_t := { ma with
    z1 := ma.z1.zero (2 * ma.n1.toNat + 1)
    z2 := ma.z2.zero (2 * (ma.n - ma.n1.toNat) + 1)
    et1 := 1
    et2 := 1 }
  let b : bcf_p1aux_t := mc_cal_y_core a ma.n1.toNat
  let c' : bcf_p1aux_t := { b with et2 := b.et, z2 := b.z2.copy b.z (2 * (ma.n - ma.n1.toNat) + 1) }
  let d : bcf_p1aux_t := mc_cal_y_core c' 0
  have hb : b = coreFinish a (dipLoop a ma.n1.toNat (a.n - ma.n1.toNat)) :=
    mc_cal_y_core_dip a ma.n1.toNat hM
  have hcM : c'.M = c'.n * 2 := by
    show b.M = b.n * 2
    rw [hb]
    exact hM
  have hcn' : c'.n = ma.n := by
    show b.n = ma.n
    rw [hb]
    rfl
  have hcM' : c'.M = ma.M := by
    show b.M = ma.M
    rw [hb]
    rfl
  have hcp : c'.pdg = ma.pdg := by
    show b.pdg = ma.pdg
    rw [hb]
    rfl
  have hcn1 : c'.n1 = ma.n1 := by
    show b.n1 = ma.n1
    rw [hb]
    rfl
  have hd : d = coreFinish c' (dipLoop c' 0 (c'.n - 0)) := mc_cal_y_core_dip c' 0 hcM
  have q1 := dipLoop_congr c' ma 0 (c - 0 + 1) hcp hcn' hcM' (by rw [hcM']; omega)
  have q2 := dipLoop_congr a ma ma.n1.toNat (ma.n - ma.n1.toNat) rfl rfl rfl
    (by show _ ≤ ma.M; omega)
  have hmz : mc_cal_y ma
      = { d with z := d.z.fill 0 d.M (fun k => d.z k * (d.et / (d.et1 * d.et2))) } := by
    unfold mc_cal_y
    rw [if_pos ⟨h1, h2, hM⟩]
  constructor
  · rw [hmz]
    show d.et1 = _
    rw [hd]
    show (dipLoop c' 0 (c'.n - 0)).et1 = _
    rw [dipLoop_et1 c' 0 (c'.n - 0) c (by rw [hcn1]; exact hc) (Nat.zero_le c)
      (by rw [hcn']; omega), hct]
    exact q1.het
  · rw [hmz]
    show d.et2 = _
    rw [hd]
    show b.et = _
    rw [hb]
    exact q2.het

/-- Outside the new window `_min.._max+2` the buffer `z[1]` of a diploid update is
zero, when it was zero outside `_min.._max`. -/
theorem dipUpdate_out (B M0 : Nat) (pdg : Fin 3 → ℚ) (z0 z1 : Arr) (mn mx : Nat) (f : Bool)
    (h1 : ∀ k, k ≤ B → (k < mn ∨ mx < k) → z1 k = 0) :
    ∀ k, k ≤ B → (k < mn ∨ mx + 2 < k) → (dipUpdate M0 pdg z0 z1 mn mx f).1 k = 0 := by
  intro k hk ho
  have e : ((z1.fill mn (mx + 2) (dipVal M0 ![pdg 0, 2 * pdg 1, pdg 2] z0)).fill mn (mx + 2)
      (fun k => (z1.fill mn (mx + 2) (dipVal M0 ![pdg 0, 2 * pdg 1, pdg 2] z0)) k
        / sumRange (z1.fill mn (mx + 2) (dipVal M0 ![pdg 0, 2 * pdg 1, pdg 2] z0)) mn
            (mx + 2))) k = 0 := by
    rw [Arr.fill_out _ _ _ _ k ho, Arr.fill_out _ _ _ _ k ho]
    exact h1 k hk (by omega)
  simp only [dipUpdate, ite_apply, Arr.set_apply]
  split_ifs <;> first | rfl | exact e

/-- On the cells `0..B` the diploid update does not depend on whether the sample
is the last one, when `z[1]` was zero outside the window. -/
theorem dipUpdate_flag (B M0 : Nat) (pdg : Fin 3 → ℚ) (z0 z1 : Arr) (mn mx : Nat) (f g : Bool)
    (h1 : ∀ k, k ≤ B → (k < mn ∨ mx < k) → z1 k = 0) :
    ∀ k, k ≤ B → (dipUpdate M0 pdg z0 z1 mn mx f).1 k = (dipUpdate M0 pdg z0 z1 mn mx g).1 k := by
  intro k hk
  by_cases hw : k < mn ∨ mx + 2 < k
  · rw [dipUpdate_out B M0 pdg z0 z1 mn mx f h1 k hk hw,
      dipUpdate_out B M0 pdg z0 z1 mn mx g h1 k hk hw]
  · rcases f with _ | _ <;> rcases g with _ | _
    · rfl
    · simp only [dipUpdate, Bool.false_eq_true, if_false, if_true]
      rw [Arr.set_ne _ _ _ k (by omega), Arr.set_ne _ _ _ k (by omega)]
    · simp only [dipUpdate, Bool.false_eq_true, if_false, if_true]
      rw [Arr.set_ne _ _ _ k (by omega), Arr.set_ne _ _ _ k (by omega)]
    · rfl

/-- One turn of the uniformly diploid loop on two states that agree on the cells
`0..B` and are zero outside the window there, for two samples with the same
likelihoods: the new states agree on the cells `0..B` and are zero outside the
new window, whether or not either sample is the last one of its context. -/
theorem dipStep_sim (ma mb : bcf_p1aux_t) (ba ja bb jb B : Nat) (s t : CoreState)
    (hp : pdgOf ma ja = pdgOf mb jb) (h : CoreEq B s t) (hB : s.M + 2 ≤ B)
    (hout : ∀ k, k ≤ B → (k < s.last_min ∨ s.last_max < k) → s.z0 k = 0 ∧ s.z1 k = 0) :
    CoreEq B (dipStep ma ba ja s) (dipStep mb bb jb t)
    ∧ (∀ k, k ≤ B →
        (k < (dipStep ma ba ja s).last_min ∨ (dipStep ma ba ja s).last_max < k) →
        (dipStep ma ba ja s).z0 k = 0 ∧ (dipStep ma ba ja s).z1 k = 0) := by
  obtain ⟨hmin, hmax, hM, het, hsw, hz0, hz1, hle, hleM⟩ := h
  obtain ⟨sz0, sz1, ssw, smn, smx, sM, set, set1, scz1⟩ := s
  obtain ⟨tz0, tz1, tsw, tmn, tmx, tM, tet, tet1, tcz1⟩ := t
  simp only at hmin hmax hM het hsw hz0 hz1 hle hleM hB hout
  subst hmin hmax hM het hsw
  obtain ⟨a1, a2, a3, a4⟩ := pruneMin_spec (smx - smn) sz0 sz1 smn smx hle
  obtain ⟨c1, c2, c3⟩ :=
    pruneMin_congr B (smx - smn) sz0 sz1 tz0 tz1 smn smx hle (by omega) hz0 hz1
  simp only [dipStep]
  generalize pruneMin (smx - smn) sz0 sz1 smn smx = r1s at a1 a2 a3 a4 c1 c2 c3 ⊢
  generalize pruneMin (smx - smn) tz0 tz1 smn smx = r1t at c1 c2 c3 ⊢
  obtain ⟨ps0, ps1, pm⟩ := r1s
  obtain ⟨pt0, pt1, pm'⟩ := r1t
  simp only at a1 a2 a3 a4 c1 c2 c3 ⊢
  subst c1
  obtain ⟨b1, b2, b3, b4⟩ := pruneMax_spec (smx - pm) ps0 ps1 pm smx a2
  obtain ⟨d1, d2, d3⟩ := pruneMax_congr B (smx - pm) ps0 ps1 pt0 pt1 pm smx a2 (by omega) c2 c3
  generalize pruneMax (smx - pm) ps0 ps1 pm smx = r2s at b1 b2 b3 b4 d1 d2 d3 ⊢
  generalize pruneMax (smx - pm) pt0 pt1 pm smx = r2t at d1 d2 d3 ⊢
  obtain ⟨qs0, qs1, qm⟩ := r2s
  obtain ⟨qt0, qt1, qm'⟩ := r2t
  simp only at b1 b2 b3 b4 d1 d2 d3 ⊢
  subst d1
  have o0 : ∀ k, k ≤ B → (k < pm ∨ qm < k) → qs0 k = 0 := by
    intro k hk ho
    rw [b3 k, a3 k]
    split_ifs
    · rfl
    · rfl
    · exact (hout k hk (by omega)).1
  have o1 : ∀ k, k ≤ B → (k < pm ∨ qm < k) → qs1 k = 0 := by
    intro k hk ho
    rw [b4 k, a4 k]
    split_ifs
    · rfl
    · rfl
    · exact (hout k hk (by omega)).2
  obtain ⟨e1, e2, e3⟩ :=
    dipUpdate_congr B sM (pdgOf ma ja) qs0 qs1 qt0 qt1 pm qm (decide (jb - bb + 1 < mb.n))
      d2 d3 (by omega)
  have e3' : ∀ k, k ≤ B →
      (dipUpdate sM (pdgOf ma ja) qs0 qs1 pm qm (decide (ja - ba + 1 < ma.n))).1 k
        = (dipUpdate sM (pdgOf ma ja) qt0 qt1 pm qm (decide (jb - bb + 1 < mb.n))).1 k :=
    fun k hk => (dipUpdate_flag B sM (pdgOf ma ja) qs0 qs1 pm qm _ _ o1 k hk).trans (e3 k hk)
  have e1' : (dipUpdate sM (pdgOf ma ja) qs0 qs1 pm qm (decide (ja - ba + 1 < ma.n))).2.1
      = (dipUpdate sM (pdgOf ma ja) qt0 qt1 pm qm (decide (jb - bb + 1 < mb.n))).2.1 := e1
  have e2' : (dipUpdate sM (pdgOf ma ja) qs0 qs1 pm qm (decide (ja - ba + 1 < ma.n))).2.2
      = qm + 2 := rfl
  rw [← hp]
  refine ⟨
    { hmin := rfl, hmax := rfl, hM := rfl, het := ?_, hsw := rfl, hz0 := e3', hz1 := d2,
      hle := ?_, hleM := ?_ }, fun k hk ho => ⟨?_, ?_⟩⟩
  · simp only [e1']
  · simp only [dipUpdate]
    omega
  · simp only [dipUpdate]
    omega
  · simp only [e2'] at ho
    exact dipUpdate_out B sM (pdgOf ma ja) qs0 qs1 pm qm _ o1 k hk ho
  · simp only [e2'] at ho
    exact o0 k hk (by omega)

/-- The uniformly diploid loop on two contexts whose samples have the same
likelihoods, turn by turn: the states agree on the cells `0..B`. -/
theorem dipLoop_sim (ma mb : bcf_p1aux_t) (ba bb B i : Nat) (hi : 2 * i ≤ B)
    (hBa : B ≤ ma.M) (hBb : B ≤ mb.M)
    (hp : ∀ j, j < i → pdgOf ma (ba + j) = pdgOf mb (bb + j)) :
    CoreEq B (dipLoop ma ba i) (dipLoop mb bb i)
    ∧ (∀ k, k ≤ B →
        (k < (dipLoop ma ba i).last_min ∨ (dipLoop ma ba i).last_max < k) →
        (dipLoop ma ba i).z0 k = 0 ∧ (dipLoop ma ba i).z1 k = 0) := by
  induction i with
  | zero =>
    have ez0 : ∀ (m : bcf_p1aux_t) (k : Nat), k ≤ m.M →
        (coreInit m).z0 k = if k = 0 then 1 else 0 := by
      intro m k hk
      show ((m.z.zero (m.M + 1)).set 0 1) k = _
      simp only [Arr.set, Arr.zero]
      rw [if_pos (by omega : k < m.M + 1)]
    have ez1 : ∀ (m : bcf_p1aux_t) (k : Nat), k ≤ m.M → (coreInit m).z1 k = 0 := by
      intro m k hk
      show (m.zswap.zero (m.M + 1)) k = 0
      simp only [Arr.zero]
      rw [if_pos (by omega : k < m.M + 1)]
    refine ⟨
      { hmin := rfl, hmax := rfl, hM := rfl, het := rfl, hsw := rfl, hz0 := ?_, hz1 := ?_,
        hle := le_refl _, hleM := le_refl _ }, fun k hk ho => ⟨?_, ?_⟩⟩
    · intro k hk
      show (coreInit ma).z0 k = (coreInit mb).z0 k
      rw [ez0 ma k (by omega), ez0 mb k (by omega)]
    · intro k hk
      show (coreInit ma).z1 k = (coreInit mb).z1 k
      rw [ez1 ma k (by omega), ez1 mb k (by omega)]
    · have hk0 : k ≠ 0 := by
        rcases ho with c | c
        · exact absurd c (Nat.not_lt_zero k)
        · have : (0 : Nat) < k := c
          omega
      show (coreInit ma).z0 k = 0
      rw [ez0 ma k (by omega), if_neg hk0]
    · show (coreInit ma).z1 k = 0
      exact ez1 ma k (by omega)
  | succ i ih =>
    obtain ⟨q1, q2⟩ := ih (by omega) (fun j hj => hp j (by omega))
    exact dipStep_sim ma mb ba (ba + i) bb (bb + i) B _ _ (hp i (by omega)) q1
      (by rw [dipLoop_M]; omega) q2

/-! ### C24: the checkpoints of the two-stage pass -/

/-- C24. For a uniformly diploid context `ma` with a valid split `0 < n1 < n`,
let `mb` be any uniformly diploid context of `n1` samples whose likelihoods are
those of the first `n1` samples of `ma`, and `mc` any uniformly diploid context
of `n - n1` samples whose likelihoods are those of the last `n - n1` samples of
`ma`. After `mc_cal_y(ma)`, `z1[0..2*n1]` and `exp t1` are the `z` and `exp t`
that `mc_cal_y_core(mb, 0)` leaves, and `z2[0..2*(n-n1)]` and `exp t2` are those
that `mc_cal_y_core(mc, 0)` leaves. -/
theorem mc_cal_y_checkpoints (ma mb mc : bcf_p1aux_t) (hM : ma.M = ma.n * 2)
    (h1 : 0 < ma.n1) (h2 : ma.n1 < (ma.n : Int))
    (hb1 : mb.n = ma.n1.toNat) (hb2 : mb.M = mb.n * 2)
    (hb3 : ∀ j, j < mb.n → pdgOf mb j = pdgOf ma j)
    (hc1 : mc.n = ma.n - ma.n1.toNat) (hc2 : mc.M = mc.n * 2)
    (hc3 : ∀ j, j < mc.n → pdgOf mc j = pdgOf ma (ma.n1.toNat + j)) :
    (∀ k, k ≤ 2 * ma.n1.toNat → (mc_cal_y ma).z1 k = (mc_cal_y_core mb 0).z k)
    ∧ (mc_cal_y ma).et1 = (mc_cal_y_core mb 0).et
    ∧ (∀ k, k ≤ 2 * (ma.n - ma.n1.toNat) → (mc_cal_y ma).z2 k = (mc_cal_y_core mc 0).z k)
    ∧ (mc_cal_y ma).et2 = (mc_cal_y_core mc 0).et := by
  have hlt : ma.n1.toNat < ma.n := by omega
  obtain ⟨_, s2, s3⟩ := mc_cal_y_split ma hM h1 h2
  obtain ⟨t1, t2⟩ := mc_cal_y_split_et ma hM h1 h2
  obtain ⟨qb, _⟩ := dipLoop_sim ma mb 0 0 (2 * ma.n1.toNat) ma.n1.toNat (le_refl _) (by omega)
    (by omega) (fun j hj => by
      rw [Nat.zero_add]
      exact (hb3 j (by omega)).symm)
  obtain ⟨qc, _⟩ := dipLoop_sim ma mc ma.n1.toNat 0 (2 * (ma.n - ma.n1.toNat))
    (ma.n - ma.n1.toNat) (le_refl _) (by omega) (by omega) (fun j hj => by
      rw [Nat.zero_add]
      exact (hc3 j (by omega)).symm)
  have eb : mc_cal_y_core mb 0 = coreFinish mb (dipLoop mb 0 ma.n1.toNat) := by
    rw [mc_cal_y_core_dip mb 0 hb2, hb1]
    rfl
  have ec : mc_cal_y_core mc 0 = coreFinish mc (dipLoop mc 0 (ma.n - ma.n1.toNat)) := by
    rw [mc_cal_y_core_dip mc 0 hc2, hc1]
    rfl
  refine ⟨fun k hk => ?_, ?_, fun k hk => ?_, ?_⟩
  · rw [s2 k hk, eb, coreFinish_z mb _ k (by omega)]
    exact qb.hz0 k hk
  · rw [t1, eb]
    exact qb.het
  · rw [s3 k hk, ec, coreFinish_z mc _ k (by omega)]
    exact qc.hz0 k hk
  · rw [t2, ec]
    exact qc.het

/-- Witness of C24: two samples split one and one, every likelihood one; each
sample alone is the context of one sample with the same likelihoods. -/
theorem mc_cal_y_checkpoints_witness :
    (ctxSplit.M = ctxSplit.n * 2 ∧ 0 < ctxSplit.n1 ∧ ctxSplit.n1 < (ctxSplit.n : Int))
    ∧ (∀ k, k ≤ 2 * ctxSplit.n1.toNat →
        (mc_cal_y ctxSplit).z1 k = (mc_cal_y_core { ctxSplit with n := 1, M := 2 } 0).z k)
    ∧ (mc_cal_y ctxSplit).et1 = (mc_cal_y_core { ctxSplit with n := 1, M := 2 } 0).et
    ∧ (∀ k, k ≤ 2 * (ctxSplit.n - ctxSplit.n1.toNat) →
        (mc_cal_y ctxSplit).z2 k = (mc_cal_y_core { ctxSplit with n := 1, M := 2 } 0).z k)
    ∧ (mc_cal_y ctxSplit).et2 = (mc_cal_y_core { ctxSplit with n := 1, M := 2 } 0).et :=
  ⟨⟨by decide, by decide, by decide⟩,
    mc_cal_y_checkpoints ctxSplit { ctxSplit with n := 1, M := 2 }
      { ctxSplit with n := 1, M := 2 } (by decide) (by decide) (by decide) rfl rfl
      (fun _ _ => rfl) rfl rfl (fun _ _ => rfl)⟩

/-- The sum accumulated by the FULL branch of `init_prior` is `theta` times the
harmonic number `1 + 1/2 + ... + 1/M`. -/
theorem full_sum_harmonic (theta : ℚ) (M : Nat) :
    sumTo (fun i => theta / ((M : ℚ) - i)) M
      = theta * ∑ j in Finset.range M, 1 / ((j : ℚ) + 1) := by
  rw [sumTo_eq_sum, ← Finset.sum_range_reflect, Finset.mul_sum]
  refine Finset.sum_congr rfl (fun j hj => ?_)
  have hj' : j < M := Finset.mem_range.mp hj
  have h1 : j ≤ M - 1 := by omega
  have h2 : 1 ≤ M := by omega
  have hc : ((M - 1 - j : Nat) : ℚ) = (M : ℚ) - 1 - j := by
    rw [Nat.cast_sub h1, Nat.cast_sub h2, Nat.cast_one]
  rw [hc]
  have he : (M : ℚ) - ((M : ℚ) - 1 - j) = (j : ℚ) + 1 := by ring
  rw [he, mul_one_div]

/-- The last entry of the FULL prior is `1 - theta * (1 + 1/2 + ... + 1/M)`. -/
theorem init_prior_full_last_harmonic (theta : ℚ) (M : Nat) (phi : Arr) :
    init_prior PType.full theta (M : Int) phi M
      = 1 - theta * ∑ j in Finset.range M, 1 / ((j : ℚ) + 1) := by
  rw [init_prior_full_last, full_sum_harmonic]

/-- With `theta ≥ 0`, the entries `0..M` of the FULL prior are all non-negative
exactly when `theta * (1 + 1/2 + ... + 1/M) ≤ 1`. -/
theorem init_prior_full_nonneg (theta : ℚ) (M : Nat) (phi : Arr) (h : 0 ≤ theta) :
    (∀ i, i ≤ M → 0 ≤ init_prior PType.full theta (M : Int) phi i)
      ↔ theta * (∑ j in Finset.range M, 1 / ((j : ℚ) + 1)) ≤ 1 := by
  constructor
  · intro hall
    have hM := hall M le_rfl
    rw [init_prior_full_last_harmonic] at hM
    linarith
  · intro hle i hi
    rcases Nat.lt_or_ge i M with hlt | hge
    · rw [init_prior_full_lt theta M phi i hlt]
      have hpos : (0 : ℚ) < (M : ℚ) - i := by
        have : (i : ℚ) < (M : ℚ) := by exact_mod_cast hlt
        linarith
      exact div_nonneg h hpos.le
    · have hiM : i = M := le_antisymm hi hge
      rw [hiM, init_prior_full_last_harmonic]
      linarith

/-- C31. For every `M ≥ 0`, `init_prior` writes strictly positive entries
`phi[0..M]` for FLAT and for COND2. For FULL with `theta ≥ 0`, every entry
`phi[0..M]` is non-negative if and only if
`theta * (1 + 1/2 + ... + 1/M) ≤ 1`; since the entries always sum to one, the
FULL prior is a probability vector (non-negative entries of sum one) exactly
when `theta` times the `M`-th harmonic number is at most one. -/
theorem init_prior_sign (theta : ℚ) (M : Nat) (phi : Arr) :
    (∀ i, i ≤ M → 0 < init_prior PType.flat theta (M : Int) phi i)
    ∧ (∀ i, i ≤ M → 0 < init_prior PType.cond2 theta (M : Int) phi i)
    ∧ (0 ≤ theta →
        ((∀ i, i ≤ M → 0 ≤ init_prior PType.full theta (M : Int) phi i)
          ↔ theta * (∑ j in Finset.range M, 1 / ((j : ℚ) + 1)) ≤ 1))
    ∧ (0 ≤ theta →
        (((∀ i, i ≤ M → 0 ≤ init_prior PType.full theta (M : Int) phi i)
            ∧ sumTo (init_prior PType.full theta (M : Int) phi) (M + 1) = 1)
          ↔ theta * (∑ j in Finset.range M, 1 / ((j : ℚ) + 1)) ≤ 1)) := by
  refine ⟨?_, ?_, ?_, ?_⟩
  · intro i hi
    rw [init_prior_flat_apply theta M phi i hi]
    positivity
  · intro i hi
    rw [init_prior_cond2_apply theta M phi i hi]
    positivity
  · intro h
    exact init_prior_full_nonneg theta M phi h
  · intro h
    constructor
    · intro hp
      exact (init_prior_full_nonneg theta M phi h).mp hp.1
    · intro hle
      exact ⟨(init_prior_full_nonneg theta M phi h).mpr hle,
        init_prior_full_sum theta M phi⟩

/-- Witness of C31: the prior of `bcf_p1_init` (FULL, `theta = 1/1000`) for two
diploid samples, `M = 4`: `theta * (1 + 1/2 + 1/3 + 1/4) = 1/480 ≤ 1`, so the
five entries are non-negative and sum to one. -/
theorem init_prior_sign_witness :
    (0 : ℚ) ≤ 1 / 1000
    ∧ (1 / 1000 : ℚ) * (∑ j in Finset.range 4, 1 / ((j : ℚ) + 1)) ≤ 1
    ∧ (∀ i, i ≤ 4 → 0 ≤ init_prior PType.full (1 / 1000) ((4 : Nat) : Int) (fun _ => 0) i)
    ∧ sumTo (init_prior PType.full (1 / 1000) ((4 : Nat) : Int) (fun _ => 0)) (4 + 1) = 1 := by
  have h0 : (0 : ℚ) ≤ 1 / 1000 := by norm_num
  have hle : (1 / 1000 : ℚ) * (∑ j in Finset.range 4, 1 / ((j : ℚ) + 1)) ≤ 1 := by
    norm_num [Finset.sum_range_succ]
  have hp := ((init_prior_sign (1 / 1000) 4 (fun _ => 0)).2.2.2 h0).mpr hle
  exact ⟨h0, hle, hp.1, hp.2⟩

/-- The bound of C31 is sharp in the other direction: with `theta = 1` and
`M = 2` the product `theta * (1 + 1/2)` is `3/2 > 1` and the last entry of the
FULL prior is `-1/2`. -/
theorem init_prior_full_negative :
    ¬ ((1 : ℚ) * (∑ j in Finset.range 2, 1 / ((j : ℚ) + 1)) ≤ 1)
    ∧ init_prior PType.full 1 ((2 : Nat) : Int) (fun _ => 0) 2 = -1 / 2 := by
  refine ⟨by norm_num [Finset.sum_range_succ], ?_⟩
  rw [init_prior_full_last_harmonic]
  norm_num [Finset.sum_range_succ]

end Prob1
